import Mathlib

/-!
A verification development for the `trim_no_ops` compiler pass
(`src/TrimNoOps.cpp`): a deep embedding of the Halide statement IR fragment
the pass operates on, the pass itself (StripIdentities, IsNoOp,
SimplifyUsingBounds, TrimNoOps) translated from the source, an executable
semantics of statements (memory stores plus externally visible intrinsic
calls), and theorems about the pass.

The external collaborators of the pass (the algebraic simplifier, CSE, the
equation solvers, domain relaxation, unique-name generation) are not part of
`src/TrimNoOps.cpp`; following the specification they are treated as black
boxes: the pass is parameterised over a structure `Ext` of such collaborators,
and semantic theorems assume the contracts the specification states for them.
A concrete instance `defaultExt`, modelled from the spec, witnesses that the
contracts are satisfiable.
-/

namespace TNO

/-- Scalar type codes of the IR (Halide `Type::t_code`). -/
inductive TyCode where
  | int
  | uint
  | float
  | handle
deriving DecidableEq, Repr

/-- An IR scalar type: a code plus a bit width. -/
structure Ty where
  code : TyCode
  bits : Nat
deriving DecidableEq, Repr

/-- Halide `Type::is_int()` : signed integer types only. -/
def Ty.isInt (t : Ty) : Bool := t.code == TyCode.int

/-- Halide `Type::is_handle()`. -/
def Ty.isHandle (t : Ty) : Bool := t.code == TyCode.handle

def i32 : Ty := ⟨TyCode.int, 32⟩

def boolTy : Ty := ⟨TyCode.uint, 1⟩

/-- Call kinds (`Call::Intrinsic` vs ordinary calls). -/
inductive CallType where
  | intrinsic
  | ordinary
deriving DecidableEq, Repr

mutual

/-- Expressions of the IR fragment the pass manipulates: immediates,
variables, arithmetic, min/max, the six comparisons, boolean operators,
let-bindings, loads, and calls with an ordered argument list. -/
inductive Expr where
  | IntImm (v : Int)
  | Var (ty : Ty) (name : String)
  | Add (a b : Expr)
  | Sub (a b : Expr)
  | Mul (a b : Expr)
  | MinE (a b : Expr)
  | MaxE (a b : Expr)
  | EQE (a b : Expr)
  | NEE (a b : Expr)
  | LTE (a b : Expr)
  | LEE (a b : Expr)
  | GTE (a b : Expr)
  | GEE (a b : Expr)
  | AndE (a b : Expr)
  | OrE (a b : Expr)
  | NotE (a : Expr)
  | LetE (name : String) (value body : Expr)
  | Load (ty : Ty) (name : String) (index : Expr)
  | Call (ty : Ty) (ct : CallType) (name : String) (args : ExprList)

/-- Ordered argument lists of calls. -/
inductive ExprList where
  | nil
  | cons (head : Expr) (tail : ExprList)

end

/-- Loop kinds (`ForType`); carried through unchanged by the pass. -/
inductive ForType where
  | serial
  | parallel
  | vectorized
  | unrolled
deriving DecidableEq, Repr

/-- Device tags (`DeviceAPI`); carried through unchanged by the pass. -/
inductive DeviceAPI where
  | parent
  | host
  | gpu
deriving DecidableEq, Repr

/-- Statements of the IR fragment: stores, for-loops, conditionals (with and
without an else branch), let-statements, expression statements, sequencing. -/
inductive Stmt where
  | Store (name : String) (value index : Expr)
  | For (name : String) (mn extent : Expr) (forType : ForType) (deviceApi : DeviceAPI)
      (body : Stmt)
  | IfThen (cond : Expr) (thenCase : Stmt)
  | IfThenElse (cond : Expr) (thenCase elseCase : Stmt)
  | LetStmt (name : String) (value : Expr) (body : Stmt)
  | Evaluate (e : Expr)
  | Block (first rest : Stmt)

mutual

/-- Structural (boolean) equality of expressions; the embedding of the
`Expr::same_as` comparison used by `SimplifyUsingBounds`. -/
def Expr.beq : Expr → Expr → Bool
  | .IntImm v => fun b => match b with | .IntImm w => v == w | _ => false
  | .Var t n => fun b => match b with | .Var t' n' => t == t' && n == n' | _ => false
  | .Add a1 a2 => fun b => match b with
      | .Add b1 b2 => Expr.beq a1 b1 && Expr.beq a2 b2 | _ => false
  | .Sub a1 a2 => fun b => match b with
      | .Sub b1 b2 => Expr.beq a1 b1 && Expr.beq a2 b2 | _ => false
  | .Mul a1 a2 => fun b => match b with
      | .Mul b1 b2 => Expr.beq a1 b1 && Expr.beq a2 b2 | _ => false
  | .MinE a1 a2 => fun b => match b with
      | .MinE b1 b2 => Expr.beq a1 b1 && Expr.beq a2 b2 | _ => false
  | .MaxE a1 a2 => fun b => match b with
      | .MaxE b1 b2 => Expr.beq a1 b1 && Expr.beq a2 b2 | _ => false
  | .EQE a1 a2 => fun b => match b with
      | .EQE b1 b2 => Expr.beq a1 b1 && Expr.beq a2 b2 | _ => false
  | .NEE a1 a2 => fun b => match b with
      | .NEE b1 b2 => Expr.beq a1 b1 && Expr.beq a2 b2 | _ => false
  | .LTE a1 a2 => fun b => match b with
      | .LTE b1 b2 => Expr.beq a1 b1 && Expr.beq a2 b2 | _ => false
  | .LEE a1 a2 => fun b => match b with
      | .LEE b1 b2 => Expr.beq a1 b1 && Expr.beq a2 b2 | _ => false
  | .GTE a1 a2 => fun b => match b with
      | .GTE b1 b2 => Expr.beq a1 b1 && Expr.beq a2 b2 | _ => false
  | .GEE a1 a2 => fun b => match b with
      | .GEE b1 b2 => Expr.beq a1 b1 && Expr.beq a2 b2 | _ => false
  | .AndE a1 a2 => fun b => match b with
      | .AndE b1 b2 => Expr.beq a1 b1 && Expr.beq a2 b2 | _ => false
  | .OrE a1 a2 => fun b => match b with
      | .OrE b1 b2 => Expr.beq a1 b1 && Expr.beq a2 b2 | _ => false
  | .NotE a1 => fun b => match b with | .NotE b1 => Expr.beq a1 b1 | _ => false
  | .LetE x v bd => fun b => match b with
      | .LetE x' v' bd' => x == x' && Expr.beq v v' && Expr.beq bd bd' | _ => false
  | .Load t n i => fun b => match b with
      | .Load t' n' i' => t == t' && n == n' && Expr.beq i i' | _ => false
  | .Call t c n as => fun b => match b with
      | .Call t' c' n' as' => t == t' && c == c' && n == n' && Expr.beqList as as'
      | _ => false
termination_by structural a => a

def Expr.beqList : ExprList → ExprList → Bool
  | .nil => fun m => match m with | .nil => true | _ => false
  | .cons e es => fun m => match m with
      | .cons f fs => Expr.beq e f && Expr.beqList es fs
      | _ => false
termination_by structural l => l

end

mutual

/-- `Expr.beq` only identifies equal expressions. -/
def Expr.beq_eq : (a b : Expr) → Expr.beq a b = true → a = b
  | .IntImm v, .IntImm w, h => by
    simp only [Expr.beq, beq_iff_eq] at h; simp [h]
  | .Var t n, .Var t' n', h => by
    simp only [Expr.beq, Bool.and_eq_true, beq_iff_eq] at h; simp [h.1, h.2]
  | .Add a1 a2, .Add b1 b2, h => by
    simp only [Expr.beq, Bool.and_eq_true] at h
    rw [Expr.beq_eq a1 b1 h.1, Expr.beq_eq a2 b2 h.2]
  | .Sub a1 a2, .Sub b1 b2, h => by
    simp only [Expr.beq, Bool.and_eq_true] at h
    rw [Expr.beq_eq a1 b1 h.1, Expr.beq_eq a2 b2 h.2]
  | .Mul a1 a2, .Mul b1 b2, h => by
    simp only [Expr.beq, Bool.and_eq_true] at h
    rw [Expr.beq_eq a1 b1 h.1, Expr.beq_eq a2 b2 h.2]
  | .MinE a1 a2, .MinE b1 b2, h => by
    simp only [Expr.beq, Bool.and_eq_true] at h
    rw [Expr.beq_eq a1 b1 h.1, Expr.beq_eq a2 b2 h.2]
  | .MaxE a1 a2, .MaxE b1 b2, h => by
    simp only [Expr.beq, Bool.and_eq_true] at h
    rw [Expr.beq_eq a1 b1 h.1, Expr.beq_eq a2 b2 h.2]
  | .EQE a1 a2, .EQE b1 b2, h => by
    simp only [Expr.beq, Bool.and_eq_true] at h
    rw [Expr.beq_eq a1 b1 h.1, Expr.beq_eq a2 b2 h.2]
  | .NEE a1 a2, .NEE b1 b2, h => by
    simp only [Expr.beq, Bool.and_eq_true] at h
    rw [Expr.beq_eq a1 b1 h.1, Expr.beq_eq a2 b2 h.2]
  | .LTE a1 a2, .LTE b1 b2, h => by
    simp only [Expr.beq, Bool.and_eq_true] at h
    rw [Expr.beq_eq a1 b1 h.1, Expr.beq_eq a2 b2 h.2]
  | .LEE a1 a2, .LEE b1 b2, h => by
    simp only [Expr.beq, Bool.and_eq_true] at h
    rw [Expr.beq_eq a1 b1 h.1, Expr.beq_eq a2 b2 h.2]
  | .GTE a1 a2, .GTE b1 b2, h => by
    simp only [Expr.beq, Bool.and_eq_true] at h
    rw [Expr.beq_eq a1 b1 h.1, Expr.beq_eq a2 b2 h.2]
  | .GEE a1 a2, .GEE b1 b2, h => by
    simp only [Expr.beq, Bool.and_eq_true] at h
    rw [Expr.beq_eq a1 b1 h.1, Expr.beq_eq a2 b2 h.2]
  | .AndE a1 a2, .AndE b1 b2, h => by
    simp only [Expr.beq, Bool.and_eq_true] at h
    rw [Expr.beq_eq a1 b1 h.1, Expr.beq_eq a2 b2 h.2]
  | .OrE a1 a2, .OrE b1 b2, h => by
    simp only [Expr.beq, Bool.and_eq_true] at h
    rw [Expr.beq_eq a1 b1 h.1, Expr.beq_eq a2 b2 h.2]
  | .NotE a1, .NotE b1, h => by
    simp only [Expr.beq] at h
    rw [Expr.beq_eq a1 b1 h]
  | .LetE x v bd, .LetE x' v' bd', h => by
    simp only [Expr.beq, Bool.and_eq_true, beq_iff_eq] at h
    obtain ⟨⟨hx, hv⟩, hb⟩ := h
    rw [Expr.beq_eq v v' hv, Expr.beq_eq bd bd' hb, hx]
  | .Load t n i, .Load t' n' i', h => by
    simp only [Expr.beq, Bool.and_eq_true, beq_iff_eq] at h
    obtain ⟨⟨ht, hn⟩, hi⟩ := h
    rw [Expr.beq_eq i i' hi, ht, hn]
  | .Call t c n as, .Call t' c' n' as', h => by
    simp only [Expr.beq, Bool.and_eq_true, beq_iff_eq] at h
    obtain ⟨⟨⟨ht, hc⟩, hn⟩, has⟩ := h
    rw [Expr.beqList_eq as as' has, ht, hc, hn]
termination_by structural a => a

def Expr.beqList_eq : (l m : ExprList) → Expr.beqList l m = true → l = m
  | .nil, .nil, _ => rfl
  | .cons e es, .cons f fs, h => by
    simp only [Expr.beqList, Bool.and_eq_true] at h
    rw [Expr.beq_eq e f h.1, Expr.beqList_eq es fs h.2]
termination_by structural l => l

end

/-! ### Basic syntactic functions over the IR -/

/-- The type of an expression (Halide nodes carry their `type` field;
here it is computed structurally: arithmetic and min/max take the type of
their first operand, comparisons and boolean operators are boolean). -/
def Expr.ty : Expr → Ty
  | .IntImm _ => i32
  | .Var t _ => t
  | .Add a _ => a.ty
  | .Sub a _ => a.ty
  | .Mul a _ => a.ty
  | .MinE a _ => a.ty
  | .MaxE a _ => a.ty
  | .EQE _ _ => boolTy
  | .NEE _ _ => boolTy
  | .LTE _ _ => boolTy
  | .LEE _ _ => boolTy
  | .GTE _ _ => boolTy
  | .GEE _ _ => boolTy
  | .AndE _ _ => boolTy
  | .OrE _ _ => boolTy
  | .NotE _ => boolTy
  | .LetE _ _ b => b.ty
  | .Load t _ _ => t
  | .Call t _ _ _ => t

mutual

/-- Free variable names of an expression (let-binders are scope-aware). -/
def fvE : Expr → List String
  | .IntImm _ => []
  | .Var _ n => [n]
  | .Add a b => fvE a ++ fvE b
  | .Sub a b => fvE a ++ fvE b
  | .Mul a b => fvE a ++ fvE b
  | .MinE a b => fvE a ++ fvE b
  | .MaxE a b => fvE a ++ fvE b
  | .EQE a b => fvE a ++ fvE b
  | .NEE a b => fvE a ++ fvE b
  | .LTE a b => fvE a ++ fvE b
  | .LEE a b => fvE a ++ fvE b
  | .GTE a b => fvE a ++ fvE b
  | .GEE a b => fvE a ++ fvE b
  | .AndE a b => fvE a ++ fvE b
  | .OrE a b => fvE a ++ fvE b
  | .NotE a => fvE a
  | .LetE x v b => fvE v ++ (fvE b).filter (fun y => y != x)
  | .Load _ _ i => fvE i
  | .Call _ _ _ args => fvEL args
termination_by structural e => e

def fvEL : ExprList → List String
  | .nil => []
  | .cons e es => fvE e ++ fvEL es
termination_by structural l => l

end

/-- The `expr_uses_var` collaborator: does `x` occur free in `e`? -/
def usesVar (e : Expr) (x : String) : Bool := (fvE e).contains x

/-- Free variable names of a statement. -/
def fvS : Stmt → List String
  | .Store _ v i => fvE v ++ fvE i
  | .For x mn ex _ _ b => fvE mn ++ fvE ex ++ (fvS b).filter (fun y => y != x)
  | .IfThen c t => fvE c ++ fvS t
  | .IfThenElse c t e => fvE c ++ fvS t ++ fvS e
  | .LetStmt x v b => fvE v ++ (fvS b).filter (fun y => y != x)
  | .Evaluate e => fvE e
  | .Block a b => fvS a ++ fvS b

mutual

/-- All binder names occurring in an expression. -/
def bnE : Expr → List String
  | .IntImm _ => []
  | .Var _ _ => []
  | .Add a b => bnE a ++ bnE b
  | .Sub a b => bnE a ++ bnE b
  | .Mul a b => bnE a ++ bnE b
  | .MinE a b => bnE a ++ bnE b
  | .MaxE a b => bnE a ++ bnE b
  | .EQE a b => bnE a ++ bnE b
  | .NEE a b => bnE a ++ bnE b
  | .LTE a b => bnE a ++ bnE b
  | .LEE a b => bnE a ++ bnE b
  | .GTE a b => bnE a ++ bnE b
  | .GEE a b => bnE a ++ bnE b
  | .AndE a b => bnE a ++ bnE b
  | .OrE a b => bnE a ++ bnE b
  | .NotE a => bnE a
  | .LetE x v b => x :: (bnE v ++ bnE b)
  | .Load _ _ i => bnE i
  | .Call _ _ _ args => bnEL args
termination_by structural e => e

def bnEL : ExprList → List String
  | .nil => []
  | .cons e es => bnE e ++ bnEL es
termination_by structural l => l

end

/-- All binder names occurring in a statement: loop variables of for-loops
and names bound by lets (statement- or expression-level). -/
def bnS : Stmt → List String
  | .Store _ v i => bnE v ++ bnE i
  | .For x mn ex _ _ b => x :: (bnE mn ++ bnE ex ++ bnS b)
  | .IfThen c t => bnE c ++ bnS t
  | .IfThenElse c t e => bnE c ++ bnS t ++ bnS e
  | .LetStmt x v b => x :: (bnE v ++ bnS b)
  | .Evaluate e => bnE e
  | .Block a b => bnS a ++ bnS b

mutual

/-- All variable names touched by an expression: occurrences and binders. -/
def vnE : Expr → List String
  | .IntImm _ => []
  | .Var _ n => [n]
  | .Add a b => vnE a ++ vnE b
  | .Sub a b => vnE a ++ vnE b
  | .Mul a b => vnE a ++ vnE b
  | .MinE a b => vnE a ++ vnE b
  | .MaxE a b => vnE a ++ vnE b
  | .EQE a b => vnE a ++ vnE b
  | .NEE a b => vnE a ++ vnE b
  | .LTE a b => vnE a ++ vnE b
  | .LEE a b => vnE a ++ vnE b
  | .GTE a b => vnE a ++ vnE b
  | .GEE a b => vnE a ++ vnE b
  | .AndE a b => vnE a ++ vnE b
  | .OrE a b => vnE a ++ vnE b
  | .NotE a => vnE a
  | .LetE x v b => x :: (vnE v ++ vnE b)
  | .Load _ _ i => vnE i
  | .Call _ _ _ args => vnEL args
termination_by structural e => e

def vnEL : ExprList → List String
  | .nil => []
  | .cons e es => vnE e ++ vnEL es
termination_by structural l => l

end

/-- All variable names touched by a statement: occurrences and binders. -/
def vnS : Stmt → List String
  | .Store _ v i => vnE v ++ vnE i
  | .For x mn ex _ _ b => x :: (vnE mn ++ vnE ex ++ vnS b)
  | .IfThen c t => vnE c ++ vnS t
  | .IfThenElse c t e => vnE c ++ vnS t ++ vnS e
  | .LetStmt x v b => x :: (vnE v ++ vnS b)
  | .Evaluate e => vnE e
  | .Block a b => vnS a ++ vnS b

/-! ### Intrinsic names -/

def traceExprName : String := "trace_expr"

def returnSecondName : String := "return_second"

def likelyName : String := "likely"

def rewriteBufferName : String := "rewrite_buffer"

def imageStoreName : String := "image_store"

def copyMemoryName : String := "copy_memory"

/-- The intrinsics with opaque memory side-effects (`IsNoOp::visit(Call)`). -/
def isBadName (n : String) : Bool :=
  n == rewriteBufferName || n == imageStoreName || n == copyMemoryName

mutual

/-- No bad (side-effecting) intrinsic call occurs anywhere in the term. -/
def pureE : Expr → Bool
  | .IntImm _ => true
  | .Var _ _ => true
  | .Add a b => pureE a && pureE b
  | .Sub a b => pureE a && pureE b
  | .Mul a b => pureE a && pureE b
  | .MinE a b => pureE a && pureE b
  | .MaxE a b => pureE a && pureE b
  | .EQE a b => pureE a && pureE b
  | .NEE a b => pureE a && pureE b
  | .LTE a b => pureE a && pureE b
  | .LEE a b => pureE a && pureE b
  | .GTE a b => pureE a && pureE b
  | .GEE a b => pureE a && pureE b
  | .AndE a b => pureE a && pureE b
  | .OrE a b => pureE a && pureE b
  | .NotE a => pureE a
  | .LetE _ v b => pureE v && pureE b
  | .Load _ _ i => pureE i
  | .Call _ ct n args => !(ct == CallType.intrinsic && isBadName n) && pureEL args
termination_by structural e => e

def pureEL : ExprList → Bool
  | .nil => true
  | .cons e es => pureE e && pureEL es
termination_by structural l => l

end

/-! ### Constants and the condition combinators of `IsNoOp` -/

def constTrue : Expr := .IntImm 1

def constFalse : Expr := .IntImm 0

/-- `is_one` on the boolean constants used by the pass. -/
def isOne : Expr → Bool
  | .IntImm v => v == 1
  | _ => false

/-- `is_zero`. -/
def isZero : Expr → Bool
  | .IntImm v => v == 0
  | _ => false

/-- `is_const`. -/
def isConst : Expr → Bool
  | .IntImm _ => true
  | _ => false

/-- `IsNoOp::make_and` with its short-circuit simplifications. -/
def makeAnd (a b : Expr) : Expr :=
  if isZero a || isOne b then a
  else if isZero b || isOne a then b
  else .AndE a b

/-- `IsNoOp::make_or` with its short-circuit simplifications. -/
def makeOr (a b : Expr) : Expr :=
  if isZero a || isOne b then b
  else if isZero b || isOne a then a
  else .OrE a b

/-! ### List helpers for call arguments -/

def ExprList.getD : ExprList → Nat → Expr → Expr
  | .nil, _, d => d
  | .cons e _, 0, _ => e
  | .cons _ es, n + 1, d => es.getD n d

def ExprList.getLastD : ExprList → Expr → Expr
  | .nil, d => d
  | .cons e .nil, _ => e
  | .cons _ (.cons f fs), d => ExprList.getLastD (.cons f fs) d

/-! ### StripIdentities -/

mutual

/-- `StripIdentities`: removes identity wrapper calls.  A `trace_expr`
intrinsic is replaced by its (stripped) fifth argument, a `return_second` or
`likely` intrinsic by its (stripped) last argument; all other nodes are
reconstructed with stripped children.  (Selecting argument 4, resp. the last
argument, from the stripped argument list coincides with stripping the
selected argument.) -/
def strip : Expr → Expr
  | .IntImm v => .IntImm v
  | .Var t n => .Var t n
  | .Add a b => .Add (strip a) (strip b)
  | .Sub a b => .Sub (strip a) (strip b)
  | .Mul a b => .Mul (strip a) (strip b)
  | .MinE a b => .MinE (strip a) (strip b)
  | .MaxE a b => .MaxE (strip a) (strip b)
  | .EQE a b => .EQE (strip a) (strip b)
  | .NEE a b => .NEE (strip a) (strip b)
  | .LTE a b => .LTE (strip a) (strip b)
  | .LEE a b => .LEE (strip a) (strip b)
  | .GTE a b => .GTE (strip a) (strip b)
  | .GEE a b => .GEE (strip a) (strip b)
  | .AndE a b => .AndE (strip a) (strip b)
  | .OrE a b => .OrE (strip a) (strip b)
  | .NotE a => .NotE (strip a)
  | .LetE x v b => .LetE x (strip v) (strip b)
  | .Load t n i => .Load t n (strip i)
  | .Call t ct n args =>
      if ct == CallType.intrinsic && n == traceExprName then
        (stripL args).getD 4 (.IntImm 0)
      else if ct == CallType.intrinsic && (n == returnSecondName || n == likelyName) then
        (stripL args).getLastD (.IntImm 0)
      else
        .Call t ct n (stripL args)
termination_by structural e => e

def stripL : ExprList → ExprList
  | .nil => .nil
  | .cons e es => .cons (strip e) (stripL es)
termination_by structural l => l

end

/-! ### Intervals and the external collaborators -/

/-- An interval: a pair of optional bound expressions; an absent bound means
unbounded in that direction (an undefined `Expr` in the source). -/
structure Interval where
  min : Option Expr
  max : Option Expr

/-- `interval_is_everything`. -/
def intervalIsEverything (i : Interval) : Bool := i.min.isNone && i.max.isNone

/-- A domain: variables with their intervals (`Scope<Interval>`; the pass
only ever uses the empty scope or a singleton). -/
abbrev DomScope := List (String × Interval)

/-- The external collaborators of the pass, per the spec:
the algebraic simplifier (on expressions and statements), common
subexpression elimination, the variable-isolation solver, domain relaxation
(`and_condition_over_domain`), the outer-interval solver, and hygienic name
generation (modelled with an explicit counter). -/
structure Ext where
  simplifyE : Expr → Expr
  simplifyS : Stmt → Stmt
  cse : Expr → Expr
  solveExpression : Expr → String → Option Expr
  andConditionOverDomain : Expr → DomScope → Expr
  solveForOuterInterval : Expr → String → Interval
  uniqueName : String → Nat → String

/-! ### IsNoOp: no-op predicate inference

The stateful visitor is embedded as a state-passing function: the second
argument is the accumulated `condition` field on entry, the result the field
on exit. -/

mutual

/-- Expression traversal of `IsNoOp` (the default `IRVisitor` cases plus the
`Call` and `Let` overrides). -/
def noOpE (E : Ext) : Expr → Expr → Expr
  | .IntImm _, c => c
  | .Var _ _, c => c
  | .Add a b, c => noOpE E b (noOpE E a c)
  | .Sub a b, c => noOpE E b (noOpE E a c)
  | .Mul a b, c => noOpE E b (noOpE E a c)
  | .MinE a b, c => noOpE E b (noOpE E a c)
  | .MaxE a b, c => noOpE E b (noOpE E a c)
  | .EQE a b, c => noOpE E b (noOpE E a c)
  | .NEE a b, c => noOpE E b (noOpE E a c)
  | .LTE a b, c => noOpE E b (noOpE E a c)
  | .LEE a b, c => noOpE E b (noOpE E a c)
  | .GTE a b, c => noOpE E b (noOpE E a c)
  | .GEE a b, c => noOpE E b (noOpE E a c)
  | .AndE a b, c => noOpE E b (noOpE E a c)
  | .OrE a b, c => noOpE E b (noOpE E a c)
  | .NotE a, c => noOpE E a c
  | .LetE x v b, c =>
      let c2 := noOpE E b (noOpE E v c)
      if usesVar c2 x then .LetE x v c2 else c2
  | .Load _ _ i, c => noOpE E i c
  | .Call _ ct n args, c =>
      if ct == CallType.intrinsic && isBadName n then constFalse
      else noOpEL E args c
termination_by structural e => e

def noOpEL (E : Ext) : ExprList → Expr → Expr
  | .nil, c => c
  | .cons e es, c => noOpEL E es (noOpE E e c)
termination_by structural l => l

end

/-- Statement traversal of `IsNoOp` (`visit(Store)`, `visit(For)`,
`visit(IfThenElse)`, `visit_let`, and the default cases). -/
def noOpS (E : Ext) : Stmt → Expr → Expr
  | .Store nm v idx, c =>
      if v.ty.isHandle then constFalse
      else
        let equivalentLoad := Expr.Load v.ty nm idx
        let isNo := strip (Expr.EQE equivalentLoad v)
        let isNo := E.andConditionOverDomain isNo []
        makeAnd c isNo
  | .For x mn ex _ _ body, c =>
      let bc := noOpS E body constTrue
      let bc := E.simplifyE (E.cse bc)
      let relaxed :=
        E.andConditionOverDomain bc
          [(x, ⟨some mn, some (.Sub (.Add mn ex) (.IntImm 1))⟩)]
      makeAnd c (makeOr relaxed (E.simplifyE (.LEE ex (.IntImm 0))))
  | .IfThen cnd t, c =>
      let tc := noOpS E t constTrue
      makeAnd c (makeOr (.NotE cnd) tc)
  | .IfThenElse cnd t e, c =>
      let tc := noOpS E t constTrue
      let total := makeAnd c (makeOr (.NotE cnd) tc)
      let ec := noOpS E e constTrue
      makeAnd total (makeOr cnd ec)
  | .LetStmt x v b, c =>
      let c2 := noOpS E b (noOpE E v c)
      if usesVar c2 x then .LetE x v c2 else c2
  | .Evaluate e, c => noOpE E e c
  | .Block a b, c => noOpS E b (noOpS E a c)

/-- The public entry point of `IsNoOp`: the accumulated condition for a
statement, starting from the constant true. -/
def isNoOpCondition (E : Ext) (s : Stmt) : Expr := noOpS E s constTrue

/-! ### SimplifyUsingBounds -/

/-- The containing-loop stack (innermost entry first). -/
abbrev CLStack := List (String × Interval)

/-- The loop of `SimplifyUsingBounds::provably_true_over_domain`: eliminate
the stack variables one at a time, innermost first, simplifying in between;
stop early once the test is constant. -/
def ptGo (E : Ext) : CLStack → Expr → Expr
  | [], t => t
  | (v, iv) :: rest, t =>
      if isConst t then t
      else if !(usesVar t v) then ptGo E rest t
      else
        let single :=
          match iv.min, iv.max with
          | some mn, some mx => Expr.beq mn mx
          | _, _ => false
        let t' :=
          if single then E.cse (.LetE v (iv.min.getD (.IntImm 0)) t)
          else
            let t1 := (E.solveExpression t v).getD t
            E.andConditionOverDomain t1 [(v, iv)]
        ptGo E rest (E.simplifyE t')

/-- `provably_true_over_domain`: the test is proved when the loop reduces it
to the literal constant true. -/
def provablyTrue (E : Ext) (st : CLStack) (test : Expr) : Bool :=
  isOne (ptGo E st test)

mutual

/-- The expression mutator of `SimplifyUsingBounds`: min/max resolution
(only for signed integer types of at least 32 bits), comparison resolution,
and the stack-pushing let case; all other nodes are reconstructed with
mutated children. -/
def subE (E : Ext) : CLStack → Expr → Expr
  | _, .IntImm v => .IntImm v
  | _, .Var t n => .Var t n
  | st, .Add a b => .Add (subE E st a) (subE E st b)
  | st, .Sub a b => .Sub (subE E st a) (subE E st b)
  | st, .Mul a b => .Mul (subE E st a) (subE E st b)
  | st, .MinE a b =>
      if !(Expr.MinE a b).ty.isInt || (Expr.MinE a b).ty.bits < 32 then
        .MinE (subE E st a) (subE E st b)
      else
        let a' := subE E st a
        let b' := subE E st b
        if provablyTrue E st (.LEE a' b') then a'
        else if provablyTrue E st (.LEE b' a') then b'
        else .MinE a' b'
  | st, .MaxE a b =>
      if !(Expr.MaxE a b).ty.isInt || (Expr.MaxE a b).ty.bits < 32 then
        .MaxE (subE E st a) (subE E st b)
      else
        let a' := subE E st a
        let b' := subE E st b
        if provablyTrue E st (.GEE a' b') then a'
        else if provablyTrue E st (.GEE b' a') then b'
        else .MaxE a' b'
  | st, .EQE a b =>
      let e' := Expr.EQE (subE E st a) (subE E st b)
      if provablyTrue E st e' then .IntImm 1
      else if provablyTrue E st (.NotE e') then .IntImm 0
      else e'
  | st, .NEE a b =>
      let e' := Expr.NEE (subE E st a) (subE E st b)
      if provablyTrue E st e' then .IntImm 1
      else if provablyTrue E st (.NotE e') then .IntImm 0
      else e'
  | st, .LTE a b =>
      let e' := Expr.LTE (subE E st a) (subE E st b)
      if provablyTrue E st e' then .IntImm 1
      else if provablyTrue E st (.NotE e') then .IntImm 0
      else e'
  | st, .LEE a b =>
      let e' := Expr.LEE (subE E st a) (subE E st b)
      if provablyTrue E st e' then .IntImm 1
      else if provablyTrue E st (.NotE e') then .IntImm 0
      else e'
  | st, .GTE a b =>
      let e' := Expr.GTE (subE E st a) (subE E st b)
      if provablyTrue E st e' then .IntImm 1
      else if provablyTrue E st (.NotE e') then .IntImm 0
      else e'
  | st, .GEE a b =>
      let e' := Expr.GEE (subE E st a) (subE E st b)
      if provablyTrue E st e' then .IntImm 1
      else if provablyTrue E st (.NotE e') then .IntImm 0
      else e'
  | st, .AndE a b => .AndE (subE E st a) (subE E st b)
  | st, .OrE a b => .OrE (subE E st a) (subE E st b)
  | st, .NotE a => .NotE (subE E st a)
  | st, .LetE x v b =>
      let v' := subE E st v
      let b' := subE E ((x, ⟨some v', some v'⟩) :: st) b
      .LetE x v' b'
  | st, .Load t n i => .Load t n (subE E st i)
  | st, .Call t ct n args => .Call t ct n (subEL E st args)
termination_by structural _ e => e

def subEL (E : Ext) : CLStack → ExprList → ExprList
  | _, .nil => .nil
  | st, .cons e es => .cons (subE E st e) (subEL E st es)
termination_by structural _ l => l

end

/-- The statement mutator of `SimplifyUsingBounds`: pushes loop and let
intervals around the recursion into bodies, reconstructing each node. -/
def subS (E : Ext) : CLStack → Stmt → Stmt
  | st, .Store nm v i => .Store nm (subE E st v) (subE E st i)
  | st, .For x mn ex ft da body =>
      let mn' := subE E st mn
      let ex' := subE E st ex
      let body' :=
        subS E ((x, ⟨some mn', some (.Sub (.Add mn' ex') (.IntImm 1))⟩) :: st) body
      .For x mn' ex' ft da body'
  | st, .IfThen c t => .IfThen (subE E st c) (subS E st t)
  | st, .IfThenElse c t e => .IfThenElse (subE E st c) (subS E st t) (subS E st e)
  | st, .LetStmt x v b =>
      let v' := subE E st v
      let b' := subS E ((x, ⟨some v', some v'⟩) :: st) b
      .LetStmt x v' b'
  | st, .Evaluate e => .Evaluate (subE E st e)
  | st, .Block a b => .Block (subS E st a) (subS E st b)

/-! ### TrimNoOps: the driver -/

/-- `clamp(a, lo, hi) = max(min(a, hi), lo)` as built by the driver. -/
def clampE (a lo hi : Expr) : Expr := .MaxE (.MinE a hi) lo

/-- The new lower bound emitted when narrowing: the proved interval minimum
clamped to `[original-min, old-max]`, or the original minimum when the
proved interval has no lower bound. -/
def narrowNewMin (mn oldMaxVar : Expr) : Option Expr → Expr
  | some mnB => clampE mnB mn oldMaxVar
  | none => mn

/-- The new upper bound emitted when narrowing: the (incremented) proved
interval maximum clamped to `[new-min, old-max]`, or the old exclusive
maximum when the proved interval has no upper bound. -/
def narrowNewMax (oldMax newMinVar oldMaxVar : Expr) : Option Expr → Expr
  | some mxB => clampE mxB newMinVar oldMaxVar
  | none => oldMax

/-- The preparation of the no-op condition the driver tests: the body
condition is common-subexpression-eliminated and then simplified twice
(`simplify(simplify(common_subexpression_elimination(condition)))`). -/
def trimCondition (E : Ext) (body1 : Stmt) : Expr :=
  E.simplifyE (E.simplifyE (E.cse (isNoOpCondition E body1)))

/-- The driver mutator.  The `Nat` is the unique-name counter threaded
through the traversal (the global counter behind `unique_name`).  Loop
bodies are mutated bottom-up; the prepared body condition decides whether
the loop is deleted, kept unchanged, or narrowed. -/
def trimGo (E : Ext) : Stmt → Nat → Stmt × Nat
  | .For x mn ex ft da body, n =>
      let p := trimGo E body n
      let body1 := p.1
      let n1 := p.2
      let c := trimCondition E body1
      if isOne c then (.Evaluate (.IntImm 0), n1)
      else if isZero c then (.For x mn ex ft da body1, n1)
      else
        let i := E.solveForOuterInterval (.NotE c) x
        if intervalIsEverything i then (.For x mn ex ft da body1, n1)
        else
          let body2 := E.simplifyS (subS E [(x, i)] body1)
          let newMinName := E.uniqueName (x ++ ".new_min") n1
          let newMaxName := E.uniqueName (x ++ ".new_max") (n1 + 1)
          let oldMaxName := E.uniqueName (x ++ ".old_max") (n1 + 2)
          let newMinVar := Expr.Var i32 newMinName
          let newMaxVar := Expr.Var i32 newMaxName
          let oldMaxVar := Expr.Var i32 oldMaxName
          let i2 : Interval := ⟨i.min, i.max.map (fun mx => .Add mx (.IntImm 1))⟩
          let oldMax := Expr.Add mn ex
          let newMin := narrowNewMin mn oldMaxVar i2.min
          let newMax := narrowNewMax oldMax newMinVar oldMaxVar i2.max
          let newExtent := Expr.Sub newMaxVar newMinVar
          let s0 := Stmt.For x newMinVar newExtent ft da body2
          let s1 := Stmt.LetStmt newMaxName newMax s0
          let s2 := Stmt.LetStmt newMinName newMin s1
          let s3 := Stmt.LetStmt oldMaxName oldMax s2
          (E.simplifyS s3, n1 + 3)
  | .IfThen c t, n =>
      let p := trimGo E t n
      (.IfThen c p.1, p.2)
  | .IfThenElse c t e, n =>
      let p := trimGo E t n
      let q := trimGo E e p.2
      (.IfThenElse c p.1 q.1, q.2)
  | .LetStmt x v b, n =>
      let p := trimGo E b n
      (.LetStmt x v p.1, p.2)
  | .Block a b, n =>
      let p := trimGo E a n
      let q := trimGo E b p.2
      (.Block p.1 q.1, q.2)
  | .Store nm v i, n => (.Store nm v i, n)
  | .Evaluate e, n => (.Evaluate e, n)

/-- The public entry point `trim_no_ops` with its name counter. -/
def trim_no_ops (E : Ext) (s : Stmt) (n : Nat) : Stmt × Nat := trimGo E s n

/-! ### Semantics

Values are unbounded integers (the claims settled here do not hinge on
overflow); booleans are 1/0.  An environment binds every variable name, a
memory maps a buffer name and an index to a value.  Ordinary calls are
interpreted by an arbitrary pure interpretation; the three opaque-effect
intrinsics additionally produce externally visible events; the identity
wrappers `trace_expr`, `return_second` and `likely` return the argument that
`StripIdentities` selects. -/

abbrev Env : Type := String → Int

abbrev Mem : Type := String → Int → Int

abbrev CallInterp : Type := String → List Int → Int

abbrev Event : Type := String × List Int

def updEnv (r : Env) (x : String) (v : Int) : Env :=
  fun y => if y = x then v else r y

def updMem (m : Mem) (nm : String) (i v : Int) : Mem :=
  fun nm' i' => if nm' = nm ∧ i' = i then v else m nm' i'

mutual

/-- Value of an expression. -/
def eval (ci : CallInterp) (m : Mem) : Env → Expr → Int
  | _, .IntImm v => v
  | r, .Var _ x => r x
  | r, .Add a b => eval ci m r a + eval ci m r b
  | r, .Sub a b => eval ci m r a - eval ci m r b
  | r, .Mul a b => eval ci m r a * eval ci m r b
  | r, .MinE a b => min (eval ci m r a) (eval ci m r b)
  | r, .MaxE a b => max (eval ci m r a) (eval ci m r b)
  | r, .EQE a b => if eval ci m r a = eval ci m r b then 1 else 0
  | r, .NEE a b => if eval ci m r a = eval ci m r b then 0 else 1
  | r, .LTE a b => if eval ci m r a < eval ci m r b then 1 else 0
  | r, .LEE a b => if eval ci m r a ≤ eval ci m r b then 1 else 0
  | r, .GTE a b => if eval ci m r b < eval ci m r a then 1 else 0
  | r, .GEE a b => if eval ci m r b ≤ eval ci m r a then 1 else 0
  | r, .AndE a b => if eval ci m r a ≠ 0 ∧ eval ci m r b ≠ 0 then 1 else 0
  | r, .OrE a b => if eval ci m r a ≠ 0 ∨ eval ci m r b ≠ 0 then 1 else 0
  | r, .NotE a => if eval ci m r a ≠ 0 then 0 else 1
  | r, .LetE x v b => eval ci m (updEnv r x (eval ci m r v)) b
  | r, .Load _ nm i => m nm (eval ci m r i)
  | r, .Call _ ct nm args =>
      if ct == CallType.intrinsic && nm == traceExprName then
        (evalL ci m r args).getD 4 0
      else if ct == CallType.intrinsic && (nm == returnSecondName || nm == likelyName) then
        (evalL ci m r args).getLastD 0
      else ci nm (evalL ci m r args)
termination_by structural _ e => e

def evalL (ci : CallInterp) (m : Mem) : Env → ExprList → List Int
  | _, .nil => []
  | r, .cons e es => eval ci m r e :: evalL ci m r es
termination_by structural _ l => l

end

mutual

/-- Externally visible call events produced by evaluating an expression:
one event per occurrence of an opaque-effect intrinsic, carrying the
evaluated arguments, in evaluation order. -/
def events (ci : CallInterp) (m : Mem) : Env → Expr → List Event
  | _, .IntImm _ => []
  | _, .Var _ _ => []
  | r, .Add a b => events ci m r a ++ events ci m r b
  | r, .Sub a b => events ci m r a ++ events ci m r b
  | r, .Mul a b => events ci m r a ++ events ci m r b
  | r, .MinE a b => events ci m r a ++ events ci m r b
  | r, .MaxE a b => events ci m r a ++ events ci m r b
  | r, .EQE a b => events ci m r a ++ events ci m r b
  | r, .NEE a b => events ci m r a ++ events ci m r b
  | r, .LTE a b => events ci m r a ++ events ci m r b
  | r, .LEE a b => events ci m r a ++ events ci m r b
  | r, .GTE a b => events ci m r a ++ events ci m r b
  | r, .GEE a b => events ci m r a ++ events ci m r b
  | r, .AndE a b => events ci m r a ++ events ci m r b
  | r, .OrE a b => events ci m r a ++ events ci m r b
  | r, .NotE a => events ci m r a
  | r, .LetE x v b => events ci m r v ++ events ci m (updEnv r x (eval ci m r v)) b
  | r, .Load _ _ i => events ci m r i
  | r, .Call _ ct nm args =>
      eventsL ci m r args ++
        (if ct == CallType.intrinsic && isBadName nm then [(nm, evalL ci m r args)] else [])
termination_by structural _ e => e

def eventsL (ci : CallInterp) (m : Mem) : Env → ExprList → List Event
  | _, .nil => []
  | r, .cons e es => events ci m r e ++ eventsL ci m r es
termination_by structural _ l => l

end

/-- Iterates a loop body `k` times starting at index `v`, threading memory
and concatenating events. -/
def iterFor (f : Int → Mem → Mem × List Event) : Int → Nat → Mem → Mem × List Event
  | _, 0, m => (m, [])
  | v, k + 1, m =>
      let p := f v m
      let q := iterFor f (v + 1) k p.1
      (q.1, p.2 ++ q.2)

/-- Execution of a statement: the final memory and the list of externally
visible call events. -/
def exec (ci : CallInterp) : Env → Mem → Stmt → Mem × List Event
  | r, m, .Store nm val idx =>
      (updMem m nm (eval ci m r idx) (eval ci m r val),
        events ci m r val ++ events ci m r idx)
  | r, m, .For x mn ex _ _ body =>
      let mnv := eval ci m r mn
      let exv := eval ci m r ex
      let p := iterFor (fun v m' => exec ci (updEnv r x v) m' body) mnv exv.toNat m
      (p.1, events ci m r mn ++ events ci m r ex ++ p.2)
  | r, m, .IfThen c t =>
      if eval ci m r c ≠ 0 then
        let p := exec ci r m t
        (p.1, events ci m r c ++ p.2)
      else (m, events ci m r c)
  | r, m, .IfThenElse c t e =>
      if eval ci m r c ≠ 0 then
        let p := exec ci r m t
        (p.1, events ci m r c ++ p.2)
      else
        let p := exec ci r m e
        (p.1, events ci m r c ++ p.2)
  | r, m, .LetStmt x v b =>
      let p := exec ci (updEnv r x (eval ci m r v)) m b
      (p.1, events ci m r v ++ p.2)
  | r, m, .Evaluate e => (m, events ci m r e)
  | r, m, .Block a b =>
      let p := exec ci r m a
      let q := exec ci r p.1 b
      (q.1, p.2 ++ q.2)

/-! ### Well-formedness and hygiene -/

/-- An `Evaluate` payload may be an opaque-effect intrinsic call with pure
arguments. -/
def isBadEval : Expr → Bool
  | .Call _ ct n args => ct == CallType.intrinsic && isBadName n && pureEL args
  | _ => false

/-- Well-formed statements: opaque-effect intrinsics occur only as the
immediate payload of an `Evaluate`; every other expression position (store
values and indices, loop bounds, branch conditions, let values) is pure. -/
def WFS : Stmt → Bool
  | .Store _ v i => pureE v && pureE i
  | .For _ mn ex _ _ b => pureE mn && pureE ex && WFS b
  | .IfThen c t => pureE c && WFS t
  | .IfThenElse c t e => pureE c && WFS t && WFS e
  | .LetStmt _ v b => pureE v && WFS b
  | .Evaluate e => pureE e || isBadEval e
  | .Block a b => WFS a && WFS b

/-- Hygiene: the binders of a statement are pairwise distinct and none of
them also occurs free in the statement (Halide IR with `unique_name`d
binders satisfies this). -/
def HygS (s : Stmt) : Prop :=
  (bnS s).Nodup ∧ ∀ y ∈ bnS s, y ∉ fvS s

/-- Freshness of the name supply for a statement: every name the generator
can produce from counter `n` on avoids the names of `s`. -/
def FreshFor (E : Ext) (s : Stmt) (n : Nat) : Prop :=
  ∀ b k, n ≤ k → E.uniqueName b k ∉ vnS s

/-- Whether `y` occurs in a bound expression of an interval. -/
def ivUses (iv : Interval) (y : String) : Bool :=
  (match iv.min with
   | some b => usesVar b y
   | none => false) ||
  (match iv.max with
   | some b => usesVar b y
   | none => false)

/-- Purity of the bound expressions of an interval. -/
def ivPure (iv : Interval) : Bool :=
  (match iv.min with
   | some b => pureE b
   | none => true) &&
  (match iv.max with
   | some b => pureE b
   | none => true)

/-- Number of let-statements along a statement. -/
def countLets : Stmt → Nat
  | .Store _ _ _ => 0
  | .For _ _ _ _ _ b => countLets b
  | .IfThen _ t => countLets t
  | .IfThenElse _ t e => countLets t + countLets e
  | .LetStmt _ _ b => 1 + countLets b
  | .Evaluate _ => 0
  | .Block a b => countLets a + countLets b

/-! ### The contracts of the external collaborators (specification section 6)

`ExtOk` collects, as hypotheses, exactly the black-box contracts the
specification states and the soundness proofs use: the simplifier and CSE
preserve semantics and do not introduce variables or impurity; domain
relaxation is a sound under-approximation of universal quantification over
the domain and eliminates the domain variables; the variable-isolation
solver returns an equivalent expression; the outer-interval solver brackets
every satisfying value of the variable, with pure bounds free of that
variable; generated names are injective in the counter. -/
structure ExtOk (E : Ext) : Prop where
  simpE_eval : ∀ ci m r e, eval ci m r (E.simplifyE e) = eval ci m r e
  simpE_fv : ∀ e y, usesVar e y = false → usesVar (E.simplifyE e) y = false
  simpE_pure : ∀ e, pureE e = true → pureE (E.simplifyE e) = true
  simpE_vn : ∀ e y, y ∈ vnE (E.simplifyE e) → y ∈ vnE e
  cse_eval : ∀ ci m r e, eval ci m r (E.cse e) = eval ci m r e
  cse_fv : ∀ e y, usesVar e y = false → usesVar (E.cse e) y = false
  cse_pure : ∀ e, pureE e = true → pureE (E.cse e) = true
  cse_vn : ∀ e y, y ∈ vnE (E.cse e) → y ∈ vnE e
  simpS_exec : ∀ ci r m s, WFS s = true → exec ci r m (E.simplifyS s) = exec ci r m s
  simpS_wf : ∀ s, WFS s = true → WFS (E.simplifyS s) = true
  simpS_fv : ∀ s y, y ∈ fvS (E.simplifyS s) → y ∈ fvS s
  simpS_vn : ∀ s y, y ∈ vnS (E.simplifyS s) → y ∈ vnS s
  simpS_bn : ∀ s, (bnS (E.simplifyS s)).Sublist (bnS s)
  acd_empty : ∀ ci m r e, eval ci m r (E.andConditionOverDomain e []) ≠ 0 →
    eval ci m r e ≠ 0
  acd_single : ∀ ci m r e x iv v,
    eval ci m r (E.andConditionOverDomain e [(x, iv)]) ≠ 0 →
    (∀ mnB ∈ iv.min, eval ci m r mnB ≤ v) →
    (∀ mxB ∈ iv.max, v ≤ eval ci m r mxB) →
    eval ci m (updEnv r x v) e ≠ 0
  acd_fv1 : ∀ e sc y iv, (y, iv) ∈ sc →
    usesVar (E.andConditionOverDomain e sc) y = false
  acd_fv2 : ∀ e sc y, usesVar e y = false → (∀ p ∈ sc, ivUses p.2 y = false) →
    usesVar (E.andConditionOverDomain e sc) y = false
  acd_pure : ∀ e sc, pureE e = true → (∀ p ∈ sc, ivPure p.2 = true) →
    pureE (E.andConditionOverDomain e sc) = true
  acd_vn : ∀ e sc y, y ∈ vnE (E.andConditionOverDomain e sc) →
    y ∈ vnE e ∨ (∃ p ∈ sc, y = p.1 ∨ ivUses p.2 y = true)
  solveE_eval : ∀ e x e', E.solveExpression e x = some e' →
    ∀ ci m r, (eval ci m r e' ≠ 0 ↔ eval ci m r e ≠ 0)
  solveE_pure : ∀ e x e', E.solveExpression e x = some e' →
    pureE e = true → pureE e' = true
  solveI_sound : ∀ e x ci m r v, eval ci m (updEnv r x v) e ≠ 0 →
    (∀ mnB ∈ (E.solveForOuterInterval e x).min, eval ci m r mnB ≤ v) ∧
    (∀ mxB ∈ (E.solveForOuterInterval e x).max, v ≤ eval ci m r mxB)
  solveI_fv : ∀ e x y, (y = x ∨ usesVar e y = false) →
    ivUses (E.solveForOuterInterval e x) y = false
  solveI_pure : ∀ e x, pureE e = true → ivPure (E.solveForOuterInterval e x) = true
  solveI_vn : ∀ e x y, ivUses (E.solveForOuterInterval e x) y = true → y ∈ vnE e
  un_inj : ∀ b1 b2 n1 n2, n1 ≠ n2 → E.uniqueName b1 n1 ≠ E.uniqueName b2 n2

/-! ### The default collaborators, modelled from the spec -/

/-- Modelled from the spec: one constant-folding step of the external
algebraic simplifier (`simplify` is out of `src/`): folds arithmetic,
min/max and comparisons of constants, syntactically reflexive equalities,
negated constants, and rewrites a negated `>=` comparison to `<`. -/
def foldStep : Expr → Expr
  | .Add (.IntImm a) (.IntImm b) => .IntImm (a + b)
  | .Sub (.IntImm a) (.IntImm b) => .IntImm (a - b)
  | .Mul (.IntImm a) (.IntImm b) => .IntImm (a * b)
  | .MinE (.IntImm a) (.IntImm b) => .IntImm (min a b)
  | .MaxE (.IntImm a) (.IntImm b) => .IntImm (max a b)
  | .LTE (.IntImm a) (.IntImm b) => if a < b then .IntImm 1 else .IntImm 0
  | .LEE (.IntImm a) (.IntImm b) => if a ≤ b then .IntImm 1 else .IntImm 0
  | .GTE (.IntImm a) (.IntImm b) => if b < a then .IntImm 1 else .IntImm 0
  | .GEE (.IntImm a) (.IntImm b) => if b ≤ a then .IntImm 1 else .IntImm 0
  | .NEE (.IntImm a) (.IntImm b) => if a = b then .IntImm 0 else .IntImm 1
  | .EQE a b => if Expr.beq a b then .IntImm 1 else .EQE a b
  | .NotE (.IntImm v) => if v = 0 then .IntImm 1 else .IntImm 0
  | .NotE (.GEE a b) => .LTE a b
  | e => e

mutual

/-- Modelled from the spec: the external algebraic simplifier on
expressions, as bottom-up constant folding. -/
def foldE : Expr → Expr
  | .IntImm v => .IntImm v
  | .Var t n => .Var t n
  | .Add a b => foldStep (.Add (foldE a) (foldE b))
  | .Sub a b => foldStep (.Sub (foldE a) (foldE b))
  | .Mul a b => foldStep (.Mul (foldE a) (foldE b))
  | .MinE a b => foldStep (.MinE (foldE a) (foldE b))
  | .MaxE a b => foldStep (.MaxE (foldE a) (foldE b))
  | .EQE a b => foldStep (.EQE (foldE a) (foldE b))
  | .NEE a b => foldStep (.NEE (foldE a) (foldE b))
  | .LTE a b => foldStep (.LTE (foldE a) (foldE b))
  | .LEE a b => foldStep (.LEE (foldE a) (foldE b))
  | .GTE a b => foldStep (.GTE (foldE a) (foldE b))
  | .GEE a b => foldStep (.GEE (foldE a) (foldE b))
  | .AndE a b => .AndE (foldE a) (foldE b)
  | .OrE a b => .OrE (foldE a) (foldE b)
  | .NotE a => foldStep (.NotE (foldE a))
  | .LetE x v b => .LetE x (foldE v) (foldE b)
  | .Load t n i => .Load t n (foldE i)
  | .Call t ct n args => .Call t ct n (foldEL args)
termination_by structural e => e

def foldEL : ExprList → ExprList
  | .nil => .nil
  | .cons e es => .cons (foldE e) (foldEL es)
termination_by structural l => l

end

/-- Modelled from the spec: the external algebraic simplifier on statements,
as the structural map folding every contained expression. -/
def foldS : Stmt → Stmt
  | .Store nm v i => .Store nm (foldE v) (foldE i)
  | .For x mn ex ft da b => .For x (foldE mn) (foldE ex) ft da (foldS b)
  | .IfThen c t => .IfThen (foldE c) (foldS t)
  | .IfThenElse c t e => .IfThenElse (foldE c) (foldS t) (foldS e)
  | .LetStmt x v b => .LetStmt x (foldE v) (foldS b)
  | .Evaluate e => .Evaluate (foldE e)
  | .Block a b => .Block (foldS a) (foldS b)

/-- Modelled from the spec: domain relaxation (`and_condition_over_domain`
is out of `src/`): if the condition avoids every domain variable it is its
own relaxation, otherwise conservatively the constant false. -/
def defAcd (e : Expr) (sc : DomScope) : Expr :=
  if sc.all (fun p => !(usesVar e p.1)) then e else constFalse

/-- Modelled from the spec: the outer-interval solver
(`solve_for_outer_interval` is out of `src/`): brackets `x >= k` and
`!(x < k)` patterns from below, and returns the unbounded interval when
nothing can be proved. -/
def defSolveOuter (e : Expr) (x : String) : Interval :=
  match e with
  | .GEE (.Var _ y) (.IntImm k) => if y = x then ⟨some (.IntImm k), none⟩ else ⟨none, none⟩
  | .NotE (.LTE (.Var _ y) (.IntImm k)) =>
      if y = x then ⟨some (.IntImm k), none⟩ else ⟨none, none⟩
  | _ => ⟨none, none⟩

/-- Modelled from the spec: the hygienic name generator, with the global
counter made explicit; the counter is encoded in unary before a terminator
so that distinct counters give distinct names. -/
def defUniqueName (b : String) (n : Nat) : String :=
  ⟨List.replicate n '$' ++ ('#' :: b.data)⟩

/-- The default collaborator pack: the modelled simplifier, the identity
CSE, the never-succeeding isolation solver, the modelled relaxation, the
modelled outer-interval solver and the modelled name generator. -/
def defaultExt : Ext where
  simplifyE := foldE
  simplifyS := foldS
  cse := id
  solveExpression := fun _ _ => none
  andConditionOverDomain := defAcd
  solveForOuterInterval := defSolveOuter
  uniqueName := defUniqueName


/-- The loop header data preserved by the driver: loop variable, loop kind,
device tag; looked up through any wrapping let-statements. -/
def headerOf : Stmt → Option (String × ForType × DeviceAPI)
  | .LetStmt _ _ b => headerOf b
  | .For x _ _ ft da _ => some (x, ft, da)
  | _ => none

/-- Defined from the specification text of claim C4 (not from the source):
the no-op condition "simplified and common-subexpression-eliminated twice
(both operations applied two times)" before testing. -/
def trimConditionSpecTwice (E : Ext) (body1 : Stmt) : Expr :=
  E.simplifyE (E.cse (E.simplifyE (E.cse (isNoOpCondition E body1))))

/-- A collaborator pack whose CSE swaps the boolean constants; used to
separate the one-CSE pipeline of the driver from the two-CSE pipeline of
the specification text. -/
def flipExt : Ext where
  simplifyE := id
  simplifyS := id
  cse := fun e => if isOne e then constFalse else if isZero e then constTrue else e
  solveExpression := fun _ _ => none
  andConditionOverDomain := defAcd
  solveForOuterInterval := defSolveOuter
  uniqueName := defUniqueName

/-- A minimal collaborator pack: identity simplifier and CSE, the
never-succeeding isolation solver, the modelled relaxation, the solver that
proves nothing, and the modelled name generator. -/
def idExt : Ext where
  simplifyE := id
  simplifyS := id
  cse := id
  solveExpression := fun _ _ => none
  andConditionOverDomain := defAcd
  solveForOuterInterval := fun _ _ => ⟨none, none⟩
  uniqueName := defUniqueName

/-- Trivial interpretation, memory and environment used in concrete
counterexamples. -/
def ci0 : CallInterp := fun _ _ => 0

def m0 : Mem := fun _ _ => 0

def r00 : Env := fun _ => 0

/-- `a[j] = a[j]`: an unconditional identity store. -/
def storeIdDemo : Stmt :=
  .Store "a" (.Load i32 "a" (.Var i32 "j")) (.Var i32 "j")

/-- `a[z] = 3`: a store whose no-op condition is undecided. -/
def storeOpaqueDemo : Stmt :=
  .Store "a" (.IntImm 3) (.Var i32 "z")

/-- A store of a handle-typed value (never a no-op). -/
def handleStoreDemo : Stmt :=
  .Store "h" (.Var ⟨TyCode.handle, 64⟩ "p") (.IntImm 0)

/-! ## Lemma layer -/

/-! ### Syntactic bridges -/

theorem usesVar_iff {e : Expr} {y : String} : usesVar e y = true ↔ y ∈ fvE e := by
  simp [usesVar, List.elem_iff]

theorem usesVar_false_iff {e : Expr} {y : String} : usesVar e y = false ↔ y ∉ fvE e := by
  rw [← Bool.not_eq_true, usesVar_iff]

theorem isZero_eq {e : Expr} (h : isZero e = true) : e = .IntImm 0 := by
  cases e <;> simp_all [isZero]

theorem isOne_eq {e : Expr} (h : isOne e = true) : e = .IntImm 1 := by
  cases e <;> simp_all [isOne]

/-! ### Truth tables of the condition combinators -/

theorem eval_makeAnd (ci : CallInterp) (m : Mem) (r : Env) (a b : Expr) :
    eval ci m r (makeAnd a b) ≠ 0 ↔ (eval ci m r a ≠ 0 ∧ eval ci m r b ≠ 0) := by
  unfold makeAnd
  split
  next h =>
    rcases Bool.or_eq_true _ _ |>.mp h with h' | h'
    · rw [isZero_eq h']; simp [eval]
    · rw [isOne_eq h']; simp [eval]
  next =>
    split
    next h =>
      rcases Bool.or_eq_true _ _ |>.mp h with h' | h'
      · rw [isZero_eq h']; simp [eval]
      · rw [isOne_eq h']; simp [eval]
    next =>
      by_cases ha : eval ci m r a = 0 <;> by_cases hb : eval ci m r b = 0 <;>
        simp [eval, ha, hb]

theorem eval_makeOr (ci : CallInterp) (m : Mem) (r : Env) (a b : Expr) :
    eval ci m r (makeOr a b) ≠ 0 ↔ (eval ci m r a ≠ 0 ∨ eval ci m r b ≠ 0) := by
  unfold makeOr
  split
  next h =>
    rcases Bool.or_eq_true _ _ |>.mp h with h' | h'
    · rw [isZero_eq h']; simp [eval]
    · rw [isOne_eq h']; simp [eval]
  next =>
    split
    next h =>
      rcases Bool.or_eq_true _ _ |>.mp h with h' | h'
      · rw [isZero_eq h']; simp [eval]
      · rw [isOne_eq h']; simp [eval]
    next =>
      by_cases ha : eval ci m r a = 0 <;> by_cases hb : eval ci m r b = 0 <;>
        simp [eval, ha, hb]

/-! ### Environment congruence -/

theorem updEnv_self (r : Env) (x : String) : updEnv r x (r x) = r := by
  funext y; simp [updEnv]; intro h; subst h; rfl

theorem updEnv_same (r : Env) (x : String) (v : Int) : updEnv r x v x = v := by
  simp [updEnv]

theorem updEnv_other (r : Env) (x y : String) (v : Int) (h : y ≠ x) :
    updEnv r x v y = r y := by
  simp [updEnv, h]

mutual

/-- Evaluation depends only on the free variables. -/
def evalCongr : ∀ (e : Expr) (ci : CallInterp) (m : Mem) (r1 r2 : Env),
    (∀ y ∈ fvE e, r1 y = r2 y) → eval ci m r1 e = eval ci m r2 e
  | .IntImm _, _, _, _, _, _ => rfl
  | .Var _ n, ci, m, r1, r2, h => h n (by simp [fvE])
  | .Add a b, ci, m, r1, r2, h => by
    simp only [eval]
    rw [evalCongr a ci m r1 r2 (fun y hy => h y (by simp [fvE]; exact Or.inl hy)),
      evalCongr b ci m r1 r2 (fun y hy => h y (by simp [fvE]; exact Or.inr hy))]
  | .Sub a b, ci, m, r1, r2, h => by
    simp only [eval]
    rw [evalCongr a ci m r1 r2 (fun y hy => h y (by simp [fvE]; exact Or.inl hy)),
      evalCongr b ci m r1 r2 (fun y hy => h y (by simp [fvE]; exact Or.inr hy))]
  | .Mul a b, ci, m, r1, r2, h => by
    simp only [eval]
    rw [evalCongr a ci m r1 r2 (fun y hy => h y (by simp [fvE]; exact Or.inl hy)),
      evalCongr b ci m r1 r2 (fun y hy => h y (by simp [fvE]; exact Or.inr hy))]
  | .MinE a b, ci, m, r1, r2, h => by
    simp only [eval]
    rw [evalCongr a ci m r1 r2 (fun y hy => h y (by simp [fvE]; exact Or.inl hy)),
      evalCongr b ci m r1 r2 (fun y hy => h y (by simp [fvE]; exact Or.inr hy))]
  | .MaxE a b, ci, m, r1, r2, h => by
    simp only [eval]
    rw [evalCongr a ci m r1 r2 (fun y hy => h y (by simp [fvE]; exact Or.inl hy)),
      evalCongr b ci m r1 r2 (fun y hy => h y (by simp [fvE]; exact Or.inr hy))]
  | .EQE a b, ci, m, r1, r2, h => by
    simp only [eval]
    rw [evalCongr a ci m r1 r2 (fun y hy => h y (by simp [fvE]; exact Or.inl hy)),
      evalCongr b ci m r1 r2 (fun y hy => h y (by simp [fvE]; exact Or.inr hy))]
  | .NEE a b, ci, m, r1, r2, h => by
    simp only [eval]
    rw [evalCongr a ci m r1 r2 (fun y hy => h y (by simp [fvE]; exact Or.inl hy)),
      evalCongr b ci m r1 r2 (fun y hy => h y (by simp [fvE]; exact Or.inr hy))]
  | .LTE a b, ci, m, r1, r2, h => by
    simp only [eval]
    rw [evalCongr a ci m r1 r2 (fun y hy => h y (by simp [fvE]; exact Or.inl hy)),
      evalCongr b ci m r1 r2 (fun y hy => h y (by simp [fvE]; exact Or.inr hy))]
  | .LEE a b, ci, m, r1, r2, h => by
    simp only [eval]
    rw [evalCongr a ci m r1 r2 (fun y hy => h y (by simp [fvE]; exact Or.inl hy)),
      evalCongr b ci m r1 r2 (fun y hy => h y (by simp [fvE]; exact Or.inr hy))]
  | .GTE a b, ci, m, r1, r2, h => by
    simp only [eval]
    rw [evalCongr a ci m r1 r2 (fun y hy => h y (by simp [fvE]; exact Or.inl hy)),
      evalCongr b ci m r1 r2 (fun y hy => h y (by simp [fvE]; exact Or.inr hy))]
  | .GEE a b, ci, m, r1, r2, h => by
    simp only [eval]
    rw [evalCongr a ci m r1 r2 (fun y hy => h y (by simp [fvE]; exact Or.inl hy)),
      evalCongr b ci m r1 r2 (fun y hy => h y (by simp [fvE]; exact Or.inr hy))]
  | .AndE a b, ci, m, r1, r2, h => by
    simp only [eval]
    rw [evalCongr a ci m r1 r2 (fun y hy => h y (by simp [fvE]; exact Or.inl hy)),
      evalCongr b ci m r1 r2 (fun y hy => h y (by simp [fvE]; exact Or.inr hy))]
  | .OrE a b, ci, m, r1, r2, h => by
    simp only [eval]
    rw [evalCongr a ci m r1 r2 (fun y hy => h y (by simp [fvE]; exact Or.inl hy)),
      evalCongr b ci m r1 r2 (fun y hy => h y (by simp [fvE]; exact Or.inr hy))]
  | .NotE a, ci, m, r1, r2, h => by
    simp only [eval]
    rw [evalCongr a ci m r1 r2 (fun y hy => h y (by simpa [fvE] using hy))]
  | .LetE x v b, ci, m, r1, r2, h => by
    simp only [eval]
    have hv : eval ci m r1 v = eval ci m r2 v :=
      evalCongr v ci m r1 r2 (fun y hy => h y (by simp [fvE]; exact Or.inl hy))
    rw [hv]
    exact evalCongr b ci m _ _ (fun y hy => by
      by_cases hxy : y = x
      · subst hxy; simp [updEnv]
      · rw [updEnv_other _ _ _ _ hxy, updEnv_other _ _ _ _ hxy]
        exact h y (by simp [fvE, List.mem_filter]; exact Or.inr ⟨hy, by simpa using hxy⟩))
  | .Load _ _ i, ci, m, r1, r2, h => by
    simp only [eval]
    rw [evalCongr i ci m r1 r2 (fun y hy => h y (by simpa [fvE] using hy))]
  | .Call _ ct n args, ci, m, r1, r2, h => by
    simp only [eval]
    rw [evalLCongr args ci m r1 r2 (fun y hy => h y (by simpa [fvE] using hy))]
termination_by structural e => e

def evalLCongr : ∀ (l : ExprList) (ci : CallInterp) (m : Mem) (r1 r2 : Env),
    (∀ y ∈ fvEL l, r1 y = r2 y) → evalL ci m r1 l = evalL ci m r2 l
  | .nil, _, _, _, _, _ => rfl
  | .cons e es, ci, m, r1, r2, h => by
    simp only [evalL]
    rw [evalCongr e ci m r1 r2 (fun y hy => h y (by simp [fvEL]; exact Or.inl hy)),
      evalLCongr es ci m r1 r2 (fun y hy => h y (by simp [fvEL]; exact Or.inr hy))]
termination_by structural l => l

end

/-! ### Structural lemmas about the driver -/

theorem headerOf_foldS : ∀ s, headerOf (foldS s) = headerOf s := by
  intro s
  induction s with
  | LetStmt x v b ih => simp [foldS, headerOf, ih]
  | For x mn ex ft da b _ => simp [foldS, headerOf]
  | Store nm v i => simp [foldS, headerOf]
  | IfThen c t _ => simp [foldS, headerOf]
  | IfThenElse c t e _ _ => simp [foldS, headerOf]
  | Evaluate e => simp [foldS, headerOf]
  | Block a b _ _ => simp [foldS, headerOf]

/-! ## Claim theorems -/

/-- C2: for every for-loop node processed by the loop trimmer, if the
simplified no-op condition of its already-rewritten body is the constant
true, the entire loop is removed and replaced by `Evaluate 0`. -/
theorem c2_true_condition_deletes_loop (E : Ext) (x : String) (mn ex : Expr)
    (ft : ForType) (da : DeviceAPI) (body : Stmt) (n : Nat)
    (h : isOne (trimCondition E (trimGo E body n).1) = true) :
    trimGo E (.For x mn ex ft da body) n = (.Evaluate (.IntImm 0), (trimGo E body n).2) := by
  simp [trimGo, h]

/-- Witness for C2: a loop whose body stores back the loaded value has
condition true and is deleted. -/
theorem c2_witness :
    isOne (trimCondition defaultExt (trimGo defaultExt storeIdDemo 0).1) = true ∧
    trimGo defaultExt (.For "j" (.IntImm 0) (.IntImm 10) .serial .host storeIdDemo) 0 =
      (.Evaluate (.IntImm 0), 0) :=
  ⟨rfl, c2_true_condition_deletes_loop defaultExt "j" (.IntImm 0) (.IntImm 10)
    .serial .host storeIdDemo 0 rfl⟩

/-- C3: the no-op condition of a for-loop node is the saved outer condition
conjoined (via the short-circuiting `make_and`/`make_or`) with the
disjunction of the relaxed body condition (simplified and CSEd, then
relaxed over the loop variable ranging on `[min, min+extent-1]`) and the
simplified test `extent <= 0`. -/
theorem c3_noop_for_condition (E : Ext) (x : String) (mn ex : Expr) (ft : ForType)
    (da : DeviceAPI) (body : Stmt) (c : Expr) :
    noOpS E (.For x mn ex ft da body) c =
      makeAnd c
        (makeOr
          (E.andConditionOverDomain (E.simplifyE (E.cse (noOpS E body constTrue)))
            [(x, ⟨some mn, some (.Sub (.Add mn ex) (.IntImm 1))⟩)])
          (E.simplifyE (.LEE ex (.IntImm 0)))) := rfl

/-- C4 counterexample: the driver applies CSE once (then simplify twice),
not both operations twice: with a CSE that swaps the boolean constants and
a handle-typed store body, the driver pipeline produces the constant true
while the spec-text pipeline produces the constant false. -/
theorem c4_counterexample :
    trimCondition flipExt handleStoreDemo ≠ trimConditionSpecTwice flipExt handleStoreDemo ∧
    isOne (trimCondition flipExt handleStoreDemo) = true ∧
    isZero (trimConditionSpecTwice flipExt handleStoreDemo) = true := by
  refine ⟨?_, rfl, rfl⟩
  intro h
  have h' := congrArg isOne h
  simp only [show isOne (trimCondition flipExt handleStoreDemo) = true from rfl,
    show isOne (trimConditionSpecTwice flipExt handleStoreDemo) = false from rfl] at h'
  exact Bool.noConfusion h'

/-- C4 amended: before testing, the loop trimmer common-subexpression-
eliminates the body condition once and then simplifies it twice; the
for-loop branch of the driver is exactly this pipeline followed by the
delete / keep / narrow decision. -/
theorem c4_amended_cse_once_simplify_twice (E : Ext) (body1 : Stmt) :
    trimCondition E body1 = E.simplifyE (E.simplifyE (E.cse (isNoOpCondition E body1))) ∧
    trimConditionSpecTwice E body1 =
      E.simplifyE (E.cse (E.simplifyE (E.cse (isNoOpCondition E body1)))) :=
  ⟨rfl, rfl⟩

/-- C5: when the prepared condition is neither constant true nor constant
false and the interval solved for the negated condition is unbounded on
both sides, the loop is reconstructed unchanged: original bounds, the
mutated body, and no new let-bindings (the name counter is untouched). -/
theorem c5_everything_interval_keeps_loop (E : Ext) (x : String) (mn ex : Expr)
    (ft : ForType) (da : DeviceAPI) (body : Stmt) (n : Nat)
    (h1 : isOne (trimCondition E (trimGo E body n).1) = false)
    (h2 : isZero (trimCondition E (trimGo E body n).1) = false)
    (h3 : intervalIsEverything
      (E.solveForOuterInterval (.NotE (trimCondition E (trimGo E body n).1)) x) = true) :
    trimGo E (.For x mn ex ft da body) n =
      (.For x mn ex ft da (trimGo E body n).1, (trimGo E body n).2) := by
  simp [trimGo, h1, h2, h3]

/-- Witness for C5: a store of an unknown value gives an undecided
condition and an unbounded interval; the loop is kept unchanged. -/
theorem c5_witness :
    isOne (trimCondition defaultExt (trimGo defaultExt storeOpaqueDemo 0).1) = false ∧
    isZero (trimCondition defaultExt (trimGo defaultExt storeOpaqueDemo 0).1) = false ∧
    intervalIsEverything
      (defaultExt.solveForOuterInterval
        (.NotE (trimCondition defaultExt (trimGo defaultExt storeOpaqueDemo 0).1)) "k") = true ∧
    trimGo defaultExt (.For "k" (.IntImm 0) (.IntImm 5) .serial .host storeOpaqueDemo) 0 =
      (.For "k" (.IntImm 0) (.IntImm 5) .serial .host storeOpaqueDemo, 0) :=
  ⟨rfl, rfl, rfl,
    c5_everything_interval_keeps_loop defaultExt "k" (.IntImm 0) (.IntImm 5)
      .serial .host storeOpaqueDemo 0 rfl rfl rfl⟩

/-- C6: min/max resolution happens only for signed integer types of at
least 32 bits; for any other type the node is reconstructed with only its
children mutated, and for qualifying types the node resolves to one
argument exactly when the corresponding comparison is provable over the
containing-loop domain. -/
theorem c6_minmax_gate (E : Ext) (st : CLStack) (a b : Expr) :
    (¬((Expr.MinE a b).ty.isInt = true ∧ 32 ≤ (Expr.MinE a b).ty.bits) →
      subE E st (.MinE a b) = .MinE (subE E st a) (subE E st b) ∧
      subE E st (.MaxE a b) = .MaxE (subE E st a) (subE E st b)) ∧
    (((Expr.MinE a b).ty.isInt = true ∧ 32 ≤ (Expr.MinE a b).ty.bits) →
      subE E st (.MinE a b) =
        (if provablyTrue E st (.LEE (subE E st a) (subE E st b)) then subE E st a
         else if provablyTrue E st (.LEE (subE E st b) (subE E st a)) then subE E st b
         else .MinE (subE E st a) (subE E st b)) ∧
      subE E st (.MaxE a b) =
        (if provablyTrue E st (.GEE (subE E st a) (subE E st b)) then subE E st a
         else if provablyTrue E st (.GEE (subE E st b) (subE E st a)) then subE E st b
         else .MaxE (subE E st a) (subE E st b))) := by
  constructor
  · intro h
    have hb : (!(Expr.MinE a b).ty.isInt || decide ((Expr.MinE a b).ty.bits < 32)) = true := by
      by_cases hi : (Expr.MinE a b).ty.isInt = true
      · have hlt : (Expr.MinE a b).ty.bits < 32 := by
          by_contra hge
          exact h ⟨hi, Nat.le_of_not_lt hge⟩
        simp [hlt]
      · simp [Bool.eq_false_iff.mpr hi]
    have hbMax : (!(Expr.MaxE a b).ty.isInt || decide ((Expr.MaxE a b).ty.bits < 32)) = true := hb
    constructor
    · simp only [subE]
      rw [if_pos hb]
    · simp only [subE]
      rw [if_pos hbMax]
  · intro h
    have hb : (!(Expr.MinE a b).ty.isInt || decide ((Expr.MinE a b).ty.bits < 32)) = false := by
      simp [h.1, Nat.not_lt.mpr h.2]
    have hbMax : (!(Expr.MaxE a b).ty.isInt || decide ((Expr.MaxE a b).ty.bits < 32)) = false := hb
    constructor
    · simp only [subE]
      rw [if_neg (by simp [hb])]
    · simp only [subE]
      rw [if_neg (by simp [hbMax])]

/-- Witness for C6: a float32 min is only reconstructed, while an int32 min
over `k` in `[0,9]` resolves `min(k, 10)` is not provable by the default
relaxation, but `min` of equal-variable arguments resolves by `k <= k`
being simplified to a constant?  We witness both implications on concrete
types. -/
theorem c6_witness :
    subE defaultExt [] (.MinE (.Var ⟨TyCode.float, 32⟩ "u") (.Var ⟨TyCode.float, 32⟩ "w")) =
      .MinE (.Var ⟨TyCode.float, 32⟩ "u") (.Var ⟨TyCode.float, 32⟩ "w") ∧
    subE defaultExt [] (.MinE (.Var i32 "u") (.Var i32 "w")) =
      (if provablyTrue defaultExt [] (.LEE (.Var i32 "u") (.Var i32 "w")) then .Var i32 "u"
       else if provablyTrue defaultExt [] (.LEE (.Var i32 "w") (.Var i32 "u")) then .Var i32 "w"
       else .MinE (.Var i32 "u") (.Var i32 "w")) :=
  ⟨((c6_minmax_gate defaultExt [] (.Var ⟨TyCode.float, 32⟩ "u")
      (.Var ⟨TyCode.float, 32⟩ "w")).1 (by simp [Expr.ty, Ty.isInt])).1,
    ((c6_minmax_gate defaultExt [] (.Var i32 "u") (.Var i32 "w")).2
      (by simp [Expr.ty, i32, Ty.isInt])).1⟩

/-- C9: a for-loop the trimmer does not delete keeps its variable name,
loop kind and device tag: the reconstruct-unchanged outcomes keep the
node's header, and the narrowing outcome emits (under the three new
let-bindings) a for-loop with the same header, provided the statement
simplifier preserves headers. -/
theorem c9_header_preserved (E : Ext)
    (hsimp : ∀ s, headerOf (E.simplifyS s) = headerOf s)
    (x : String) (mn ex : Expr) (ft : ForType) (da : DeviceAPI) (body : Stmt) (n : Nat) :
    (trimGo E (.For x mn ex ft da body) n).1 = .Evaluate (.IntImm 0) ∨
    headerOf (trimGo E (.For x mn ex ft da body) n).1 = some (x, ft, da) := by
  simp only [trimGo]
  by_cases h1 : isOne (trimCondition E (trimGo E body n).1) = true
  · simp [h1]
  · by_cases h2 : isZero (trimCondition E (trimGo E body n).1) = true
    · simp [h1, h2, headerOf]
    · by_cases h3 : intervalIsEverything
        (E.solveForOuterInterval (.NotE (trimCondition E (trimGo E body n).1)) x) = true
      · simp [h1, h2, h3, headerOf]
      · simp [h1, h2, h3, hsimp, headerOf]

/-- Witness for C9: for the default collaborators (whose statement
simplifier preserves headers) and a narrowed loop, the emitted statement
keeps the header. -/
theorem c9_witness :
    (trimGo defaultExt
        (.For "j" (.IntImm 0) (.IntImm 100) .parallel .gpu
          (.IfThen (.GEE (.Var i32 "j") (.IntImm 50))
            (.Evaluate (.Call i32 .intrinsic copyMemoryName (.cons (.IntImm 7) .nil))))) 0).1 =
        .Evaluate (.IntImm 0) ∨
    headerOf (trimGo defaultExt
        (.For "j" (.IntImm 0) (.IntImm 100) .parallel .gpu
          (.IfThen (.GEE (.Var i32 "j") (.IntImm 50))
            (.Evaluate (.Call i32 .intrinsic copyMemoryName (.cons (.IntImm 7) .nil))))) 0).1 =
      some ("j", .parallel, .gpu) :=
  c9_header_preserved defaultExt headerOf_foldS "j" (.IntImm 0) (.IntImm 100)
    .parallel .gpu _ 0

/-! ### Free-variable lemmas for the no-op predicate -/

theorem usesVar_constTrue (y : String) : usesVar constTrue y = false := rfl

theorem usesVar_constFalse (y : String) : usesVar constFalse y = false := rfl

theorem fv_getD : ∀ (l : ExprList) (n : Nat) (d : Expr) (y : String),
    y ∉ fvEL l → y ∉ fvE d → y ∉ fvE (l.getD n d)
  | .nil, _, _, _, _, hd => hd
  | .cons e es, 0, _, y, hl, _ => by
    simp only [fvEL, List.mem_append, not_or] at hl
    exact hl.1
  | .cons e es, n + 1, d, y, hl, hd => by
    simp only [fvEL, List.mem_append, not_or] at hl
    exact fv_getD es n d y hl.2 hd

theorem fv_getLastD : ∀ (l : ExprList) (d : Expr) (y : String),
    y ∉ fvEL l → y ∉ fvE d → y ∉ fvE (l.getLastD d)
  | .nil, _, _, _, hd => hd
  | .cons e .nil, _, y, hl, _ => by
    simp only [fvEL, List.mem_append, not_or] at hl
    exact hl.1
  | .cons e (.cons f fs), d, y, hl, hd => by
    simp only [fvEL, List.mem_append, not_or] at hl
    exact fv_getLastD (.cons f fs) d y
      (by simp only [fvEL, List.mem_append, not_or]; exact hl.2) hd

mutual

/-- Stripping identities introduces no free variables. -/
def strip_fv : ∀ (e : Expr) (y : String), y ∉ fvE e → y ∉ fvE (strip e)
  | .IntImm _, _, h => h
  | .Var _ _, _, h => h
  | .Add a b, y, h => by
    simp only [fvE, List.mem_append, not_or, strip] at *
    exact ⟨strip_fv a y h.1, strip_fv b y h.2⟩
  | .Sub a b, y, h => by
    simp only [fvE, List.mem_append, not_or, strip] at *
    exact ⟨strip_fv a y h.1, strip_fv b y h.2⟩
  | .Mul a b, y, h => by
    simp only [fvE, List.mem_append, not_or, strip] at *
    exact ⟨strip_fv a y h.1, strip_fv b y h.2⟩
  | .MinE a b, y, h => by
    simp only [fvE, List.mem_append, not_or, strip] at *
    exact ⟨strip_fv a y h.1, strip_fv b y h.2⟩
  | .MaxE a b, y, h => by
    simp only [fvE, List.mem_append, not_or, strip] at *
    exact ⟨strip_fv a y h.1, strip_fv b y h.2⟩
  | .EQE a b, y, h => by
    simp only [fvE, List.mem_append, not_or, strip] at *
    exact ⟨strip_fv a y h.1, strip_fv b y h.2⟩
  | .NEE a b, y, h => by
    simp only [fvE, List.mem_append, not_or, strip] at *
    exact ⟨strip_fv a y h.1, strip_fv b y h.2⟩
  | .LTE a b, y, h => by
    simp only [fvE, List.mem_append, not_or, strip] at *
    exact ⟨strip_fv a y h.1, strip_fv b y h.2⟩
  | .LEE a b, y, h => by
    simp only [fvE, List.mem_append, not_or, strip] at *
    exact ⟨strip_fv a y h.1, strip_fv b y h.2⟩
  | .GTE a b, y, h => by
    simp only [fvE, List.mem_append, not_or, strip] at *
    exact ⟨strip_fv a y h.1, strip_fv b y h.2⟩
  | .GEE a b, y, h => by
    simp only [fvE, List.mem_append, not_or, strip] at *
    exact ⟨strip_fv a y h.1, strip_fv b y h.2⟩
  | .AndE a b, y, h => by
    simp only [fvE, List.mem_append, not_or, strip] at *
    exact ⟨strip_fv a y h.1, strip_fv b y h.2⟩
  | .OrE a b, y, h => by
    simp only [fvE, List.mem_append, not_or, strip] at *
    exact ⟨strip_fv a y h.1, strip_fv b y h.2⟩
  | .NotE a, y, h => by
    simp only [fvE, strip] at *
    exact strip_fv a y h
  | .LetE x v b, y, h => by
    simp only [fvE, List.mem_append, not_or, List.mem_filter, strip] at *
    refine ⟨strip_fv v y h.1, ?_⟩
    rintro ⟨hmem, hne⟩
    exact strip_fv b y (fun q => h.2 ⟨q, hne⟩) hmem
  | .Load _ _ i, y, h => by
    simp only [fvE, strip] at *
    exact strip_fv i y h
  | .Call t ct n args, y, h => by
    simp only [fvE] at h
    simp only [strip]
    split
    · exact fv_getD (stripL args) 4 (.IntImm 0) y (stripL_fv args y h) (by simp [fvE])
    · split
      · exact fv_getLastD (stripL args) (.IntImm 0) y (stripL_fv args y h) (by simp [fvE])
      · simpa [fvE] using stripL_fv args y h
termination_by structural e => e

def stripL_fv : ∀ (l : ExprList) (y : String), y ∉ fvEL l → y ∉ fvEL (stripL l)
  | .nil, _, h => h
  | .cons e es, y, h => by
    simp only [fvEL, List.mem_append, not_or, stripL] at *
    exact ⟨strip_fv e y h.1, stripL_fv es y h.2⟩
termination_by structural l => l

end

theorem makeAnd_fv {a b : Expr} {y : String} (ha : usesVar a y = false)
    (hb : usesVar b y = false) : usesVar (makeAnd a b) y = false := by
  unfold makeAnd
  split
  · exact ha
  · split
    · exact hb
    · rw [usesVar_false_iff] at *
      simp only [fvE, List.mem_append, not_or]
      exact ⟨ha, hb⟩

theorem makeOr_fv {a b : Expr} {y : String} (ha : usesVar a y = false)
    (hb : usesVar b y = false) : usesVar (makeOr a b) y = false := by
  unfold makeOr
  split
  · exact hb
  · split
    · exact ha
    · rw [usesVar_false_iff] at *
      simp only [fvE, List.mem_append, not_or]
      exact ⟨ha, hb⟩

mutual

/-- The no-op condition of an expression traversal uses only the free
variables of the incoming condition and of the expression. -/
def noOpE_fv (E : Ext) (hE : ExtOk E) : ∀ (e : Expr) (c : Expr) (y : String),
    usesVar c y = false → y ∉ fvE e → usesVar (noOpE E e c) y = false
  | .IntImm _, _, _, hc, _ => hc
  | .Var _ _, _, _, hc, _ => hc
  | .Add a b, c, y, hc, he => by
    simp only [fvE, List.mem_append, not_or] at he
    simp only [noOpE]
    exact noOpE_fv E hE b (noOpE E a c) y (noOpE_fv E hE a c y hc he.1) he.2
  | .Sub a b, c, y, hc, he => by
    simp only [fvE, List.mem_append, not_or] at he
    simp only [noOpE]
    exact noOpE_fv E hE b (noOpE E a c) y (noOpE_fv E hE a c y hc he.1) he.2
  | .Mul a b, c, y, hc, he => by
    simp only [fvE, List.mem_append, not_or] at he
    simp only [noOpE]
    exact noOpE_fv E hE b (noOpE E a c) y (noOpE_fv E hE a c y hc he.1) he.2
  | .MinE a b, c, y, hc, he => by
    simp only [fvE, List.mem_append, not_or] at he
    simp only [noOpE]
    exact noOpE_fv E hE b (noOpE E a c) y (noOpE_fv E hE a c y hc he.1) he.2
  | .MaxE a b, c, y, hc, he => by
    simp only [fvE, List.mem_append, not_or] at he
    simp only [noOpE]
    exact noOpE_fv E hE b (noOpE E a c) y (noOpE_fv E hE a c y hc he.1) he.2
  | .EQE a b, c, y, hc, he => by
    simp only [fvE, List.mem_append, not_or] at he
    simp only [noOpE]
    exact noOpE_fv E hE b (noOpE E a c) y (noOpE_fv E hE a c y hc he.1) he.2
  | .NEE a b, c, y, hc, he => by
    simp only [fvE, List.mem_append, not_or] at he
    simp only [noOpE]
    exact noOpE_fv E hE b (noOpE E a c) y (noOpE_fv E hE a c y hc he.1) he.2
  | .LTE a b, c, y, hc, he => by
    simp only [fvE, List.mem_append, not_or] at he
    simp only [noOpE]
    exact noOpE_fv E hE b (noOpE E a c) y (noOpE_fv E hE a c y hc he.1) he.2
  | .LEE a b, c, y, hc, he => by
    simp only [fvE, List.mem_append, not_or] at he
    simp only [noOpE]
    exact noOpE_fv E hE b (noOpE E a c) y (noOpE_fv E hE a c y hc he.1) he.2
  | .GTE a b, c, y, hc, he => by
    simp only [fvE, List.mem_append, not_or] at he
    simp only [noOpE]
    exact noOpE_fv E hE b (noOpE E a c) y (noOpE_fv E hE a c y hc he.1) he.2
  | .GEE a b, c, y, hc, he => by
    simp only [fvE, List.mem_append, not_or] at he
    simp only [noOpE]
    exact noOpE_fv E hE b (noOpE E a c) y (noOpE_fv E hE a c y hc he.1) he.2
  | .AndE a b, c, y, hc, he => by
    simp only [fvE, List.mem_append, not_or] at he
    simp only [noOpE]
    exact noOpE_fv E hE b (noOpE E a c) y (noOpE_fv E hE a c y hc he.1) he.2
  | .OrE a b, c, y, hc, he => by
    simp only [fvE, List.mem_append, not_or] at he
    simp only [noOpE]
    exact noOpE_fv E hE b (noOpE E a c) y (noOpE_fv E hE a c y hc he.1) he.2
  | .NotE a, c, y, hc, he => by
    simp only [fvE] at he
    simp only [noOpE]
    exact noOpE_fv E hE a c y hc he
  | .LetE x v b, c, y, hc, he => by
    simp only [fvE, List.mem_append, not_or, List.mem_filter] at he
    simp only [noOpE]
    by_cases hyx : y = x
    · subst hyx
      by_cases hw : usesVar (noOpE E b (noOpE E v c)) y = true
      · rw [if_pos hw]
        rw [usesVar_false_iff]
        simp only [fvE, List.mem_append, not_or, List.mem_filter]
        exact ⟨he.1, fun q => by simp at q⟩
      · rw [if_neg hw]
        exact Bool.eq_false_iff.mpr hw
    · have hb2 : y ∉ fvE b := fun q => he.2 ⟨q, by simp [hyx]⟩
      have hc2 : usesVar (noOpE E b (noOpE E v c)) y = false :=
        noOpE_fv E hE b (noOpE E v c) y (noOpE_fv E hE v c y hc he.1) hb2
      by_cases hw : usesVar (noOpE E b (noOpE E v c)) x = true
      · rw [if_pos hw]
        rw [usesVar_false_iff]
        simp only [fvE, List.mem_append, not_or, List.mem_filter]
        refine ⟨he.1, fun q => ?_⟩
        exact absurd (usesVar_iff.mpr q.1) (by simp [hc2])
      · rw [if_neg hw]
        exact hc2
  | .Load _ _ i, c, y, hc, he => by
    simp only [fvE] at he
    simp only [noOpE]
    exact noOpE_fv E hE i c y hc he
  | .Call t ct n args, c, y, hc, he => by
    simp only [noOpE]
    split
    · exact usesVar_constFalse y
    · exact noOpEL_fv E hE args c y hc (by simpa [fvE] using he)
termination_by structural e => e

def noOpEL_fv (E : Ext) (hE : ExtOk E) : ∀ (l : ExprList) (c : Expr) (y : String),
    usesVar c y = false → y ∉ fvEL l → usesVar (noOpEL E l c) y = false
  | .nil, _, _, hc, _ => hc
  | .cons e es, c, y, hc, hl => by
    simp only [fvEL, List.mem_append, not_or] at hl
    simp only [noOpEL]
    exact noOpEL_fv E hE es (noOpE E e c) y (noOpE_fv E hE e c y hc hl.1) hl.2
termination_by structural l => l

end

/-- The no-op condition of a statement uses only the free variables of the
incoming condition and of the statement; in particular names bound inside
the statement are relaxed away or re-bound by emitted lets. -/
def noOpS_fv (E : Ext) (hE : ExtOk E) : ∀ (s : Stmt) (c : Expr) (y : String),
    usesVar c y = false → y ∉ fvS s → usesVar (noOpS E s c) y = false
  | .Store nm v idx, c, y, hc, he => by
    simp only [fvS, List.mem_append, not_or] at he
    simp only [noOpS]
    split
    · exact usesVar_constFalse y
    · refine makeAnd_fv hc ?_
      refine hE.acd_fv2 _ [] y ?_ (fun p hp => by cases hp)
      rw [usesVar_false_iff]
      apply strip_fv
      simp only [fvE, List.mem_append, not_or]
      exact ⟨he.2, he.1⟩
  | .For x mn ex ft da body, c, y, hc, he => by
    simp only [fvS, List.mem_append, not_or, List.mem_filter] at he
    simp only [noOpS]
    refine makeAnd_fv hc (makeOr_fv ?_ (hE.simpE_fv _ y ?_))
    · by_cases hyx : y = x
      · subst hyx
        exact hE.acd_fv1 _ _ y ⟨some mn, some (.Sub (.Add mn ex) (.IntImm 1))⟩ (by simp)
      · refine hE.acd_fv2 _ _ y ?_ ?_
        · refine hE.simpE_fv _ y (hE.cse_fv _ y ?_)
          refine noOpS_fv E hE body constTrue y (usesVar_constTrue y) ?_
          exact fun q => he.2 ⟨q, by simp [hyx]⟩
        · intro p hp
          simp only [List.mem_singleton] at hp
          subst hp
          simp only [ivUses, Bool.or_eq_false_iff]
          constructor
          · rw [usesVar_false_iff]; exact he.1.1
          · rw [usesVar_false_iff]
            simp only [fvE, List.mem_append, not_or]
            exact ⟨⟨he.1.1, he.1.2⟩, by simp [fvE]⟩
    · rw [usesVar_false_iff]
      simp only [fvE, List.mem_append, not_or]
      exact ⟨he.1.2, by simp [fvE]⟩
  | .IfThen cnd t, c, y, hc, he => by
    simp only [fvS, List.mem_append, not_or] at he
    simp only [noOpS]
    refine makeAnd_fv hc (makeOr_fv ?_ ?_)
    · rw [usesVar_false_iff]; simpa [fvE] using he.1
    · exact noOpS_fv E hE t constTrue y (usesVar_constTrue y) he.2
  | .IfThenElse cnd t e, c, y, hc, he => by
    simp only [fvS, List.mem_append, not_or] at he
    simp only [noOpS]
    refine makeAnd_fv (makeAnd_fv hc (makeOr_fv ?_ ?_)) (makeOr_fv ?_ ?_)
    · rw [usesVar_false_iff]; simpa [fvE] using he.1.1
    · exact noOpS_fv E hE t constTrue y (usesVar_constTrue y) he.1.2
    · rw [usesVar_false_iff]; exact he.1.1
    · exact noOpS_fv E hE e constTrue y (usesVar_constTrue y) he.2
  | .LetStmt x v b, c, y, hc, he => by
    simp only [fvS, List.mem_append, not_or, List.mem_filter] at he
    simp only [noOpS]
    by_cases hyx : y = x
    · subst hyx
      by_cases hw : usesVar (noOpS E b (noOpE E v c)) y = true
      · rw [if_pos hw]
        rw [usesVar_false_iff]
        simp only [fvE, List.mem_append, not_or, List.mem_filter]
        exact ⟨he.1, fun q => by simp at q⟩
      · rw [if_neg hw]
        exact Bool.eq_false_iff.mpr hw
    · have hb2 : y ∉ fvS b := fun q => he.2 ⟨q, by simp [hyx]⟩
      have hc2 : usesVar (noOpS E b (noOpE E v c)) y = false :=
        noOpS_fv E hE b (noOpE E v c) y (noOpE_fv E hE v c y hc he.1) hb2
      by_cases hw : usesVar (noOpS E b (noOpE E v c)) x = true
      · rw [if_pos hw]
        rw [usesVar_false_iff]
        simp only [fvE, List.mem_append, not_or, List.mem_filter]
        refine ⟨he.1, fun q => ?_⟩
        exact absurd (usesVar_iff.mpr q.1) (by simp [hc2])
      · rw [if_neg hw]
        exact hc2
  | .Evaluate e, c, y, hc, he => by
    simp only [fvS] at he
    simp only [noOpS]
    exact noOpE_fv E hE e c y hc he
  | .Block a b, c, y, hc, he => by
    simp only [fvS, List.mem_append, not_or] at he
    simp only [noOpS]
    exact noOpS_fv E hE b (noOpS E a c) y (noOpS_fv E hE a c y hc he.1) he.2

/-! ### Evaluation under irrelevant environment updates -/

theorem eval_updEnv_notUses {e : Expr} {x : String} (h : usesVar e x = false)
    (ci : CallInterp) (m : Mem) (r : Env) (v : Int) :
    eval ci m (updEnv r x v) e = eval ci m r e :=
  evalCongr e ci m _ _ (fun y hy =>
    updEnv_other r x y v (fun q => by
      subst q
      exact absurd (usesVar_iff.mpr hy) (by simp [h])))

/-! ### Injectivity of the modelled name generator -/

theorem replicate_sep_inj : ∀ (n1 n2 : Nat) (l1 l2 : List Char),
    List.replicate n1 '$' ++ '#' :: l1 = List.replicate n2 '$' ++ '#' :: l2 →
    n1 = n2 ∧ l1 = l2 := by
  intro n1
  induction n1 with
  | zero =>
    intro n2 l1 l2 h
    cases n2 with
    | zero => simpa using h
    | succ k =>
      simp only [List.replicate, List.nil_append, List.cons_append, List.cons.injEq] at h
      exact absurd h.1 (by decide)
  | succ k ih =>
    intro n2 l1 l2 h
    cases n2 with
    | zero =>
      simp only [List.replicate, List.nil_append, List.cons_append, List.cons.injEq] at h
      exact absurd h.1 (by decide)
    | succ k2 =>
      simp only [List.replicate, List.cons_append, List.cons.injEq] at h
      have := ih k2 l1 l2 h.2
      exact ⟨by omega, this.2⟩

theorem defUniqueName_inj {b1 b2 : String} {n1 n2 : Nat} (h : n1 ≠ n2) :
    defUniqueName b1 n1 ≠ defUniqueName b2 n2 := by
  intro he
  have hd := congrArg String.data he
  simp only [defUniqueName] at hd
  exact h (replicate_sep_inj n1 n2 b1.data b2.data hd).1

/-- A generated name never equals a name whose first character is neither
of the two sigils. -/
theorem defUniqueName_head : ∀ (b : String) (n : Nat),
    (defUniqueName b n).data.head? = some '$' ∨ (defUniqueName b n).data.head? = some '#' := by
  intro b n
  cases n with
  | zero => right; simp [defUniqueName]
  | succ k => left; simp [defUniqueName, List.replicate]

/-! ### The contracts hold for the minimal collaborator pack -/

theorem extOk_idExt : ExtOk idExt := by
  refine
    { simpE_eval := fun _ _ _ _ => rfl
      simpE_fv := fun _ _ h => h
      simpE_pure := fun _ h => h
      simpE_vn := fun _ _ h => h
      cse_eval := fun _ _ _ _ => rfl
      cse_fv := fun _ _ h => h
      cse_pure := fun _ h => h
      cse_vn := fun _ _ h => h
      simpS_exec := fun _ _ _ _ _ => rfl
      simpS_wf := fun _ h => h
      simpS_fv := fun _ _ h => h
      simpS_vn := fun _ _ h => h
      simpS_bn := fun _ => List.Sublist.refl _
      acd_empty := ?_
      acd_single := ?_
      acd_fv1 := ?_
      acd_fv2 := ?_
      acd_pure := ?_
      acd_vn := ?_
      solveE_eval := fun _ _ _ h => by cases h
      solveE_pure := fun _ _ _ h => by cases h
      solveI_sound := ?_
      solveI_fv := fun _ _ _ _ => rfl
      solveI_pure := fun _ _ _ => rfl
      solveI_vn := fun _ _ _ h => by cases h
      un_inj := fun _ _ _ _ h => defUniqueName_inj h }
  · intro ci m r e h
    simpa [idExt, defAcd] using h
  · intro ci m r e x iv v h _ _
    by_cases hu : usesVar e x = true
    · exfalso
      apply h
      simp [idExt, defAcd, hu, constFalse, eval]
    · have hx : usesVar e x = false := Bool.eq_false_iff.mpr hu
      rw [eval_updEnv_notUses hx]
      simpa [idExt, defAcd, hx] using h
  · intro e sc y iv hmem
    simp only [idExt, defAcd]
    split
    next hall =>
      have := List.all_eq_true.mp hall _ hmem
      simpa using this
    next => exact usesVar_constFalse y
  · intro e sc y hy _
    simp only [idExt, defAcd]
    split
    · exact hy
    · exact usesVar_constFalse y
  · intro e sc hp _
    simp only [idExt, defAcd]
    split
    · exact hp
    · rfl
  · intro e sc y hy
    simp only [idExt, defAcd] at hy
    split at hy
    · exact Or.inl hy
    · simp [constFalse, vnE] at hy
  · intro e x ci m r v _
    constructor
    · intro bb hb
      simp [idExt] at hb
    · intro bb hb
      simp [idExt] at hb

/-- C7: the no-op condition computed for a statement has no free occurrence
of any variable bound inside the statement, provided (as Halide IR
guarantees through unique names) the bound name does not also occur free in
the statement. -/
theorem c7_no_bound_variable_escapes (E : Ext) (hE : ExtOk E) (s : Stmt) (v : String)
    (_hbound : v ∈ bnS s) (hfree : v ∉ fvS s) :
    usesVar (isNoOpCondition E s) v = false :=
  noOpS_fv E hE s constTrue v (usesVar_constTrue v) hfree

/-- Witness for C7: a loop variable and an inner let name do not occur in
the condition of a statement binding both. -/
theorem c7_witness :
    ("t" ∈ bnS (.For "x" (.IntImm 0) (.IntImm 10) .serial .host
        (.LetStmt "t" (.Add (.Var i32 "x") (.IntImm 1))
          (.Store "a" (.Var i32 "t") (.Var i32 "x")))) ∧
      "t" ∉ fvS (.For "x" (.IntImm 0) (.IntImm 10) .serial .host
        (.LetStmt "t" (.Add (.Var i32 "x") (.IntImm 1))
          (.Store "a" (.Var i32 "t") (.Var i32 "x"))))) ∧
    usesVar (isNoOpCondition idExt (.For "x" (.IntImm 0) (.IntImm 10) .serial .host
        (.LetStmt "t" (.Add (.Var i32 "x") (.IntImm 1))
          (.Store "a" (.Var i32 "t") (.Var i32 "x"))))) "t" = false :=
  ⟨⟨by decide, by decide⟩,
    c7_no_bound_variable_escapes idExt extOk_idExt _ "t" (by decide) (by decide)⟩

/-- C10 counterexample: with a negative original extent (a legal loop that
runs zero times) and a lower-bounded solver interval with no upper bound,
the emitted bounds violate `new-min <= new-max`: here old-max evaluates to
-1, new-min to `clamp(50, 0, -1) = 0`, and new-max (no upper bound) to
`0 + (-1) = -1 < 0`. -/
theorem c10_counterexample :
    eval ci0 m0
      (updEnv (updEnv r00 "o" (eval ci0 m0 r00 (.Add (.IntImm 0) (.IntImm (-1))))) "n"
        (eval ci0 m0 (updEnv r00 "o" (eval ci0 m0 r00 (.Add (.IntImm 0) (.IntImm (-1)))))
          (narrowNewMin (.IntImm 0) (.Var i32 "o") (some (.IntImm 50)))))
      (narrowNewMax (.Add (.IntImm 0) (.IntImm (-1))) (.Var i32 "n") (.Var i32 "o") none)
    < eval ci0 m0 (updEnv r00 "o" (eval ci0 m0 r00 (.Add (.IntImm 0) (.IntImm (-1)))))
        (narrowNewMin (.IntImm 0) (.Var i32 "o") (some (.IntImm 50))) := by decide

/-- C10 amended: provided the original extent is non-negative, the bound
expressions emitted by the narrowing outcome satisfy, under the driver's
let-bindings (old-max, then new-min, then new-max),
`original-min <= new-min <= new-max <= original-min + original-extent`,
so the narrowed range is a sub-range of the original range and the new
extent `new-max - new-min` is non-negative. -/
theorem c10_narrowed_bounds_nested (ci : CallInterp) (m : Mem) (r : Env)
    (mn ex : Expr) (i2 : Interval) (oN nN : String) (hne : nN ≠ oN)
    (hmn1 : usesVar mn oN = false) (hmn2 : usesVar mn nN = false)
    (hex1 : usesVar ex oN = false) (hex2 : usesVar ex nN = false)
    (hext : 0 ≤ eval ci m r ex) :
    eval ci m r mn ≤
      eval ci m (updEnv r oN (eval ci m r (.Add mn ex)))
        (narrowNewMin mn (.Var i32 oN) i2.min) ∧
    eval ci m (updEnv r oN (eval ci m r (.Add mn ex)))
        (narrowNewMin mn (.Var i32 oN) i2.min) ≤
      eval ci m
        (updEnv (updEnv r oN (eval ci m r (.Add mn ex))) nN
          (eval ci m (updEnv r oN (eval ci m r (.Add mn ex)))
            (narrowNewMin mn (.Var i32 oN) i2.min)))
        (narrowNewMax (.Add mn ex) (.Var i32 nN) (.Var i32 oN) i2.max) ∧
    eval ci m
        (updEnv (updEnv r oN (eval ci m r (.Add mn ex))) nN
          (eval ci m (updEnv r oN (eval ci m r (.Add mn ex)))
            (narrowNewMin mn (.Var i32 oN) i2.min)))
        (narrowNewMax (.Add mn ex) (.Var i32 nN) (.Var i32 oN) i2.max) ≤
      eval ci m r (.Add mn ex) := by
  set vOld := eval ci m r (.Add mn ex) with hvOld
  set r0 := updEnv r oN vOld with hr0
  set vMin := eval ci m r0 (narrowNewMin mn (.Var i32 oN) i2.min) with hvMin
  set r1 := updEnv r0 nN vMin with hr1
  have hmn0 : eval ci m r0 mn = eval ci m r mn := by
    rw [hr0]; exact eval_updEnv_notUses hmn1 ci m r vOld
  have hmn10 : eval ci m r1 mn = eval ci m r mn := by
    rw [hr1, hr0]
    rw [eval_updEnv_notUses hmn2, eval_updEnv_notUses hmn1]
  have hex10 : eval ci m r1 ex = eval ci m r ex := by
    rw [hr1, hr0]
    rw [eval_updEnv_notUses hex2, eval_updEnv_notUses hex1]
  have hne' : oN ≠ nN := Ne.symm hne
  have hoV0 : r0 oN = vOld := by simp [hr0, updEnv]
  have hoV1 : r1 oN = vOld := by simp [hr1, hr0, updEnv, hne']
  have hnV1 : r1 nN = vMin := by simp [hr1, updEnv]
  have hOldGe : eval ci m r mn ≤ vOld := by
    rw [hvOld]; simp only [eval]; omega
  have hMinLow : eval ci m r mn ≤ vMin := by
    rw [hvMin]
    cases i2.min with
    | none => simp only [narrowNewMin, hmn0]; exact le_refl _
    | some mnB =>
      simp only [narrowNewMin, clampE, eval, hmn0]
      omega
  have hMinHigh : vMin ≤ vOld := by
    rw [hvMin]
    cases i2.min with
    | none => simp only [narrowNewMin, hmn0]; exact hOldGe
    | some mnB =>
      simp only [narrowNewMin, clampE, eval, hmn0, hoV0]
      omega
  refine ⟨hMinLow, ?_, ?_⟩
  · cases i2.max with
    | none =>
      simp only [narrowNewMax, eval, hmn10, hex10]
      rw [hvOld] at hMinHigh
      simp only [eval] at hMinHigh
      omega
    | some mxB =>
      simp only [narrowNewMax, clampE, eval, hnV1]
      omega
  · cases i2.max with
    | none =>
      simp only [narrowNewMax, eval, hmn10, hex10]
      rw [hvOld]
      simp only [eval]
      omega
    | some mxB =>
      simp only [narrowNewMax, clampE, eval, hnV1, hoV1]
      omega

/-- Witness for C10: a concrete narrowing with non-negative extent. -/
theorem c10_witness :
    (0 : Int) ≤ eval ci0 m0 r00 (.IntImm 100) ∧
    eval ci0 m0 r00 (.IntImm 0) ≤
      eval ci0 m0 (updEnv r00 "o" (eval ci0 m0 r00 (.Add (.IntImm 0) (.IntImm 100))))
        (narrowNewMin (.IntImm 0) (.Var i32 "o") (some (.IntImm 50))) :=
  ⟨by decide,
    (c10_narrowed_bounds_nested ci0 m0 r00 (.IntImm 0) (.IntImm 100)
      ⟨some (.IntImm 50), none⟩ "o" "n" (by decide) rfl rfl rfl rfl (by decide)).1⟩

/-! ### Events of pure expressions -/

mutual

/-- A pure expression produces no externally visible events. -/
def events_pure : ∀ (e : Expr) (ci : CallInterp) (m : Mem) (r : Env),
    pureE e = true → events ci m r e = []
  | .IntImm _, _, _, _, _ => rfl
  | .Var _ _, _, _, _, _ => rfl
  | .Add a b, ci, m, r, h => by
    simp only [pureE, Bool.and_eq_true] at h
    simp [events, events_pure a ci m r h.1, events_pure b ci m r h.2]
  | .Sub a b, ci, m, r, h => by
    simp only [pureE, Bool.and_eq_true] at h
    simp [events, events_pure a ci m r h.1, events_pure b ci m r h.2]
  | .Mul a b, ci, m, r, h => by
    simp only [pureE, Bool.and_eq_true] at h
    simp [events, events_pure a ci m r h.1, events_pure b ci m r h.2]
  | .MinE a b, ci, m, r, h => by
    simp only [pureE, Bool.and_eq_true] at h
    simp [events, events_pure a ci m r h.1, events_pure b ci m r h.2]
  | .MaxE a b, ci, m, r, h => by
    simp only [pureE, Bool.and_eq_true] at h
    simp [events, events_pure a ci m r h.1, events_pure b ci m r h.2]
  | .EQE a b, ci, m, r, h => by
    simp only [pureE, Bool.and_eq_true] at h
    simp [events, events_pure a ci m r h.1, events_pure b ci m r h.2]
  | .NEE a b, ci, m, r, h => by
    simp only [pureE, Bool.and_eq_true] at h
    simp [events, events_pure a ci m r h.1, events_pure b ci m r h.2]
  | .LTE a b, ci, m, r, h => by
    simp only [pureE, Bool.and_eq_true] at h
    simp [events, events_pure a ci m r h.1, events_pure b ci m r h.2]
  | .LEE a b, ci, m, r, h => by
    simp only [pureE, Bool.and_eq_true] at h
    simp [events, events_pure a ci m r h.1, events_pure b ci m r h.2]
  | .GTE a b, ci, m, r, h => by
    simp only [pureE, Bool.and_eq_true] at h
    simp [events, events_pure a ci m r h.1, events_pure b ci m r h.2]
  | .GEE a b, ci, m, r, h => by
    simp only [pureE, Bool.and_eq_true] at h
    simp [events, events_pure a ci m r h.1, events_pure b ci m r h.2]
  | .AndE a b, ci, m, r, h => by
    simp only [pureE, Bool.and_eq_true] at h
    simp [events, events_pure a ci m r h.1, events_pure b ci m r h.2]
  | .OrE a b, ci, m, r, h => by
    simp only [pureE, Bool.and_eq_true] at h
    simp [events, events_pure a ci m r h.1, events_pure b ci m r h.2]
  | .NotE a, ci, m, r, h => by
    simp only [pureE] at h
    simp [events, events_pure a ci m r h]
  | .LetE x v b, ci, m, r, h => by
    simp only [pureE, Bool.and_eq_true] at h
    simp [events, events_pure v ci m r h.1, events_pure b ci m _ h.2]
  | .Load _ _ i, ci, m, r, h => by
    simp only [pureE] at h
    simp [events, events_pure i ci m r h]
  | .Call t ct n args, ci, m, r, h => by
    simp only [pureE, Bool.and_eq_true] at h
    have hb : (ct == CallType.intrinsic && isBadName n) = false := by
      have := h.1
      cases q : (ct == CallType.intrinsic && isBadName n) with
      | false => rfl
      | true => rw [q] at this; exact absurd this (by decide)
    simp [events, eventsL_pure args ci m r h.2, hb]
termination_by structural e => e

def eventsL_pure : ∀ (l : ExprList) (ci : CallInterp) (m : Mem) (r : Env),
    pureEL l = true → eventsL ci m r l = []
  | .nil, _, _, _, _ => rfl
  | .cons e es, ci, m, r, h => by
    simp only [pureEL, Bool.and_eq_true] at h
    simp [eventsL, events_pure e ci m r h.1, eventsL_pure es ci m r h.2]
termination_by structural l => l

end

/-! ### Stripping identities preserves value -/

theorem eval_getD : ∀ (l : ExprList) (n : Nat) (d : Expr) (ci : CallInterp) (m : Mem) (r : Env),
    eval ci m r (l.getD n d) = (evalL ci m r l).getD n (eval ci m r d)
  | .nil, n, d, ci, m, r => by simp [ExprList.getD, evalL, List.getD]
  | .cons e es, 0, d, ci, m, r => by
    simp only [ExprList.getD, evalL, List.getD_cons_zero]
  | .cons e es, n + 1, d, ci, m, r => by
    simp only [ExprList.getD, evalL, List.getD_cons_succ]
    exact eval_getD es n d ci m r

theorem eval_getLastD : ∀ (l : ExprList) (d : Expr) (ci : CallInterp) (m : Mem) (r : Env),
    eval ci m r (l.getLastD d) = (evalL ci m r l).getLastD (eval ci m r d)
  | .nil, d, ci, m, r => by simp [ExprList.getLastD, evalL, List.getLastD]
  | .cons e .nil, d, ci, m, r => by simp [ExprList.getLastD, evalL, List.getLastD]
  | .cons e (.cons f fs), d, ci, m, r => by
    have ih := eval_getLastD (.cons f fs) d ci m r
    simp only [ExprList.getLastD, evalL] at *
    rw [ih]
    rcases q : evalL ci m r fs with _ | ⟨z, zs⟩ <;> simp [List.getLastD]

mutual

/-- `StripIdentities` preserves the value of every expression. -/
def eval_strip : ∀ (e : Expr) (ci : CallInterp) (m : Mem) (r : Env),
    eval ci m r (strip e) = eval ci m r e
  | .IntImm _, _, _, _ => rfl
  | .Var _ _, _, _, _ => rfl
  | .Add a b, ci, m, r => by
    simp [strip, eval, eval_strip a ci m r, eval_strip b ci m r]
  | .Sub a b, ci, m, r => by
    simp [strip, eval, eval_strip a ci m r, eval_strip b ci m r]
  | .Mul a b, ci, m, r => by
    simp [strip, eval, eval_strip a ci m r, eval_strip b ci m r]
  | .MinE a b, ci, m, r => by
    simp [strip, eval, eval_strip a ci m r, eval_strip b ci m r]
  | .MaxE a b, ci, m, r => by
    simp [strip, eval, eval_strip a ci m r, eval_strip b ci m r]
  | .EQE a b, ci, m, r => by
    simp [strip, eval, eval_strip a ci m r, eval_strip b ci m r]
  | .NEE a b, ci, m, r => by
    simp [strip, eval, eval_strip a ci m r, eval_strip b ci m r]
  | .LTE a b, ci, m, r => by
    simp [strip, eval, eval_strip a ci m r, eval_strip b ci m r]
  | .LEE a b, ci, m, r => by
    simp [strip, eval, eval_strip a ci m r, eval_strip b ci m r]
  | .GTE a b, ci, m, r => by
    simp [strip, eval, eval_strip a ci m r, eval_strip b ci m r]
  | .GEE a b, ci, m, r => by
    simp [strip, eval, eval_strip a ci m r, eval_strip b ci m r]
  | .AndE a b, ci, m, r => by
    simp [strip, eval, eval_strip a ci m r, eval_strip b ci m r]
  | .OrE a b, ci, m, r => by
    simp [strip, eval, eval_strip a ci m r, eval_strip b ci m r]
  | .NotE a, ci, m, r => by
    simp [strip, eval, eval_strip a ci m r]
  | .LetE x v b, ci, m, r => by
    simp [strip, eval, eval_strip v ci m r, eval_strip b ci m _]
  | .Load t n i, ci, m, r => by
    simp [strip, eval, eval_strip i ci m r]
  | .Call t ct n args, ci, m, r => by
    simp only [strip]
    split
    next hc =>
      rw [eval_getD, evalL_strip args ci m r]
      simp only [eval, hc]
      rfl
    next hc =>
      split
      next hc2 =>
        rw [eval_getLastD, evalL_strip args ci m r]
        simp only [eval, hc, hc2]
        rfl
      next hc2 =>
        simp only [eval, hc, hc2]
        rw [evalL_strip args ci m r]
termination_by structural e => e

def evalL_strip : ∀ (l : ExprList) (ci : CallInterp) (m : Mem) (r : Env),
    evalL ci m r (stripL l) = evalL ci m r l
  | .nil, _, _, _ => rfl
  | .cons e es, ci, m, r => by
    simp [stripL, evalL, eval_strip e ci m r, evalL_strip es ci m r]
termination_by structural l => l

end

/-! ### Memory and loop iteration helpers -/

theorem updMem_self (m : Mem) (nm : String) (i : Int) :
    updMem m nm i (m nm i) = m := by
  funext nm' i'
  simp only [updMem]
  split
  next h => rw [h.1, h.2]
  next => rfl

theorem iterFor_congr {f g : Int → Mem → Mem × List Event}
    (h : ∀ v m, f v m = g v m) : ∀ (k : Nat) (v : Int) (m : Mem),
    iterFor f v k m = iterFor g v k m := by
  intro k
  induction k with
  | zero => intro v m; rfl
  | succ k ih =>
    intro v m
    simp only [iterFor, h v m]
    rw [ih]

theorem iterFor_noop {f : Int → Mem → Mem × List Event} : ∀ (k : Nat) (v : Int) (m : Mem),
    (∀ j : Nat, j < k → f (v + j) m = (m, [])) → iterFor f v k m = (m, []) := by
  intro k
  induction k with
  | zero => intro v m _; rfl
  | succ k ih =>
    intro v m h
    have h0 : f v m = (m, []) := by
      have := h 0 (Nat.succ_pos k)
      simpa using this
    simp only [iterFor, h0]
    rw [ih (v + 1) m (fun j hj => by
      have := h (j + 1) (Nat.succ_lt_succ hj)
      rw [show v + 1 + (j : Int) = v + ((j : Int) + 1) by ring]
      simpa using this)]
    simp

theorem iterFor_split {f : Int → Mem → Mem × List Event} (k2 : Nat) : ∀ (k1 : Nat) (v : Int) (m : Mem),
    iterFor f v (k1 + k2) m =
      ((iterFor f (v + k1) k2 (iterFor f v k1 m).1).1,
        (iterFor f v k1 m).2 ++ (iterFor f (v + k1) k2 (iterFor f v k1 m).1).2) := by
  intro k1
  induction k1 with
  | zero =>
    intro v m
    simp [iterFor]
  | succ k ih =>
    intro v m
    rw [Nat.succ_add]
    simp only [iterFor]
    rw [ih (v + 1) (f v m).1]
    have hv : v + 1 + (k : Int) = v + ((k : Int) + 1) := by ring
    simp only [Nat.cast_add, Nat.cast_one, hv, List.append_assoc]

/-! ### Condition propagation for the no-op predicate -/

mutual

/-- Once the running condition is the constant false it stays false. -/
def noOpE_constFalse (E : Ext) : ∀ (e : Expr), noOpE E e constFalse = constFalse
  | .IntImm _ => rfl
  | .Var _ _ => rfl
  | .Add a b => by simp only [noOpE, noOpE_constFalse E a, noOpE_constFalse E b]
  | .Sub a b => by simp only [noOpE, noOpE_constFalse E a, noOpE_constFalse E b]
  | .Mul a b => by simp only [noOpE, noOpE_constFalse E a, noOpE_constFalse E b]
  | .MinE a b => by simp only [noOpE, noOpE_constFalse E a, noOpE_constFalse E b]
  | .MaxE a b => by simp only [noOpE, noOpE_constFalse E a, noOpE_constFalse E b]
  | .EQE a b => by simp only [noOpE, noOpE_constFalse E a, noOpE_constFalse E b]
  | .NEE a b => by simp only [noOpE, noOpE_constFalse E a, noOpE_constFalse E b]
  | .LTE a b => by simp only [noOpE, noOpE_constFalse E a, noOpE_constFalse E b]
  | .LEE a b => by simp only [noOpE, noOpE_constFalse E a, noOpE_constFalse E b]
  | .GTE a b => by simp only [noOpE, noOpE_constFalse E a, noOpE_constFalse E b]
  | .GEE a b => by simp only [noOpE, noOpE_constFalse E a, noOpE_constFalse E b]
  | .AndE a b => by simp only [noOpE, noOpE_constFalse E a, noOpE_constFalse E b]
  | .OrE a b => by simp only [noOpE, noOpE_constFalse E a, noOpE_constFalse E b]
  | .NotE a => by simp only [noOpE, noOpE_constFalse E a]
  | .LetE x v b => by
    simp only [noOpE, noOpE_constFalse E v, noOpE_constFalse E b]
    rfl
  | .Load _ _ i => by simp only [noOpE, noOpE_constFalse E i]
  | .Call t ct n args => by
    simp only [noOpE]
    split
    · rfl
    · exact noOpEL_constFalse E args
termination_by structural e => e

def noOpEL_constFalse (E : Ext) : ∀ (l : ExprList), noOpEL E l constFalse = constFalse
  | .nil => rfl
  | .cons e es => by
    simp only [noOpEL, noOpE_constFalse E e, noOpEL_constFalse E es]
termination_by structural l => l

end

mutual

/-- An impure expression forces the running condition to the constant
false. -/
def noOpE_impure (E : Ext) : ∀ (e : Expr) (c : Expr), pureE e = false →
    noOpE E e c = constFalse
  | .Add a b, c, h => by
    simp only [pureE, Bool.and_eq_false_iff] at h
    rcases h with h | h
    · simp only [noOpE, noOpE_impure E a c h, noOpEL_constFalse, noOpE_constFalse]
    · simp only [noOpE, noOpE_impure E b _ h]
  | .Sub a b, c, h => by
    simp only [pureE, Bool.and_eq_false_iff] at h
    rcases h with h | h
    · simp only [noOpE, noOpE_impure E a c h, noOpEL_constFalse, noOpE_constFalse]
    · simp only [noOpE, noOpE_impure E b _ h]
  | .Mul a b, c, h => by
    simp only [pureE, Bool.and_eq_false_iff] at h
    rcases h with h | h
    · simp only [noOpE, noOpE_impure E a c h, noOpEL_constFalse, noOpE_constFalse]
    · simp only [noOpE, noOpE_impure E b _ h]
  | .MinE a b, c, h => by
    simp only [pureE, Bool.and_eq_false_iff] at h
    rcases h with h | h
    · simp only [noOpE, noOpE_impure E a c h, noOpEL_constFalse, noOpE_constFalse]
    · simp only [noOpE, noOpE_impure E b _ h]
  | .MaxE a b, c, h => by
    simp only [pureE, Bool.and_eq_false_iff] at h
    rcases h with h | h
    · simp only [noOpE, noOpE_impure E a c h, noOpEL_constFalse, noOpE_constFalse]
    · simp only [noOpE, noOpE_impure E b _ h]
  | .EQE a b, c, h => by
    simp only [pureE, Bool.and_eq_false_iff] at h
    rcases h with h | h
    · simp only [noOpE, noOpE_impure E a c h, noOpEL_constFalse, noOpE_constFalse]
    · simp only [noOpE, noOpE_impure E b _ h]
  | .NEE a b, c, h => by
    simp only [pureE, Bool.and_eq_false_iff] at h
    rcases h with h | h
    · simp only [noOpE, noOpE_impure E a c h, noOpEL_constFalse, noOpE_constFalse]
    · simp only [noOpE, noOpE_impure E b _ h]
  | .LTE a b, c, h => by
    simp only [pureE, Bool.and_eq_false_iff] at h
    rcases h with h | h
    · simp only [noOpE, noOpE_impure E a c h, noOpEL_constFalse, noOpE_constFalse]
    · simp only [noOpE, noOpE_impure E b _ h]
  | .LEE a b, c, h => by
    simp only [pureE, Bool.and_eq_false_iff] at h
    rcases h with h | h
    · simp only [noOpE, noOpE_impure E a c h, noOpEL_constFalse, noOpE_constFalse]
    · simp only [noOpE, noOpE_impure E b _ h]
  | .GTE a b, c, h => by
    simp only [pureE, Bool.and_eq_false_iff] at h
    rcases h with h | h
    · simp only [noOpE, noOpE_impure E a c h, noOpEL_constFalse, noOpE_constFalse]
    · simp only [noOpE, noOpE_impure E b _ h]
  | .GEE a b, c, h => by
    simp only [pureE, Bool.and_eq_false_iff] at h
    rcases h with h | h
    · simp only [noOpE, noOpE_impure E a c h, noOpEL_constFalse, noOpE_constFalse]
    · simp only [noOpE, noOpE_impure E b _ h]
  | .AndE a b, c, h => by
    simp only [pureE, Bool.and_eq_false_iff] at h
    rcases h with h | h
    · simp only [noOpE, noOpE_impure E a c h, noOpEL_constFalse, noOpE_constFalse]
    · simp only [noOpE, noOpE_impure E b _ h]
  | .OrE a b, c, h => by
    simp only [pureE, Bool.and_eq_false_iff] at h
    rcases h with h | h
    · simp only [noOpE, noOpE_impure E a c h, noOpEL_constFalse, noOpE_constFalse]
    · simp only [noOpE, noOpE_impure E b _ h]
  | .NotE a, c, h => by
    simp only [pureE] at h
    simp only [noOpE, noOpE_impure E a c h]
  | .LetE x v b, c, h => by
    simp only [pureE, Bool.and_eq_false_iff] at h
    have hc2 : noOpE E b (noOpE E v c) = constFalse := by
      rcases h with h | h
      · rw [noOpE_impure E v c h, noOpE_constFalse E b]
      · exact noOpE_impure E b _ h
    simp only [noOpE, hc2]
    rfl
  | .Load _ _ i, c, h => by
    simp only [pureE] at h
    simp only [noOpE, noOpE_impure E i c h]
  | .Call t ct n args, c, h => by
    simp only [pureE, Bool.and_eq_false_iff] at h
    simp only [noOpE]
    split
    next => rfl
    next hcond =>
      rcases h with h | h
      · exfalso
        have hX : (ct == CallType.intrinsic && isBadName n) = true := by
          simpa using h
        exact hcond hX
      · exact noOpEL_impure E args c h
termination_by structural e => e

def noOpEL_impure (E : Ext) : ∀ (l : ExprList) (c : Expr), pureEL l = false →
    noOpEL E l c = constFalse
  | .cons e es, c, h => by
    simp only [pureEL, Bool.and_eq_false_iff] at h
    rcases h with h | h
    · simp only [noOpEL, noOpE_impure E e c h, noOpEL_constFalse]
    · simp only [noOpEL, noOpEL_impure E es _ h]
termination_by structural l => l

end

mutual

/-- If the no-op condition after traversing an expression holds, the
incoming condition already held (hygiene: the expression binders are
distinct and capture nothing). -/
def noOpECond (E : Ext) (hE : ExtOk E) :
    ∀ (e : Expr) (c : Expr) (ci : CallInterp) (m : Mem) (r : Env),
    (bnE e).Nodup → (∀ y ∈ bnE e, usesVar c y = false ∧ y ∉ fvE e) →
    eval ci m r (noOpE E e c) ≠ 0 → eval ci m r c ≠ 0
  | .IntImm _, _, _, _, _, _, _, h => h
  | .Var _ _, _, _, _, _, _, _, h => h
  | .Add a b, c, ci, m, r, hnd, hbn, h => by
    simp only [noOpE] at h
    simp only [bnE] at hnd hbn
    simp only [fvE] at hbn
    have hA := fun (hh : eval ci m r (noOpE E a c) ≠ 0) =>
      noOpECond E hE a c ci m r hnd.of_append_left
        (fun y hy => ⟨(hbn y (List.mem_append_left _ hy)).1,
          fun q => (hbn y (List.mem_append_left _ hy)).2 (List.mem_append_left _ q)⟩) hh
    have hB := noOpECond E hE b (noOpE E a c) ci m r hnd.of_append_right
      (fun y hy => ⟨noOpE_fv E hE a c y (hbn y (List.mem_append_right _ hy)).1
          (fun q => (hbn y (List.mem_append_right _ hy)).2 (List.mem_append_left _ q)),
        fun q => (hbn y (List.mem_append_right _ hy)).2 (List.mem_append_right _ q)⟩)
    exact hA (hB h)
  | .Sub a b, c, ci, m, r, hnd, hbn, h => by
    simp only [noOpE] at h
    simp only [bnE] at hnd hbn
    simp only [fvE] at hbn
    have hA := fun (hh : eval ci m r (noOpE E a c) ≠ 0) =>
      noOpECond E hE a c ci m r hnd.of_append_left
        (fun y hy => ⟨(hbn y (List.mem_append_left _ hy)).1,
          fun q => (hbn y (List.mem_append_left _ hy)).2 (List.mem_append_left _ q)⟩) hh
    have hB := noOpECond E hE b (noOpE E a c) ci m r hnd.of_append_right
      (fun y hy => ⟨noOpE_fv E hE a c y (hbn y (List.mem_append_right _ hy)).1
          (fun q => (hbn y (List.mem_append_right _ hy)).2 (List.mem_append_left _ q)),
        fun q => (hbn y (List.mem_append_right _ hy)).2 (List.mem_append_right _ q)⟩)
    exact hA (hB h)
  | .Mul a b, c, ci, m, r, hnd, hbn, h => by
    simp only [noOpE] at h
    simp only [bnE] at hnd hbn
    simp only [fvE] at hbn
    have hA := fun (hh : eval ci m r (noOpE E a c) ≠ 0) =>
      noOpECond E hE a c ci m r hnd.of_append_left
        (fun y hy => ⟨(hbn y (List.mem_append_left _ hy)).1,
          fun q => (hbn y (List.mem_append_left _ hy)).2 (List.mem_append_left _ q)⟩) hh
    have hB := noOpECond E hE b (noOpE E a c) ci m r hnd.of_append_right
      (fun y hy => ⟨noOpE_fv E hE a c y (hbn y (List.mem_append_right _ hy)).1
          (fun q => (hbn y (List.mem_append_right _ hy)).2 (List.mem_append_left _ q)),
        fun q => (hbn y (List.mem_append_right _ hy)).2 (List.mem_append_right _ q)⟩)
    exact hA (hB h)
  | .MinE a b, c, ci, m, r, hnd, hbn, h => by
    simp only [noOpE] at h
    simp only [bnE] at hnd hbn
    simp only [fvE] at hbn
    have hA := fun (hh : eval ci m r (noOpE E a c) ≠ 0) =>
      noOpECond E hE a c ci m r hnd.of_append_left
        (fun y hy => ⟨(hbn y (List.mem_append_left _ hy)).1,
          fun q => (hbn y (List.mem_append_left _ hy)).2 (List.mem_append_left _ q)⟩) hh
    have hB := noOpECond E hE b (noOpE E a c) ci m r hnd.of_append_right
      (fun y hy => ⟨noOpE_fv E hE a c y (hbn y (List.mem_append_right _ hy)).1
          (fun q => (hbn y (List.mem_append_right _ hy)).2 (List.mem_append_left _ q)),
        fun q => (hbn y (List.mem_append_right _ hy)).2 (List.mem_append_right _ q)⟩)
    exact hA (hB h)
  | .MaxE a b, c, ci, m, r, hnd, hbn, h => by
    simp only [noOpE] at h
    simp only [bnE] at hnd hbn
    simp only [fvE] at hbn
    have hA := fun (hh : eval ci m r (noOpE E a c) ≠ 0) =>
      noOpECond E hE a c ci m r hnd.of_append_left
        (fun y hy => ⟨(hbn y (List.mem_append_left _ hy)).1,
          fun q => (hbn y (List.mem_append_left _ hy)).2 (List.mem_append_left _ q)⟩) hh
    have hB := noOpECond E hE b (noOpE E a c) ci m r hnd.of_append_right
      (fun y hy => ⟨noOpE_fv E hE a c y (hbn y (List.mem_append_right _ hy)).1
          (fun q => (hbn y (List.mem_append_right _ hy)).2 (List.mem_append_left _ q)),
        fun q => (hbn y (List.mem_append_right _ hy)).2 (List.mem_append_right _ q)⟩)
    exact hA (hB h)
  | .EQE a b, c, ci, m, r, hnd, hbn, h => by
    simp only [noOpE] at h
    simp only [bnE] at hnd hbn
    simp only [fvE] at hbn
    have hA := fun (hh : eval ci m r (noOpE E a c) ≠ 0) =>
      noOpECond E hE a c ci m r hnd.of_append_left
        (fun y hy => ⟨(hbn y (List.mem_append_left _ hy)).1,
          fun q => (hbn y (List.mem_append_left _ hy)).2 (List.mem_append_left _ q)⟩) hh
    have hB := noOpECond E hE b (noOpE E a c) ci m r hnd.of_append_right
      (fun y hy => ⟨noOpE_fv E hE a c y (hbn y (List.mem_append_right _ hy)).1
          (fun q => (hbn y (List.mem_append_right _ hy)).2 (List.mem_append_left _ q)),
        fun q => (hbn y (List.mem_append_right _ hy)).2 (List.mem_append_right _ q)⟩)
    exact hA (hB h)
  | .NEE a b, c, ci, m, r, hnd, hbn, h => by
    simp only [noOpE] at h
    simp only [bnE] at hnd hbn
    simp only [fvE] at hbn
    have hA := fun (hh : eval ci m r (noOpE E a c) ≠ 0) =>
      noOpECond E hE a c ci m r hnd.of_append_left
        (fun y hy => ⟨(hbn y (List.mem_append_left _ hy)).1,
          fun q => (hbn y (List.mem_append_left _ hy)).2 (List.mem_append_left _ q)⟩) hh
    have hB := noOpECond E hE b (noOpE E a c) ci m r hnd.of_append_right
      (fun y hy => ⟨noOpE_fv E hE a c y (hbn y (List.mem_append_right _ hy)).1
          (fun q => (hbn y (List.mem_append_right _ hy)).2 (List.mem_append_left _ q)),
        fun q => (hbn y (List.mem_append_right _ hy)).2 (List.mem_append_right _ q)⟩)
    exact hA (hB h)
  | .LTE a b, c, ci, m, r, hnd, hbn, h => by
    simp only [noOpE] at h
    simp only [bnE] at hnd hbn
    simp only [fvE] at hbn
    have hA := fun (hh : eval ci m r (noOpE E a c) ≠ 0) =>
      noOpECond E hE a c ci m r hnd.of_append_left
        (fun y hy => ⟨(hbn y (List.mem_append_left _ hy)).1,
          fun q => (hbn y (List.mem_append_left _ hy)).2 (List.mem_append_left _ q)⟩) hh
    have hB := noOpECond E hE b (noOpE E a c) ci m r hnd.of_append_right
      (fun y hy => ⟨noOpE_fv E hE a c y (hbn y (List.mem_append_right _ hy)).1
          (fun q => (hbn y (List.mem_append_right _ hy)).2 (List.mem_append_left _ q)),
        fun q => (hbn y (List.mem_append_right _ hy)).2 (List.mem_append_right _ q)⟩)
    exact hA (hB h)
  | .LEE a b, c, ci, m, r, hnd, hbn, h => by
    simp only [noOpE] at h
    simp only [bnE] at hnd hbn
    simp only [fvE] at hbn
    have hA := fun (hh : eval ci m r (noOpE E a c) ≠ 0) =>
      noOpECond E hE a c ci m r hnd.of_append_left
        (fun y hy => ⟨(hbn y (List.mem_append_left _ hy)).1,
          fun q => (hbn y (List.mem_append_left _ hy)).2 (List.mem_append_left _ q)⟩) hh
    have hB := noOpECond E hE b (noOpE E a c) ci m r hnd.of_append_right
      (fun y hy => ⟨noOpE_fv E hE a c y (hbn y (List.mem_append_right _ hy)).1
          (fun q => (hbn y (List.mem_append_right _ hy)).2 (List.mem_append_left _ q)),
        fun q => (hbn y (List.mem_append_right _ hy)).2 (List.mem_append_right _ q)⟩)
    exact hA (hB h)
  | .GTE a b, c, ci, m, r, hnd, hbn, h => by
    simp only [noOpE] at h
    simp only [bnE] at hnd hbn
    simp only [fvE] at hbn
    have hA := fun (hh : eval ci m r (noOpE E a c) ≠ 0) =>
      noOpECond E hE a c ci m r hnd.of_append_left
        (fun y hy => ⟨(hbn y (List.mem_append_left _ hy)).1,
          fun q => (hbn y (List.mem_append_left _ hy)).2 (List.mem_append_left _ q)⟩) hh
    have hB := noOpECond E hE b (noOpE E a c) ci m r hnd.of_append_right
      (fun y hy => ⟨noOpE_fv E hE a c y (hbn y (List.mem_append_right _ hy)).1
          (fun q => (hbn y (List.mem_append_right _ hy)).2 (List.mem_append_left _ q)),
        fun q => (hbn y (List.mem_append_right _ hy)).2 (List.mem_append_right _ q)⟩)
    exact hA (hB h)
  | .GEE a b, c, ci, m, r, hnd, hbn, h => by
    simp only [noOpE] at h
    simp only [bnE] at hnd hbn
    simp only [fvE] at hbn
    have hA := fun (hh : eval ci m r (noOpE E a c) ≠ 0) =>
      noOpECond E hE a c ci m r hnd.of_append_left
        (fun y hy => ⟨(hbn y (List.mem_append_left _ hy)).1,
          fun q => (hbn y (List.mem_append_left _ hy)).2 (List.mem_append_left _ q)⟩) hh
    have hB := noOpECond E hE b (noOpE E a c) ci m r hnd.of_append_right
      (fun y hy => ⟨noOpE_fv E hE a c y (hbn y (List.mem_append_right _ hy)).1
          (fun q => (hbn y (List.mem_append_right _ hy)).2 (List.mem_append_left _ q)),
        fun q => (hbn y (List.mem_append_right _ hy)).2 (List.mem_append_right _ q)⟩)
    exact hA (hB h)
  | .AndE a b, c, ci, m, r, hnd, hbn, h => by
    simp only [noOpE] at h
    simp only [bnE] at hnd hbn
    simp only [fvE] at hbn
    have hA := fun (hh : eval ci m r (noOpE E a c) ≠ 0) =>
      noOpECond E hE a c ci m r hnd.of_append_left
        (fun y hy => ⟨(hbn y (List.mem_append_left _ hy)).1,
          fun q => (hbn y (List.mem_append_left _ hy)).2 (List.mem_append_left _ q)⟩) hh
    have hB := noOpECond E hE b (noOpE E a c) ci m r hnd.of_append_right
      (fun y hy => ⟨noOpE_fv E hE a c y (hbn y (List.mem_append_right _ hy)).1
          (fun q => (hbn y (List.mem_append_right _ hy)).2 (List.mem_append_left _ q)),
        fun q => (hbn y (List.mem_append_right _ hy)).2 (List.mem_append_right _ q)⟩)
    exact hA (hB h)
  | .OrE a b, c, ci, m, r, hnd, hbn, h => by
    simp only [noOpE] at h
    simp only [bnE] at hnd hbn
    simp only [fvE] at hbn
    have hA := fun (hh : eval ci m r (noOpE E a c) ≠ 0) =>
      noOpECond E hE a c ci m r hnd.of_append_left
        (fun y hy => ⟨(hbn y (List.mem_append_left _ hy)).1,
          fun q => (hbn y (List.mem_append_left _ hy)).2 (List.mem_append_left _ q)⟩) hh
    have hB := noOpECond E hE b (noOpE E a c) ci m r hnd.of_append_right
      (fun y hy => ⟨noOpE_fv E hE a c y (hbn y (List.mem_append_right _ hy)).1
          (fun q => (hbn y (List.mem_append_right _ hy)).2 (List.mem_append_left _ q)),
        fun q => (hbn y (List.mem_append_right _ hy)).2 (List.mem_append_right _ q)⟩)
    exact hA (hB h)
  | .NotE a, c, ci, m, r, hnd, hbn, h => by
    simp only [noOpE] at h
    simp only [bnE] at hnd hbn
    simp only [fvE] at hbn
    exact noOpECond E hE a c ci m r hnd hbn h
  | .Load _ _ i, c, ci, m, r, hnd, hbn, h => by
    simp only [noOpE] at h
    simp only [bnE] at hnd hbn
    simp only [fvE] at hbn
    exact noOpECond E hE i c ci m r hnd hbn h
  | .LetE x v b, c, ci, m, r, hnd, hbn, h => by
    simp only [noOpE] at h
    have hx := hbn x (by simp [bnE])
    have hnd0 : (x :: (bnE v ++ bnE b)).Nodup := hnd
    have hnd' := List.nodup_cons.mp hnd0
    have hndv : (bnE v).Nodup := hnd'.2.of_append_left
    have hndb : (bnE b).Nodup := hnd'.2.of_append_right
    have hmemv : ∀ y, y ∈ bnE v → y ∈ bnE (Expr.LetE x v b) := by
      intro y hy
      simp only [bnE, List.mem_cons, List.mem_append]
      exact Or.inr (Or.inl hy)
    have hmemb : ∀ y, y ∈ bnE b → y ∈ bnE (Expr.LetE x v b) := by
      intro y hy
      simp only [bnE, List.mem_cons, List.mem_append]
      exact Or.inr (Or.inr hy)
    have hfvv : ∀ y, y ∈ fvE v → y ∈ fvE (Expr.LetE x v b) := by
      intro y hy
      simp only [fvE, List.mem_append]
      exact Or.inl hy
    have hbv : ∀ y ∈ bnE v, usesVar c y = false ∧ y ∉ fvE v := fun y hy =>
      ⟨(hbn y (hmemv y hy)).1, fun q => (hbn y (hmemv y hy)).2 (hfvv y q)⟩
    have hbb : ∀ y ∈ bnE b, usesVar (noOpE E v c) y = false ∧ y ∉ fvE b := by
      intro y hy
      have hyy := hbn y (hmemb y hy)
      have hyx : y ≠ x := fun q => hnd'.1 (q ▸ List.mem_append_right _ hy)
      refine ⟨noOpE_fv E hE v c y hyy.1 (fun q => hyy.2 (hfvv y q)), fun q => ?_⟩
      apply hyy.2
      simp only [fvE, List.mem_append, List.mem_filter]
      exact Or.inr ⟨q, by simp [hyx]⟩
    by_cases hw : usesVar (noOpE E b (noOpE E v c)) x = true
    · rw [if_pos hw] at h
      simp only [eval] at h
      have h1 := noOpECond E hE b (noOpE E v c) ci m
        (updEnv r x (eval ci m r v)) hndb hbb h
      have h2 := noOpECond E hE v c ci m (updEnv r x (eval ci m r v)) hndv hbv h1
      rwa [eval_updEnv_notUses hx.1] at h2
    · rw [if_neg hw] at h
      have h1 := noOpECond E hE b (noOpE E v c) ci m r hndb hbb h
      exact noOpECond E hE v c ci m r hndv hbv h1
  | .Call t ct n args, c, ci, m, r, hnd, hbn, h => by
    simp only [noOpE] at h
    split at h
    · exact absurd (show eval ci m r constFalse = 0 from rfl) h
    · simp only [bnE] at hnd hbn
      simp only [fvE] at hbn
      exact noOpELCond E hE args c ci m r hnd hbn h
termination_by structural e => e

def noOpELCond (E : Ext) (hE : ExtOk E) :
    ∀ (l : ExprList) (c : Expr) (ci : CallInterp) (m : Mem) (r : Env),
    (bnEL l).Nodup → (∀ y ∈ bnEL l, usesVar c y = false ∧ y ∉ fvEL l) →
    eval ci m r (noOpEL E l c) ≠ 0 → eval ci m r c ≠ 0
  | .nil, _, _, _, _, _, _, h => h
  | .cons e es, c, ci, m, r, hnd, hbn, h => by
    simp only [noOpEL] at h
    simp only [bnEL] at hnd hbn
    simp only [fvEL] at hbn
    have hB := noOpELCond E hE es (noOpE E e c) ci m r hnd.of_append_right
      (fun y hy => ⟨noOpE_fv E hE e c y (hbn y (List.mem_append_right _ hy)).1
          (fun q => (hbn y (List.mem_append_right _ hy)).2 (List.mem_append_left _ q)),
        fun q => (hbn y (List.mem_append_right _ hy)).2 (List.mem_append_right _ q)⟩) h
    exact noOpECond E hE e c ci m r hnd.of_append_left
      (fun y hy => ⟨(hbn y (List.mem_append_left _ hy)).1,
        fun q => (hbn y (List.mem_append_left _ hy)).2 (List.mem_append_left _ q)⟩) hB
termination_by structural l => l

end

/-- Soundness of the no-op predicate: when the accumulated condition
evaluates true, the incoming condition already held and executing the
statement leaves the memory unchanged and emits no events.  Hygiene: the
statement is well-formed, its binders are distinct, and no binder occurs in
the incoming condition or free in the statement. -/
def noOpSSound (E : Ext) (hE : ExtOk E) :
    ∀ (s : Stmt) (c : Expr) (ci : CallInterp) (m : Mem) (r : Env),
    WFS s = true → (bnS s).Nodup →
    (∀ y ∈ bnS s, usesVar c y = false ∧ y ∉ fvS s) →
    eval ci m r (noOpS E s c) ≠ 0 →
    eval ci m r c ≠ 0 ∧ exec ci r m s = (m, [])
  | .Store nm v idx, c, ci, m, r, hwf, _, _, h => by
    simp only [WFS, Bool.and_eq_true] at hwf
    simp only [noOpS] at h
    split at h
    · exact absurd (show eval ci m r constFalse = 0 from rfl) h
    · rw [eval_makeAnd] at h
      refine ⟨h.1, ?_⟩
      have hL := hE.acd_empty ci m r _ h.2
      rw [eval_strip] at hL
      simp only [eval] at hL
      have heq : m nm (eval ci m r idx) = eval ci m r v := by
        by_contra hne
        simp [hne] at hL
      simp only [exec]
      rw [events_pure v ci m r hwf.1, events_pure idx ci m r hwf.2, ← heq, updMem_self]
      rfl
  | .For x mn ex ft da body, c, ci, m, r, hwf, hnd, hbn, h => by
    simp only [WFS, Bool.and_eq_true] at hwf
    simp only [noOpS] at h
    rw [eval_makeAnd] at h
    obtain ⟨hc, hOr⟩ := h
    rw [eval_makeOr] at hOr
    refine ⟨hc, ?_⟩
    simp only [exec]
    rw [events_pure mn ci m r hwf.1.1, events_pure ex ci m r hwf.1.2]
    suffices hIter : iterFor (fun v m' => exec ci (updEnv r x v) m' body)
        (eval ci m r mn) (eval ci m r ex).toNat m = (m, []) by
      rw [hIter]
      rfl
    rcases hOr with hA | hB
    · apply iterFor_noop
      intro j hj
      have hjext : (j : Int) < eval ci m r ex := by omega
      have hmin : eval ci m r mn ≤ eval ci m r mn + (j : Int) := by omega
      have hmax : eval ci m r mn + (j : Int) ≤
          eval ci m r (.Sub (.Add mn ex) (.IntImm 1)) := by
        simp only [eval]
        omega
      have hbc := hE.acd_single ci m r _ x
        ⟨some mn, some (.Sub (.Add mn ex) (.IntImm 1))⟩ (eval ci m r mn + (j : Int)) hA
        (by intro bb hb; rw [Option.mem_def, Option.some.injEq] at hb; subst hb; exact hmin)
        (by intro bb hb; rw [Option.mem_def, Option.some.injEq] at hb; subst hb; exact hmax)
      rw [hE.simpE_eval, hE.cse_eval] at hbc
      have hnd0 : (x :: (bnE mn ++ bnE ex ++ bnS body)).Nodup := hnd
      have hnd' := List.nodup_cons.mp hnd0
      have hndB : (bnS body).Nodup := hnd'.2.of_append_right
      have hbnB : ∀ y ∈ bnS body, usesVar constTrue y = false ∧ y ∉ fvS body := by
        intro y hy
        have hyy := hbn y (by
          simp only [bnS, List.mem_cons, List.mem_append]
          exact Or.inr (Or.inr hy))
        have hyx : y ≠ x := fun q => hnd'.1 (q ▸ List.mem_append_right _ hy)
        refine ⟨usesVar_constTrue y, fun q => ?_⟩
        apply hyy.2
        simp only [fvS, List.mem_append, List.mem_filter]
        exact Or.inr ⟨q, by simp [hyx]⟩
      exact (noOpSSound E hE body constTrue ci m (updEnv r x (eval ci m r mn + (j : Int)))
        hwf.2 hndB hbnB hbc).2
    · rw [hE.simpE_eval] at hB
      simp only [eval] at hB
      have hle : eval ci m r ex ≤ 0 := by
        by_contra q
        simp [q] at hB
      rw [Int.toNat_of_nonpos hle]
      rfl
  | .IfThen cnd t, c, ci, m, r, hwf, hnd, hbn, h => by
    simp only [WFS, Bool.and_eq_true] at hwf
    simp only [noOpS] at h
    rw [eval_makeAnd] at h
    obtain ⟨hc, hOr⟩ := h
    rw [eval_makeOr] at hOr
    refine ⟨hc, ?_⟩
    simp only [exec]
    by_cases hcv : eval ci m r cnd ≠ 0
    · rw [if_pos hcv]
      have htc : eval ci m r (noOpS E t constTrue) ≠ 0 := by
        rcases hOr with hN | hT
        · exfalso
          apply hN
          simp only [eval]
          rw [if_pos hcv]
        · exact hT
      have hbnT : ∀ y ∈ bnS t, usesVar constTrue y = false ∧ y ∉ fvS t := by
        intro y hy
        have hyy := hbn y (by
          simp only [bnS, List.mem_append]
          exact Or.inr hy)
        refine ⟨usesVar_constTrue y, fun q => ?_⟩
        apply hyy.2
        simp only [fvS, List.mem_append]
        exact Or.inr q
      have IH := (noOpSSound E hE t constTrue ci m r hwf.2 hnd.of_append_right hbnT htc).2
      rw [IH, events_pure cnd ci m r hwf.1]
      rfl
    · rw [if_neg hcv]
      rw [events_pure cnd ci m r hwf.1]
  | .IfThenElse cnd t e, c, ci, m, r, hwf, hnd, hbn, h => by
    simp only [WFS, Bool.and_eq_true] at hwf
    simp only [noOpS] at h
    rw [eval_makeAnd] at h
    obtain ⟨h1, hOrE⟩ := h
    rw [eval_makeAnd] at h1
    obtain ⟨hc, hOrT⟩ := h1
    rw [eval_makeOr] at hOrT
    rw [eval_makeOr] at hOrE
    refine ⟨hc, ?_⟩
    simp only [exec]
    have hnd0 : ((bnE cnd ++ bnS t) ++ bnS e).Nodup := hnd
    by_cases hcv : eval ci m r cnd ≠ 0
    · rw [if_pos hcv]
      have htc : eval ci m r (noOpS E t constTrue) ≠ 0 := by
        rcases hOrT with hN | hT
        · exfalso
          apply hN
          simp only [eval]
          rw [if_pos hcv]
        · exact hT
      have hbnT : ∀ y ∈ bnS t, usesVar constTrue y = false ∧ y ∉ fvS t := by
        intro y hy
        have hyy := hbn y (by
          simp only [bnS, List.mem_append]
          exact Or.inl (Or.inr hy))
        refine ⟨usesVar_constTrue y, fun q => ?_⟩
        apply hyy.2
        simp only [fvS, List.mem_append]
        exact Or.inl (Or.inr q)
      have IH := (noOpSSound E hE t constTrue ci m r hwf.1.2
        hnd0.of_append_left.of_append_right hbnT htc).2
      rw [IH, events_pure cnd ci m r hwf.1.1]
      rfl
    · rw [if_neg hcv]
      have hec : eval ci m r (noOpS E e constTrue) ≠ 0 := by
        rcases hOrE with hN | hT
        · exact absurd (not_not.mp hcv) hN
        · exact hT
      have hbnE2 : ∀ y ∈ bnS e, usesVar constTrue y = false ∧ y ∉ fvS e := by
        intro y hy
        have hyy := hbn y (by
          simp only [bnS, List.mem_append]
          exact Or.inr hy)
        refine ⟨usesVar_constTrue y, fun q => ?_⟩
        apply hyy.2
        simp only [fvS, List.mem_append]
        exact Or.inr q
      have IH := (noOpSSound E hE e constTrue ci m r hwf.2
        hnd0.of_append_right hbnE2 hec).2
      rw [IH, events_pure cnd ci m r hwf.1.1]
      rfl
  | .LetStmt x v b, c, ci, m, r, hwf, hnd, hbn, h => by
    simp only [WFS, Bool.and_eq_true] at hwf
    simp only [noOpS] at h
    have hx := hbn x (by simp [bnS])
    have hnd0 : (x :: (bnE v ++ bnS b)).Nodup := hnd
    have hnd' := List.nodup_cons.mp hnd0
    have hndv : (bnE v).Nodup := hnd'.2.of_append_left
    have hndb : (bnS b).Nodup := hnd'.2.of_append_right
    have hmemv : ∀ y, y ∈ bnE v → y ∈ bnS (Stmt.LetStmt x v b) := by
      intro y hy
      simp only [bnS, List.mem_cons, List.mem_append]
      exact Or.inr (Or.inl hy)
    have hmemb : ∀ y, y ∈ bnS b → y ∈ bnS (Stmt.LetStmt x v b) := by
      intro y hy
      simp only [bnS, List.mem_cons, List.mem_append]
      exact Or.inr (Or.inr hy)
    have hfvv : ∀ y, y ∈ fvE v → y ∈ fvS (Stmt.LetStmt x v b) := by
      intro y hy
      simp only [fvS, List.mem_append]
      exact Or.inl hy
    have hbv : ∀ y ∈ bnE v, usesVar c y = false ∧ y ∉ fvE v := fun y hy =>
      ⟨(hbn y (hmemv y hy)).1, fun q => (hbn y (hmemv y hy)).2 (hfvv y q)⟩
    have hbb : ∀ y ∈ bnS b, usesVar (noOpE E v c) y = false ∧ y ∉ fvS b := by
      intro y hy
      have hyy := hbn y (hmemb y hy)
      have hyx : y ≠ x := fun q => hnd'.1 (q ▸ List.mem_append_right _ hy)
      refine ⟨noOpE_fv E hE v c y hyy.1 (fun q => hyy.2 (hfvv y q)), fun q => ?_⟩
      apply hyy.2
      simp only [fvS, List.mem_append, List.mem_filter]
      exact Or.inr ⟨q, by simp [hyx]⟩
    by_cases hw : usesVar (noOpS E b (noOpE E v c)) x = true
    · rw [if_pos hw] at h
      simp only [eval] at h
      have IH := noOpSSound E hE b (noOpE E v c) ci m
        (updEnv r x (eval ci m r v)) hwf.2 hndb hbb h
      have h2 := noOpECond E hE v c ci m (updEnv r x (eval ci m r v)) hndv hbv IH.1
      refine ⟨by rwa [eval_updEnv_notUses hx.1] at h2, ?_⟩
      simp only [exec]
      rw [events_pure v ci m r hwf.1, IH.2]
      rfl
    · rw [if_neg hw] at h
      have hxf : usesVar (noOpS E b (noOpE E v c)) x = false := Bool.eq_false_iff.mpr hw
      have h' : eval ci m (updEnv r x (eval ci m r v)) (noOpS E b (noOpE E v c)) ≠ 0 := by
        rwa [eval_updEnv_notUses hxf]
      have IH := noOpSSound E hE b (noOpE E v c) ci m
        (updEnv r x (eval ci m r v)) hwf.2 hndb hbb h'
      have h2 := noOpECond E hE v c ci m (updEnv r x (eval ci m r v)) hndv hbv IH.1
      refine ⟨by rwa [eval_updEnv_notUses hx.1] at h2, ?_⟩
      simp only [exec]
      rw [events_pure v ci m r hwf.1, IH.2]
      rfl
  | .Evaluate e, c, ci, m, r, _, hnd, hbn, h => by
    simp only [noOpS] at h
    by_cases hp : pureE e = true
    · refine ⟨noOpECond E hE e c ci m r hnd
        (fun y hy => ⟨(hbn y hy).1, (hbn y hy).2⟩) h, ?_⟩
      simp only [exec]
      rw [events_pure e ci m r hp]
    · rw [noOpE_impure E e c (Bool.eq_false_iff.mpr hp)] at h
      exact absurd (show eval ci m r constFalse = 0 from rfl) h
  | .Block a b, c, ci, m, r, hwf, hnd, hbn, h => by
    simp only [WFS, Bool.and_eq_true] at hwf
    simp only [noOpS] at h
    have hnd0 : (bnS a ++ bnS b).Nodup := hnd
    have hbnb : ∀ y ∈ bnS b, usesVar (noOpS E a c) y = false ∧ y ∉ fvS b := by
      intro y hy
      have hyy := hbn y (by
        simp only [bnS, List.mem_append]
        exact Or.inr hy)
      refine ⟨noOpS_fv E hE a c y hyy.1
        (fun q => hyy.2 (by
          simp only [fvS, List.mem_append]
          exact Or.inl q)), fun q => ?_⟩
      apply hyy.2
      simp only [fvS, List.mem_append]
      exact Or.inr q
    have hbna : ∀ y ∈ bnS a, usesVar c y = false ∧ y ∉ fvS a := by
      intro y hy
      have hyy := hbn y (by
        simp only [bnS, List.mem_append]
        exact Or.inl hy)
      refine ⟨hyy.1, fun q => ?_⟩
      apply hyy.2
      simp only [fvS, List.mem_append]
      exact Or.inl q
    have IHb := noOpSSound E hE b (noOpS E a c) ci m r hwf.2 hnd0.of_append_right hbnb h
    have IHa := noOpSSound E hE a c ci m r hwf.1 hnd0.of_append_left hbna IHb.1
    refine ⟨IHa.1, ?_⟩
    simp only [exec]
    rw [IHa.2, IHb.2]
    rfl

/-! ### The contracts hold for the default collaborator pack -/

theorem foldStep_eval (ci : CallInterp) (m : Mem) (r : Env) (e : Expr) :
    eval ci m r (foldStep e) = eval ci m r e := by
  unfold foldStep
  split
  · rfl
  · rfl
  · rfl
  · rfl
  · rfl
  · rename_i a b
    by_cases h : a < b <;> simp [eval, h]
  · rename_i a b
    by_cases h : a ≤ b <;> simp [eval, h]
  · rename_i a b
    by_cases h : b < a <;> simp [eval, h]
  · rename_i a b
    by_cases h : b ≤ a <;> simp [eval, h]
  · rename_i a b
    by_cases h : a = b <;> simp [eval, h]
  · rename_i a b
    by_cases hq : Expr.beq a b = true
    · cases Expr.beq_eq a b hq
      simp [hq, eval]
    · simp [hq]
  · rename_i v
    by_cases h : v = 0 <;> simp [eval, h]
  · rename_i t a b
    simp only [eval]
    by_cases h : eval ci m r b ≤ eval ci m r a
    · simp [h, not_lt.mpr h]
    · simp [h, not_le.mp h]
  · rfl

mutual

def foldE_eval : ∀ (e : Expr) (ci : CallInterp) (m : Mem) (r : Env),
    eval ci m r (foldE e) = eval ci m r e
  | .IntImm _, _, _, _ => rfl
  | .Var _ _, _, _, _ => rfl
  | .Add a b, ci, m, r => by
    simp only [foldE, foldStep_eval, eval, foldE_eval a ci m r, foldE_eval b ci m r]
  | .Sub a b, ci, m, r => by
    simp only [foldE, foldStep_eval, eval, foldE_eval a ci m r, foldE_eval b ci m r]
  | .Mul a b, ci, m, r => by
    simp only [foldE, foldStep_eval, eval, foldE_eval a ci m r, foldE_eval b ci m r]
  | .MinE a b, ci, m, r => by
    simp only [foldE, foldStep_eval, eval, foldE_eval a ci m r, foldE_eval b ci m r]
  | .MaxE a b, ci, m, r => by
    simp only [foldE, foldStep_eval, eval, foldE_eval a ci m r, foldE_eval b ci m r]
  | .EQE a b, ci, m, r => by
    simp only [foldE, foldStep_eval, eval, foldE_eval a ci m r, foldE_eval b ci m r]
  | .NEE a b, ci, m, r => by
    simp only [foldE, foldStep_eval, eval, foldE_eval a ci m r, foldE_eval b ci m r]
  | .LTE a b, ci, m, r => by
    simp only [foldE, foldStep_eval, eval, foldE_eval a ci m r, foldE_eval b ci m r]
  | .LEE a b, ci, m, r => by
    simp only [foldE, foldStep_eval, eval, foldE_eval a ci m r, foldE_eval b ci m r]
  | .GTE a b, ci, m, r => by
    simp only [foldE, foldStep_eval, eval, foldE_eval a ci m r, foldE_eval b ci m r]
  | .GEE a b, ci, m, r => by
    simp only [foldE, foldStep_eval, eval, foldE_eval a ci m r, foldE_eval b ci m r]
  | .AndE a b, ci, m, r => by
    simp only [foldE, eval, foldE_eval a ci m r, foldE_eval b ci m r]
  | .OrE a b, ci, m, r => by
    simp only [foldE, eval, foldE_eval a ci m r, foldE_eval b ci m r]
  | .NotE a, ci, m, r => by
    simp only [foldE, foldStep_eval, eval, foldE_eval a ci m r]
  | .LetE x v b, ci, m, r => by
    simp only [foldE, eval, foldE_eval v ci m r]
    exact foldE_eval b ci m (updEnv r x (eval ci m r v))
  | .Load _ _ i, ci, m, r => by
    simp only [foldE, eval, foldE_eval i ci m r]
  | .Call _ _ _ args, ci, m, r => by
    simp only [foldE, eval, foldEL_eval args ci m r]
termination_by structural e => e

def foldEL_eval : ∀ (l : ExprList) (ci : CallInterp) (m : Mem) (r : Env),
    evalL ci m r (foldEL l) = evalL ci m r l
  | .nil, _, _, _ => rfl
  | .cons e es, ci, m, r => by
    simp only [foldEL, evalL, foldE_eval e ci m r, foldEL_eval es ci m r]
termination_by structural l => l

end

theorem foldStep_fvm (e : Expr) (y : String) (h : y ∈ fvE (foldStep e)) :
    y ∈ fvE e := by
  unfold foldStep at h
  split at h
  · simp [fvE] at h
  · simp [fvE] at h
  · simp [fvE] at h
  · simp [fvE] at h
  · simp [fvE] at h
  · split at h <;> simp [fvE] at h
  · split at h <;> simp [fvE] at h
  · split at h <;> simp [fvE] at h
  · split at h <;> simp [fvE] at h
  · split at h <;> simp [fvE] at h
  · split at h
    · simp [fvE] at h
    · exact h
  · split at h <;> simp [fvE] at h
  · exact h
  · exact h

theorem foldStep_pure (e : Expr) (h : pureE e = true) : pureE (foldStep e) = true := by
  unfold foldStep
  split
  · rfl
  · rfl
  · rfl
  · rfl
  · rfl
  · split <;> rfl
  · split <;> rfl
  · split <;> rfl
  · split <;> rfl
  · split <;> rfl
  · split
    · rfl
    · exact h
  · split <;> rfl
  · exact h
  · exact h

theorem foldStep_vnm (e : Expr) (y : String) (h : y ∈ vnE (foldStep e)) :
    y ∈ vnE e := by
  unfold foldStep at h
  split at h
  · simp [vnE] at h
  · simp [vnE] at h
  · simp [vnE] at h
  · simp [vnE] at h
  · simp [vnE] at h
  · split at h <;> simp [vnE] at h
  · split at h <;> simp [vnE] at h
  · split at h <;> simp [vnE] at h
  · split at h <;> simp [vnE] at h
  · split at h <;> simp [vnE] at h
  · split at h
    · simp [vnE] at h
    · exact h
  · split at h <;> simp [vnE] at h
  · exact h
  · exact h

theorem foldStep_bn (e : Expr) : (bnE (foldStep e)).Sublist (bnE e) := by
  unfold foldStep
  split
  · exact List.nil_sublist _
  · exact List.nil_sublist _
  · exact List.nil_sublist _
  · exact List.nil_sublist _
  · exact List.nil_sublist _
  · split <;> exact List.nil_sublist _
  · split <;> exact List.nil_sublist _
  · split <;> exact List.nil_sublist _
  · split <;> exact List.nil_sublist _
  · split <;> exact List.nil_sublist _
  · split
    · exact List.nil_sublist _
    · exact List.Sublist.refl _
  · split <;> exact List.nil_sublist _
  · exact List.Sublist.refl _
  · exact List.Sublist.refl _

mutual

def foldE_fv : ∀ (e : Expr) (y : String), y ∈ fvE (foldE e) → y ∈ fvE e
  | .IntImm _, _, h => h
  | .Var _ _, _, h => h
  | .Add a b, y, h => by
    simp only [foldE] at h
    have h2 := foldStep_fvm _ y h
    simp only [fvE, List.mem_append] at h2 ⊢
    rcases h2 with h2 | h2
    · exact Or.inl (foldE_fv a y h2)
    · exact Or.inr (foldE_fv b y h2)
  | .Sub a b, y, h => by
    simp only [foldE] at h
    have h2 := foldStep_fvm _ y h
    simp only [fvE, List.mem_append] at h2 ⊢
    rcases h2 with h2 | h2
    · exact Or.inl (foldE_fv a y h2)
    · exact Or.inr (foldE_fv b y h2)
  | .Mul a b, y, h => by
    simp only [foldE] at h
    have h2 := foldStep_fvm _ y h
    simp only [fvE, List.mem_append] at h2 ⊢
    rcases h2 with h2 | h2
    · exact Or.inl (foldE_fv a y h2)
    · exact Or.inr (foldE_fv b y h2)
  | .MinE a b, y, h => by
    simp only [foldE] at h
    have h2 := foldStep_fvm _ y h
    simp only [fvE, List.mem_append] at h2 ⊢
    rcases h2 with h2 | h2
    · exact Or.inl (foldE_fv a y h2)
    · exact Or.inr (foldE_fv b y h2)
  | .MaxE a b, y, h => by
    simp only [foldE] at h
    have h2 := foldStep_fvm _ y h
    simp only [fvE, List.mem_append] at h2 ⊢
    rcases h2 with h2 | h2
    · exact Or.inl (foldE_fv a y h2)
    · exact Or.inr (foldE_fv b y h2)
  | .EQE a b, y, h => by
    simp only [foldE] at h
    have h2 := foldStep_fvm _ y h
    simp only [fvE, List.mem_append] at h2 ⊢
    rcases h2 with h2 | h2
    · exact Or.inl (foldE_fv a y h2)
    · exact Or.inr (foldE_fv b y h2)
  | .NEE a b, y, h => by
    simp only [foldE] at h
    have h2 := foldStep_fvm _ y h
    simp only [fvE, List.mem_append] at h2 ⊢
    rcases h2 with h2 | h2
    · exact Or.inl (foldE_fv a y h2)
    · exact Or.inr (foldE_fv b y h2)
  | .LTE a b, y, h => by
    simp only [foldE] at h
    have h2 := foldStep_fvm _ y h
    simp only [fvE, List.mem_append] at h2 ⊢
    rcases h2 with h2 | h2
    · exact Or.inl (foldE_fv a y h2)
    · exact Or.inr (foldE_fv b y h2)
  | .LEE a b, y, h => by
    simp only [foldE] at h
    have h2 := foldStep_fvm _ y h
    simp only [fvE, List.mem_append] at h2 ⊢
    rcases h2 with h2 | h2
    · exact Or.inl (foldE_fv a y h2)
    · exact Or.inr (foldE_fv b y h2)
  | .GTE a b, y, h => by
    simp only [foldE] at h
    have h2 := foldStep_fvm _ y h
    simp only [fvE, List.mem_append] at h2 ⊢
    rcases h2 with h2 | h2
    · exact Or.inl (foldE_fv a y h2)
    · exact Or.inr (foldE_fv b y h2)
  | .GEE a b, y, h => by
    simp only [foldE] at h
    have h2 := foldStep_fvm _ y h
    simp only [fvE, List.mem_append] at h2 ⊢
    rcases h2 with h2 | h2
    · exact Or.inl (foldE_fv a y h2)
    · exact Or.inr (foldE_fv b y h2)
  | .AndE a b, y, h => by
    simp only [foldE, fvE, List.mem_append] at h ⊢
    rcases h with h | h
    · exact Or.inl (foldE_fv a y h)
    · exact Or.inr (foldE_fv b y h)
  | .OrE a b, y, h => by
    simp only [foldE, fvE, List.mem_append] at h ⊢
    rcases h with h | h
    · exact Or.inl (foldE_fv a y h)
    · exact Or.inr (foldE_fv b y h)
  | .NotE a, y, h => by
    simp only [foldE] at h
    have h2 := foldStep_fvm _ y h
    simp only [fvE] at h2 ⊢
    exact foldE_fv a y h2
  | .LetE x v b, y, h => by
    simp only [foldE, fvE, List.mem_append, List.mem_filter] at h ⊢
    rcases h with h | h
    · exact Or.inl (foldE_fv v y h)
    · exact Or.inr ⟨foldE_fv b y h.1, h.2⟩
  | .Load _ _ i, y, h => by
    simp only [foldE, fvE] at h ⊢
    exact foldE_fv i y h
  | .Call _ _ _ args, y, h => by
    simp only [foldE, fvE] at h ⊢
    exact foldEL_fv args y h
termination_by structural e => e

def foldEL_fv : ∀ (l : ExprList) (y : String), y ∈ fvEL (foldEL l) → y ∈ fvEL l
  | .nil, _, h => h
  | .cons e es, y, h => by
    simp only [foldEL, fvEL, List.mem_append] at h ⊢
    rcases h with h | h
    · exact Or.inl (foldE_fv e y h)
    · exact Or.inr (foldEL_fv es y h)
termination_by structural l => l

end

mutual

def foldE_pure : ∀ (e : Expr), pureE e = true → pureE (foldE e) = true
  | .IntImm _, h => h
  | .Var _ _, h => h
  | .Add a b, h => by
    simp only [pureE, Bool.and_eq_true] at h
    simp only [foldE]
    refine foldStep_pure _ ?_
    simp only [pureE, Bool.and_eq_true]
    exact ⟨foldE_pure a h.1, foldE_pure b h.2⟩
  | .Sub a b, h => by
    simp only [pureE, Bool.and_eq_true] at h
    simp only [foldE]
    refine foldStep_pure _ ?_
    simp only [pureE, Bool.and_eq_true]
    exact ⟨foldE_pure a h.1, foldE_pure b h.2⟩
  | .Mul a b, h => by
    simp only [pureE, Bool.and_eq_true] at h
    simp only [foldE]
    refine foldStep_pure _ ?_
    simp only [pureE, Bool.and_eq_true]
    exact ⟨foldE_pure a h.1, foldE_pure b h.2⟩
  | .MinE a b, h => by
    simp only [pureE, Bool.and_eq_true] at h
    simp only [foldE]
    refine foldStep_pure _ ?_
    simp only [pureE, Bool.and_eq_true]
    exact ⟨foldE_pure a h.1, foldE_pure b h.2⟩
  | .MaxE a b, h => by
    simp only [pureE, Bool.and_eq_true] at h
    simp only [foldE]
    refine foldStep_pure _ ?_
    simp only [pureE, Bool.and_eq_true]
    exact ⟨foldE_pure a h.1, foldE_pure b h.2⟩
  | .EQE a b, h => by
    simp only [pureE, Bool.and_eq_true] at h
    simp only [foldE]
    refine foldStep_pure _ ?_
    simp only [pureE, Bool.and_eq_true]
    exact ⟨foldE_pure a h.1, foldE_pure b h.2⟩
  | .NEE a b, h => by
    simp only [pureE, Bool.and_eq_true] at h
    simp only [foldE]
    refine foldStep_pure _ ?_
    simp only [pureE, Bool.and_eq_true]
    exact ⟨foldE_pure a h.1, foldE_pure b h.2⟩
  | .LTE a b, h => by
    simp only [pureE, Bool.and_eq_true] at h
    simp only [foldE]
    refine foldStep_pure _ ?_
    simp only [pureE, Bool.and_eq_true]
    exact ⟨foldE_pure a h.1, foldE_pure b h.2⟩
  | .LEE a b, h => by
    simp only [pureE, Bool.and_eq_true] at h
    simp only [foldE]
    refine foldStep_pure _ ?_
    simp only [pureE, Bool.and_eq_true]
    exact ⟨foldE_pure a h.1, foldE_pure b h.2⟩
  | .GTE a b, h => by
    simp only [pureE, Bool.and_eq_true] at h
    simp only [foldE]
    refine foldStep_pure _ ?_
    simp only [pureE, Bool.and_eq_true]
    exact ⟨foldE_pure a h.1, foldE_pure b h.2⟩
  | .GEE a b, h => by
    simp only [pureE, Bool.and_eq_true] at h
    simp only [foldE]
    refine foldStep_pure _ ?_
    simp only [pureE, Bool.and_eq_true]
    exact ⟨foldE_pure a h.1, foldE_pure b h.2⟩
  | .AndE a b, h => by
    simp only [pureE, Bool.and_eq_true] at h
    simp only [foldE, pureE, Bool.and_eq_true]
    exact ⟨foldE_pure a h.1, foldE_pure b h.2⟩
  | .OrE a b, h => by
    simp only [pureE, Bool.and_eq_true] at h
    simp only [foldE, pureE, Bool.and_eq_true]
    exact ⟨foldE_pure a h.1, foldE_pure b h.2⟩
  | .NotE a, h => by
    simp only [pureE] at h
    simp only [foldE]
    refine foldStep_pure _ ?_
    simp only [pureE]
    exact foldE_pure a h
  | .LetE x v b, h => by
    simp only [pureE, Bool.and_eq_true] at h
    simp only [foldE, pureE, Bool.and_eq_true]
    exact ⟨foldE_pure v h.1, foldE_pure b h.2⟩
  | .Load _ _ i, h => by
    simp only [pureE] at h
    simp only [foldE, pureE]
    exact foldE_pure i h
  | .Call _ _ _ args, h => by
    simp only [pureE, Bool.and_eq_true] at h
    simp only [foldE, pureE, Bool.and_eq_true]
    exact ⟨h.1, foldEL_pure args h.2⟩
termination_by structural e => e

def foldEL_pure : ∀ (l : ExprList), pureEL l = true → pureEL (foldEL l) = true
  | .nil, h => h
  | .cons e es, h => by
    simp only [pureEL, Bool.and_eq_true] at h
    simp only [foldEL, pureEL, Bool.and_eq_true]
    exact ⟨foldE_pure e h.1, foldEL_pure es h.2⟩
termination_by structural l => l

end

mutual

def foldE_vn : ∀ (e : Expr) (y : String), y ∈ vnE (foldE e) → y ∈ vnE e
  | .IntImm _, _, h => h
  | .Var _ _, _, h => h
  | .Add a b, y, h => by
    simp only [foldE] at h
    have h2 := foldStep_vnm _ y h
    simp only [vnE, List.mem_append] at h2 ⊢
    rcases h2 with h2 | h2
    · exact Or.inl (foldE_vn a y h2)
    · exact Or.inr (foldE_vn b y h2)
  | .Sub a b, y, h => by
    simp only [foldE] at h
    have h2 := foldStep_vnm _ y h
    simp only [vnE, List.mem_append] at h2 ⊢
    rcases h2 with h2 | h2
    · exact Or.inl (foldE_vn a y h2)
    · exact Or.inr (foldE_vn b y h2)
  | .Mul a b, y, h => by
    simp only [foldE] at h
    have h2 := foldStep_vnm _ y h
    simp only [vnE, List.mem_append] at h2 ⊢
    rcases h2 with h2 | h2
    · exact Or.inl (foldE_vn a y h2)
    · exact Or.inr (foldE_vn b y h2)
  | .MinE a b, y, h => by
    simp only [foldE] at h
    have h2 := foldStep_vnm _ y h
    simp only [vnE, List.mem_append] at h2 ⊢
    rcases h2 with h2 | h2
    · exact Or.inl (foldE_vn a y h2)
    · exact Or.inr (foldE_vn b y h2)
  | .MaxE a b, y, h => by
    simp only [foldE] at h
    have h2 := foldStep_vnm _ y h
    simp only [vnE, List.mem_append] at h2 ⊢
    rcases h2 with h2 | h2
    · exact Or.inl (foldE_vn a y h2)
    · exact Or.inr (foldE_vn b y h2)
  | .EQE a b, y, h => by
    simp only [foldE] at h
    have h2 := foldStep_vnm _ y h
    simp only [vnE, List.mem_append] at h2 ⊢
    rcases h2 with h2 | h2
    · exact Or.inl (foldE_vn a y h2)
    · exact Or.inr (foldE_vn b y h2)
  | .NEE a b, y, h => by
    simp only [foldE] at h
    have h2 := foldStep_vnm _ y h
    simp only [vnE, List.mem_append] at h2 ⊢
    rcases h2 with h2 | h2
    · exact Or.inl (foldE_vn a y h2)
    · exact Or.inr (foldE_vn b y h2)
  | .LTE a b, y, h => by
    simp only [foldE] at h
    have h2 := foldStep_vnm _ y h
    simp only [vnE, List.mem_append] at h2 ⊢
    rcases h2 with h2 | h2
    · exact Or.inl (foldE_vn a y h2)
    · exact Or.inr (foldE_vn b y h2)
  | .LEE a b, y, h => by
    simp only [foldE] at h
    have h2 := foldStep_vnm _ y h
    simp only [vnE, List.mem_append] at h2 ⊢
    rcases h2 with h2 | h2
    · exact Or.inl (foldE_vn a y h2)
    · exact Or.inr (foldE_vn b y h2)
  | .GTE a b, y, h => by
    simp only [foldE] at h
    have h2 := foldStep_vnm _ y h
    simp only [vnE, List.mem_append] at h2 ⊢
    rcases h2 with h2 | h2
    · exact Or.inl (foldE_vn a y h2)
    · exact Or.inr (foldE_vn b y h2)
  | .GEE a b, y, h => by
    simp only [foldE] at h
    have h2 := foldStep_vnm _ y h
    simp only [vnE, List.mem_append] at h2 ⊢
    rcases h2 with h2 | h2
    · exact Or.inl (foldE_vn a y h2)
    · exact Or.inr (foldE_vn b y h2)
  | .AndE a b, y, h => by
    simp only [foldE, vnE, List.mem_append] at h ⊢
    rcases h with h | h
    · exact Or.inl (foldE_vn a y h)
    · exact Or.inr (foldE_vn b y h)
  | .OrE a b, y, h => by
    simp only [foldE, vnE, List.mem_append] at h ⊢
    rcases h with h | h
    · exact Or.inl (foldE_vn a y h)
    · exact Or.inr (foldE_vn b y h)
  | .NotE a, y, h => by
    simp only [foldE] at h
    have h2 := foldStep_vnm _ y h
    simp only [vnE] at h2 ⊢
    exact foldE_vn a y h2
  | .LetE x v b, y, h => by
    simp only [foldE, vnE, List.mem_cons, List.mem_append] at h ⊢
    rcases h with h | h | h
    · exact Or.inl h
    · exact Or.inr (Or.inl (foldE_vn v y h))
    · exact Or.inr (Or.inr (foldE_vn b y h))
  | .Load _ _ i, y, h => by
    simp only [foldE, vnE] at h ⊢
    exact foldE_vn i y h
  | .Call _ _ _ args, y, h => by
    simp only [foldE, vnE] at h ⊢
    exact foldEL_vn args y h
termination_by structural e => e

def foldEL_vn : ∀ (l : ExprList) (y : String), y ∈ vnEL (foldEL l) → y ∈ vnEL l
  | .nil, _, h => h
  | .cons e es, y, h => by
    simp only [foldEL, vnEL, List.mem_append] at h ⊢
    rcases h with h | h
    · exact Or.inl (foldE_vn e y h)
    · exact Or.inr (foldEL_vn es y h)
termination_by structural l => l

end

mutual

def foldE_bn : ∀ (e : Expr), (bnE (foldE e)).Sublist (bnE e)
  | .IntImm _ => List.Sublist.refl _
  | .Var _ _ => List.Sublist.refl _
  | .Add a b => by
    simp only [foldE]
    refine (foldStep_bn _).trans ?_
    simp only [bnE]
    exact List.Sublist.append (foldE_bn a) (foldE_bn b)
  | .Sub a b => by
    simp only [foldE]
    refine (foldStep_bn _).trans ?_
    simp only [bnE]
    exact List.Sublist.append (foldE_bn a) (foldE_bn b)
  | .Mul a b => by
    simp only [foldE]
    refine (foldStep_bn _).trans ?_
    simp only [bnE]
    exact List.Sublist.append (foldE_bn a) (foldE_bn b)
  | .MinE a b => by
    simp only [foldE]
    refine (foldStep_bn _).trans ?_
    simp only [bnE]
    exact List.Sublist.append (foldE_bn a) (foldE_bn b)
  | .MaxE a b => by
    simp only [foldE]
    refine (foldStep_bn _).trans ?_
    simp only [bnE]
    exact List.Sublist.append (foldE_bn a) (foldE_bn b)
  | .EQE a b => by
    simp only [foldE]
    refine (foldStep_bn _).trans ?_
    simp only [bnE]
    exact List.Sublist.append (foldE_bn a) (foldE_bn b)
  | .NEE a b => by
    simp only [foldE]
    refine (foldStep_bn _).trans ?_
    simp only [bnE]
    exact List.Sublist.append (foldE_bn a) (foldE_bn b)
  | .LTE a b => by
    simp only [foldE]
    refine (foldStep_bn _).trans ?_
    simp only [bnE]
    exact List.Sublist.append (foldE_bn a) (foldE_bn b)
  | .LEE a b => by
    simp only [foldE]
    refine (foldStep_bn _).trans ?_
    simp only [bnE]
    exact List.Sublist.append (foldE_bn a) (foldE_bn b)
  | .GTE a b => by
    simp only [foldE]
    refine (foldStep_bn _).trans ?_
    simp only [bnE]
    exact List.Sublist.append (foldE_bn a) (foldE_bn b)
  | .GEE a b => by
    simp only [foldE]
    refine (foldStep_bn _).trans ?_
    simp only [bnE]
    exact List.Sublist.append (foldE_bn a) (foldE_bn b)
  | .AndE a b => by
    simp only [foldE, bnE]
    exact List.Sublist.append (foldE_bn a) (foldE_bn b)
  | .OrE a b => by
    simp only [foldE, bnE]
    exact List.Sublist.append (foldE_bn a) (foldE_bn b)
  | .NotE a => by
    simp only [foldE]
    refine (foldStep_bn _).trans ?_
    simp only [bnE]
    exact foldE_bn a
  | .LetE x v b => by
    simp only [foldE, bnE]
    exact List.Sublist.cons₂ _ (List.Sublist.append (foldE_bn v) (foldE_bn b))
  | .Load _ _ i => by
    simp only [foldE, bnE]
    exact foldE_bn i
  | .Call _ _ _ args => by
    simp only [foldE, bnE]
    exact foldEL_bn args
termination_by structural e => e

def foldEL_bn : ∀ (l : ExprList), (bnEL (foldEL l)).Sublist (bnEL l)
  | .nil => List.Sublist.refl _
  | .cons e es => by
    simp only [foldEL, bnEL]
    exact List.Sublist.append (foldE_bn e) (foldEL_bn es)
termination_by structural l => l

end

def foldS_exec : ∀ (s : Stmt) (ci : CallInterp) (r : Env) (m : Mem),
    WFS s = true → exec ci r m (foldS s) = exec ci r m s
  | .Store nm v i, ci, r, m, hwf => by
    simp only [WFS, Bool.and_eq_true] at hwf
    simp only [foldS, exec]
    rw [foldE_eval v ci m r, foldE_eval i ci m r,
        events_pure v ci m r hwf.1, events_pure i ci m r hwf.2,
        events_pure (foldE v) ci m r (foldE_pure v hwf.1),
        events_pure (foldE i) ci m r (foldE_pure i hwf.2)]
  | .For x mn ex ft da b, ci, r, m, hwf => by
    simp only [WFS, Bool.and_eq_true] at hwf
    simp only [foldS, exec]
    rw [foldE_eval mn ci m r, foldE_eval ex ci m r,
        events_pure mn ci m r hwf.1.1, events_pure ex ci m r hwf.1.2,
        events_pure (foldE mn) ci m r (foldE_pure mn hwf.1.1),
        events_pure (foldE ex) ci m r (foldE_pure ex hwf.1.2)]
    rw [iterFor_congr (fun v m' => foldS_exec b ci (updEnv r x v) m' hwf.2)]
  | .IfThen c t, ci, r, m, hwf => by
    simp only [WFS, Bool.and_eq_true] at hwf
    simp only [foldS, exec]
    rw [foldE_eval c ci m r, events_pure c ci m r hwf.1,
        events_pure (foldE c) ci m r (foldE_pure c hwf.1),
        foldS_exec t ci r m hwf.2]
  | .IfThenElse c t e, ci, r, m, hwf => by
    simp only [WFS, Bool.and_eq_true] at hwf
    simp only [foldS, exec]
    rw [foldE_eval c ci m r, events_pure c ci m r hwf.1.1,
        events_pure (foldE c) ci m r (foldE_pure c hwf.1.1),
        foldS_exec t ci r m hwf.1.2, foldS_exec e ci r m hwf.2]
  | .LetStmt x v b, ci, r, m, hwf => by
    simp only [WFS, Bool.and_eq_true] at hwf
    simp only [foldS, exec]
    rw [foldE_eval v ci m r, events_pure v ci m r hwf.1,
        events_pure (foldE v) ci m r (foldE_pure v hwf.1),
        foldS_exec b ci (updEnv r x (eval ci m r v)) m hwf.2]
  | .Evaluate e, ci, r, m, hwf => by
    simp only [WFS, Bool.or_eq_true] at hwf
    simp only [foldS, exec]
    rcases hwf with hp | hbad
    · rw [events_pure e ci m r hp, events_pure (foldE e) ci m r (foldE_pure e hp)]
    · cases e <;> simp [isBadEval] at hbad
      rename_i t ct n args
      have hargs : pureEL args = true := by tauto
      simp only [foldE, events]
      rw [eventsL_pure args ci m r hargs,
          eventsL_pure (foldEL args) ci m r (foldEL_pure args hargs),
          foldEL_eval args ci m r]
  | .Block a b, ci, r, m, hwf => by
    simp only [WFS, Bool.and_eq_true] at hwf
    simp only [foldS, exec]
    rw [foldS_exec a ci r m hwf.1, foldS_exec b ci r (exec ci r m a).1 hwf.2]

def foldS_wf : ∀ (s : Stmt), WFS s = true → WFS (foldS s) = true
  | .Store _ v i, hwf => by
    simp only [WFS, Bool.and_eq_true] at hwf ⊢
    exact ⟨foldE_pure v hwf.1, foldE_pure i hwf.2⟩
  | .For _ mn ex _ _ b, hwf => by
    simp only [WFS, Bool.and_eq_true] at hwf ⊢
    exact ⟨⟨foldE_pure mn hwf.1.1, foldE_pure ex hwf.1.2⟩, foldS_wf b hwf.2⟩
  | .IfThen c t, hwf => by
    simp only [WFS, Bool.and_eq_true] at hwf ⊢
    exact ⟨foldE_pure c hwf.1, foldS_wf t hwf.2⟩
  | .IfThenElse c t e, hwf => by
    simp only [WFS, Bool.and_eq_true] at hwf ⊢
    exact ⟨⟨foldE_pure c hwf.1.1, foldS_wf t hwf.1.2⟩, foldS_wf e hwf.2⟩
  | .LetStmt _ v b, hwf => by
    simp only [WFS, Bool.and_eq_true] at hwf ⊢
    exact ⟨foldE_pure v hwf.1, foldS_wf b hwf.2⟩
  | .Evaluate e, hwf => by
    simp only [WFS, Bool.or_eq_true] at hwf ⊢
    rcases hwf with hp | hbad
    · exact Or.inl (foldE_pure e hp)
    · right
      cases e <;> simp [isBadEval] at hbad
      rename_i t ct n args
      have hct : ct = CallType.intrinsic := by tauto
      have hbn2 : isBadName n = true := by tauto
      have hargs : pureEL args = true := by tauto
      subst hct
      simp [foldE, isBadEval, hbn2, foldEL_pure args hargs]
  | .Block a b, hwf => by
    simp only [WFS, Bool.and_eq_true] at hwf ⊢
    exact ⟨foldS_wf a hwf.1, foldS_wf b hwf.2⟩

def foldS_fv : ∀ (s : Stmt) (y : String), y ∈ fvS (foldS s) → y ∈ fvS s
  | .Store _ v i, y, h => by
    simp only [foldS, fvS, List.mem_append] at h ⊢
    rcases h with h | h
    · exact Or.inl (foldE_fv v y h)
    · exact Or.inr (foldE_fv i y h)
  | .For x mn ex _ _ b, y, h => by
    simp only [foldS, fvS, List.mem_append, List.mem_filter] at h ⊢
    rcases h with (h | h) | h
    · exact Or.inl (Or.inl (foldE_fv mn y h))
    · exact Or.inl (Or.inr (foldE_fv ex y h))
    · exact Or.inr ⟨foldS_fv b y h.1, h.2⟩
  | .IfThen c t, y, h => by
    simp only [foldS, fvS, List.mem_append] at h ⊢
    rcases h with h | h
    · exact Or.inl (foldE_fv c y h)
    · exact Or.inr (foldS_fv t y h)
  | .IfThenElse c t e, y, h => by
    simp only [foldS, fvS, List.mem_append] at h ⊢
    rcases h with (h | h) | h
    · exact Or.inl (Or.inl (foldE_fv c y h))
    · exact Or.inl (Or.inr (foldS_fv t y h))
    · exact Or.inr (foldS_fv e y h)
  | .LetStmt x v b, y, h => by
    simp only [foldS, fvS, List.mem_append, List.mem_filter] at h ⊢
    rcases h with h | h
    · exact Or.inl (foldE_fv v y h)
    · exact Or.inr ⟨foldS_fv b y h.1, h.2⟩
  | .Evaluate e, y, h => foldE_fv e y h
  | .Block a b, y, h => by
    simp only [foldS, fvS, List.mem_append] at h ⊢
    rcases h with h | h
    · exact Or.inl (foldS_fv a y h)
    · exact Or.inr (foldS_fv b y h)

def foldS_vn : ∀ (s : Stmt) (y : String), y ∈ vnS (foldS s) → y ∈ vnS s
  | .Store _ v i, y, h => by
    simp only [foldS, vnS, List.mem_append] at h ⊢
    rcases h with h | h
    · exact Or.inl (foldE_vn v y h)
    · exact Or.inr (foldE_vn i y h)
  | .For x mn ex _ _ b, y, h => by
    simp only [foldS, vnS, List.mem_cons, List.mem_append] at h ⊢
    rcases h with h | (h | h) | h
    · exact Or.inl h
    · exact Or.inr (Or.inl (Or.inl (foldE_vn mn y h)))
    · exact Or.inr (Or.inl (Or.inr (foldE_vn ex y h)))
    · exact Or.inr (Or.inr (foldS_vn b y h))
  | .IfThen c t, y, h => by
    simp only [foldS, vnS, List.mem_append] at h ⊢
    rcases h with h | h
    · exact Or.inl (foldE_vn c y h)
    · exact Or.inr (foldS_vn t y h)
  | .IfThenElse c t e, y, h => by
    simp only [foldS, vnS, List.mem_append] at h ⊢
    rcases h with (h | h) | h
    · exact Or.inl (Or.inl (foldE_vn c y h))
    · exact Or.inl (Or.inr (foldS_vn t y h))
    · exact Or.inr (foldS_vn e y h)
  | .LetStmt x v b, y, h => by
    simp only [foldS, vnS, List.mem_cons, List.mem_append] at h ⊢
    rcases h with h | h | h
    · exact Or.inl h
    · exact Or.inr (Or.inl (foldE_vn v y h))
    · exact Or.inr (Or.inr (foldS_vn b y h))
  | .Evaluate e, y, h => foldE_vn e y h
  | .Block a b, y, h => by
    simp only [foldS, vnS, List.mem_append] at h ⊢
    rcases h with h | h
    · exact Or.inl (foldS_vn a y h)
    · exact Or.inr (foldS_vn b y h)

def foldS_bn : ∀ (s : Stmt), (bnS (foldS s)).Sublist (bnS s)
  | .Store _ v i => by
    simp only [foldS, bnS]
    exact List.Sublist.append (foldE_bn v) (foldE_bn i)
  | .For x mn ex _ _ b => by
    simp only [foldS, bnS]
    exact List.Sublist.cons₂ _
      (List.Sublist.append (List.Sublist.append (foldE_bn mn) (foldE_bn ex)) (foldS_bn b))
  | .IfThen c t => by
    simp only [foldS, bnS]
    exact List.Sublist.append (foldE_bn c) (foldS_bn t)
  | .IfThenElse c t e => by
    simp only [foldS, bnS]
    exact List.Sublist.append (List.Sublist.append (foldE_bn c) (foldS_bn t)) (foldS_bn e)
  | .LetStmt x v b => by
    simp only [foldS, bnS]
    exact List.Sublist.cons₂ _ (List.Sublist.append (foldE_bn v) (foldS_bn b))
  | .Evaluate e => foldE_bn e
  | .Block a b => by
    simp only [foldS, bnS]
    exact List.Sublist.append (foldS_bn a) (foldS_bn b)

/-! ### Contracts of the modelled relaxation and outer-interval solver -/

theorem defAcd_empty (ci : CallInterp) (m : Mem) (r : Env) (e : Expr)
    (h : eval ci m r (defAcd e []) ≠ 0) : eval ci m r e ≠ 0 := by
  simpa [defAcd] using h

theorem defAcd_single (ci : CallInterp) (m : Mem) (r : Env) (e : Expr) (x : String)
    (iv : Interval) (v : Int) (h : eval ci m r (defAcd e [(x, iv)]) ≠ 0) :
    eval ci m (updEnv r x v) e ≠ 0 := by
  by_cases hu : usesVar e x = true
  · exfalso
    apply h
    simp [defAcd, hu, constFalse, eval]
  · have hx : usesVar e x = false := Bool.eq_false_iff.mpr hu
    rw [eval_updEnv_notUses hx]
    simpa [defAcd, hx] using h

theorem defAcd_fv1 (e : Expr) (sc : DomScope) (y : String) (iv : Interval)
    (hmem : (y, iv) ∈ sc) : usesVar (defAcd e sc) y = false := by
  simp only [defAcd]
  split
  next hall =>
    have := List.all_eq_true.mp hall _ hmem
    simpa using this
  next => exact usesVar_constFalse y

theorem defAcd_fv2 (e : Expr) (sc : DomScope) (y : String)
    (hy : usesVar e y = false) : usesVar (defAcd e sc) y = false := by
  simp only [defAcd]
  split
  · exact hy
  · exact usesVar_constFalse y

theorem defAcd_pure (e : Expr) (sc : DomScope) (hp : pureE e = true) :
    pureE (defAcd e sc) = true := by
  simp only [defAcd]
  split
  · exact hp
  · rfl

theorem defAcd_vn (e : Expr) (sc : DomScope) (y : String)
    (hy : y ∈ vnE (defAcd e sc)) :
    y ∈ vnE e ∨ ∃ p ∈ sc, y = p.1 ∨ ivUses p.2 y = true := by
  simp only [defAcd] at hy
  split at hy
  · exact Or.inl hy
  · simp [constFalse, vnE] at hy

theorem defSolveOuter_sound (e : Expr) (x : String) (ci : CallInterp) (m : Mem)
    (r : Env) (v : Int) (h : eval ci m (updEnv r x v) e ≠ 0) :
    (∀ mnB ∈ (defSolveOuter e x).min, eval ci m r mnB ≤ v) ∧
    (∀ mxB ∈ (defSolveOuter e x).max, v ≤ eval ci m r mxB) := by
  unfold defSolveOuter
  split
  · rename_i t y k
    by_cases hyx : y = x
    · subst hyx
      rw [if_pos rfl]
      constructor
      · intro bb hb
        rw [Option.mem_def, Option.some.injEq] at hb
        subst hb
        simp only [eval, updEnv_same] at h ⊢
        by_contra hlt
        simp [hlt] at h
      · intro bb hb
        simp at hb
    · rw [if_neg hyx]
      constructor <;> intro bb hb <;> simp at hb
  · rename_i t y k
    by_cases hyx : y = x
    · subst hyx
      rw [if_pos rfl]
      constructor
      · intro bb hb
        rw [Option.mem_def, Option.some.injEq] at hb
        subst hb
        simp only [eval, updEnv_same] at h ⊢
        by_cases hlt : v < k
        · simp [hlt] at h
        · omega
      · intro bb hb
        simp at hb
    · rw [if_neg hyx]
      constructor <;> intro bb hb <;> simp at hb
  · constructor <;> intro bb hb <;> simp at hb

theorem defSolveOuter_uses (e : Expr) (x y : String) :
    ivUses (defSolveOuter e x) y = false := by
  unfold defSolveOuter
  split
  · split <;> rfl
  · split <;> rfl
  · rfl

theorem defSolveOuter_pure (e : Expr) (x : String) :
    ivPure (defSolveOuter e x) = true := by
  unfold defSolveOuter
  split
  · split <;> rfl
  · split <;> rfl
  · rfl

theorem defSolveOuter_vn (e : Expr) (x y : String)
    (h : ivUses (defSolveOuter e x) y = true) : y ∈ vnE e := by
  rw [defSolveOuter_uses] at h
  exact absurd h (by decide)

/-- The spec 6 contracts hold for the default collaborator pack. -/
theorem extOk_defaultExt : ExtOk defaultExt := by
  refine
    { simpE_eval := fun ci m r e => foldE_eval e ci m r
      simpE_fv := ?_
      simpE_pure := fun e h => foldE_pure e h
      simpE_vn := fun e y h => foldE_vn e y h
      cse_eval := fun _ _ _ _ => rfl
      cse_fv := fun _ _ h => h
      cse_pure := fun _ h => h
      cse_vn := fun _ _ h => h
      simpS_exec := fun ci r m s h => foldS_exec s ci r m h
      simpS_wf := fun s h => foldS_wf s h
      simpS_fv := fun s y h => foldS_fv s y h
      simpS_vn := fun s y h => foldS_vn s y h
      simpS_bn := fun s => foldS_bn s
      acd_empty := fun ci m r e h => defAcd_empty ci m r e h
      acd_single := fun ci m r e x iv v h _ _ => defAcd_single ci m r e x iv v h
      acd_fv1 := fun e sc y iv hmem => defAcd_fv1 e sc y iv hmem
      acd_fv2 := fun e sc y hy _ => defAcd_fv2 e sc y hy
      acd_pure := fun e sc hp _ => defAcd_pure e sc hp
      acd_vn := fun e sc y hy => defAcd_vn e sc y hy
      solveE_eval := fun _ _ _ h => by cases h
      solveE_pure := fun _ _ _ h => by cases h
      solveI_sound := fun e x ci m r v h => defSolveOuter_sound e x ci m r v h
      solveI_fv := fun e x y _ => defSolveOuter_uses e x y
      solveI_pure := fun e x _ => defSolveOuter_pure e x
      solveI_vn := fun e x y h => defSolveOuter_vn e x y h
      un_inj := fun _ _ _ _ h => defUniqueName_inj h }
  intro e y h
  rw [usesVar_false_iff] at h ⊢
  exact fun q => h (foldE_fv e y q)

/-! ### Idempotence of the driver -/

theorem trimGo_mono (E : Ext) : ∀ (s : Stmt) (n : Nat), n ≤ (trimGo E s n).2 := by
  intro s
  induction s with
  | Store nm v i => intro n; simp [trimGo]
  | Evaluate e => intro n; simp [trimGo]
  | For x mn ex ft da body ih =>
    intro n
    simp only [trimGo]
    split
    · exact ih n
    · split
      · exact ih n
      · split
        · exact ih n
        · exact le_trans (ih n) (by omega)
  | IfThen c t ih =>
    intro n
    simp only [trimGo]
    exact ih n
  | IfThenElse c t e iht ihe =>
    intro n
    simp only [trimGo]
    exact le_trans (iht n) (ihe _)
  | LetStmt x v b ih =>
    intro n
    simp only [trimGo]
    exact ih n
  | Block a b iha ihb =>
    intro n
    simp only [trimGo]
    exact le_trans (iha n) (ihb _)

theorem trimGo_fix (E : Ext) : ∀ (s : Stmt) (n : Nat), (trimGo E s n).2 = n →
    trimGo E (trimGo E s n).1 n = trimGo E s n := by
  intro s
  induction s with
  | Store nm v i => intro n _; rfl
  | Evaluate e => intro n _; rfl
  | For x mn ex ft da body ih =>
    intro n h
    by_cases h1 : isOne (trimCondition E (trimGo E body n).1) = true
    · have hres : trimGo E (.For x mn ex ft da body) n
          = (.Evaluate (.IntImm 0), (trimGo E body n).2) := by
        simp only [trimGo]
        rw [if_pos h1]
      rw [hres] at h ⊢
      have h' : (trimGo E body n).2 = n := h
      simp only [trimGo]
      rw [h']
    · by_cases h2 : isZero (trimCondition E (trimGo E body n).1) = true
      · have hres : trimGo E (.For x mn ex ft da body) n
            = (.For x mn ex ft da (trimGo E body n).1, (trimGo E body n).2) := by
          simp only [trimGo]
          rw [if_neg h1, if_pos h2]
        rw [hres] at h ⊢
        have h' : (trimGo E body n).2 = n := h
        have hb := ih n h'
        simp only [trimGo, hb]
        rw [if_neg h1, if_pos h2]
      · by_cases h3 : intervalIsEverything
            (E.solveForOuterInterval (.NotE (trimCondition E (trimGo E body n).1)) x) = true
        · have hres : trimGo E (.For x mn ex ft da body) n
              = (.For x mn ex ft da (trimGo E body n).1, (trimGo E body n).2) := by
            simp only [trimGo]
            rw [if_neg h1, if_neg h2, if_pos h3]
          rw [hres] at h ⊢
          have h' : (trimGo E body n).2 = n := h
          have hb := ih n h'
          simp only [trimGo, hb]
          rw [if_neg h1, if_neg h2, if_pos h3]
        · exfalso
          have hcnt : (trimGo E (.For x mn ex ft da body) n).2
              = (trimGo E body n).2 + 3 := by
            simp only [trimGo]
            rw [if_neg h1, if_neg h2, if_neg h3]
          have hm := trimGo_mono E body n
          omega
  | IfThen c t ih =>
    intro n h
    simp only [trimGo] at h ⊢
    rw [ih n h, h]
  | IfThenElse c t e iht ihe =>
    intro n h
    simp only [trimGo] at h ⊢
    have hmt := trimGo_mono E t n
    have hme := trimGo_mono E e (trimGo E t n).2
    have ht2 : (trimGo E t n).2 = n := by omega
    have he2' : (trimGo E e n).2 = n := by
      have he2 : (trimGo E e (trimGo E t n).2).2 = (trimGo E t n).2 := by omega
      rw [ht2] at he2
      exact he2
    rw [iht n ht2, ht2, ihe n he2', he2']
  | LetStmt x v b ih =>
    intro n h
    simp only [trimGo] at h ⊢
    rw [ih n h, h]
  | Block a b iha ihb =>
    intro n h
    simp only [trimGo] at h ⊢
    have hmt := trimGo_mono E a n
    have hme := trimGo_mono E b (trimGo E a n).2
    have ht2 : (trimGo E a n).2 = n := by omega
    have he2' : (trimGo E b n).2 = n := by
      have he2 : (trimGo E b (trimGo E a n).2).2 = (trimGo E a n).2 := by omega
      rw [ht2] at he2
      exact he2
    rw [iha n ht2, ht2, ihb n he2', he2']

/-- A loop whose body is a no-op exactly for `j < 50`: the guard is
provable for no iteration and refutable for none, and the negated condition
is bracketed from below by the modelled solver, so the driver narrows. -/
def narrowTwiceDemo : Stmt :=
  .For "j" (.IntImm 0) (.IntImm 100) .serial .host
    (.IfThen (.GEE (.Var i32 "j") (.IntImm 50))
      (.Evaluate (.Call i32 .intrinsic copyMemoryName (.cons (.IntImm 7) .nil))))

/-- A loop the driver keeps unchanged: the no-op condition of the store is
undecided, and the minimal pack's outer-interval solver proves nothing. -/
def keepLoopDemo : Stmt :=
  .For "j" (.IntImm 0) (.IntImm 10) .serial .host storeOpaqueDemo

theorem freshFor_narrowTwiceDemo : FreshFor defaultExt narrowTwiceDemo 0 := by
  intro b k _ hmem
  have hh := defUniqueName_head b k
  have hv : vnS narrowTwiceDemo = ["j", "j"] := by decide
  rw [hv] at hmem
  simp only [List.mem_cons, List.not_mem_nil, or_false] at hmem
  have hmem' : defUniqueName b k = "j" := by
    rcases hmem with hmem | hmem <;> exact hmem
  rcases hh with hh | hh <;> rw [hmem'] at hh <;> exact absurd hh (by decide)

/-- C8 counterexample: the pass is not idempotent.  For the narrowing loop
`narrowTwiceDemo` — a well-formed, hygienic statement, processed with the
default collaborator pack (which satisfies every contract of the
specification) and a fresh name supply — the second application narrows the
already-narrowed loop again and emits three additional let-bindings, so the
second output is not statement-equal to the first. -/
theorem c8_counterexample :
    (ExtOk defaultExt ∧ WFS narrowTwiceDemo = true ∧ HygS narrowTwiceDemo ∧
      FreshFor defaultExt narrowTwiceDemo 0) ∧
    countLets (trim_no_ops defaultExt
        (trim_no_ops defaultExt narrowTwiceDemo 0).1
        (trim_no_ops defaultExt narrowTwiceDemo 0).2).1 ≠
      countLets (trim_no_ops defaultExt narrowTwiceDemo 0).1 :=
  ⟨⟨extOk_defaultExt, by decide, ⟨by decide, by decide⟩, freshFor_narrowTwiceDemo⟩, by decide⟩

/-- C8 amended: the driver is idempotent whenever its first pass draws no
fresh names — equivalently, whenever no loop was narrowed: if the name
counter comes back unchanged, re-running `trim_no_ops` on the output (with
the returned counter) returns the output itself, statement-equal, and the
counter again.  (The narrowing outcome genuinely breaks idempotence, as the
counterexample shows: the emitted clamped bounds are opaque to the next
pass, which narrows again.) -/
theorem c8_amended_idempotent_without_narrowing (E : Ext) (s : Stmt) (n : Nat)
    (h : (trim_no_ops E s n).2 = n) :
    trim_no_ops E (trim_no_ops E s n).1 (trim_no_ops E s n).2 = trim_no_ops E s n := by
  rw [show (trim_no_ops E s n).2 = n from h]
  exact trimGo_fix E s n h

/-- Witness for the amended C8: a kept-unchanged loop (undecided store
condition, solver proves nothing) is a fixed point of the driver. -/
theorem c8_witness :
    (trim_no_ops idExt keepLoopDemo 0).2 = 0 ∧
    trim_no_ops idExt (trim_no_ops idExt keepLoopDemo 0).1
        (trim_no_ops idExt keepLoopDemo 0).2 = trim_no_ops idExt keepLoopDemo 0 :=
  ⟨rfl, c8_amended_idempotent_without_narrowing idExt keepLoopDemo 0 rfl⟩

/-! ### Memory-independence and binder-freeness of expressions -/

mutual

/-- No `Load` occurs in the expression: its value is independent of the
memory. -/
def loadFreeE : Expr → Bool
  | .IntImm _ => true
  | .Var _ _ => true
  | .Add a b => loadFreeE a && loadFreeE b
  | .Sub a b => loadFreeE a && loadFreeE b
  | .Mul a b => loadFreeE a && loadFreeE b
  | .MinE a b => loadFreeE a && loadFreeE b
  | .MaxE a b => loadFreeE a && loadFreeE b
  | .EQE a b => loadFreeE a && loadFreeE b
  | .NEE a b => loadFreeE a && loadFreeE b
  | .LTE a b => loadFreeE a && loadFreeE b
  | .LEE a b => loadFreeE a && loadFreeE b
  | .GTE a b => loadFreeE a && loadFreeE b
  | .GEE a b => loadFreeE a && loadFreeE b
  | .AndE a b => loadFreeE a && loadFreeE b
  | .OrE a b => loadFreeE a && loadFreeE b
  | .NotE a => loadFreeE a
  | .LetE _ v b => loadFreeE v && loadFreeE b
  | .Load _ _ _ => false
  | .Call _ _ _ args => loadFreeEL args
termination_by structural e => e

def loadFreeEL : ExprList → Bool
  | .nil => true
  | .cons e es => loadFreeE e && loadFreeEL es
termination_by structural l => l

end

/-- Both bound expressions of an interval are load-free. -/
def loadFreeI (iv : Interval) : Bool :=
  (match iv.min with
   | some b => loadFreeE b
   | none => true) &&
  (match iv.max with
   | some b => loadFreeE b
   | none => true)

/-- No expression embedded in the statement contains an expression-level
let-binder (statement-level lets are unrestricted). -/
def NoEB : Stmt → Bool
  | .Store _ v i => (bnE v).isEmpty && (bnE i).isEmpty
  | .For _ mn ex _ _ b => (bnE mn).isEmpty && (bnE ex).isEmpty && NoEB b
  | .IfThen c t => (bnE c).isEmpty && NoEB t
  | .IfThenElse c t e => (bnE c).isEmpty && NoEB t && NoEB e
  | .LetStmt _ v b => (bnE v).isEmpty && NoEB b
  | .Evaluate e => (bnE e).isEmpty
  | .Block a b => NoEB a && NoEB b

/-- Every control expression of the statement (loop bounds and let values)
is load-free: the iteration spaces and bound scalars do not read the
mutated memory. -/
def MFS : Stmt → Bool
  | .Store _ _ _ => true
  | .For _ mn ex _ _ b => loadFreeE mn && loadFreeE ex && MFS b
  | .IfThen _ t => MFS t
  | .IfThenElse _ t e => MFS t && MFS e
  | .LetStmt _ v b => loadFreeE v && MFS b
  | .Evaluate _ => true
  | .Block a b => MFS a && MFS b

mutual

def eval_loadfree : ∀ (e : Expr) (ci : CallInterp) (m m2 : Mem) (r : Env),
    loadFreeE e = true → eval ci m r e = eval ci m2 r e
  | .IntImm _, _, _, _, _, _ => rfl
  | .Var _ _, _, _, _, _, _ => rfl
  | .Add a b, ci, m, m2, r, h => by
    simp only [loadFreeE, Bool.and_eq_true] at h
    simp only [eval, eval_loadfree a ci m m2 r h.1, eval_loadfree b ci m m2 r h.2]
  | .Sub a b, ci, m, m2, r, h => by
    simp only [loadFreeE, Bool.and_eq_true] at h
    simp only [eval, eval_loadfree a ci m m2 r h.1, eval_loadfree b ci m m2 r h.2]
  | .Mul a b, ci, m, m2, r, h => by
    simp only [loadFreeE, Bool.and_eq_true] at h
    simp only [eval, eval_loadfree a ci m m2 r h.1, eval_loadfree b ci m m2 r h.2]
  | .MinE a b, ci, m, m2, r, h => by
    simp only [loadFreeE, Bool.and_eq_true] at h
    simp only [eval, eval_loadfree a ci m m2 r h.1, eval_loadfree b ci m m2 r h.2]
  | .MaxE a b, ci, m, m2, r, h => by
    simp only [loadFreeE, Bool.and_eq_true] at h
    simp only [eval, eval_loadfree a ci m m2 r h.1, eval_loadfree b ci m m2 r h.2]
  | .EQE a b, ci, m, m2, r, h => by
    simp only [loadFreeE, Bool.and_eq_true] at h
    simp only [eval, eval_loadfree a ci m m2 r h.1, eval_loadfree b ci m m2 r h.2]
  | .NEE a b, ci, m, m2, r, h => by
    simp only [loadFreeE, Bool.and_eq_true] at h
    simp only [eval, eval_loadfree a ci m m2 r h.1, eval_loadfree b ci m m2 r h.2]
  | .LTE a b, ci, m, m2, r, h => by
    simp only [loadFreeE, Bool.and_eq_true] at h
    simp only [eval, eval_loadfree a ci m m2 r h.1, eval_loadfree b ci m m2 r h.2]
  | .LEE a b, ci, m, m2, r, h => by
    simp only [loadFreeE, Bool.and_eq_true] at h
    simp only [eval, eval_loadfree a ci m m2 r h.1, eval_loadfree b ci m m2 r h.2]
  | .GTE a b, ci, m, m2, r, h => by
    simp only [loadFreeE, Bool.and_eq_true] at h
    simp only [eval, eval_loadfree a ci m m2 r h.1, eval_loadfree b ci m m2 r h.2]
  | .GEE a b, ci, m, m2, r, h => by
    simp only [loadFreeE, Bool.and_eq_true] at h
    simp only [eval, eval_loadfree a ci m m2 r h.1, eval_loadfree b ci m m2 r h.2]
  | .AndE a b, ci, m, m2, r, h => by
    simp only [loadFreeE, Bool.and_eq_true] at h
    simp only [eval, eval_loadfree a ci m m2 r h.1, eval_loadfree b ci m m2 r h.2]
  | .OrE a b, ci, m, m2, r, h => by
    simp only [loadFreeE, Bool.and_eq_true] at h
    simp only [eval, eval_loadfree a ci m m2 r h.1, eval_loadfree b ci m m2 r h.2]
  | .NotE a, ci, m, m2, r, h => by
    simp only [loadFreeE] at h
    simp only [eval, eval_loadfree a ci m m2 r h]
  | .LetE x v b, ci, m, m2, r, h => by
    simp only [loadFreeE, Bool.and_eq_true] at h
    simp only [eval, eval_loadfree v ci m m2 r h.1]
    exact eval_loadfree b ci m m2 _ h.2
  | .Call _ _ _ args, ci, m, m2, r, h => by
    simp only [loadFreeE] at h
    simp only [eval, evalL_loadfree args ci m m2 r h]
termination_by structural e => e

def evalL_loadfree : ∀ (l : ExprList) (ci : CallInterp) (m m2 : Mem) (r : Env),
    loadFreeEL l = true → evalL ci m r l = evalL ci m2 r l
  | .nil, _, _, _, _, _ => rfl
  | .cons e es, ci, m, m2, r, h => by
    simp only [loadFreeEL, Bool.and_eq_true] at h
    simp only [evalL, eval_loadfree e ci m m2 r h.1, evalL_loadfree es ci m m2 r h.2]
termination_by structural l => l

end

/-! ### Purity and variable-name tracking for the condition builders -/

theorem pure_getD : ∀ (l : ExprList) (n : Nat) (d : Expr),
    pureEL l = true → pureE d = true → pureE (l.getD n d) = true
  | .nil, _, _, _, hd => hd
  | .cons e es, 0, _, hl, _ => by
    simp only [pureEL, Bool.and_eq_true] at hl
    exact hl.1
  | .cons e es, n + 1, d, hl, hd => by
    simp only [pureEL, Bool.and_eq_true] at hl
    exact pure_getD es n d hl.2 hd

theorem pure_getLastD : ∀ (l : ExprList) (d : Expr),
    pureEL l = true → pureE d = true → pureE (l.getLastD d) = true
  | .nil, _, _, hd => hd
  | .cons e .nil, _, hl, _ => by
    simp only [pureEL, Bool.and_eq_true] at hl
    exact hl.1
  | .cons e (.cons f fs), d, hl, hd => by
    simp only [pureEL, Bool.and_eq_true] at hl
    exact pure_getLastD (.cons f fs) d
      (by simp only [pureEL, Bool.and_eq_true]; exact hl.2) hd

theorem vn_getD : ∀ (l : ExprList) (n : Nat) (d : Expr) (y : String),
    y ∈ vnE (l.getD n d) → y ∈ vnEL l ∨ y ∈ vnE d
  | .nil, _, _, _, h => Or.inr h
  | .cons e es, 0, _, y, h => by
    simp only [vnEL, List.mem_append]
    exact Or.inl (Or.inl h)
  | .cons e es, n + 1, d, y, h => by
    simp only [vnEL, List.mem_append]
    rcases vn_getD es n d y h with h2 | h2
    · exact Or.inl (Or.inr h2)
    · exact Or.inr h2

theorem vn_getLastD : ∀ (l : ExprList) (d : Expr) (y : String),
    y ∈ vnE (l.getLastD d) → y ∈ vnEL l ∨ y ∈ vnE d
  | .nil, _, _, h => Or.inr h
  | .cons e .nil, _, y, h => by
    simp only [vnEL, List.mem_append]
    exact Or.inl (Or.inl h)
  | .cons e (.cons f fs), d, y, h => by
    simp only [vnEL, List.mem_append]
    rcases vn_getLastD (.cons f fs) d y h with h2 | h2
    · simp only [vnEL, List.mem_append] at h2
      exact Or.inl (Or.inr h2)
    · exact Or.inr h2

mutual

def strip_pure : ∀ (e : Expr), pureE e = true → pureE (strip e) = true
  | .IntImm _, h => h
  | .Var _ _, h => h
  | .Add a b, h => by
    simp only [pureE, Bool.and_eq_true] at h
    simp only [strip, pureE, Bool.and_eq_true]
    exact ⟨strip_pure a h.1, strip_pure b h.2⟩
  | .Sub a b, h => by
    simp only [pureE, Bool.and_eq_true] at h
    simp only [strip, pureE, Bool.and_eq_true]
    exact ⟨strip_pure a h.1, strip_pure b h.2⟩
  | .Mul a b, h => by
    simp only [pureE, Bool.and_eq_true] at h
    simp only [strip, pureE, Bool.and_eq_true]
    exact ⟨strip_pure a h.1, strip_pure b h.2⟩
  | .MinE a b, h => by
    simp only [pureE, Bool.and_eq_true] at h
    simp only [strip, pureE, Bool.and_eq_true]
    exact ⟨strip_pure a h.1, strip_pure b h.2⟩
  | .MaxE a b, h => by
    simp only [pureE, Bool.and_eq_true] at h
    simp only [strip, pureE, Bool.and_eq_true]
    exact ⟨strip_pure a h.1, strip_pure b h.2⟩
  | .EQE a b, h => by
    simp only [pureE, Bool.and_eq_true] at h
    simp only [strip, pureE, Bool.and_eq_true]
    exact ⟨strip_pure a h.1, strip_pure b h.2⟩
  | .NEE a b, h => by
    simp only [pureE, Bool.and_eq_true] at h
    simp only [strip, pureE, Bool.and_eq_true]
    exact ⟨strip_pure a h.1, strip_pure b h.2⟩
  | .LTE a b, h => by
    simp only [pureE, Bool.and_eq_true] at h
    simp only [strip, pureE, Bool.and_eq_true]
    exact ⟨strip_pure a h.1, strip_pure b h.2⟩
  | .LEE a b, h => by
    simp only [pureE, Bool.and_eq_true] at h
    simp only [strip, pureE, Bool.and_eq_true]
    exact ⟨strip_pure a h.1, strip_pure b h.2⟩
  | .GTE a b, h => by
    simp only [pureE, Bool.and_eq_true] at h
    simp only [strip, pureE, Bool.and_eq_true]
    exact ⟨strip_pure a h.1, strip_pure b h.2⟩
  | .GEE a b, h => by
    simp only [pureE, Bool.and_eq_true] at h
    simp only [strip, pureE, Bool.and_eq_true]
    exact ⟨strip_pure a h.1, strip_pure b h.2⟩
  | .AndE a b, h => by
    simp only [pureE, Bool.and_eq_true] at h
    simp only [strip, pureE, Bool.and_eq_true]
    exact ⟨strip_pure a h.1, strip_pure b h.2⟩
  | .OrE a b, h => by
    simp only [pureE, Bool.and_eq_true] at h
    simp only [strip, pureE, Bool.and_eq_true]
    exact ⟨strip_pure a h.1, strip_pure b h.2⟩
  | .NotE a, h => by
    simp only [pureE] at h
    simp only [strip, pureE]
    exact strip_pure a h
  | .LetE x v b, h => by
    simp only [pureE, Bool.and_eq_true] at h
    simp only [strip, pureE, Bool.and_eq_true]
    exact ⟨strip_pure v h.1, strip_pure b h.2⟩
  | .Load _ _ i, h => by
    simp only [pureE] at h
    simp only [strip, pureE]
    exact strip_pure i h
  | .Call t ct n args, h => by
    simp only [pureE, Bool.and_eq_true] at h
    simp only [strip]
    split
    · exact pure_getD (stripL args) 4 (.IntImm 0) (stripL_pure args h.2) rfl
    · split
      · exact pure_getLastD (stripL args) (.IntImm 0) (stripL_pure args h.2) rfl
      · simp only [pureE, Bool.and_eq_true]
        exact ⟨h.1, stripL_pure args h.2⟩
termination_by structural e => e

def stripL_pure : ∀ (l : ExprList), pureEL l = true → pureEL (stripL l) = true
  | .nil, h => h
  | .cons e es, h => by
    simp only [pureEL, Bool.and_eq_true] at h
    simp only [stripL, pureEL, Bool.and_eq_true]
    exact ⟨strip_pure e h.1, stripL_pure es h.2⟩
termination_by structural l => l

end

mutual

def strip_vn : ∀ (e : Expr) (y : String), y ∈ vnE (strip e) → y ∈ vnE e
  | .IntImm _, _, h => h
  | .Var _ _, _, h => h
  | .Add a b, y, h => by
    simp only [strip, vnE, List.mem_append] at h ⊢
    rcases h with h | h
    · exact Or.inl (strip_vn a y h)
    · exact Or.inr (strip_vn b y h)
  | .Sub a b, y, h => by
    simp only [strip, vnE, List.mem_append] at h ⊢
    rcases h with h | h
    · exact Or.inl (strip_vn a y h)
    · exact Or.inr (strip_vn b y h)
  | .Mul a b, y, h => by
    simp only [strip, vnE, List.mem_append] at h ⊢
    rcases h with h | h
    · exact Or.inl (strip_vn a y h)
    · exact Or.inr (strip_vn b y h)
  | .MinE a b, y, h => by
    simp only [strip, vnE, List.mem_append] at h ⊢
    rcases h with h | h
    · exact Or.inl (strip_vn a y h)
    · exact Or.inr (strip_vn b y h)
  | .MaxE a b, y, h => by
    simp only [strip, vnE, List.mem_append] at h ⊢
    rcases h with h | h
    · exact Or.inl (strip_vn a y h)
    · exact Or.inr (strip_vn b y h)
  | .EQE a b, y, h => by
    simp only [strip, vnE, List.mem_append] at h ⊢
    rcases h with h | h
    · exact Or.inl (strip_vn a y h)
    · exact Or.inr (strip_vn b y h)
  | .NEE a b, y, h => by
    simp only [strip, vnE, List.mem_append] at h ⊢
    rcases h with h | h
    · exact Or.inl (strip_vn a y h)
    · exact Or.inr (strip_vn b y h)
  | .LTE a b, y, h => by
    simp only [strip, vnE, List.mem_append] at h ⊢
    rcases h with h | h
    · exact Or.inl (strip_vn a y h)
    · exact Or.inr (strip_vn b y h)
  | .LEE a b, y, h => by
    simp only [strip, vnE, List.mem_append] at h ⊢
    rcases h with h | h
    · exact Or.inl (strip_vn a y h)
    · exact Or.inr (strip_vn b y h)
  | .GTE a b, y, h => by
    simp only [strip, vnE, List.mem_append] at h ⊢
    rcases h with h | h
    · exact Or.inl (strip_vn a y h)
    · exact Or.inr (strip_vn b y h)
  | .GEE a b, y, h => by
    simp only [strip, vnE, List.mem_append] at h ⊢
    rcases h with h | h
    · exact Or.inl (strip_vn a y h)
    · exact Or.inr (strip_vn b y h)
  | .AndE a b, y, h => by
    simp only [strip, vnE, List.mem_append] at h ⊢
    rcases h with h | h
    · exact Or.inl (strip_vn a y h)
    · exact Or.inr (strip_vn b y h)
  | .OrE a b, y, h => by
    simp only [strip, vnE, List.mem_append] at h ⊢
    rcases h with h | h
    · exact Or.inl (strip_vn a y h)
    · exact Or.inr (strip_vn b y h)
  | .NotE a, y, h => by
    simp only [strip, vnE] at h ⊢
    exact strip_vn a y h
  | .LetE x v b, y, h => by
    simp only [strip, vnE, List.mem_cons, List.mem_append] at h ⊢
    rcases h with h | h | h
    · exact Or.inl h
    · exact Or.inr (Or.inl (strip_vn v y h))
    · exact Or.inr (Or.inr (strip_vn b y h))
  | .Load _ _ i, y, h => by
    simp only [strip, vnE] at h ⊢
    exact strip_vn i y h
  | .Call t ct n args, y, h => by
    simp only [strip] at h
    simp only [vnE]
    split at h
    · rcases vn_getD (stripL args) 4 (.IntImm 0) y h with h2 | h2
      · exact stripL_vn args y h2
      · simp [vnE] at h2
    · split at h
      · rcases vn_getLastD (stripL args) (.IntImm 0) y h with h2 | h2
        · exact stripL_vn args y h2
        · simp [vnE] at h2
      · simp only [vnE] at h
        exact stripL_vn args y h
termination_by structural e => e

def stripL_vn : ∀ (l : ExprList) (y : String), y ∈ vnEL (stripL l) → y ∈ vnEL l
  | .nil, _, h => h
  | .cons e es, y, h => by
    simp only [stripL, vnEL, List.mem_append] at h ⊢
    rcases h with h | h
    · exact Or.inl (strip_vn e y h)
    · exact Or.inr (stripL_vn es y h)
termination_by structural l => l

end


theorem makeAnd_pure {a b : Expr} (ha : pureE a = true) (hb : pureE b = true) :
    pureE (makeAnd a b) = true := by
  unfold makeAnd
  split
  · exact ha
  · split
    · exact hb
    · simp only [pureE, Bool.and_eq_true]
      exact ⟨ha, hb⟩

theorem makeOr_pure {a b : Expr} (ha : pureE a = true) (hb : pureE b = true) :
    pureE (makeOr a b) = true := by
  unfold makeOr
  split
  · exact hb
  · split
    · exact ha
    · simp only [pureE, Bool.and_eq_true]
      exact ⟨ha, hb⟩

theorem makeAnd_vn {a b : Expr} {y : String} (h : y ∈ vnE (makeAnd a b)) :
    y ∈ vnE a ∨ y ∈ vnE b := by
  unfold makeAnd at h
  split at h
  · exact Or.inl h
  · split at h
    · exact Or.inr h
    · simpa [vnE] using h

theorem makeOr_vn {a b : Expr} {y : String} (h : y ∈ vnE (makeOr a b)) :
    y ∈ vnE a ∨ y ∈ vnE b := by
  unfold makeOr at h
  split at h
  · exact Or.inr h
  · split at h
    · exact Or.inl h
    · simpa [vnE] using h

mutual

def fv_vn : ∀ (e : Expr) (y : String), y ∈ fvE e → y ∈ vnE e
  | .IntImm _, _, h => h
  | .Var _ _, _, h => h
  | .Add a b, y, h => by
    simp only [fvE, vnE, List.mem_append] at h ⊢
    rcases h with h | h
    · exact Or.inl (fv_vn a y h)
    · exact Or.inr (fv_vn b y h)
  | .Sub a b, y, h => by
    simp only [fvE, vnE, List.mem_append] at h ⊢
    rcases h with h | h
    · exact Or.inl (fv_vn a y h)
    · exact Or.inr (fv_vn b y h)
  | .Mul a b, y, h => by
    simp only [fvE, vnE, List.mem_append] at h ⊢
    rcases h with h | h
    · exact Or.inl (fv_vn a y h)
    · exact Or.inr (fv_vn b y h)
  | .MinE a b, y, h => by
    simp only [fvE, vnE, List.mem_append] at h ⊢
    rcases h with h | h
    · exact Or.inl (fv_vn a y h)
    · exact Or.inr (fv_vn b y h)
  | .MaxE a b, y, h => by
    simp only [fvE, vnE, List.mem_append] at h ⊢
    rcases h with h | h
    · exact Or.inl (fv_vn a y h)
    · exact Or.inr (fv_vn b y h)
  | .EQE a b, y, h => by
    simp only [fvE, vnE, List.mem_append] at h ⊢
    rcases h with h | h
    · exact Or.inl (fv_vn a y h)
    · exact Or.inr (fv_vn b y h)
  | .NEE a b, y, h => by
    simp only [fvE, vnE, List.mem_append] at h ⊢
    rcases h with h | h
    · exact Or.inl (fv_vn a y h)
    · exact Or.inr (fv_vn b y h)
  | .LTE a b, y, h => by
    simp only [fvE, vnE, List.mem_append] at h ⊢
    rcases h with h | h
    · exact Or.inl (fv_vn a y h)
    · exact Or.inr (fv_vn b y h)
  | .LEE a b, y, h => by
    simp only [fvE, vnE, List.mem_append] at h ⊢
    rcases h with h | h
    · exact Or.inl (fv_vn a y h)
    · exact Or.inr (fv_vn b y h)
  | .GTE a b, y, h => by
    simp only [fvE, vnE, List.mem_append] at h ⊢
    rcases h with h | h
    · exact Or.inl (fv_vn a y h)
    · exact Or.inr (fv_vn b y h)
  | .GEE a b, y, h => by
    simp only [fvE, vnE, List.mem_append] at h ⊢
    rcases h with h | h
    · exact Or.inl (fv_vn a y h)
    · exact Or.inr (fv_vn b y h)
  | .AndE a b, y, h => by
    simp only [fvE, vnE, List.mem_append] at h ⊢
    rcases h with h | h
    · exact Or.inl (fv_vn a y h)
    · exact Or.inr (fv_vn b y h)
  | .OrE a b, y, h => by
    simp only [fvE, vnE, List.mem_append] at h ⊢
    rcases h with h | h
    · exact Or.inl (fv_vn a y h)
    · exact Or.inr (fv_vn b y h)
  | .NotE a, y, h => fv_vn a y h
  | .LetE x v b, y, h => by
    simp only [fvE, vnE, List.mem_cons, List.mem_append, List.mem_filter] at h ⊢
    rcases h with h | h
    · exact Or.inr (Or.inl (fv_vn v y h))
    · exact Or.inr (Or.inr (fv_vn b y h.1))
  | .Load _ _ i, y, h => fv_vn i y h
  | .Call _ _ _ args, y, h => fvL_vn args y h
termination_by structural e => e

def fvL_vn : ∀ (l : ExprList) (y : String), y ∈ fvEL l → y ∈ vnEL l
  | .nil, _, h => h
  | .cons e es, y, h => by
    simp only [fvEL, vnEL, List.mem_append] at h ⊢
    rcases h with h | h
    · exact Or.inl (fv_vn e y h)
    · exact Or.inr (fvL_vn es y h)
termination_by structural l => l

end

theorem fvS_vnS : ∀ (s : Stmt) (y : String), y ∈ fvS s → y ∈ vnS s
  | .Store _ v i, y, h => by
    simp only [fvS, vnS, List.mem_append] at h ⊢
    rcases h with h | h
    · exact Or.inl (fv_vn v y h)
    · exact Or.inr (fv_vn i y h)
  | .For x mn ex _ _ b, y, h => by
    simp only [fvS, vnS, List.mem_cons, List.mem_append, List.mem_filter] at h ⊢
    rcases h with (h | h) | h
    · exact Or.inr (Or.inl (Or.inl (fv_vn mn y h)))
    · exact Or.inr (Or.inl (Or.inr (fv_vn ex y h)))
    · exact Or.inr (Or.inr (fvS_vnS b y h.1))
  | .IfThen c t, y, h => by
    simp only [fvS, vnS, List.mem_append] at h ⊢
    rcases h with h | h
    · exact Or.inl (fv_vn c y h)
    · exact Or.inr (fvS_vnS t y h)
  | .IfThenElse c t e, y, h => by
    simp only [fvS, vnS, List.mem_append] at h ⊢
    rcases h with (h | h) | h
    · exact Or.inl (Or.inl (fv_vn c y h))
    · exact Or.inl (Or.inr (fvS_vnS t y h))
    · exact Or.inr (fvS_vnS e y h)
  | .LetStmt x v b, y, h => by
    simp only [fvS, vnS, List.mem_cons, List.mem_append, List.mem_filter] at h ⊢
    rcases h with h | h
    · exact Or.inr (Or.inl (fv_vn v y h))
    · exact Or.inr (Or.inr (fvS_vnS b y h.1))
  | .Evaluate e, y, h => fv_vn e y h
  | .Block a b, y, h => by
    simp only [fvS, vnS, List.mem_append] at h ⊢
    rcases h with h | h
    · exact Or.inl (fvS_vnS a y h)
    · exact Or.inr (fvS_vnS b y h)

mutual

def bnE_vnE : ∀ (e : Expr) (y : String), y ∈ bnE e → y ∈ vnE e
  | .IntImm _, _, h => h
  | .Var _ _, _, h => by simp [bnE] at h
  | .Add a b, y, h => by
    simp only [bnE, vnE, List.mem_append] at h ⊢
    rcases h with h | h
    · exact Or.inl (bnE_vnE a y h)
    · exact Or.inr (bnE_vnE b y h)
  | .Sub a b, y, h => by
    simp only [bnE, vnE, List.mem_append] at h ⊢
    rcases h with h | h
    · exact Or.inl (bnE_vnE a y h)
    · exact Or.inr (bnE_vnE b y h)
  | .Mul a b, y, h => by
    simp only [bnE, vnE, List.mem_append] at h ⊢
    rcases h with h | h
    · exact Or.inl (bnE_vnE a y h)
    · exact Or.inr (bnE_vnE b y h)
  | .MinE a b, y, h => by
    simp only [bnE, vnE, List.mem_append] at h ⊢
    rcases h with h | h
    · exact Or.inl (bnE_vnE a y h)
    · exact Or.inr (bnE_vnE b y h)
  | .MaxE a b, y, h => by
    simp only [bnE, vnE, List.mem_append] at h ⊢
    rcases h with h | h
    · exact Or.inl (bnE_vnE a y h)
    · exact Or.inr (bnE_vnE b y h)
  | .EQE a b, y, h => by
    simp only [bnE, vnE, List.mem_append] at h ⊢
    rcases h with h | h
    · exact Or.inl (bnE_vnE a y h)
    · exact Or.inr (bnE_vnE b y h)
  | .NEE a b, y, h => by
    simp only [bnE, vnE, List.mem_append] at h ⊢
    rcases h with h | h
    · exact Or.inl (bnE_vnE a y h)
    · exact Or.inr (bnE_vnE b y h)
  | .LTE a b, y, h => by
    simp only [bnE, vnE, List.mem_append] at h ⊢
    rcases h with h | h
    · exact Or.inl (bnE_vnE a y h)
    · exact Or.inr (bnE_vnE b y h)
  | .LEE a b, y, h => by
    simp only [bnE, vnE, List.mem_append] at h ⊢
    rcases h with h | h
    · exact Or.inl (bnE_vnE a y h)
    · exact Or.inr (bnE_vnE b y h)
  | .GTE a b, y, h => by
    simp only [bnE, vnE, List.mem_append] at h ⊢
    rcases h with h | h
    · exact Or.inl (bnE_vnE a y h)
    · exact Or.inr (bnE_vnE b y h)
  | .GEE a b, y, h => by
    simp only [bnE, vnE, List.mem_append] at h ⊢
    rcases h with h | h
    · exact Or.inl (bnE_vnE a y h)
    · exact Or.inr (bnE_vnE b y h)
  | .AndE a b, y, h => by
    simp only [bnE, vnE, List.mem_append] at h ⊢
    rcases h with h | h
    · exact Or.inl (bnE_vnE a y h)
    · exact Or.inr (bnE_vnE b y h)
  | .OrE a b, y, h => by
    simp only [bnE, vnE, List.mem_append] at h ⊢
    rcases h with h | h
    · exact Or.inl (bnE_vnE a y h)
    · exact Or.inr (bnE_vnE b y h)
  | .NotE a, y, h => bnE_vnE a y h
  | .LetE x v b, y, h => by
    simp only [bnE, vnE, List.mem_cons, List.mem_append] at h ⊢
    rcases h with h | h | h
    · exact Or.inl h
    · exact Or.inr (Or.inl (bnE_vnE v y h))
    · exact Or.inr (Or.inr (bnE_vnE b y h))
  | .Load _ _ i, y, h => bnE_vnE i y h
  | .Call _ _ _ args, y, h => bnEL_vnEL args y h
termination_by structural e => e

def bnEL_vnEL : ∀ (l : ExprList) (y : String), y ∈ bnEL l → y ∈ vnEL l
  | .nil, _, h => h
  | .cons e es, y, h => by
    simp only [bnEL, vnEL, List.mem_append] at h ⊢
    rcases h with h | h
    · exact Or.inl (bnE_vnE e y h)
    · exact Or.inr (bnEL_vnEL es y h)
termination_by structural l => l

end

theorem bnS_vnS : ∀ (s : Stmt) (y : String), y ∈ bnS s → y ∈ vnS s
  | .Store _ v i, y, h => by
    simp only [bnS, vnS, List.mem_append] at h ⊢
    rcases h with h | h
    · exact Or.inl (bnE_vnE v y h)
    · exact Or.inr (bnE_vnE i y h)
  | .For x mn ex _ _ b, y, h => by
    simp only [bnS, vnS, List.mem_cons, List.mem_append] at h ⊢
    rcases h with h | (h | h) | h
    · exact Or.inl h
    · exact Or.inr (Or.inl (Or.inl (bnE_vnE mn y h)))
    · exact Or.inr (Or.inl (Or.inr (bnE_vnE ex y h)))
    · exact Or.inr (Or.inr (bnS_vnS b y h))
  | .IfThen c t, y, h => by
    simp only [bnS, vnS, List.mem_append] at h ⊢
    rcases h with h | h
    · exact Or.inl (bnE_vnE c y h)
    · exact Or.inr (bnS_vnS t y h)
  | .IfThenElse c t e, y, h => by
    simp only [bnS, vnS, List.mem_append] at h ⊢
    rcases h with (h | h) | h
    · exact Or.inl (Or.inl (bnE_vnE c y h))
    · exact Or.inl (Or.inr (bnS_vnS t y h))
    · exact Or.inr (bnS_vnS e y h)
  | .LetStmt x v b, y, h => by
    simp only [bnS, vnS, List.mem_cons, List.mem_append] at h ⊢
    rcases h with h | h | h
    · exact Or.inl h
    · exact Or.inr (Or.inl (bnE_vnE v y h))
    · exact Or.inr (Or.inr (bnS_vnS b y h))
  | .Evaluate e, y, h => bnE_vnE e y h
  | .Block a b, y, h => by
    simp only [bnS, vnS, List.mem_append] at h ⊢
    rcases h with h | h
    · exact Or.inl (bnS_vnS a y h)
    · exact Or.inr (bnS_vnS b y h)

mutual

def noOpE_pure (E : Ext) (hE : ExtOk E) : ∀ (e c : Expr),
    pureE e = true → pureE c = true → pureE (noOpE E e c) = true
  | .IntImm _, _, _, hc => hc
  | .Var _ _, _, _, hc => hc
  | .Add a b, c, he, hc => by
    simp only [pureE, Bool.and_eq_true] at he
    simp only [noOpE]
    exact noOpE_pure E hE b _ he.2 (noOpE_pure E hE a c he.1 hc)
  | .Sub a b, c, he, hc => by
    simp only [pureE, Bool.and_eq_true] at he
    simp only [noOpE]
    exact noOpE_pure E hE b _ he.2 (noOpE_pure E hE a c he.1 hc)
  | .Mul a b, c, he, hc => by
    simp only [pureE, Bool.and_eq_true] at he
    simp only [noOpE]
    exact noOpE_pure E hE b _ he.2 (noOpE_pure E hE a c he.1 hc)
  | .MinE a b, c, he, hc => by
    simp only [pureE, Bool.and_eq_true] at he
    simp only [noOpE]
    exact noOpE_pure E hE b _ he.2 (noOpE_pure E hE a c he.1 hc)
  | .MaxE a b, c, he, hc => by
    simp only [pureE, Bool.and_eq_true] at he
    simp only [noOpE]
    exact noOpE_pure E hE b _ he.2 (noOpE_pure E hE a c he.1 hc)
  | .EQE a b, c, he, hc => by
    simp only [pureE, Bool.and_eq_true] at he
    simp only [noOpE]
    exact noOpE_pure E hE b _ he.2 (noOpE_pure E hE a c he.1 hc)
  | .NEE a b, c, he, hc => by
    simp only [pureE, Bool.and_eq_true] at he
    simp only [noOpE]
    exact noOpE_pure E hE b _ he.2 (noOpE_pure E hE a c he.1 hc)
  | .LTE a b, c, he, hc => by
    simp only [pureE, Bool.and_eq_true] at he
    simp only [noOpE]
    exact noOpE_pure E hE b _ he.2 (noOpE_pure E hE a c he.1 hc)
  | .LEE a b, c, he, hc => by
    simp only [pureE, Bool.and_eq_true] at he
    simp only [noOpE]
    exact noOpE_pure E hE b _ he.2 (noOpE_pure E hE a c he.1 hc)
  | .GTE a b, c, he, hc => by
    simp only [pureE, Bool.and_eq_true] at he
    simp only [noOpE]
    exact noOpE_pure E hE b _ he.2 (noOpE_pure E hE a c he.1 hc)
  | .GEE a b, c, he, hc => by
    simp only [pureE, Bool.and_eq_true] at he
    simp only [noOpE]
    exact noOpE_pure E hE b _ he.2 (noOpE_pure E hE a c he.1 hc)
  | .AndE a b, c, he, hc => by
    simp only [pureE, Bool.and_eq_true] at he
    simp only [noOpE]
    exact noOpE_pure E hE b _ he.2 (noOpE_pure E hE a c he.1 hc)
  | .OrE a b, c, he, hc => by
    simp only [pureE, Bool.and_eq_true] at he
    simp only [noOpE]
    exact noOpE_pure E hE b _ he.2 (noOpE_pure E hE a c he.1 hc)
  | .NotE a, c, he, hc => by
    simp only [pureE] at he
    simp only [noOpE]
    exact noOpE_pure E hE a c he hc
  | .LetE x v b, c, he, hc => by
    simp only [pureE, Bool.and_eq_true] at he
    have h2 : pureE (noOpE E b (noOpE E v c)) = true :=
      noOpE_pure E hE b _ he.2 (noOpE_pure E hE v c he.1 hc)
    simp only [noOpE]
    split
    · simp only [pureE, Bool.and_eq_true]
      exact ⟨he.1, h2⟩
    · exact h2
  | .Load _ _ i, c, he, hc => by
    simp only [pureE] at he
    simp only [noOpE]
    exact noOpE_pure E hE i c he hc
  | .Call t ct n args, c, he, hc => by
    simp only [pureE, Bool.and_eq_true] at he
    simp only [noOpE]
    split
    · rfl
    · exact noOpEL_pure E hE args c he.2 hc
termination_by structural e => e

def noOpEL_pure (E : Ext) (hE : ExtOk E) : ∀ (l : ExprList) (c : Expr),
    pureEL l = true → pureE c = true → pureE (noOpEL E l c) = true
  | .nil, _, _, hc => hc
  | .cons e es, c, hl, hc => by
    simp only [pureEL, Bool.and_eq_true] at hl
    simp only [noOpEL]
    exact noOpEL_pure E hE es _ hl.2 (noOpE_pure E hE e c hl.1 hc)
termination_by structural l => l

end

def noOpS_pure (E : Ext) (hE : ExtOk E) : ∀ (s : Stmt) (c : Expr),
    WFS s = true → pureE c = true → pureE (noOpS E s c) = true
  | .Store nm v idx, c, hwf, hc => by
    simp only [WFS, Bool.and_eq_true] at hwf
    simp only [noOpS]
    split
    · rfl
    · refine makeAnd_pure hc (hE.acd_pure _ [] ?_ ?_)
      · refine strip_pure _ ?_
        simp only [pureE, Bool.and_eq_true]
        exact ⟨hwf.2, hwf.1⟩
      · intro p hp
        simp at hp
  | .For x mn ex ft da body, c, hwf, hc => by
    simp only [WFS, Bool.and_eq_true] at hwf
    simp only [noOpS]
    refine makeAnd_pure hc (makeOr_pure (hE.acd_pure _ _ ?_ ?_) (hE.simpE_pure _ ?_))
    · exact hE.simpE_pure _ (hE.cse_pure _ (noOpS_pure E hE body constTrue hwf.2 rfl))
    · intro p hp
      simp only [List.mem_singleton] at hp
      subst hp
      simp [ivPure, pureE, hwf.1.1, hwf.1.2]
    · simp only [pureE, Bool.and_eq_true]
      exact ⟨hwf.1.2, trivial⟩
  | .IfThen cnd t, c, hwf, hc => by
    simp only [WFS, Bool.and_eq_true] at hwf
    simp only [noOpS]
    refine makeAnd_pure hc (makeOr_pure ?_ (noOpS_pure E hE t constTrue hwf.2 rfl))
    simp only [pureE]
    exact hwf.1
  | .IfThenElse cnd t e, c, hwf, hc => by
    simp only [WFS, Bool.and_eq_true] at hwf
    simp only [noOpS]
    refine makeAnd_pure
      (makeAnd_pure hc (makeOr_pure ?_ (noOpS_pure E hE t constTrue hwf.1.2 rfl)))
      (makeOr_pure hwf.1.1 (noOpS_pure E hE e constTrue hwf.2 rfl))
    simp only [pureE]
    exact hwf.1.1
  | .LetStmt x v b, c, hwf, hc => by
    simp only [WFS, Bool.and_eq_true] at hwf
    have h2 : pureE (noOpS E b (noOpE E v c)) = true :=
      noOpS_pure E hE b _ hwf.2 (noOpE_pure E hE v c hwf.1 hc)
    simp only [noOpS]
    split
    · simp only [pureE, Bool.and_eq_true]
      exact ⟨hwf.1, h2⟩
    · exact h2
  | .Evaluate e, c, hwf, hc => by
    simp only [noOpS]
    by_cases hp : pureE e = true
    · exact noOpE_pure E hE e c hp hc
    · rw [noOpE_impure E e c (Bool.eq_false_iff.mpr hp)]
      rfl
  | .Block a b, c, hwf, hc => by
    simp only [WFS, Bool.and_eq_true] at hwf
    simp only [noOpS]
    exact noOpS_pure E hE b _ hwf.2 (noOpS_pure E hE a c hwf.1 hc)

mutual

def noOpE_vn (E : Ext) (hE : ExtOk E) : ∀ (e c : Expr) (y : String),
    y ∈ vnE (noOpE E e c) → y ∈ vnE c ∨ y ∈ vnE e
  | .IntImm _, _, _, h => Or.inl h
  | .Var _ _, _, _, h => Or.inl h
  | .Add a b, c, y, h => by
    simp only [noOpE] at h
    simp only [vnE, List.mem_append]
    rcases noOpE_vn E hE b _ y h with h2 | h2
    · rcases noOpE_vn E hE a c y h2 with h3 | h3
      · exact Or.inl h3
      · exact Or.inr (Or.inl h3)
    · exact Or.inr (Or.inr h2)
  | .Sub a b, c, y, h => by
    simp only [noOpE] at h
    simp only [vnE, List.mem_append]
    rcases noOpE_vn E hE b _ y h with h2 | h2
    · rcases noOpE_vn E hE a c y h2 with h3 | h3
      · exact Or.inl h3
      · exact Or.inr (Or.inl h3)
    · exact Or.inr (Or.inr h2)
  | .Mul a b, c, y, h => by
    simp only [noOpE] at h
    simp only [vnE, List.mem_append]
    rcases noOpE_vn E hE b _ y h with h2 | h2
    · rcases noOpE_vn E hE a c y h2 with h3 | h3
      · exact Or.inl h3
      · exact Or.inr (Or.inl h3)
    · exact Or.inr (Or.inr h2)
  | .MinE a b, c, y, h => by
    simp only [noOpE] at h
    simp only [vnE, List.mem_append]
    rcases noOpE_vn E hE b _ y h with h2 | h2
    · rcases noOpE_vn E hE a c y h2 with h3 | h3
      · exact Or.inl h3
      · exact Or.inr (Or.inl h3)
    · exact Or.inr (Or.inr h2)
  | .MaxE a b, c, y, h => by
    simp only [noOpE] at h
    simp only [vnE, List.mem_append]
    rcases noOpE_vn E hE b _ y h with h2 | h2
    · rcases noOpE_vn E hE a c y h2 with h3 | h3
      · exact Or.inl h3
      · exact Or.inr (Or.inl h3)
    · exact Or.inr (Or.inr h2)
  | .EQE a b, c, y, h => by
    simp only [noOpE] at h
    simp only [vnE, List.mem_append]
    rcases noOpE_vn E hE b _ y h with h2 | h2
    · rcases noOpE_vn E hE a c y h2 with h3 | h3
      · exact Or.inl h3
      · exact Or.inr (Or.inl h3)
    · exact Or.inr (Or.inr h2)
  | .NEE a b, c, y, h => by
    simp only [noOpE] at h
    simp only [vnE, List.mem_append]
    rcases noOpE_vn E hE b _ y h with h2 | h2
    · rcases noOpE_vn E hE a c y h2 with h3 | h3
      · exact Or.inl h3
      · exact Or.inr (Or.inl h3)
    · exact Or.inr (Or.inr h2)
  | .LTE a b, c, y, h => by
    simp only [noOpE] at h
    simp only [vnE, List.mem_append]
    rcases noOpE_vn E hE b _ y h with h2 | h2
    · rcases noOpE_vn E hE a c y h2 with h3 | h3
      · exact Or.inl h3
      · exact Or.inr (Or.inl h3)
    · exact Or.inr (Or.inr h2)
  | .LEE a b, c, y, h => by
    simp only [noOpE] at h
    simp only [vnE, List.mem_append]
    rcases noOpE_vn E hE b _ y h with h2 | h2
    · rcases noOpE_vn E hE a c y h2 with h3 | h3
      · exact Or.inl h3
      · exact Or.inr (Or.inl h3)
    · exact Or.inr (Or.inr h2)
  | .GTE a b, c, y, h => by
    simp only [noOpE] at h
    simp only [vnE, List.mem_append]
    rcases noOpE_vn E hE b _ y h with h2 | h2
    · rcases noOpE_vn E hE a c y h2 with h3 | h3
      · exact Or.inl h3
      · exact Or.inr (Or.inl h3)
    · exact Or.inr (Or.inr h2)
  | .GEE a b, c, y, h => by
    simp only [noOpE] at h
    simp only [vnE, List.mem_append]
    rcases noOpE_vn E hE b _ y h with h2 | h2
    · rcases noOpE_vn E hE a c y h2 with h3 | h3
      · exact Or.inl h3
      · exact Or.inr (Or.inl h3)
    · exact Or.inr (Or.inr h2)
  | .AndE a b, c, y, h => by
    simp only [noOpE] at h
    simp only [vnE, List.mem_append]
    rcases noOpE_vn E hE b _ y h with h2 | h2
    · rcases noOpE_vn E hE a c y h2 with h3 | h3
      · exact Or.inl h3
      · exact Or.inr (Or.inl h3)
    · exact Or.inr (Or.inr h2)
  | .OrE a b, c, y, h => by
    simp only [noOpE] at h
    simp only [vnE, List.mem_append]
    rcases noOpE_vn E hE b _ y h with h2 | h2
    · rcases noOpE_vn E hE a c y h2 with h3 | h3
      · exact Or.inl h3
      · exact Or.inr (Or.inl h3)
    · exact Or.inr (Or.inr h2)
  | .NotE a, c, y, h => by
    simp only [noOpE] at h
    exact noOpE_vn E hE a c y h
  | .LetE x v b, c, y, h => by
    simp only [noOpE] at h
    simp only [vnE, List.mem_cons, List.mem_append]
    have main : y ∈ vnE (noOpE E b (noOpE E v c)) → y ∈ vnE c ∨
        y = x ∨ y ∈ vnE v ∨ y ∈ vnE b := by
      intro h2
      rcases noOpE_vn E hE b _ y h2 with h3 | h3
      · rcases noOpE_vn E hE v c y h3 with h4 | h4
        · exact Or.inl h4
        · exact Or.inr (Or.inr (Or.inl h4))
      · exact Or.inr (Or.inr (Or.inr h3))
    split at h
    · simp only [vnE, List.mem_cons, List.mem_append] at h
      rcases h with h | h | h
      · exact Or.inr (Or.inl h)
      · exact Or.inr (Or.inr (Or.inl h))
      · exact main h
    · exact main h
  | .Load _ _ i, c, y, h => by
    simp only [noOpE] at h
    exact noOpE_vn E hE i c y h
  | .Call t ct n args, c, y, h => by
    simp only [noOpE] at h
    simp only [vnE]
    split at h
    · simp [constFalse, vnE] at h
    · exact noOpEL_vn E hE args c y h
termination_by structural e => e

def noOpEL_vn (E : Ext) (hE : ExtOk E) : ∀ (l : ExprList) (c : Expr) (y : String),
    y ∈ vnE (noOpEL E l c) → y ∈ vnE c ∨ y ∈ vnEL l
  | .nil, _, _, h => Or.inl h
  | .cons e es, c, y, h => by
    simp only [noOpEL] at h
    simp only [vnEL, List.mem_append]
    rcases noOpEL_vn E hE es _ y h with h2 | h2
    · rcases noOpE_vn E hE e c y h2 with h3 | h3
      · exact Or.inl h3
      · exact Or.inr (Or.inl h3)
    · exact Or.inr (Or.inr h2)
termination_by structural l => l

end

def noOpS_vn (E : Ext) (hE : ExtOk E) : ∀ (s : Stmt) (c : Expr) (y : String),
    y ∈ vnE (noOpS E s c) → y ∈ vnE c ∨ y ∈ vnS s
  | .Store nm v idx, c, y, h => by
    simp only [noOpS] at h
    simp only [vnS, List.mem_append]
    split at h
    · simp [constFalse, vnE] at h
    · rcases makeAnd_vn h with h2 | h2
      · exact Or.inl h2
      · rcases hE.acd_vn _ [] y h2 with h3 | h3
        · have h4 := strip_vn _ y h3
          simp only [vnE, List.mem_append] at h4
          rcases h4 with h4 | h4
          · exact Or.inr (Or.inr h4)
          · exact Or.inr (Or.inl h4)
        · obtain ⟨p, hp, _⟩ := h3
          simp at hp
  | .For x mn ex ft da body, c, y, h => by
    simp only [noOpS] at h
    simp only [vnS, List.mem_cons, List.mem_append]
    rcases makeAnd_vn h with h2 | h2
    · exact Or.inl h2
    · rcases makeOr_vn h2 with h3 | h3
      · rcases hE.acd_vn _ _ y h3 with h4 | h4
        · have h5 := hE.cse_vn _ y (hE.simpE_vn _ y h4)
          rcases noOpS_vn E hE body constTrue y h5 with h6 | h6
          · simp [constTrue, vnE] at h6
          · exact Or.inr (Or.inr (Or.inr h6))
        · obtain ⟨p, hp, hy⟩ := h4
          simp only [List.mem_singleton] at hp
          subst hp
          rcases hy with hy | hy
          · exact Or.inr (Or.inl hy)
          · simp only [ivUses, Bool.or_eq_true] at hy
            rcases hy with hy | hy
            · rcases usesVar_iff.mp hy with hm
              exact Or.inr (Or.inr (Or.inl (Or.inl (fv_vn mn y hm))))
            · have hm := usesVar_iff.mp hy
              simp only [fvE, List.mem_append] at hm
              rcases hm with (hm | hm) | hm
              · exact Or.inr (Or.inr (Or.inl (Or.inl (fv_vn mn y hm))))
              · exact Or.inr (Or.inr (Or.inl (Or.inr (fv_vn ex y hm))))
              · simp [fvE] at hm
      · have h4 := hE.simpE_vn _ y h3
        simp only [vnE, List.mem_append] at h4
        rcases h4 with h4 | h4
        · exact Or.inr (Or.inr (Or.inl (Or.inr h4)))
        · simp [vnE] at h4
  | .IfThen cnd t, c, y, h => by
    simp only [noOpS] at h
    simp only [vnS, List.mem_append]
    rcases makeAnd_vn h with h2 | h2
    · exact Or.inl h2
    · rcases makeOr_vn h2 with h3 | h3
      · exact Or.inr (Or.inl h3)
      · rcases noOpS_vn E hE t constTrue y h3 with h4 | h4
        · simp [constTrue, vnE] at h4
        · exact Or.inr (Or.inr h4)
  | .IfThenElse cnd t e, c, y, h => by
    simp only [noOpS] at h
    simp only [vnS, List.mem_append]
    rcases makeAnd_vn h with h2 | h2
    · rcases makeAnd_vn h2 with h3 | h3
      · exact Or.inl h3
      · rcases makeOr_vn h3 with h4 | h4
        · exact Or.inr (Or.inl (Or.inl h4))
        · rcases noOpS_vn E hE t constTrue y h4 with h5 | h5
          · simp [constTrue, vnE] at h5
          · exact Or.inr (Or.inl (Or.inr h5))
    · rcases makeOr_vn h2 with h3 | h3
      · exact Or.inr (Or.inl (Or.inl h3))
      · rcases noOpS_vn E hE e constTrue y h3 with h4 | h4
        · simp [constTrue, vnE] at h4
        · exact Or.inr (Or.inr h4)
  | .LetStmt x v b, c, y, h => by
    simp only [noOpS] at h
    simp only [vnS, List.mem_cons, List.mem_append]
    have main : y ∈ vnE (noOpS E b (noOpE E v c)) → y ∈ vnE c ∨
        y = x ∨ y ∈ vnE v ∨ y ∈ vnS b := by
      intro h2
      rcases noOpS_vn E hE b _ y h2 with h3 | h3
      · rcases noOpE_vn E hE v c y h3 with h4 | h4
        · exact Or.inl h4
        · exact Or.inr (Or.inr (Or.inl h4))
      · exact Or.inr (Or.inr (Or.inr h3))
    split at h
    · simp only [vnE, List.mem_cons, List.mem_append] at h
      rcases h with h | h | h
      · exact Or.inr (Or.inl h)
      · exact Or.inr (Or.inr (Or.inl h))
      · exact main h
    · exact main h
  | .Evaluate e, c, y, h => by
    simp only [noOpS] at h
    exact noOpE_vn E hE e c y h
  | .Block a b, c, y, h => by
    simp only [noOpS] at h
    simp only [vnS, List.mem_append]
    rcases noOpS_vn E hE b _ y h with h2 | h2
    · rcases noOpS_vn E hE a c y h2 with h3 | h3
      · exact Or.inl h3
      · exact Or.inr (Or.inl h3)
    · exact Or.inr (Or.inr h2)

/-! ### The stability contracts needed by the narrowing outcome -/

/-- The additional collaborator contracts under which the narrowing outcome
of the driver preserves semantics: the outer-interval solver only commits to
bound expressions that are load-free (memory-independent) and contain no
let-binders — otherwise it reports the unbounded interval — and the
statement simplifier neither introduces expression-level let-binders nor
puts loads into control expressions. -/
structure TrimOk (E : Ext) : Prop where
  solveI_lf : ∀ e x, loadFreeI (E.solveForOuterInterval e x) = true
  solveI_bn : ∀ e x b,
    (E.solveForOuterInterval e x).min = some b ∨
      (E.solveForOuterInterval e x).max = some b → bnE b = []
  simpS_noeb : ∀ s, NoEB s = true → NoEB (E.simplifyS s) = true
  simpS_mfs : ∀ s, MFS s = true → MFS (E.simplifyS s) = true

theorem foldStep_lf (e : Expr) (h : loadFreeE e = true) :
    loadFreeE (foldStep e) = true := by
  unfold foldStep
  split
  · rfl
  · rfl
  · rfl
  · rfl
  · rfl
  · split <;> rfl
  · split <;> rfl
  · split <;> rfl
  · split <;> rfl
  · split <;> rfl
  · split
    · rfl
    · exact h
  · split <;> rfl
  · exact h
  · exact h
mutual

def foldE_lf : ∀ (e : Expr), loadFreeE e = true → loadFreeE (foldE e) = true
  | .IntImm _, h => h
  | .Var _ _, h => h
  | .Add a b, h => by
    simp only [loadFreeE, Bool.and_eq_true] at h
    simp only [foldE]
    refine foldStep_lf _ ?_
    simp only [loadFreeE, Bool.and_eq_true]
    exact ⟨foldE_lf a h.1, foldE_lf b h.2⟩
  | .Sub a b, h => by
    simp only [loadFreeE, Bool.and_eq_true] at h
    simp only [foldE]
    refine foldStep_lf _ ?_
    simp only [loadFreeE, Bool.and_eq_true]
    exact ⟨foldE_lf a h.1, foldE_lf b h.2⟩
  | .Mul a b, h => by
    simp only [loadFreeE, Bool.and_eq_true] at h
    simp only [foldE]
    refine foldStep_lf _ ?_
    simp only [loadFreeE, Bool.and_eq_true]
    exact ⟨foldE_lf a h.1, foldE_lf b h.2⟩
  | .MinE a b, h => by
    simp only [loadFreeE, Bool.and_eq_true] at h
    simp only [foldE]
    refine foldStep_lf _ ?_
    simp only [loadFreeE, Bool.and_eq_true]
    exact ⟨foldE_lf a h.1, foldE_lf b h.2⟩
  | .MaxE a b, h => by
    simp only [loadFreeE, Bool.and_eq_true] at h
    simp only [foldE]
    refine foldStep_lf _ ?_
    simp only [loadFreeE, Bool.and_eq_true]
    exact ⟨foldE_lf a h.1, foldE_lf b h.2⟩
  | .EQE a b, h => by
    simp only [loadFreeE, Bool.and_eq_true] at h
    simp only [foldE]
    refine foldStep_lf _ ?_
    simp only [loadFreeE, Bool.and_eq_true]
    exact ⟨foldE_lf a h.1, foldE_lf b h.2⟩
  | .NEE a b, h => by
    simp only [loadFreeE, Bool.and_eq_true] at h
    simp only [foldE]
    refine foldStep_lf _ ?_
    simp only [loadFreeE, Bool.and_eq_true]
    exact ⟨foldE_lf a h.1, foldE_lf b h.2⟩
  | .LTE a b, h => by
    simp only [loadFreeE, Bool.and_eq_true] at h
    simp only [foldE]
    refine foldStep_lf _ ?_
    simp only [loadFreeE, Bool.and_eq_true]
    exact ⟨foldE_lf a h.1, foldE_lf b h.2⟩
  | .LEE a b, h => by
    simp only [loadFreeE, Bool.and_eq_true] at h
    simp only [foldE]
    refine foldStep_lf _ ?_
    simp only [loadFreeE, Bool.and_eq_true]
    exact ⟨foldE_lf a h.1, foldE_lf b h.2⟩
  | .GTE a b, h => by
    simp only [loadFreeE, Bool.and_eq_true] at h
    simp only [foldE]
    refine foldStep_lf _ ?_
    simp only [loadFreeE, Bool.and_eq_true]
    exact ⟨foldE_lf a h.1, foldE_lf b h.2⟩
  | .GEE a b, h => by
    simp only [loadFreeE, Bool.and_eq_true] at h
    simp only [foldE]
    refine foldStep_lf _ ?_
    simp only [loadFreeE, Bool.and_eq_true]
    exact ⟨foldE_lf a h.1, foldE_lf b h.2⟩
  | .AndE a b, h => by
    simp only [loadFreeE, Bool.and_eq_true] at h
    simp only [foldE, loadFreeE, Bool.and_eq_true]
    exact ⟨foldE_lf a h.1, foldE_lf b h.2⟩
  | .OrE a b, h => by
    simp only [loadFreeE, Bool.and_eq_true] at h
    simp only [foldE, loadFreeE, Bool.and_eq_true]
    exact ⟨foldE_lf a h.1, foldE_lf b h.2⟩
  | .NotE a, h => by
    simp only [loadFreeE] at h
    simp only [foldE]
    refine foldStep_lf _ ?_
    simp only [loadFreeE]
    exact foldE_lf a h
  | .LetE x v b, h => by
    simp only [loadFreeE, Bool.and_eq_true] at h
    simp only [foldE, loadFreeE, Bool.and_eq_true]
    exact ⟨foldE_lf v h.1, foldE_lf b h.2⟩
  | .Load _ _ i, h => by
    exact absurd h (by simp [loadFreeE])
  | .Call _ _ _ args, h => by
    simp only [loadFreeE] at h
    simp only [foldE, loadFreeE]
    exact foldEL_lf args h
termination_by structural e => e

def foldEL_lf : ∀ (l : ExprList), loadFreeEL l = true → loadFreeEL (foldEL l) = true
  | .nil, h => h
  | .cons e es, h => by
    simp only [loadFreeEL, Bool.and_eq_true] at h
    simp only [foldEL, loadFreeEL, Bool.and_eq_true]
    exact ⟨foldE_lf e h.1, foldEL_lf es h.2⟩
termination_by structural l => l

end

theorem foldE_bnEmpty (e : Expr) (h : (bnE e).isEmpty = true) :
    (bnE (foldE e)).isEmpty = true := by
  rw [List.isEmpty_iff] at h ⊢
  have hsub := foldE_bn e
  rw [h] at hsub
  exact List.sublist_nil.mp hsub

theorem foldS_noeb : ∀ (s : Stmt), NoEB s = true → NoEB (foldS s) = true
  | .Store _ v i, h => by
    simp only [NoEB, Bool.and_eq_true] at h ⊢
    exact ⟨foldE_bnEmpty v h.1, foldE_bnEmpty i h.2⟩
  | .For _ mn ex _ _ b, h => by
    simp only [NoEB, Bool.and_eq_true] at h ⊢
    exact ⟨⟨foldE_bnEmpty mn h.1.1, foldE_bnEmpty ex h.1.2⟩, foldS_noeb b h.2⟩
  | .IfThen c t, h => by
    simp only [NoEB, Bool.and_eq_true] at h ⊢
    exact ⟨foldE_bnEmpty c h.1, foldS_noeb t h.2⟩
  | .IfThenElse c t e, h => by
    simp only [NoEB, Bool.and_eq_true] at h ⊢
    exact ⟨⟨foldE_bnEmpty c h.1.1, foldS_noeb t h.1.2⟩, foldS_noeb e h.2⟩
  | .LetStmt _ v b, h => by
    simp only [NoEB, Bool.and_eq_true] at h ⊢
    exact ⟨foldE_bnEmpty v h.1, foldS_noeb b h.2⟩
  | .Evaluate e, h => foldE_bnEmpty e h
  | .Block a b, h => by
    simp only [NoEB, Bool.and_eq_true] at h ⊢
    exact ⟨foldS_noeb a h.1, foldS_noeb b h.2⟩

theorem foldS_mfs : ∀ (s : Stmt), MFS s = true → MFS (foldS s) = true
  | .Store _ _ _, _ => rfl
  | .For _ mn ex _ _ b, h => by
    simp only [MFS, Bool.and_eq_true] at h ⊢
    exact ⟨⟨foldE_lf mn h.1.1, foldE_lf ex h.1.2⟩, foldS_mfs b h.2⟩
  | .IfThen _ t, h => foldS_mfs t h
  | .IfThenElse _ t e, h => by
    simp only [MFS, Bool.and_eq_true] at h ⊢
    exact ⟨foldS_mfs t h.1, foldS_mfs e h.2⟩
  | .LetStmt _ v b, h => by
    simp only [MFS, Bool.and_eq_true] at h ⊢
    exact ⟨foldE_lf v h.1, foldS_mfs b h.2⟩
  | .Evaluate _, _ => rfl
  | .Block a b, h => by
    simp only [MFS, Bool.and_eq_true] at h ⊢
    exact ⟨foldS_mfs a h.1, foldS_mfs b h.2⟩

/-- The stability contracts hold for the default collaborator pack. -/
theorem trimOk_defaultExt : TrimOk defaultExt := by
  refine { solveI_lf := ?_, solveI_bn := ?_, simpS_noeb := ?_, simpS_mfs := ?_ }
  · intro e x
    show loadFreeI (defSolveOuter e x) = true
    unfold defSolveOuter
    split
    · split <;> rfl
    · split <;> rfl
    · rfl
  · intro e x b hb
    revert hb
    show (defSolveOuter e x).min = some b ∨ (defSolveOuter e x).max = some b → bnE b = []
    unfold defSolveOuter
    split
    · split
      · rintro (hb | hb) <;> simp_all
        subst hb
        rfl
      · rintro (hb | hb) <;> simp_all
    · split
      · rintro (hb | hb) <;> simp_all
        subst hb
        rfl
      · rintro (hb | hb) <;> simp_all
    · rintro (hb | hb) <;> simp_all
  · exact foldS_noeb
  · exact foldS_mfs

/-- The stability contracts hold for the minimal collaborator pack. -/
theorem trimOk_idExt : TrimOk idExt := by
  refine { solveI_lf := ?_, solveI_bn := ?_, simpS_noeb := ?_, simpS_mfs := ?_ }
  · intro e x
    rfl
  · intro e x b hb
    rcases hb with hb | hb <;> simp [idExt] at hb
  · exact fun s h => h
  · exact fun s h => h

mutual

def eventsCongr : ∀ (e : Expr) (ci : CallInterp) (m : Mem) (r1 r2 : Env),
    (∀ y ∈ fvE e, r1 y = r2 y) → events ci m r1 e = events ci m r2 e
  | .IntImm _, _, _, _, _, _ => rfl
  | .Var _ _, _, _, _, _, _ => rfl
  | .Add a b, ci, m, r1, r2, h => by
    simp only [events]
    rw [eventsCongr a ci m r1 r2 (fun y hy => h y (by simp [fvE]; exact Or.inl hy)),
      eventsCongr b ci m r1 r2 (fun y hy => h y (by simp [fvE]; exact Or.inr hy))]
  | .Sub a b, ci, m, r1, r2, h => by
    simp only [events]
    rw [eventsCongr a ci m r1 r2 (fun y hy => h y (by simp [fvE]; exact Or.inl hy)),
      eventsCongr b ci m r1 r2 (fun y hy => h y (by simp [fvE]; exact Or.inr hy))]
  | .Mul a b, ci, m, r1, r2, h => by
    simp only [events]
    rw [eventsCongr a ci m r1 r2 (fun y hy => h y (by simp [fvE]; exact Or.inl hy)),
      eventsCongr b ci m r1 r2 (fun y hy => h y (by simp [fvE]; exact Or.inr hy))]
  | .MinE a b, ci, m, r1, r2, h => by
    simp only [events]
    rw [eventsCongr a ci m r1 r2 (fun y hy => h y (by simp [fvE]; exact Or.inl hy)),
      eventsCongr b ci m r1 r2 (fun y hy => h y (by simp [fvE]; exact Or.inr hy))]
  | .MaxE a b, ci, m, r1, r2, h => by
    simp only [events]
    rw [eventsCongr a ci m r1 r2 (fun y hy => h y (by simp [fvE]; exact Or.inl hy)),
      eventsCongr b ci m r1 r2 (fun y hy => h y (by simp [fvE]; exact Or.inr hy))]
  | .EQE a b, ci, m, r1, r2, h => by
    simp only [events]
    rw [eventsCongr a ci m r1 r2 (fun y hy => h y (by simp [fvE]; exact Or.inl hy)),
      eventsCongr b ci m r1 r2 (fun y hy => h y (by simp [fvE]; exact Or.inr hy))]
  | .NEE a b, ci, m, r1, r2, h => by
    simp only [events]
    rw [eventsCongr a ci m r1 r2 (fun y hy => h y (by simp [fvE]; exact Or.inl hy)),
      eventsCongr b ci m r1 r2 (fun y hy => h y (by simp [fvE]; exact Or.inr hy))]
  | .LTE a b, ci, m, r1, r2, h => by
    simp only [events]
    rw [eventsCongr a ci m r1 r2 (fun y hy => h y (by simp [fvE]; exact Or.inl hy)),
      eventsCongr b ci m r1 r2 (fun y hy => h y (by simp [fvE]; exact Or.inr hy))]
  | .LEE a b, ci, m, r1, r2, h => by
    simp only [events]
    rw [eventsCongr a ci m r1 r2 (fun y hy => h y (by simp [fvE]; exact Or.inl hy)),
      eventsCongr b ci m r1 r2 (fun y hy => h y (by simp [fvE]; exact Or.inr hy))]
  | .GTE a b, ci, m, r1, r2, h => by
    simp only [events]
    rw [eventsCongr a ci m r1 r2 (fun y hy => h y (by simp [fvE]; exact Or.inl hy)),
      eventsCongr b ci m r1 r2 (fun y hy => h y (by simp [fvE]; exact Or.inr hy))]
  | .GEE a b, ci, m, r1, r2, h => by
    simp only [events]
    rw [eventsCongr a ci m r1 r2 (fun y hy => h y (by simp [fvE]; exact Or.inl hy)),
      eventsCongr b ci m r1 r2 (fun y hy => h y (by simp [fvE]; exact Or.inr hy))]
  | .AndE a b, ci, m, r1, r2, h => by
    simp only [events]
    rw [eventsCongr a ci m r1 r2 (fun y hy => h y (by simp [fvE]; exact Or.inl hy)),
      eventsCongr b ci m r1 r2 (fun y hy => h y (by simp [fvE]; exact Or.inr hy))]
  | .OrE a b, ci, m, r1, r2, h => by
    simp only [events]
    rw [eventsCongr a ci m r1 r2 (fun y hy => h y (by simp [fvE]; exact Or.inl hy)),
      eventsCongr b ci m r1 r2 (fun y hy => h y (by simp [fvE]; exact Or.inr hy))]
  | .NotE a, ci, m, r1, r2, h => by
    simp only [events]
    exact eventsCongr a ci m r1 r2 (fun y hy => h y (by simpa [fvE] using hy))
  | .LetE x v b, ci, m, r1, r2, h => by
    simp only [events]
    have hv : eval ci m r1 v = eval ci m r2 v :=
      evalCongr v ci m r1 r2 (fun y hy => h y (by simp [fvE]; exact Or.inl hy))
    have hb : events ci m (updEnv r1 x (eval ci m r2 v)) b
        = events ci m (updEnv r2 x (eval ci m r2 v)) b :=
      eventsCongr b ci m _ _ (fun y hy => by
        by_cases hxy : y = x
        · subst hxy; simp [updEnv]
        · rw [updEnv_other _ _ _ _ hxy, updEnv_other _ _ _ _ hxy]
          exact h y (by simp [fvE, List.mem_filter]; exact Or.inr ⟨hy, by simpa using hxy⟩))
    rw [hv, eventsCongr v ci m r1 r2 (fun y hy => h y (by simp [fvE]; exact Or.inl hy)), hb]
  | .Load _ _ i, ci, m, r1, r2, h => by
    simp only [events]
    exact eventsCongr i ci m r1 r2 (fun y hy => h y (by simpa [fvE] using hy))
  | .Call _ ct n args, ci, m, r1, r2, h => by
    simp only [events]
    rw [eventsLCongr args ci m r1 r2 (fun y hy => h y (by simpa [fvE] using hy)),
      evalLCongr args ci m r1 r2 (fun y hy => h y (by simpa [fvE] using hy))]
termination_by structural e => e

def eventsLCongr : ∀ (l : ExprList) (ci : CallInterp) (m : Mem) (r1 r2 : Env),
    (∀ y ∈ fvEL l, r1 y = r2 y) → eventsL ci m r1 l = eventsL ci m r2 l
  | .nil, _, _, _, _, _ => rfl
  | .cons e es, ci, m, r1, r2, h => by
    simp only [eventsL]
    rw [eventsCongr e ci m r1 r2 (fun y hy => h y (by simp [fvEL]; exact Or.inl hy)),
      eventsLCongr es ci m r1 r2 (fun y hy => h y (by simp [fvEL]; exact Or.inr hy))]
termination_by structural l => l

end

/-- Execution depends only on the free variables of the statement. -/
def execCongr : ∀ (s : Stmt) (ci : CallInterp) (m : Mem) (r1 r2 : Env),
    (∀ y ∈ fvS s, r1 y = r2 y) → exec ci r1 m s = exec ci r2 m s
  | .Store nm v i, ci, m, r1, r2, h => by
    simp only [exec]
    rw [evalCongr v ci m r1 r2 (fun y hy => h y (by simp [fvS]; exact Or.inl hy)),
      evalCongr i ci m r1 r2 (fun y hy => h y (by simp [fvS]; exact Or.inr hy)),
      eventsCongr v ci m r1 r2 (fun y hy => h y (by simp [fvS]; exact Or.inl hy)),
      eventsCongr i ci m r1 r2 (fun y hy => h y (by simp [fvS]; exact Or.inr hy))]
  | .For x mn ex ft da body, ci, m, r1, r2, h => by
    simp only [exec]
    have hmn : ∀ y ∈ fvE mn, r1 y = r2 y := fun y hy => h y (by
      simp only [fvS, List.mem_append]
      exact Or.inl (Or.inl hy))
    have hex : ∀ y ∈ fvE ex, r1 y = r2 y := fun y hy => h y (by
      simp only [fvS, List.mem_append]
      exact Or.inl (Or.inr hy))
    rw [evalCongr mn ci m r1 r2 hmn, evalCongr ex ci m r1 r2 hex,
      eventsCongr mn ci m r1 r2 hmn, eventsCongr ex ci m r1 r2 hex]
    have hbody : ∀ (v : Int) (m2 : Mem),
        exec ci (updEnv r1 x v) m2 body = exec ci (updEnv r2 x v) m2 body :=
      fun v m2 => execCongr body ci m2 _ _ (fun y hy => by
        by_cases hxy : y = x
        · subst hxy; simp [updEnv]
        · rw [updEnv_other _ _ _ _ hxy, updEnv_other _ _ _ _ hxy]
          exact h y (by
            simp only [fvS, List.mem_append, List.mem_filter]
            exact Or.inr ⟨hy, by simpa using hxy⟩))
    rw [iterFor_congr hbody]
  | .IfThen c t, ci, m, r1, r2, h => by
    simp only [exec]
    have hcf : ∀ y ∈ fvE c, r1 y = r2 y := fun y hy => h y (by
      simp only [fvS, List.mem_append]
      exact Or.inl hy)
    rw [evalCongr c ci m r1 r2 hcf, eventsCongr c ci m r1 r2 hcf,
      execCongr t ci m r1 r2 (fun y hy => h y (by
        simp only [fvS, List.mem_append]
        exact Or.inr hy))]
  | .IfThenElse c t e, ci, m, r1, r2, h => by
    simp only [exec]
    have hcf : ∀ y ∈ fvE c, r1 y = r2 y := fun y hy => h y (by
      simp only [fvS, List.mem_append]
      exact Or.inl (Or.inl hy))
    rw [evalCongr c ci m r1 r2 hcf, eventsCongr c ci m r1 r2 hcf,
      execCongr t ci m r1 r2 (fun y hy => h y (by
        simp only [fvS, List.mem_append]
        exact Or.inl (Or.inr hy))),
      execCongr e ci m r1 r2 (fun y hy => h y (by
        simp only [fvS, List.mem_append]
        exact Or.inr hy))]
  | .LetStmt x v b, ci, m, r1, r2, h => by
    simp only [exec]
    have hvf : ∀ y ∈ fvE v, r1 y = r2 y := fun y hy => h y (by
      simp only [fvS, List.mem_append]
      exact Or.inl hy)
    have hb : exec ci (updEnv r1 x (eval ci m r2 v)) m b
        = exec ci (updEnv r2 x (eval ci m r2 v)) m b :=
      execCongr b ci m _ _ (fun y hy => by
        by_cases hxy : y = x
        · subst hxy; simp [updEnv]
        · rw [updEnv_other _ _ _ _ hxy, updEnv_other _ _ _ _ hxy]
          exact h y (by
            simp only [fvS, List.mem_append, List.mem_filter]
            exact Or.inr ⟨hy, by simpa using hxy⟩))
    rw [evalCongr v ci m r1 r2 hvf, eventsCongr v ci m r1 r2 hvf, hb]
  | .Evaluate e, ci, m, r1, r2, h => by
    simp only [exec]
    rw [eventsCongr e ci m r1 r2 (fun y hy => h y hy)]
  | .Block a b, ci, m, r1, r2, h => by
    simp only [exec]
    rw [execCongr a ci m r1 r2 (fun y hy => h y (by
      simp only [fvS, List.mem_append]
      exact Or.inl hy))]
    rw [execCongr b ci _ r1 r2 (fun y hy => h y (by
      simp only [fvS, List.mem_append]
      exact Or.inr hy))]

mutual

def subE_fvm (E : Ext) : ∀ (st : CLStack) (e : Expr) (y : String),
    y ∈ fvE (subE E st e) → y ∈ fvE e
  | _, .IntImm _, _, h => h
  | _, .Var _ _, _, h => h
  | st, .Add a b, y, h => by
    simp only [subE, fvE, List.mem_append] at h ⊢
    rcases h with h | h
    · exact Or.inl (subE_fvm E st a y h)
    · exact Or.inr (subE_fvm E st b y h)
  | st, .Sub a b, y, h => by
    simp only [subE, fvE, List.mem_append] at h ⊢
    rcases h with h | h
    · exact Or.inl (subE_fvm E st a y h)
    · exact Or.inr (subE_fvm E st b y h)
  | st, .Mul a b, y, h => by
    simp only [subE, fvE, List.mem_append] at h ⊢
    rcases h with h | h
    · exact Or.inl (subE_fvm E st a y h)
    · exact Or.inr (subE_fvm E st b y h)
  | st, .AndE a b, y, h => by
    simp only [subE, fvE, List.mem_append] at h ⊢
    rcases h with h | h
    · exact Or.inl (subE_fvm E st a y h)
    · exact Or.inr (subE_fvm E st b y h)
  | st, .OrE a b, y, h => by
    simp only [subE, fvE, List.mem_append] at h ⊢
    rcases h with h | h
    · exact Or.inl (subE_fvm E st a y h)
    · exact Or.inr (subE_fvm E st b y h)
  | st, .EQE a b, y, h => by
    simp only [subE] at h
    simp only [fvE, List.mem_append]
    split at h
    · simp [fvE] at h
    · split at h
      · simp [fvE] at h
      · simp only [fvE, List.mem_append] at h
        rcases h with h | h
        · exact Or.inl (subE_fvm E st a y h)
        · exact Or.inr (subE_fvm E st b y h)
  | st, .NEE a b, y, h => by
    simp only [subE] at h
    simp only [fvE, List.mem_append]
    split at h
    · simp [fvE] at h
    · split at h
      · simp [fvE] at h
      · simp only [fvE, List.mem_append] at h
        rcases h with h | h
        · exact Or.inl (subE_fvm E st a y h)
        · exact Or.inr (subE_fvm E st b y h)
  | st, .LTE a b, y, h => by
    simp only [subE] at h
    simp only [fvE, List.mem_append]
    split at h
    · simp [fvE] at h
    · split at h
      · simp [fvE] at h
      · simp only [fvE, List.mem_append] at h
        rcases h with h | h
        · exact Or.inl (subE_fvm E st a y h)
        · exact Or.inr (subE_fvm E st b y h)
  | st, .LEE a b, y, h => by
    simp only [subE] at h
    simp only [fvE, List.mem_append]
    split at h
    · simp [fvE] at h
    · split at h
      · simp [fvE] at h
      · simp only [fvE, List.mem_append] at h
        rcases h with h | h
        · exact Or.inl (subE_fvm E st a y h)
        · exact Or.inr (subE_fvm E st b y h)
  | st, .GTE a b, y, h => by
    simp only [subE] at h
    simp only [fvE, List.mem_append]
    split at h
    · simp [fvE] at h
    · split at h
      · simp [fvE] at h
      · simp only [fvE, List.mem_append] at h
        rcases h with h | h
        · exact Or.inl (subE_fvm E st a y h)
        · exact Or.inr (subE_fvm E st b y h)
  | st, .GEE a b, y, h => by
    simp only [subE] at h
    simp only [fvE, List.mem_append]
    split at h
    · simp [fvE] at h
    · split at h
      · simp [fvE] at h
      · simp only [fvE, List.mem_append] at h
        rcases h with h | h
        · exact Or.inl (subE_fvm E st a y h)
        · exact Or.inr (subE_fvm E st b y h)
  | st, .MinE a b, y, h => by
    simp only [subE] at h
    simp only [fvE, List.mem_append]
    split at h
    · simp only [fvE, List.mem_append] at h
      rcases h with h | h
      · exact Or.inl (subE_fvm E st a y h)
      · exact Or.inr (subE_fvm E st b y h)
    · split at h
      · exact Or.inl (subE_fvm E st a y h)
      · split at h
        · exact Or.inr (subE_fvm E st b y h)
        · simp only [fvE, List.mem_append] at h
          rcases h with h | h
          · exact Or.inl (subE_fvm E st a y h)
          · exact Or.inr (subE_fvm E st b y h)
  | st, .MaxE a b, y, h => by
    simp only [subE] at h
    simp only [fvE, List.mem_append]
    split at h
    · simp only [fvE, List.mem_append] at h
      rcases h with h | h
      · exact Or.inl (subE_fvm E st a y h)
      · exact Or.inr (subE_fvm E st b y h)
    · split at h
      · exact Or.inl (subE_fvm E st a y h)
      · split at h
        · exact Or.inr (subE_fvm E st b y h)
        · simp only [fvE, List.mem_append] at h
          rcases h with h | h
          · exact Or.inl (subE_fvm E st a y h)
          · exact Or.inr (subE_fvm E st b y h)
  | st, .NotE a, y, h => by
    simp only [subE, fvE] at h ⊢
    exact subE_fvm E st a y h
  | st, .LetE x v b, y, h => by
    simp only [subE, fvE, List.mem_append, List.mem_filter] at h ⊢
    rcases h with h | h
    · exact Or.inl (subE_fvm E st v y h)
    · exact Or.inr ⟨subE_fvm E _ b y h.1, h.2⟩
  | st, .Load _ _ i, y, h => by
    simp only [subE, fvE] at h ⊢
    exact subE_fvm E st i y h
  | st, .Call _ _ _ args, y, h => by
    simp only [subE, fvE] at h ⊢
    exact subEL_fvm_go E st args y h
termination_by structural _ e => e

def subEL_fvm_go (E : Ext) : ∀ (st : CLStack) (l : ExprList) (y : String),
    y ∈ fvEL (subEL E st l) → y ∈ fvEL l
  | _, .nil, _, h => h
  | st, .cons e es, y, h => by
    simp only [subEL, fvEL, List.mem_append] at h ⊢
    rcases h with h | h
    · exact Or.inl (subE_fvm E st e y h)
    · exact Or.inr (subEL_fvm_go E st es y h)
termination_by structural _ l => l

end

mutual

def subE_vnm (E : Ext) : ∀ (st : CLStack) (e : Expr) (y : String),
    y ∈ vnE (subE E st e) → y ∈ vnE e
  | _, .IntImm _, _, h => h
  | _, .Var _ _, _, h => h
  | st, .Add a b, y, h => by
    simp only [subE, vnE, List.mem_append] at h ⊢
    rcases h with h | h
    · exact Or.inl (subE_vnm E st a y h)
    · exact Or.inr (subE_vnm E st b y h)
  | st, .Sub a b, y, h => by
    simp only [subE, vnE, List.mem_append] at h ⊢
    rcases h with h | h
    · exact Or.inl (subE_vnm E st a y h)
    · exact Or.inr (subE_vnm E st b y h)
  | st, .Mul a b, y, h => by
    simp only [subE, vnE, List.mem_append] at h ⊢
    rcases h with h | h
    · exact Or.inl (subE_vnm E st a y h)
    · exact Or.inr (subE_vnm E st b y h)
  | st, .AndE a b, y, h => by
    simp only [subE, vnE, List.mem_append] at h ⊢
    rcases h with h | h
    · exact Or.inl (subE_vnm E st a y h)
    · exact Or.inr (subE_vnm E st b y h)
  | st, .OrE a b, y, h => by
    simp only [subE, vnE, List.mem_append] at h ⊢
    rcases h with h | h
    · exact Or.inl (subE_vnm E st a y h)
    · exact Or.inr (subE_vnm E st b y h)
  | st, .EQE a b, y, h => by
    simp only [subE] at h
    simp only [vnE, List.mem_append]
    split at h
    · simp [vnE] at h
    · split at h
      · simp [vnE] at h
      · simp only [vnE, List.mem_append] at h
        rcases h with h | h
        · exact Or.inl (subE_vnm E st a y h)
        · exact Or.inr (subE_vnm E st b y h)
  | st, .NEE a b, y, h => by
    simp only [subE] at h
    simp only [vnE, List.mem_append]
    split at h
    · simp [vnE] at h
    · split at h
      · simp [vnE] at h
      · simp only [vnE, List.mem_append] at h
        rcases h with h | h
        · exact Or.inl (subE_vnm E st a y h)
        · exact Or.inr (subE_vnm E st b y h)
  | st, .LTE a b, y, h => by
    simp only [subE] at h
    simp only [vnE, List.mem_append]
    split at h
    · simp [vnE] at h
    · split at h
      · simp [vnE] at h
      · simp only [vnE, List.mem_append] at h
        rcases h with h | h
        · exact Or.inl (subE_vnm E st a y h)
        · exact Or.inr (subE_vnm E st b y h)
  | st, .LEE a b, y, h => by
    simp only [subE] at h
    simp only [vnE, List.mem_append]
    split at h
    · simp [vnE] at h
    · split at h
      · simp [vnE] at h
      · simp only [vnE, List.mem_append] at h
        rcases h with h | h
        · exact Or.inl (subE_vnm E st a y h)
        · exact Or.inr (subE_vnm E st b y h)
  | st, .GTE a b, y, h => by
    simp only [subE] at h
    simp only [vnE, List.mem_append]
    split at h
    · simp [vnE] at h
    · split at h
      · simp [vnE] at h
      · simp only [vnE, List.mem_append] at h
        rcases h with h | h
        · exact Or.inl (subE_vnm E st a y h)
        · exact Or.inr (subE_vnm E st b y h)
  | st, .GEE a b, y, h => by
    simp only [subE] at h
    simp only [vnE, List.mem_append]
    split at h
    · simp [vnE] at h
    · split at h
      · simp [vnE] at h
      · simp only [vnE, List.mem_append] at h
        rcases h with h | h
        · exact Or.inl (subE_vnm E st a y h)
        · exact Or.inr (subE_vnm E st b y h)
  | st, .MinE a b, y, h => by
    simp only [subE] at h
    simp only [vnE, List.mem_append]
    split at h
    · simp only [vnE, List.mem_append] at h
      rcases h with h | h
      · exact Or.inl (subE_vnm E st a y h)
      · exact Or.inr (subE_vnm E st b y h)
    · split at h
      · exact Or.inl (subE_vnm E st a y h)
      · split at h
        · exact Or.inr (subE_vnm E st b y h)
        · simp only [vnE, List.mem_append] at h
          rcases h with h | h
          · exact Or.inl (subE_vnm E st a y h)
          · exact Or.inr (subE_vnm E st b y h)
  | st, .MaxE a b, y, h => by
    simp only [subE] at h
    simp only [vnE, List.mem_append]
    split at h
    · simp only [vnE, List.mem_append] at h
      rcases h with h | h
      · exact Or.inl (subE_vnm E st a y h)
      · exact Or.inr (subE_vnm E st b y h)
    · split at h
      · exact Or.inl (subE_vnm E st a y h)
      · split at h
        · exact Or.inr (subE_vnm E st b y h)
        · simp only [vnE, List.mem_append] at h
          rcases h with h | h
          · exact Or.inl (subE_vnm E st a y h)
          · exact Or.inr (subE_vnm E st b y h)
  | st, .NotE a, y, h => by
    simp only [subE, vnE] at h ⊢
    exact subE_vnm E st a y h
  | st, .LetE x v b, y, h => by
    simp only [subE, vnE, List.mem_cons, List.mem_append] at h ⊢
    rcases h with h | h | h
    · exact Or.inl h
    · exact Or.inr (Or.inl (subE_vnm E st v y h))
    · exact Or.inr (Or.inr (subE_vnm E _ b y h))
  | st, .Load _ _ i, y, h => by
    simp only [subE, vnE] at h ⊢
    exact subE_vnm E st i y h
  | st, .Call _ _ _ args, y, h => by
    simp only [subE, vnE] at h ⊢
    exact subEL_vnm_go E st args y h
termination_by structural _ e => e

def subEL_vnm_go (E : Ext) : ∀ (st : CLStack) (l : ExprList) (y : String),
    y ∈ vnEL (subEL E st l) → y ∈ vnEL l
  | _, .nil, _, h => h
  | st, .cons e es, y, h => by
    simp only [subEL, vnEL, List.mem_append] at h ⊢
    rcases h with h | h
    · exact Or.inl (subE_vnm E st e y h)
    · exact Or.inr (subEL_vnm_go E st es y h)
termination_by structural _ l => l

end

mutual

def subE_pure (E : Ext) : ∀ (st : CLStack) (e : Expr),
    pureE e = true → pureE (subE E st e) = true
  | _, .IntImm _, h => h
  | _, .Var _ _, h => h
  | st, .Add a b, h => by
    simp only [pureE, Bool.and_eq_true] at h
    simp only [subE, pureE, Bool.and_eq_true]
    exact ⟨subE_pure E st a h.1, subE_pure E st b h.2⟩
  | st, .Sub a b, h => by
    simp only [pureE, Bool.and_eq_true] at h
    simp only [subE, pureE, Bool.and_eq_true]
    exact ⟨subE_pure E st a h.1, subE_pure E st b h.2⟩
  | st, .Mul a b, h => by
    simp only [pureE, Bool.and_eq_true] at h
    simp only [subE, pureE, Bool.and_eq_true]
    exact ⟨subE_pure E st a h.1, subE_pure E st b h.2⟩
  | st, .AndE a b, h => by
    simp only [pureE, Bool.and_eq_true] at h
    simp only [subE, pureE, Bool.and_eq_true]
    exact ⟨subE_pure E st a h.1, subE_pure E st b h.2⟩
  | st, .OrE a b, h => by
    simp only [pureE, Bool.and_eq_true] at h
    simp only [subE, pureE, Bool.and_eq_true]
    exact ⟨subE_pure E st a h.1, subE_pure E st b h.2⟩
  | st, .EQE a b, h => by
    simp only [pureE, Bool.and_eq_true] at h
    simp only [subE]
    split
    · rfl
    · split
      · rfl
      · simp only [pureE, Bool.and_eq_true]
        exact ⟨subE_pure E st a h.1, subE_pure E st b h.2⟩
  | st, .NEE a b, h => by
    simp only [pureE, Bool.and_eq_true] at h
    simp only [subE]
    split
    · rfl
    · split
      · rfl
      · simp only [pureE, Bool.and_eq_true]
        exact ⟨subE_pure E st a h.1, subE_pure E st b h.2⟩
  | st, .LTE a b, h => by
    simp only [pureE, Bool.and_eq_true] at h
    simp only [subE]
    split
    · rfl
    · split
      · rfl
      · simp only [pureE, Bool.and_eq_true]
        exact ⟨subE_pure E st a h.1, subE_pure E st b h.2⟩
  | st, .LEE a b, h => by
    simp only [pureE, Bool.and_eq_true] at h
    simp only [subE]
    split
    · rfl
    · split
      · rfl
      · simp only [pureE, Bool.and_eq_true]
        exact ⟨subE_pure E st a h.1, subE_pure E st b h.2⟩
  | st, .GTE a b, h => by
    simp only [pureE, Bool.and_eq_true] at h
    simp only [subE]
    split
    · rfl
    · split
      · rfl
      · simp only [pureE, Bool.and_eq_true]
        exact ⟨subE_pure E st a h.1, subE_pure E st b h.2⟩
  | st, .GEE a b, h => by
    simp only [pureE, Bool.and_eq_true] at h
    simp only [subE]
    split
    · rfl
    · split
      · rfl
      · simp only [pureE, Bool.and_eq_true]
        exact ⟨subE_pure E st a h.1, subE_pure E st b h.2⟩
  | st, .MinE a b, h => by
    simp only [pureE, Bool.and_eq_true] at h
    simp only [subE]
    split
    · simp only [pureE, Bool.and_eq_true]
      exact ⟨subE_pure E st a h.1, subE_pure E st b h.2⟩
    · split
      · exact subE_pure E st a h.1
      · split
        · exact subE_pure E st b h.2
        · simp only [pureE, Bool.and_eq_true]
          exact ⟨subE_pure E st a h.1, subE_pure E st b h.2⟩
  | st, .MaxE a b, h => by
    simp only [pureE, Bool.and_eq_true] at h
    simp only [subE]
    split
    · simp only [pureE, Bool.and_eq_true]
      exact ⟨subE_pure E st a h.1, subE_pure E st b h.2⟩
    · split
      · exact subE_pure E st a h.1
      · split
        · exact subE_pure E st b h.2
        · simp only [pureE, Bool.and_eq_true]
          exact ⟨subE_pure E st a h.1, subE_pure E st b h.2⟩
  | st, .NotE a, h => by
    simp only [pureE] at h
    simp only [subE, pureE]
    exact subE_pure E st a h
  | st, .LetE x v b, h => by
    simp only [pureE, Bool.and_eq_true] at h
    simp only [subE, pureE, Bool.and_eq_true]
    exact ⟨subE_pure E st v h.1, subE_pure E _ b h.2⟩
  | st, .Load _ _ i, h => by
    simp only [pureE] at h
    simp only [subE, pureE]
    exact subE_pure E st i h
  | st, .Call _ ct n args, h => by
    simp only [pureE, Bool.and_eq_true] at h
    simp only [subE, pureE, Bool.and_eq_true]
    exact ⟨h.1, subEL_pure E st args h.2⟩
termination_by structural _ e => e

def subEL_pure (E : Ext) : ∀ (st : CLStack) (l : ExprList),
    pureEL l = true → pureEL (subEL E st l) = true
  | _, .nil, h => h
  | st, .cons e es, h => by
    simp only [pureEL, Bool.and_eq_true] at h
    simp only [subEL, pureEL, Bool.and_eq_true]
    exact ⟨subE_pure E st e h.1, subEL_pure E st es h.2⟩
termination_by structural _ l => l

end

mutual

def subE_lf (E : Ext) : ∀ (st : CLStack) (e : Expr),
    loadFreeE e = true → loadFreeE (subE E st e) = true
  | _, .IntImm _, h => h
  | _, .Var _ _, h => h
  | st, .Add a b, h => by
    simp only [loadFreeE, Bool.and_eq_true] at h
    simp only [subE, loadFreeE, Bool.and_eq_true]
    exact ⟨subE_lf E st a h.1, subE_lf E st b h.2⟩
  | st, .Sub a b, h => by
    simp only [loadFreeE, Bool.and_eq_true] at h
    simp only [subE, loadFreeE, Bool.and_eq_true]
    exact ⟨subE_lf E st a h.1, subE_lf E st b h.2⟩
  | st, .Mul a b, h => by
    simp only [loadFreeE, Bool.and_eq_true] at h
    simp only [subE, loadFreeE, Bool.and_eq_true]
    exact ⟨subE_lf E st a h.1, subE_lf E st b h.2⟩
  | st, .AndE a b, h => by
    simp only [loadFreeE, Bool.and_eq_true] at h
    simp only [subE, loadFreeE, Bool.and_eq_true]
    exact ⟨subE_lf E st a h.1, subE_lf E st b h.2⟩
  | st, .OrE a b, h => by
    simp only [loadFreeE, Bool.and_eq_true] at h
    simp only [subE, loadFreeE, Bool.and_eq_true]
    exact ⟨subE_lf E st a h.1, subE_lf E st b h.2⟩
  | st, .EQE a b, h => by
    simp only [loadFreeE, Bool.and_eq_true] at h
    simp only [subE]
    split
    · rfl
    · split
      · rfl
      · simp only [loadFreeE, Bool.and_eq_true]
        exact ⟨subE_lf E st a h.1, subE_lf E st b h.2⟩
  | st, .NEE a b, h => by
    simp only [loadFreeE, Bool.and_eq_true] at h
    simp only [subE]
    split
    · rfl
    · split
      · rfl
      · simp only [loadFreeE, Bool.and_eq_true]
        exact ⟨subE_lf E st a h.1, subE_lf E st b h.2⟩
  | st, .LTE a b, h => by
    simp only [loadFreeE, Bool.and_eq_true] at h
    simp only [subE]
    split
    · rfl
    · split
      · rfl
      · simp only [loadFreeE, Bool.and_eq_true]
        exact ⟨subE_lf E st a h.1, subE_lf E st b h.2⟩
  | st, .LEE a b, h => by
    simp only [loadFreeE, Bool.and_eq_true] at h
    simp only [subE]
    split
    · rfl
    · split
      · rfl
      · simp only [loadFreeE, Bool.and_eq_true]
        exact ⟨subE_lf E st a h.1, subE_lf E st b h.2⟩
  | st, .GTE a b, h => by
    simp only [loadFreeE, Bool.and_eq_true] at h
    simp only [subE]
    split
    · rfl
    · split
      · rfl
      · simp only [loadFreeE, Bool.and_eq_true]
        exact ⟨subE_lf E st a h.1, subE_lf E st b h.2⟩
  | st, .GEE a b, h => by
    simp only [loadFreeE, Bool.and_eq_true] at h
    simp only [subE]
    split
    · rfl
    · split
      · rfl
      · simp only [loadFreeE, Bool.and_eq_true]
        exact ⟨subE_lf E st a h.1, subE_lf E st b h.2⟩
  | st, .MinE a b, h => by
    simp only [loadFreeE, Bool.and_eq_true] at h
    simp only [subE]
    split
    · simp only [loadFreeE, Bool.and_eq_true]
      exact ⟨subE_lf E st a h.1, subE_lf E st b h.2⟩
    · split
      · exact subE_lf E st a h.1
      · split
        · exact subE_lf E st b h.2
        · simp only [loadFreeE, Bool.and_eq_true]
          exact ⟨subE_lf E st a h.1, subE_lf E st b h.2⟩
  | st, .MaxE a b, h => by
    simp only [loadFreeE, Bool.and_eq_true] at h
    simp only [subE]
    split
    · simp only [loadFreeE, Bool.and_eq_true]
      exact ⟨subE_lf E st a h.1, subE_lf E st b h.2⟩
    · split
      · exact subE_lf E st a h.1
      · split
        · exact subE_lf E st b h.2
        · simp only [loadFreeE, Bool.and_eq_true]
          exact ⟨subE_lf E st a h.1, subE_lf E st b h.2⟩
  | st, .NotE a, h => by
    simp only [loadFreeE] at h
    simp only [subE, loadFreeE]
    exact subE_lf E st a h
  | st, .LetE x v b, h => by
    simp only [loadFreeE, Bool.and_eq_true] at h
    simp only [subE, loadFreeE, Bool.and_eq_true]
    exact ⟨subE_lf E st v h.1, subE_lf E _ b h.2⟩
  | st, .Load _ _ i, h => by
    exact absurd h (by simp [loadFreeE])
  | st, .Call _ ct n args, h => by
    simp only [loadFreeE] at h
    simp only [subE, loadFreeE]
    exact subEL_lf E st args h
termination_by structural _ e => e

def subEL_lf (E : Ext) : ∀ (st : CLStack) (l : ExprList),
    loadFreeEL l = true → loadFreeEL (subEL E st l) = true
  | _, .nil, h => h
  | st, .cons e es, h => by
    simp only [loadFreeEL, Bool.and_eq_true] at h
    simp only [subEL, loadFreeEL, Bool.and_eq_true]
    exact ⟨subE_lf E st e h.1, subEL_lf E st es h.2⟩
termination_by structural _ l => l

end

mutual

def subE_bn (E : Ext) : ∀ (st : CLStack) (e : Expr),
    (bnE (subE E st e)).Sublist (bnE e)
  | _, .IntImm _ => List.Sublist.refl _
  | _, .Var _ _ => List.Sublist.refl _
  | st, .Add a b => by
    simp only [subE, bnE]
    exact List.Sublist.append (subE_bn E st a) (subE_bn E st b)
  | st, .Sub a b => by
    simp only [subE, bnE]
    exact List.Sublist.append (subE_bn E st a) (subE_bn E st b)
  | st, .Mul a b => by
    simp only [subE, bnE]
    exact List.Sublist.append (subE_bn E st a) (subE_bn E st b)
  | st, .AndE a b => by
    simp only [subE, bnE]
    exact List.Sublist.append (subE_bn E st a) (subE_bn E st b)
  | st, .OrE a b => by
    simp only [subE, bnE]
    exact List.Sublist.append (subE_bn E st a) (subE_bn E st b)
  | st, .EQE a b => by
    simp only [subE]
    split
    · exact List.nil_sublist _
    · split
      · exact List.nil_sublist _
      · simp only [bnE]
        exact List.Sublist.append (subE_bn E st a) (subE_bn E st b)
  | st, .NEE a b => by
    simp only [subE]
    split
    · exact List.nil_sublist _
    · split
      · exact List.nil_sublist _
      · simp only [bnE]
        exact List.Sublist.append (subE_bn E st a) (subE_bn E st b)
  | st, .LTE a b => by
    simp only [subE]
    split
    · exact List.nil_sublist _
    · split
      · exact List.nil_sublist _
      · simp only [bnE]
        exact List.Sublist.append (subE_bn E st a) (subE_bn E st b)
  | st, .LEE a b => by
    simp only [subE]
    split
    · exact List.nil_sublist _
    · split
      · exact List.nil_sublist _
      · simp only [bnE]
        exact List.Sublist.append (subE_bn E st a) (subE_bn E st b)
  | st, .GTE a b => by
    simp only [subE]
    split
    · exact List.nil_sublist _
    · split
      · exact List.nil_sublist _
      · simp only [bnE]
        exact List.Sublist.append (subE_bn E st a) (subE_bn E st b)
  | st, .GEE a b => by
    simp only [subE]
    split
    · exact List.nil_sublist _
    · split
      · exact List.nil_sublist _
      · simp only [bnE]
        exact List.Sublist.append (subE_bn E st a) (subE_bn E st b)
  | st, .MinE a b => by
    simp only [subE]
    split
    · simp only [bnE]
      exact List.Sublist.append (subE_bn E st a) (subE_bn E st b)
    · split
      · exact (subE_bn E st a).trans (by
          simp only [bnE]
          exact (bnE a).sublist_append_left (bnE b))
      · split
        · exact (subE_bn E st b).trans (by
            simp only [bnE]
            exact List.sublist_append_right (bnE a) (bnE b))
        · simp only [bnE]
          exact List.Sublist.append (subE_bn E st a) (subE_bn E st b)
  | st, .MaxE a b => by
    simp only [subE]
    split
    · simp only [bnE]
      exact List.Sublist.append (subE_bn E st a) (subE_bn E st b)
    · split
      · exact (subE_bn E st a).trans (by
          simp only [bnE]
          exact (bnE a).sublist_append_left (bnE b))
      · split
        · exact (subE_bn E st b).trans (by
            simp only [bnE]
            exact List.sublist_append_right (bnE a) (bnE b))
        · simp only [bnE]
          exact List.Sublist.append (subE_bn E st a) (subE_bn E st b)
  | st, .NotE a => by
    simp only [subE, bnE]
    exact subE_bn E st a
  | st, .LetE x v b => by
    simp only [subE, bnE]
    exact List.Sublist.cons₂ _ (List.Sublist.append (subE_bn E st v) (subE_bn E _ b))
  | st, .Load _ _ i => by
    simp only [subE, bnE]
    exact subE_bn E st i
  | st, .Call _ _ _ args => by
    simp only [subE, bnE]
    exact subEL_bn E st args
termination_by structural _ e => e

def subEL_bn (E : Ext) : ∀ (st : CLStack) (l : ExprList),
    (bnEL (subEL E st l)).Sublist (bnEL l)
  | _, .nil => List.Sublist.refl _
  | st, .cons e es => by
    simp only [subEL, bnEL]
    exact List.Sublist.append (subE_bn E st e) (subEL_bn E st es)
termination_by structural _ l => l

end

def subS_fvm (E : Ext) : ∀ (st : CLStack) (s : Stmt) (y : String),
    y ∈ fvS (subS E st s) → y ∈ fvS s
  | st, .Store _ v i, y, h => by
    simp only [subS, fvS, List.mem_append] at h ⊢
    rcases h with h | h
    · exact Or.inl (subE_fvm E st v y h)
    · exact Or.inr (subE_fvm E st i y h)
  | st, .For x mn ex _ _ b, y, h => by
    simp only [subS, fvS, List.mem_append, List.mem_filter] at h ⊢
    rcases h with (h | h) | h
    · exact Or.inl (Or.inl (subE_fvm E st mn y h))
    · exact Or.inl (Or.inr (subE_fvm E st ex y h))
    · exact Or.inr ⟨subS_fvm E _ b y h.1, h.2⟩
  | st, .IfThen c t, y, h => by
    simp only [subS, fvS, List.mem_append] at h ⊢
    rcases h with h | h
    · exact Or.inl (subE_fvm E st c y h)
    · exact Or.inr (subS_fvm E st t y h)
  | st, .IfThenElse c t e, y, h => by
    simp only [subS, fvS, List.mem_append] at h ⊢
    rcases h with (h | h) | h
    · exact Or.inl (Or.inl (subE_fvm E st c y h))
    · exact Or.inl (Or.inr (subS_fvm E st t y h))
    · exact Or.inr (subS_fvm E st e y h)
  | st, .LetStmt x v b, y, h => by
    simp only [subS, fvS, List.mem_append, List.mem_filter] at h ⊢
    rcases h with h | h
    · exact Or.inl (subE_fvm E st v y h)
    · exact Or.inr ⟨subS_fvm E _ b y h.1, h.2⟩
  | st, .Evaluate e, y, h => subE_fvm E st e y h
  | st, .Block a b, y, h => by
    simp only [subS, fvS, List.mem_append] at h ⊢
    rcases h with h | h
    · exact Or.inl (subS_fvm E st a y h)
    · exact Or.inr (subS_fvm E st b y h)

def subS_vnm (E : Ext) : ∀ (st : CLStack) (s : Stmt) (y : String),
    y ∈ vnS (subS E st s) → y ∈ vnS s
  | st, .Store _ v i, y, h => by
    simp only [subS, vnS, List.mem_append] at h ⊢
    rcases h with h | h
    · exact Or.inl (subE_vnm E st v y h)
    · exact Or.inr (subE_vnm E st i y h)
  | st, .For x mn ex _ _ b, y, h => by
    simp only [subS, vnS, List.mem_cons, List.mem_append] at h ⊢
    rcases h with h | (h | h) | h
    · exact Or.inl h
    · exact Or.inr (Or.inl (Or.inl (subE_vnm E st mn y h)))
    · exact Or.inr (Or.inl (Or.inr (subE_vnm E st ex y h)))
    · exact Or.inr (Or.inr (subS_vnm E _ b y h))
  | st, .IfThen c t, y, h => by
    simp only [subS, vnS, List.mem_append] at h ⊢
    rcases h with h | h
    · exact Or.inl (subE_vnm E st c y h)
    · exact Or.inr (subS_vnm E st t y h)
  | st, .IfThenElse c t e, y, h => by
    simp only [subS, vnS, List.mem_append] at h ⊢
    rcases h with (h | h) | h
    · exact Or.inl (Or.inl (subE_vnm E st c y h))
    · exact Or.inl (Or.inr (subS_vnm E st t y h))
    · exact Or.inr (subS_vnm E st e y h)
  | st, .LetStmt x v b, y, h => by
    simp only [subS, vnS, List.mem_cons, List.mem_append] at h ⊢
    rcases h with h | h | h
    · exact Or.inl h
    · exact Or.inr (Or.inl (subE_vnm E st v y h))
    · exact Or.inr (Or.inr (subS_vnm E _ b y h))
  | st, .Evaluate e, y, h => subE_vnm E st e y h
  | st, .Block a b, y, h => by
    simp only [subS, vnS, List.mem_append] at h ⊢
    rcases h with h | h
    · exact Or.inl (subS_vnm E st a y h)
    · exact Or.inr (subS_vnm E st b y h)

def subS_wf (E : Ext) : ∀ (st : CLStack) (s : Stmt),
    WFS s = true → WFS (subS E st s) = true
  | st, .Store _ v i, h => by
    simp only [WFS, Bool.and_eq_true] at h ⊢
    exact ⟨subE_pure E st v h.1, subE_pure E st i h.2⟩
  | st, .For x mn ex _ _ b, h => by
    simp only [WFS, Bool.and_eq_true] at h ⊢
    exact ⟨⟨subE_pure E st mn h.1.1, subE_pure E st ex h.1.2⟩, subS_wf E _ b h.2⟩
  | st, .IfThen c t, h => by
    simp only [WFS, Bool.and_eq_true] at h ⊢
    exact ⟨subE_pure E st c h.1, subS_wf E st t h.2⟩
  | st, .IfThenElse c t e, h => by
    simp only [WFS, Bool.and_eq_true] at h ⊢
    exact ⟨⟨subE_pure E st c h.1.1, subS_wf E st t h.1.2⟩, subS_wf E st e h.2⟩
  | st, .LetStmt x v b, h => by
    simp only [WFS, Bool.and_eq_true] at h ⊢
    exact ⟨subE_pure E st v h.1, subS_wf E _ b h.2⟩
  | st, .Evaluate e, h => by
    simp only [WFS, Bool.or_eq_true] at h ⊢
    rcases h with hp | hbad
    · exact Or.inl (subE_pure E st e hp)
    · right
      cases e <;> simp [isBadEval] at hbad
      rename_i t ct n args
      have hct : ct = CallType.intrinsic := by tauto
      have hbn2 : isBadName n = true := by tauto
      have hargs : pureEL args = true := by tauto
      subst hct
      simp [subE, isBadEval, hbn2, subEL_pure E st args hargs]
  | st, .Block a b, h => by
    simp only [WFS, Bool.and_eq_true] at h ⊢
    exact ⟨subS_wf E st a h.1, subS_wf E st b h.2⟩

theorem subE_bnEmpty (E : Ext) (st : CLStack) (e : Expr)
    (h : (bnE e).isEmpty = true) : (bnE (subE E st e)).isEmpty = true := by
  rw [List.isEmpty_iff] at h ⊢
  have hsub := subE_bn E st e
  rw [h] at hsub
  exact List.sublist_nil.mp hsub

def subS_noeb (E : Ext) : ∀ (st : CLStack) (s : Stmt),
    NoEB s = true → NoEB (subS E st s) = true
  | st, .Store _ v i, h => by
    simp only [NoEB, Bool.and_eq_true] at h ⊢
    exact ⟨subE_bnEmpty E st v h.1, subE_bnEmpty E st i h.2⟩
  | st, .For x mn ex _ _ b, h => by
    simp only [NoEB, Bool.and_eq_true] at h ⊢
    exact ⟨⟨subE_bnEmpty E st mn h.1.1, subE_bnEmpty E st ex h.1.2⟩, subS_noeb E _ b h.2⟩
  | st, .IfThen c t, h => by
    simp only [NoEB, Bool.and_eq_true] at h ⊢
    exact ⟨subE_bnEmpty E st c h.1, subS_noeb E st t h.2⟩
  | st, .IfThenElse c t e, h => by
    simp only [NoEB, Bool.and_eq_true] at h ⊢
    exact ⟨⟨subE_bnEmpty E st c h.1.1, subS_noeb E st t h.1.2⟩, subS_noeb E st e h.2⟩
  | st, .LetStmt x v b, h => by
    simp only [NoEB, Bool.and_eq_true] at h ⊢
    exact ⟨subE_bnEmpty E st v h.1, subS_noeb E _ b h.2⟩
  | st, .Evaluate e, h => subE_bnEmpty E st e h
  | st, .Block a b, h => by
    simp only [NoEB, Bool.and_eq_true] at h ⊢
    exact ⟨subS_noeb E st a h.1, subS_noeb E st b h.2⟩

def subS_mfs (E : Ext) : ∀ (st : CLStack) (s : Stmt),
    MFS s = true → MFS (subS E st s) = true
  | _, .Store _ _ _, _ => rfl
  | st, .For x mn ex _ _ b, h => by
    simp only [MFS, Bool.and_eq_true] at h ⊢
    exact ⟨⟨subE_lf E st mn h.1.1, subE_lf E st ex h.1.2⟩, subS_mfs E _ b h.2⟩
  | st, .IfThen _ t, h => subS_mfs E st t h
  | st, .IfThenElse _ t e, h => by
    simp only [MFS, Bool.and_eq_true] at h ⊢
    exact ⟨subS_mfs E st t h.1, subS_mfs E st e h.2⟩
  | st, .LetStmt _ v b, h => by
    simp only [MFS, Bool.and_eq_true] at h ⊢
    exact ⟨subE_lf E st v h.1, subS_mfs E _ b h.2⟩
  | _, .Evaluate _, _ => rfl
  | st, .Block a b, h => by
    simp only [MFS, Bool.and_eq_true] at h ⊢
    exact ⟨subS_mfs E st a h.1, subS_mfs E st b h.2⟩

def subS_bn (E : Ext) : ∀ (st : CLStack) (s : Stmt),
    (bnS (subS E st s)).Sublist (bnS s)
  | st, .Store _ v i => by
    simp only [subS, bnS]
    exact List.Sublist.append (subE_bn E st v) (subE_bn E st i)
  | st, .For x mn ex _ _ b => by
    simp only [subS, bnS]
    exact List.Sublist.cons₂ _
      (List.Sublist.append (List.Sublist.append (subE_bn E st mn) (subE_bn E st ex))
        (subS_bn E _ b))
  | st, .IfThen c t => by
    simp only [subS, bnS]
    exact List.Sublist.append (subE_bn E st c) (subS_bn E st t)
  | st, .IfThenElse c t e => by
    simp only [subS, bnS]
    exact List.Sublist.append (List.Sublist.append (subE_bn E st c) (subS_bn E st t))
      (subS_bn E st e)
  | st, .LetStmt x v b => by
    simp only [subS, bnS]
    exact List.Sublist.cons₂ _ (List.Sublist.append (subE_bn E st v) (subS_bn E _ b))
  | st, .Evaluate e => subE_bn E st e
  | st, .Block a b => by
    simp only [subS, bnS]
    exact List.Sublist.append (subS_bn E st a) (subS_bn E st b)

/-! ### Soundness of the bounds-aware simplifier -/

/-- The semantic invariant of the containing-loop stack: every stack entry's
variable currently holds a value bracketed by its interval bounds. -/
def StackOk (ci : CallInterp) (m : Mem) (r : Env) (st : CLStack) : Prop :=
  ∀ p ∈ st, (∀ b ∈ p.2.min, eval ci m r b ≤ r p.1) ∧
    (∀ b ∈ p.2.max, r p.1 ≤ eval ci m r b)

theorem StackOk_mem {ci : CallInterp} {m m2 : Mem} {r : Env} {st : CLStack}
    (hlf : ∀ p ∈ st, loadFreeI p.2 = true) (h : StackOk ci m r st) :
    StackOk ci m2 r st := by
  intro p hp
  have hb := h p hp
  have hl := hlf p hp
  simp only [loadFreeI, Bool.and_eq_true] at hl
  constructor
  · intro b hbm
    have := hb.1 b hbm
    rw [Option.mem_def] at hbm
    have hlb : loadFreeE b = true := by
      have := hl.1
      rw [hbm] at this
      exact this
    rw [← eval_loadfree b ci m m2 r hlb]
    exact hb.1 b (by rw [Option.mem_def]; exact hbm)
  · intro b hbm
    rw [Option.mem_def] at hbm
    have hlb : loadFreeE b = true := by
      have := hl.2
      rw [hbm] at this
      exact this
    rw [← eval_loadfree b ci m m2 r hlb]
    exact hb.2 b (by rw [Option.mem_def]; exact hbm)

theorem ivUses_min {iv : Interval} {y : String} {b : Expr} (h : ivUses iv y = false)
    (hb : iv.min = some b) : usesVar b y = false := by
  simp only [ivUses, Bool.or_eq_false_iff] at h
  have := h.1
  rw [hb] at this
  exact this

theorem ivUses_max {iv : Interval} {y : String} {b : Expr} (h : ivUses iv y = false)
    (hb : iv.max = some b) : usesVar b y = false := by
  simp only [ivUses, Bool.or_eq_false_iff] at h
  have := h.2
  rw [hb] at this
  exact this

theorem StackOk_upd {ci : CallInterp} {m : Mem} {r : Env} {st : CLStack}
    (x : String) (v : Int)
    (hx : ∀ p ∈ st, x ≠ p.1 ∧ ivUses p.2 x = false) (h : StackOk ci m r st) :
    StackOk ci m (updEnv r x v) st := by
  intro p hp
  have hb := h p hp
  have hxe := hx p hp
  have hr : updEnv r x v p.1 = r p.1 :=
    updEnv_other r x p.1 v (fun q => hxe.1 q.symm)
  constructor
  · intro b hbm
    rw [Option.mem_def] at hbm
    rw [hr, eval_updEnv_notUses (ivUses_min hxe.2 hbm)]
    exact hb.1 b (by rw [Option.mem_def]; exact hbm)
  · intro b hbm
    rw [Option.mem_def] at hbm
    rw [hr, eval_updEnv_notUses (ivUses_max hxe.2 hbm)]
    exact hb.2 b (by rw [Option.mem_def]; exact hbm)

/-- Soundness of `provably_true_over_domain`'s elimination loop: if the test
reduces to the literal constant true, it evaluates true in every state
compatible with the containing-loop stack. -/
theorem ptGoSound (E : Ext) (hE : ExtOk E) :
    ∀ (st : CLStack) (t : Expr) (ci : CallInterp) (m : Mem) (r : Env),
    StackOk ci m r st → isOne (ptGo E st t) = true → eval ci m r t ≠ 0 := by
  intro st
  induction st with
  | nil =>
    intro t ci m r _ h
    simp only [ptGo] at h
    have := isOne_eq h
    subst this
    simp [eval]
  | cons p rest ih =>
    obtain ⟨v, iv⟩ := p
    intro t ci m r hok h
    have hokr : StackOk ci m r rest := fun q hq => hok q (List.mem_cons_of_mem _ hq)
    have hokv := hok (v, iv) (List.mem_cons_self _ _)
    simp only [ptGo] at h
    by_cases hc : isConst t = true
    · rw [if_pos hc] at h
      have := isOne_eq h
      subst this
      simp [eval]
    · rw [if_neg hc] at h
      by_cases hu : usesVar t v = true
      · rw [if_neg (by simp [hu])] at h
        rcases hmin : iv.min with _ | mnB
        · -- no lower bound: not a single point
          rw [hmin] at h
          have h2 := ih (E.simplifyE (E.andConditionOverDomain
            ((E.solveExpression t v).getD t) [(v, iv)])) ci m r hokr h
          rw [hE.simpE_eval] at h2
          have h3 := hE.acd_single ci m r _ v iv (r v) h2 hokv.1 hokv.2
          rw [updEnv_self] at h3
          rcases hsol : E.solveExpression t v with _ | e2
          · rw [hsol] at h3
            simpa using h3
          · rw [hsol] at h3
            simp only [Option.getD_some] at h3
            exact ((hE.solveE_eval t v e2 hsol ci m r).mp h3)
        · rcases hmax : iv.max with _ | mxB
          · rw [hmin, hmax] at h
            have h2 := ih (E.simplifyE (E.andConditionOverDomain
              ((E.solveExpression t v).getD t) [(v, iv)])) ci m r hokr h
            rw [hE.simpE_eval] at h2
            have h3 := hE.acd_single ci m r _ v iv (r v) h2 hokv.1 hokv.2
            rw [updEnv_self] at h3
            rcases hsol : E.solveExpression t v with _ | e2
            · rw [hsol] at h3
              simpa using h3
            · rw [hsol] at h3
              simp only [Option.getD_some] at h3
              exact ((hE.solveE_eval t v e2 hsol ci m r).mp h3)
          · rw [hmin, hmax] at h
            by_cases hbeq : Expr.beq mnB mxB = true
            · rw [if_pos hbeq] at h
              have h2 := ih (E.simplifyE (E.cse (.LetE v ((some mnB).getD (.IntImm 0)) t)))
                ci m r hokr h
              rw [hE.simpE_eval, hE.cse_eval] at h2
              simp only [Option.getD_some] at h2
              simp only [eval] at h2
              have hlo := hokv.1 mnB (by rw [Option.mem_def]; exact hmin)
              have hhi := hokv.2 mxB (by rw [Option.mem_def]; exact hmax)
              cases Expr.beq_eq mnB mxB hbeq
              have hrv : eval ci m r mnB = r v := le_antisymm hlo hhi
              rw [hrv, updEnv_self] at h2
              exact h2
            · rw [if_neg hbeq] at h
              have h2 := ih (E.simplifyE (E.andConditionOverDomain
                ((E.solveExpression t v).getD t) [(v, iv)])) ci m r hokr h
              rw [hE.simpE_eval] at h2
              have h3 := hE.acd_single ci m r _ v iv (r v) h2 hokv.1 hokv.2
              rw [updEnv_self] at h3
              rcases hsol : E.solveExpression t v with _ | e2
              · rw [hsol] at h3
                simpa using h3
              · rw [hsol] at h3
                simp only [Option.getD_some] at h3
                exact ((hE.solveE_eval t v e2 hsol ci m r).mp h3)
      · rw [if_pos (by simp [Bool.eq_false_iff.mpr hu])] at h
        exact ih t ci m r hokr h

mutual

/-- Value preservation of the expression mutator of `SimplifyUsingBounds`,
for binder-free expressions, in every state compatible with the stack. -/
def subE_eval (E : Ext) (hE : ExtOk E) :
    ∀ (st : CLStack) (e : Expr) (ci : CallInterp) (m : Mem) (r : Env),
    bnE e = [] → StackOk ci m r st →
    eval ci m r (subE E st e) = eval ci m r e
  | _, .IntImm _, _, _, _, _, _ => rfl
  | _, .Var _ _, _, _, _, _, _ => rfl
  | st, .Add a b, ci, m, r, hb, hok => by
    simp only [bnE, List.append_eq_nil] at hb
    simp only [subE, eval, subE_eval E hE st a ci m r hb.1 hok,
      subE_eval E hE st b ci m r hb.2 hok]
  | st, .Sub a b, ci, m, r, hb, hok => by
    simp only [bnE, List.append_eq_nil] at hb
    simp only [subE, eval, subE_eval E hE st a ci m r hb.1 hok,
      subE_eval E hE st b ci m r hb.2 hok]
  | st, .Mul a b, ci, m, r, hb, hok => by
    simp only [bnE, List.append_eq_nil] at hb
    simp only [subE, eval, subE_eval E hE st a ci m r hb.1 hok,
      subE_eval E hE st b ci m r hb.2 hok]
  | st, .AndE a b, ci, m, r, hb, hok => by
    simp only [bnE, List.append_eq_nil] at hb
    simp only [subE, eval, subE_eval E hE st a ci m r hb.1 hok,
      subE_eval E hE st b ci m r hb.2 hok]
  | st, .OrE a b, ci, m, r, hb, hok => by
    simp only [bnE, List.append_eq_nil] at hb
    simp only [subE, eval, subE_eval E hE st a ci m r hb.1 hok,
      subE_eval E hE st b ci m r hb.2 hok]
  | st, .EQE a b, ci, m, r, hb, hok => by
    simp only [bnE, List.append_eq_nil] at hb
    have ha := subE_eval E hE st a ci m r hb.1 hok
    have hbv := subE_eval E hE st b ci m r hb.2 hok
    simp only [subE]
    by_cases h1 : provablyTrue E st (.EQE (subE E st a) (subE E st b)) = true
    · rw [if_pos h1]
      have hne := ptGoSound E hE st _ ci m r hok (by simpa [provablyTrue] using h1)
      simp only [eval, ha, hbv] at hne
      simp only [eval]
      have hQ : eval ci m r a = eval ci m r b := by
        by_contra hq
        simp [hq] at hne
      simp [hQ]
    · rw [if_neg h1]
      by_cases h2 : provablyTrue E st (.NotE (.EQE (subE E st a) (subE E st b))) = true
      · rw [if_pos h2]
        have hne := ptGoSound E hE st _ ci m r hok (by simpa [provablyTrue] using h2)
        simp only [eval, ha, hbv] at hne
        simp only [eval]
        have hQ : ¬(eval ci m r a = eval ci m r b) := by
          intro hq
          simp [hq] at hne
        simp [hQ]
      · rw [if_neg h2]
        simp only [eval, ha, hbv]
  | st, .NEE a b, ci, m, r, hb, hok => by
    simp only [bnE, List.append_eq_nil] at hb
    have ha := subE_eval E hE st a ci m r hb.1 hok
    have hbv := subE_eval E hE st b ci m r hb.2 hok
    simp only [subE]
    by_cases h1 : provablyTrue E st (.NEE (subE E st a) (subE E st b)) = true
    · rw [if_pos h1]
      have hne := ptGoSound E hE st _ ci m r hok (by simpa [provablyTrue] using h1)
      simp only [eval, ha, hbv] at hne
      simp only [eval]
      have hQ : ¬(eval ci m r a = eval ci m r b) := by
        intro hq
        simp [hq] at hne
      simp [hQ]
    · rw [if_neg h1]
      by_cases h2 : provablyTrue E st (.NotE (.NEE (subE E st a) (subE E st b))) = true
      · rw [if_pos h2]
        have hne := ptGoSound E hE st _ ci m r hok (by simpa [provablyTrue] using h2)
        simp only [eval, ha, hbv] at hne
        simp only [eval]
        have hQ : eval ci m r a = eval ci m r b := by
          by_contra hq
          simp [hq] at hne
        simp [hQ]
      · rw [if_neg h2]
        simp only [eval, ha, hbv]
  | st, .LTE a b, ci, m, r, hb, hok => by
    simp only [bnE, List.append_eq_nil] at hb
    have ha := subE_eval E hE st a ci m r hb.1 hok
    have hbv := subE_eval E hE st b ci m r hb.2 hok
    simp only [subE]
    by_cases h1 : provablyTrue E st (.LTE (subE E st a) (subE E st b)) = true
    · rw [if_pos h1]
      have hne := ptGoSound E hE st _ ci m r hok (by simpa [provablyTrue] using h1)
      simp only [eval, ha, hbv] at hne
      simp only [eval]
      have hQ : eval ci m r a < eval ci m r b := by
        by_contra hq
        simp [hq] at hne
      simp [hQ]
    · rw [if_neg h1]
      by_cases h2 : provablyTrue E st (.NotE (.LTE (subE E st a) (subE E st b))) = true
      · rw [if_pos h2]
        have hne := ptGoSound E hE st _ ci m r hok (by simpa [provablyTrue] using h2)
        simp only [eval, ha, hbv] at hne
        simp only [eval]
        have hQ : ¬(eval ci m r a < eval ci m r b) := by
          intro hq
          simp [hq] at hne
        simp [hQ]
      · rw [if_neg h2]
        simp only [eval, ha, hbv]
  | st, .LEE a b, ci, m, r, hb, hok => by
    simp only [bnE, List.append_eq_nil] at hb
    have ha := subE_eval E hE st a ci m r hb.1 hok
    have hbv := subE_eval E hE st b ci m r hb.2 hok
    simp only [subE]
    by_cases h1 : provablyTrue E st (.LEE (subE E st a) (subE E st b)) = true
    · rw [if_pos h1]
      have hne := ptGoSound E hE st _ ci m r hok (by simpa [provablyTrue] using h1)
      simp only [eval, ha, hbv] at hne
      simp only [eval]
      have hQ : eval ci m r a ≤ eval ci m r b := by
        by_contra hq
        simp [hq] at hne
      simp [hQ]
    · rw [if_neg h1]
      by_cases h2 : provablyTrue E st (.NotE (.LEE (subE E st a) (subE E st b))) = true
      · rw [if_pos h2]
        have hne := ptGoSound E hE st _ ci m r hok (by simpa [provablyTrue] using h2)
        simp only [eval, ha, hbv] at hne
        simp only [eval]
        have hQ : ¬(eval ci m r a ≤ eval ci m r b) := by
          intro hq
          simp [hq] at hne
        simp [hQ]
      · rw [if_neg h2]
        simp only [eval, ha, hbv]
  | st, .GTE a b, ci, m, r, hb, hok => by
    simp only [bnE, List.append_eq_nil] at hb
    have ha := subE_eval E hE st a ci m r hb.1 hok
    have hbv := subE_eval E hE st b ci m r hb.2 hok
    simp only [subE]
    by_cases h1 : provablyTrue E st (.GTE (subE E st a) (subE E st b)) = true
    · rw [if_pos h1]
      have hne := ptGoSound E hE st _ ci m r hok (by simpa [provablyTrue] using h1)
      simp only [eval, ha, hbv] at hne
      simp only [eval]
      have hQ : eval ci m r b < eval ci m r a := by
        by_contra hq
        simp [hq] at hne
      simp [hQ]
    · rw [if_neg h1]
      by_cases h2 : provablyTrue E st (.NotE (.GTE (subE E st a) (subE E st b))) = true
      · rw [if_pos h2]
        have hne := ptGoSound E hE st _ ci m r hok (by simpa [provablyTrue] using h2)
        simp only [eval, ha, hbv] at hne
        simp only [eval]
        have hQ : ¬(eval ci m r b < eval ci m r a) := by
          intro hq
          simp [hq] at hne
        simp [hQ]
      · rw [if_neg h2]
        simp only [eval, ha, hbv]
  | st, .GEE a b, ci, m, r, hb, hok => by
    simp only [bnE, List.append_eq_nil] at hb
    have ha := subE_eval E hE st a ci m r hb.1 hok
    have hbv := subE_eval E hE st b ci m r hb.2 hok
    simp only [subE]
    by_cases h1 : provablyTrue E st (.GEE (subE E st a) (subE E st b)) = true
    · rw [if_pos h1]
      have hne := ptGoSound E hE st _ ci m r hok (by simpa [provablyTrue] using h1)
      simp only [eval, ha, hbv] at hne
      simp only [eval]
      have hQ : eval ci m r b ≤ eval ci m r a := by
        by_contra hq
        simp [hq] at hne
      simp [hQ]
    · rw [if_neg h1]
      by_cases h2 : provablyTrue E st (.NotE (.GEE (subE E st a) (subE E st b))) = true
      · rw [if_pos h2]
        have hne := ptGoSound E hE st _ ci m r hok (by simpa [provablyTrue] using h2)
        simp only [eval, ha, hbv] at hne
        simp only [eval]
        have hQ : ¬(eval ci m r b ≤ eval ci m r a) := by
          intro hq
          simp [hq] at hne
        simp [hQ]
      · rw [if_neg h2]
        simp only [eval, ha, hbv]
  | st, .MinE a b, ci, m, r, hb, hok => by
    simp only [bnE, List.append_eq_nil] at hb
    have ha := subE_eval E hE st a ci m r hb.1 hok
    have hbv := subE_eval E hE st b ci m r hb.2 hok
    simp only [subE]
    split
    · simp only [eval, ha, hbv]
    · by_cases h1 : provablyTrue E st (.LEE (subE E st a) (subE E st b)) = true
      · rw [if_pos h1]
        have hne := ptGoSound E hE st _ ci m r hok (by simpa [provablyTrue] using h1)
        simp only [eval, ha, hbv] at hne
        have hle : eval ci m r a ≤ eval ci m r b := by
          by_contra hq
          simp [hq] at hne
        simp only [eval]
        rw [ha]
        omega
      · rw [if_neg h1]
        by_cases h2 : provablyTrue E st (.LEE (subE E st b) (subE E st a)) = true
        · rw [if_pos h2]
          have hne := ptGoSound E hE st _ ci m r hok (by simpa [provablyTrue] using h2)
          simp only [eval, ha, hbv] at hne
          have hle : eval ci m r b ≤ eval ci m r a := by
            by_contra hq
            simp [hq] at hne
          simp only [eval]
          rw [hbv]
          omega
        · rw [if_neg h2]
          simp only [eval, ha, hbv]
  | st, .MaxE a b, ci, m, r, hb, hok => by
    simp only [bnE, List.append_eq_nil] at hb
    have ha := subE_eval E hE st a ci m r hb.1 hok
    have hbv := subE_eval E hE st b ci m r hb.2 hok
    simp only [subE]
    split
    · simp only [eval, ha, hbv]
    · by_cases h1 : provablyTrue E st (.GEE (subE E st a) (subE E st b)) = true
      · rw [if_pos h1]
        have hne := ptGoSound E hE st _ ci m r hok (by simpa [provablyTrue] using h1)
        simp only [eval, ha, hbv] at hne
        have hle : eval ci m r b ≤ eval ci m r a := by
          by_contra hq
          simp [hq] at hne
        simp only [eval]
        rw [ha]
        omega
      · rw [if_neg h1]
        by_cases h2 : provablyTrue E st (.GEE (subE E st b) (subE E st a)) = true
        · rw [if_pos h2]
          have hne := ptGoSound E hE st _ ci m r hok (by simpa [provablyTrue] using h2)
          simp only [eval, ha, hbv] at hne
          have hle : eval ci m r a ≤ eval ci m r b := by
            by_contra hq
            simp [hq] at hne
          simp only [eval]
          rw [hbv]
          omega
        · rw [if_neg h2]
          simp only [eval, ha, hbv]
  | st, .NotE a, ci, m, r, hb, hok => by
    simp only [bnE] at hb
    simp only [subE, eval, subE_eval E hE st a ci m r hb hok]
  | st, .LetE x v b, ci, m, r, hb, hok => by
    simp [bnE] at hb
  | st, .Load _ _ i, ci, m, r, hb, hok => by
    simp only [bnE] at hb
    simp only [subE, eval, subE_eval E hE st i ci m r hb hok]
  | st, .Call _ _ _ args, ci, m, r, hb, hok => by
    simp only [bnE] at hb
    simp only [subE, eval, subEL_eval E hE st args ci m r hb hok]
termination_by structural _ e => e

def subEL_eval (E : Ext) (hE : ExtOk E) :
    ∀ (st : CLStack) (l : ExprList) (ci : CallInterp) (m : Mem) (r : Env),
    bnEL l = [] → StackOk ci m r st →
    evalL ci m r (subEL E st l) = evalL ci m r l
  | _, .nil, _, _, _, _, _ => rfl
  | st, .cons e es, ci, m, r, hb, hok => by
    simp only [bnEL, List.append_eq_nil] at hb
    simp only [subEL, evalL, subE_eval E hE st e ci m r hb.1 hok,
      subEL_eval E hE st es ci m r hb.2 hok]
termination_by structural _ l => l

end

theorem iterFor_congr_range {f g : Int → Mem → Mem × List Event} :
    ∀ (k : Nat) (v : Int) (m : Mem),
    (∀ (j : Nat), j < k → ∀ m2, f (v + j) m2 = g (v + j) m2) →
    iterFor f v k m = iterFor g v k m := by
  intro k
  induction k with
  | zero => intro v m _; rfl
  | succ k ih =>
    intro v m h
    simp only [iterFor]
    have h0 : f v m = g v m := by
      have := h 0 (Nat.succ_pos k) m
      simpa using this
    rw [h0]
    rw [ih (v + 1) (g v m).1 (fun j hj m2 => by
      have := h (j + 1) (by omega) m2
      have harg : v + 1 + (j : Int) = v + ((j : Nat) + 1 : Nat) := by
        push_cast
        ring
      rw [harg]
      exact this)]

/-- Soundness of the statement mutator of `SimplifyUsingBounds`: on
well-formed, hygienic statements without expression binders and with
load-free control expressions, rewriting with a load-free, hygienic,
currently-valid stack preserves execution. -/
def subS_exec (E : Ext) (hE : ExtOk E) :
    ∀ (st : CLStack) (s : Stmt) (ci : CallInterp) (r : Env) (m : Mem),
    WFS s = true → NoEB s = true → MFS s = true →
    (bnS s).Nodup → (∀ y ∈ bnS s, y ∉ fvS s) →
    (∀ p ∈ st, loadFreeI p.2 = true) →
    (∀ y ∈ bnS s, ∀ p ∈ st, y ≠ p.1 ∧ ivUses p.2 y = false) →
    StackOk ci m r st →
    exec ci r m (subS E st s) = exec ci r m s
  | st, .Store nm v i, ci, r, m, hwf, hnb, _, _, _, _, _, hok => by
    simp only [WFS, Bool.and_eq_true] at hwf
    simp only [NoEB, Bool.and_eq_true] at hnb
    simp only [subS, exec]
    rw [subE_eval E hE st v ci m r (List.isEmpty_iff.mp hnb.1) hok,
        subE_eval E hE st i ci m r (List.isEmpty_iff.mp hnb.2) hok,
        events_pure v ci m r hwf.1, events_pure i ci m r hwf.2,
        events_pure (subE E st v) ci m r (subE_pure E st v hwf.1),
        events_pure (subE E st i) ci m r (subE_pure E st i hwf.2)]
  | st, .For x mn ex ft da body, ci, r, m, hwf, hnb, hmf, hnd, hbf, hlf, hsh, hok => by
    simp only [WFS, Bool.and_eq_true] at hwf
    simp only [NoEB, Bool.and_eq_true] at hnb
    simp only [MFS, Bool.and_eq_true] at hmf
    have hmnE : bnE mn = [] := List.isEmpty_iff.mp hnb.1.1
    have hexE : bnE ex = [] := List.isEmpty_iff.mp hnb.1.2
    have hnd0 : (x :: (bnE mn ++ bnE ex ++ bnS body)).Nodup := hnd
    rw [hmnE, hexE] at hnd0
    simp only [List.nil_append] at hnd0
    have hnd' := List.nodup_cons.mp hnd0
    have hxF : x ∈ bnS (Stmt.For x mn ex ft da body) := by simp [bnS]
    have hmemB : ∀ y, y ∈ bnS body → y ∈ bnS (Stmt.For x mn ex ft da body) := by
      intro y hy
      simp only [bnS, List.mem_cons, List.mem_append]
      exact Or.inr (Or.inr hy)
    have hxmn : usesVar mn x = false := by
      rw [usesVar_false_iff]
      intro q
      exact hbf x hxF (by
        simp only [fvS, List.mem_append]
        exact Or.inl (Or.inl q))
    have hxex : usesVar ex x = false := by
      rw [usesVar_false_iff]
      intro q
      exact hbf x hxF (by
        simp only [fvS, List.mem_append]
        exact Or.inl (Or.inr q))
    simp only [subS, exec]
    have hEvMn : eval ci m r (subE E st mn) = eval ci m r mn :=
      subE_eval E hE st mn ci m r hmnE hok
    have hEvEx : eval ci m r (subE E st ex) = eval ci m r ex :=
      subE_eval E hE st ex ci m r hexE hok
    rw [hEvMn, hEvEx,
        events_pure mn ci m r hwf.1.1, events_pure ex ci m r hwf.1.2,
        events_pure (subE E st mn) ci m r (subE_pure E st mn hwf.1.1),
        events_pure (subE E st ex) ci m r (subE_pure E st ex hwf.1.2)]
    suffices hIter : iterFor (fun v m2 => exec ci (updEnv r x v) m2
        (subS E ((x, ⟨some (subE E st mn),
          some (.Sub (.Add (subE E st mn) (subE E st ex)) (.IntImm 1))⟩) :: st) body))
        (eval ci m r mn) (eval ci m r ex).toNat m
        = iterFor (fun v m2 => exec ci (updEnv r x v) m2 body)
          (eval ci m r mn) (eval ci m r ex).toNat m by
      rw [hIter]
    apply iterFor_congr_range
    intro j hj m2
    have hjlt : (j : Int) < eval ci m r ex := by omega
    -- the rewritten bounds do not mention x nor the statement binders
    have hmn'x : usesVar (subE E st mn) x = false := by
      rw [usesVar_false_iff]
      intro q
      exact (usesVar_false_iff.mp hxmn) (subE_fvm E st mn x q)
    have hex'x : usesVar (subE E st ex) x = false := by
      rw [usesVar_false_iff]
      intro q
      exact (usesVar_false_iff.mp hxex) (subE_fvm E st ex x q)
    have hmn'lf : loadFreeE (subE E st mn) = true := subE_lf E st mn hmf.1.1
    have hex'lf : loadFreeE (subE E st ex) = true := subE_lf E st ex hmf.1.2
    -- hygiene of the statement binders for the body
    have hbfB : ∀ y ∈ bnS body, y ∉ fvS body := by
      intro y hy q
      have hyx : y ≠ x := fun he => hnd'.1 (he ▸ hy)
      exact hbf y (hmemB y hy) (by
        simp only [fvS, List.mem_append, List.mem_filter]
        exact Or.inr ⟨q, by simp [hyx]⟩)
    have hshB : ∀ y ∈ bnS body, ∀ p ∈ ((x, (⟨some (subE E st mn),
        some (.Sub (.Add (subE E st mn) (subE E st ex)) (.IntImm 1))⟩ : Interval)) :: st),
        y ≠ p.1 ∧ ivUses p.2 y = false := by
      intro y hy p hp
      have hyx : y ≠ x := fun he => hnd'.1 (he ▸ hy)
      have hymn : y ∉ fvE mn := by
        intro q
        exact hbf y (hmemB y hy) (by
          simp only [fvS, List.mem_append]
          exact Or.inl (Or.inl q))
      have hyex : y ∉ fvE ex := by
        intro q
        exact hbf y (hmemB y hy) (by
          simp only [fvS, List.mem_append]
          exact Or.inl (Or.inr q))
      rcases List.mem_cons.mp hp with hp | hp
      · subst hp
        refine ⟨hyx, ?_⟩
        simp only [ivUses, Bool.or_eq_false_iff]
        constructor
        · rw [usesVar_false_iff]
          intro q
          exact hymn (subE_fvm E st mn y q)
        · rw [usesVar_false_iff]
          intro q
          simp only [fvE, List.mem_append] at q
          rcases q with (q | q) | q
          · exact hymn (subE_fvm E st mn y q)
          · exact hyex (subE_fvm E st ex y q)
          · simp [fvE] at q
      · exact hsh y (hmemB y hy) p hp
    have hlfB : ∀ p ∈ ((x, (⟨some (subE E st mn),
        some (.Sub (.Add (subE E st mn) (subE E st ex)) (.IntImm 1))⟩ : Interval)) :: st),
        loadFreeI p.2 = true := by
      intro p hp
      rcases List.mem_cons.mp hp with hp | hp
      · subst hp
        simp [loadFreeI, loadFreeE, hmn'lf, hex'lf]
      · exact hlf p hp
    have hokB : StackOk ci m2 (updEnv r x (eval ci m r mn + (j : Int)))
        ((x, (⟨some (subE E st mn),
          some (.Sub (.Add (subE E st mn) (subE E st ex)) (.IntImm 1))⟩ : Interval)) :: st) := by
      intro p hp
      rcases List.mem_cons.mp hp with hp | hp
      · subst hp
        constructor
        · intro b hbm
          rw [Option.mem_def, Option.some.injEq] at hbm
          subst hbm
          rw [eval_loadfree _ ci m2 m _ hmn'lf, eval_updEnv_notUses hmn'x, hEvMn,
            updEnv_same]
          omega
        · intro b hbm
          rw [Option.mem_def, Option.some.injEq] at hbm
          subst hbm
          have hblf : loadFreeE (Expr.Sub (.Add (subE E st mn) (subE E st ex))
              (.IntImm 1)) = true := by
            simp [loadFreeE, hmn'lf, hex'lf]
          have hbx : usesVar (Expr.Sub (.Add (subE E st mn) (subE E st ex))
              (.IntImm 1)) x = false := by
            rw [usesVar_false_iff]
            intro q
            simp only [fvE, List.mem_append] at q
            rcases q with (q | q) | q
            · exact (usesVar_false_iff.mp hmn'x) q
            · exact (usesVar_false_iff.mp hex'x) q
            · simp [fvE] at q
          rw [eval_loadfree _ ci m2 m _ hblf, eval_updEnv_notUses hbx, updEnv_same]
          simp only [eval, hEvMn, hEvEx]
          omega
      · have hshx := hsh x hxF p hp
        have h1 : StackOk ci m2 r st := StackOk_mem hlf hok
        exact StackOk_upd x _ (fun q hq => (hsh x hxF q hq)) h1 p hp
    exact subS_exec E hE _ body ci (updEnv r x (eval ci m r mn + (j : Int))) m2
      hwf.2 hnb.2 hmf.2 hnd'.2 hbfB hlfB hshB hokB
  | st, .IfThen c t, ci, r, m, hwf, hnb, hmf, hnd, hbf, hlf, hsh, hok => by
    simp only [WFS, Bool.and_eq_true] at hwf
    simp only [NoEB, Bool.and_eq_true] at hnb
    have hnd0 : (bnE c ++ bnS t).Nodup := hnd
    rw [List.isEmpty_iff.mp hnb.1] at hnd0
    simp only [List.nil_append] at hnd0
    have hmemT : ∀ y, y ∈ bnS t → y ∈ bnS (Stmt.IfThen c t) := by
      intro y hy
      simp only [bnS, List.mem_append]
      exact Or.inr hy
    simp only [subS, exec]
    rw [subE_eval E hE st c ci m r (List.isEmpty_iff.mp hnb.1) hok,
        events_pure c ci m r hwf.1,
        events_pure (subE E st c) ci m r (subE_pure E st c hwf.1),
        subS_exec E hE st t ci r m hwf.2 hnb.2 hmf hnd0
          (fun y hy q => hbf y (hmemT y hy) (by
            simp only [fvS, List.mem_append]
            exact Or.inr q))
          hlf (fun y hy => hsh y (hmemT y hy)) hok]
  | st, .IfThenElse c t e, ci, r, m, hwf, hnb, hmf, hnd, hbf, hlf, hsh, hok => by
    simp only [WFS, Bool.and_eq_true] at hwf
    simp only [NoEB, Bool.and_eq_true] at hnb
    simp only [MFS, Bool.and_eq_true] at hmf
    have hnd0 : ((bnE c ++ bnS t) ++ bnS e).Nodup := hnd
    rw [List.isEmpty_iff.mp hnb.1.1] at hnd0
    simp only [List.nil_append] at hnd0
    have hmemT : ∀ y, y ∈ bnS t → y ∈ bnS (Stmt.IfThenElse c t e) := by
      intro y hy
      simp only [bnS, List.mem_append]
      exact Or.inl (Or.inr hy)
    have hmemE : ∀ y, y ∈ bnS e → y ∈ bnS (Stmt.IfThenElse c t e) := by
      intro y hy
      simp only [bnS, List.mem_append]
      exact Or.inr hy
    simp only [subS, exec]
    rw [subE_eval E hE st c ci m r (List.isEmpty_iff.mp hnb.1.1) hok,
        events_pure c ci m r hwf.1.1,
        events_pure (subE E st c) ci m r (subE_pure E st c hwf.1.1),
        subS_exec E hE st t ci r m hwf.1.2 hnb.1.2 hmf.1 hnd0.of_append_left
          (fun y hy q => hbf y (hmemT y hy) (by
            simp only [fvS, List.mem_append]
            exact Or.inl (Or.inr q)))
          hlf (fun y hy => hsh y (hmemT y hy)) hok,
        subS_exec E hE st e ci r m hwf.2 hnb.2 hmf.2 hnd0.of_append_right
          (fun y hy q => hbf y (hmemE y hy) (by
            simp only [fvS, List.mem_append]
            exact Or.inr q))
          hlf (fun y hy => hsh y (hmemE y hy)) hok]
  | st, .LetStmt x v b, ci, r, m, hwf, hnb, hmf, hnd, hbf, hlf, hsh, hok => by
    simp only [WFS, Bool.and_eq_true] at hwf
    simp only [NoEB, Bool.and_eq_true] at hnb
    simp only [MFS, Bool.and_eq_true] at hmf
    have hvE : bnE v = [] := List.isEmpty_iff.mp hnb.1
    have hnd0 : (x :: (bnE v ++ bnS b)).Nodup := hnd
    rw [hvE] at hnd0
    simp only [List.nil_append] at hnd0
    have hnd' := List.nodup_cons.mp hnd0
    have hxL : x ∈ bnS (Stmt.LetStmt x v b) := by simp [bnS]
    have hmemB : ∀ y, y ∈ bnS b → y ∈ bnS (Stmt.LetStmt x v b) := by
      intro y hy
      simp only [bnS, List.mem_cons, List.mem_append]
      exact Or.inr (Or.inr hy)
    have hxv : usesVar v x = false := by
      rw [usesVar_false_iff]
      intro q
      exact hbf x hxL (by
        simp only [fvS, List.mem_append]
        exact Or.inl q)
    have hv'x : usesVar (subE E st v) x = false := by
      rw [usesVar_false_iff]
      intro q
      exact (usesVar_false_iff.mp hxv) (subE_fvm E st v x q)
    have hv'lf : loadFreeE (subE E st v) = true := subE_lf E st v hmf.1
    simp only [subS, exec]
    have hEvV : eval ci m r (subE E st v) = eval ci m r v :=
      subE_eval E hE st v ci m r hvE hok
    rw [hEvV, events_pure v ci m r hwf.1,
        events_pure (subE E st v) ci m r (subE_pure E st v hwf.1)]
    have hbfB : ∀ y ∈ bnS b, y ∉ fvS b := by
      intro y hy q
      have hyx : y ≠ x := fun he => hnd'.1 (he ▸ hy)
      exact hbf y (hmemB y hy) (by
        simp only [fvS, List.mem_append, List.mem_filter]
        exact Or.inr ⟨q, by simp [hyx]⟩)
    have hshB : ∀ y ∈ bnS b, ∀ p ∈ ((x, (⟨some (subE E st v),
        some (subE E st v)⟩ : Interval)) :: st), y ≠ p.1 ∧ ivUses p.2 y = false := by
      intro y hy p hp
      have hyx : y ≠ x := fun he => hnd'.1 (he ▸ hy)
      have hyv : y ∉ fvE v := by
        intro q
        exact hbf y (hmemB y hy) (by
          simp only [fvS, List.mem_append]
          exact Or.inl q)
      rcases List.mem_cons.mp hp with hp | hp
      · subst hp
        refine ⟨hyx, ?_⟩
        simp only [ivUses, Bool.or_eq_false_iff]
        have : usesVar (subE E st v) y = false := by
          rw [usesVar_false_iff]
          intro q
          exact hyv (subE_fvm E st v y q)
        exact ⟨this, this⟩
      · exact hsh y (hmemB y hy) p hp
    have hlfB : ∀ p ∈ ((x, (⟨some (subE E st v),
        some (subE E st v)⟩ : Interval)) :: st), loadFreeI p.2 = true := by
      intro p hp
      rcases List.mem_cons.mp hp with hp | hp
      · subst hp
        simp [loadFreeI, hv'lf]
      · exact hlf p hp
    have hokB : StackOk ci m (updEnv r x (eval ci m r v))
        ((x, (⟨some (subE E st v), some (subE E st v)⟩ : Interval)) :: st) := by
      intro p hp
      rcases List.mem_cons.mp hp with hp | hp
      · subst hp
        have hev : eval ci m (updEnv r x (eval ci m r v)) (subE E st v)
            = eval ci m r v := by
          rw [eval_updEnv_notUses hv'x, hEvV]
        constructor
        · intro b2 hbm
          rw [Option.mem_def, Option.some.injEq] at hbm
          subst hbm
          rw [hev, updEnv_same]
        · intro b2 hbm
          rw [Option.mem_def, Option.some.injEq] at hbm
          subst hbm
          rw [hev, updEnv_same]
      · exact StackOk_upd x _ (fun q hq => (hsh x hxL q hq)) hok p hp
    rw [subS_exec E hE _ b ci (updEnv r x (eval ci m r v)) m
      hwf.2 hnb.2 hmf.2 hnd'.2 hbfB hlfB hshB hokB]
  | st, .Evaluate e, ci, r, m, hwf, hnb, _hmf, _hnd, _hbf, _hlf, _hsh, hok => by
    simp only [WFS, Bool.or_eq_true] at hwf
    simp only [NoEB] at hnb
    simp only [subS, exec]
    rcases hwf with hp | hbad
    · rw [events_pure e ci m r hp,
        events_pure (subE E st e) ci m r (subE_pure E st e hp)]
    · cases e <;> simp [isBadEval] at hbad
      rename_i t2 ct n args
      have hargs : pureEL args = true := by tauto
      simp only [subE, events]
      rw [eventsL_pure args ci m r hargs,
          eventsL_pure (subEL E st args) ci m r (subEL_pure E st args hargs),
          subEL_eval E hE st args ci m r (List.isEmpty_iff.mp hnb) hok]
  | st, .Block a b, ci, r, m, hwf, hnb, hmf, hnd, hbf, hlf, hsh, hok => by
    simp only [WFS, Bool.and_eq_true] at hwf
    simp only [NoEB, Bool.and_eq_true] at hnb
    simp only [MFS, Bool.and_eq_true] at hmf
    have hnd0 : (bnS a ++ bnS b).Nodup := hnd
    have hmemA : ∀ y, y ∈ bnS a → y ∈ bnS (Stmt.Block a b) := by
      intro y hy
      simp only [bnS, List.mem_append]
      exact Or.inl hy
    have hmemB : ∀ y, y ∈ bnS b → y ∈ bnS (Stmt.Block a b) := by
      intro y hy
      simp only [bnS, List.mem_append]
      exact Or.inr hy
    simp only [subS, exec]
    rw [subS_exec E hE st a ci r m hwf.1 hnb.1 hmf.1 hnd0.of_append_left
        (fun y hy q => hbf y (hmemA y hy) (by
          simp only [fvS, List.mem_append]
          exact Or.inl q))
        hlf (fun y hy => hsh y (hmemA y hy)) hok]
    rw [subS_exec E hE st b ci r (exec ci r m a).1 hwf.2 hnb.2 hmf.2 hnd0.of_append_right
        (fun y hy q => hbf y (hmemB y hy) (by
          simp only [fvS, List.mem_append]
          exact Or.inr q))
        hlf (fun y hy => hsh y (hmemB y hy)) (StackOk_mem hlf hok)]

theorem ivPure_min {iv : Interval} {b : Expr} (h : ivPure iv = true)
    (hb : iv.min = some b) : pureE b = true := by
  simp only [ivPure, Bool.and_eq_true] at h
  have := h.1
  rw [hb] at this
  exact this

theorem ivPure_max {iv : Interval} {b : Expr} (h : ivPure iv = true)
    (hb : iv.max = some b) : pureE b = true := by
  simp only [ivPure, Bool.and_eq_true] at h
  have := h.2
  rw [hb] at this
  exact this

theorem loadFreeI_min {iv : Interval} {b : Expr} (h : loadFreeI iv = true)
    (hb : iv.min = some b) : loadFreeE b = true := by
  simp only [loadFreeI, Bool.and_eq_true] at h
  have := h.1
  rw [hb] at this
  exact this

theorem loadFreeI_max {iv : Interval} {b : Expr} (h : loadFreeI iv = true)
    (hb : iv.max = some b) : loadFreeE b = true := by
  simp only [loadFreeI, Bool.and_eq_true] at h
  have := h.2
  rw [hb] at this
  exact this

theorem ivUses_of_min {iv : Interval} {b : Expr} {y : String} (hb : iv.min = some b)
    (hy : y ∈ fvE b) : ivUses iv y = true := by
  simp only [ivUses, Bool.or_eq_true]
  left
  rw [hb]
  exact usesVar_iff.mpr hy

theorem ivUses_of_max {iv : Interval} {b : Expr} {y : String} (hb : iv.max = some b)
    (hy : y ∈ fvE b) : ivUses iv y = true := by
  simp only [ivUses, Bool.or_eq_true]
  right
  rw [hb]
  exact usesVar_iff.mpr hy

mutual

def vnE_fv_bn : ∀ (e : Expr) (y : String), y ∈ vnE e → y ∈ fvE e ∨ y ∈ bnE e
  | .IntImm _, _, h => Or.inl h
  | .Var _ _, _, h => Or.inl h
  | .Add a b, y, h => by
    simp only [vnE, fvE, bnE, List.mem_append] at h ⊢
    rcases h with h | h
    · rcases vnE_fv_bn a y h with h2 | h2
      · exact Or.inl (Or.inl h2)
      · exact Or.inr (Or.inl h2)
    · rcases vnE_fv_bn b y h with h2 | h2
      · exact Or.inl (Or.inr h2)
      · exact Or.inr (Or.inr h2)
  | .Sub a b, y, h => by
    simp only [vnE, fvE, bnE, List.mem_append] at h ⊢
    rcases h with h | h
    · rcases vnE_fv_bn a y h with h2 | h2
      · exact Or.inl (Or.inl h2)
      · exact Or.inr (Or.inl h2)
    · rcases vnE_fv_bn b y h with h2 | h2
      · exact Or.inl (Or.inr h2)
      · exact Or.inr (Or.inr h2)
  | .Mul a b, y, h => by
    simp only [vnE, fvE, bnE, List.mem_append] at h ⊢
    rcases h with h | h
    · rcases vnE_fv_bn a y h with h2 | h2
      · exact Or.inl (Or.inl h2)
      · exact Or.inr (Or.inl h2)
    · rcases vnE_fv_bn b y h with h2 | h2
      · exact Or.inl (Or.inr h2)
      · exact Or.inr (Or.inr h2)
  | .MinE a b, y, h => by
    simp only [vnE, fvE, bnE, List.mem_append] at h ⊢
    rcases h with h | h
    · rcases vnE_fv_bn a y h with h2 | h2
      · exact Or.inl (Or.inl h2)
      · exact Or.inr (Or.inl h2)
    · rcases vnE_fv_bn b y h with h2 | h2
      · exact Or.inl (Or.inr h2)
      · exact Or.inr (Or.inr h2)
  | .MaxE a b, y, h => by
    simp only [vnE, fvE, bnE, List.mem_append] at h ⊢
    rcases h with h | h
    · rcases vnE_fv_bn a y h with h2 | h2
      · exact Or.inl (Or.inl h2)
      · exact Or.inr (Or.inl h2)
    · rcases vnE_fv_bn b y h with h2 | h2
      · exact Or.inl (Or.inr h2)
      · exact Or.inr (Or.inr h2)
  | .EQE a b, y, h => by
    simp only [vnE, fvE, bnE, List.mem_append] at h ⊢
    rcases h with h | h
    · rcases vnE_fv_bn a y h with h2 | h2
      · exact Or.inl (Or.inl h2)
      · exact Or.inr (Or.inl h2)
    · rcases vnE_fv_bn b y h with h2 | h2
      · exact Or.inl (Or.inr h2)
      · exact Or.inr (Or.inr h2)
  | .NEE a b, y, h => by
    simp only [vnE, fvE, bnE, List.mem_append] at h ⊢
    rcases h with h | h
    · rcases vnE_fv_bn a y h with h2 | h2
      · exact Or.inl (Or.inl h2)
      · exact Or.inr (Or.inl h2)
    · rcases vnE_fv_bn b y h with h2 | h2
      · exact Or.inl (Or.inr h2)
      · exact Or.inr (Or.inr h2)
  | .LTE a b, y, h => by
    simp only [vnE, fvE, bnE, List.mem_append] at h ⊢
    rcases h with h | h
    · rcases vnE_fv_bn a y h with h2 | h2
      · exact Or.inl (Or.inl h2)
      · exact Or.inr (Or.inl h2)
    · rcases vnE_fv_bn b y h with h2 | h2
      · exact Or.inl (Or.inr h2)
      · exact Or.inr (Or.inr h2)
  | .LEE a b, y, h => by
    simp only [vnE, fvE, bnE, List.mem_append] at h ⊢
    rcases h with h | h
    · rcases vnE_fv_bn a y h with h2 | h2
      · exact Or.inl (Or.inl h2)
      · exact Or.inr (Or.inl h2)
    · rcases vnE_fv_bn b y h with h2 | h2
      · exact Or.inl (Or.inr h2)
      · exact Or.inr (Or.inr h2)
  | .GTE a b, y, h => by
    simp only [vnE, fvE, bnE, List.mem_append] at h ⊢
    rcases h with h | h
    · rcases vnE_fv_bn a y h with h2 | h2
      · exact Or.inl (Or.inl h2)
      · exact Or.inr (Or.inl h2)
    · rcases vnE_fv_bn b y h with h2 | h2
      · exact Or.inl (Or.inr h2)
      · exact Or.inr (Or.inr h2)
  | .GEE a b, y, h => by
    simp only [vnE, fvE, bnE, List.mem_append] at h ⊢
    rcases h with h | h
    · rcases vnE_fv_bn a y h with h2 | h2
      · exact Or.inl (Or.inl h2)
      · exact Or.inr (Or.inl h2)
    · rcases vnE_fv_bn b y h with h2 | h2
      · exact Or.inl (Or.inr h2)
      · exact Or.inr (Or.inr h2)
  | .AndE a b, y, h => by
    simp only [vnE, fvE, bnE, List.mem_append] at h ⊢
    rcases h with h | h
    · rcases vnE_fv_bn a y h with h2 | h2
      · exact Or.inl (Or.inl h2)
      · exact Or.inr (Or.inl h2)
    · rcases vnE_fv_bn b y h with h2 | h2
      · exact Or.inl (Or.inr h2)
      · exact Or.inr (Or.inr h2)
  | .OrE a b, y, h => by
    simp only [vnE, fvE, bnE, List.mem_append] at h ⊢
    rcases h with h | h
    · rcases vnE_fv_bn a y h with h2 | h2
      · exact Or.inl (Or.inl h2)
      · exact Or.inr (Or.inl h2)
    · rcases vnE_fv_bn b y h with h2 | h2
      · exact Or.inl (Or.inr h2)
      · exact Or.inr (Or.inr h2)
  | .NotE a, y, h => vnE_fv_bn a y h
  | .LetE x v b, y, h => by
    simp only [vnE, fvE, bnE, List.mem_cons, List.mem_append, List.mem_filter] at h ⊢
    rcases h with h | h | h
    · exact Or.inr (Or.inl h)
    · rcases vnE_fv_bn v y h with h2 | h2
      · exact Or.inl (Or.inl h2)
      · exact Or.inr (Or.inr (Or.inl h2))
    · rcases vnE_fv_bn b y h with h2 | h2
      · by_cases hyx : y = x
        · exact Or.inr (Or.inl hyx)
        · exact Or.inl (Or.inr ⟨h2, by simpa using hyx⟩)
      · exact Or.inr (Or.inr (Or.inr h2))
  | .Load _ _ i, y, h => vnE_fv_bn i y h
  | .Call _ _ _ args, y, h => vnEL_fv_bn args y h
termination_by structural e => e

def vnEL_fv_bn : ∀ (l : ExprList) (y : String), y ∈ vnEL l → y ∈ fvEL l ∨ y ∈ bnEL l
  | .nil, _, h => Or.inl h
  | .cons e es, y, h => by
    simp only [vnEL, fvEL, bnEL, List.mem_append] at h ⊢
    rcases h with h | h
    · rcases vnE_fv_bn e y h with h2 | h2
      · exact Or.inl (Or.inl h2)
      · exact Or.inr (Or.inl h2)
    · rcases vnEL_fv_bn es y h with h2 | h2
      · exact Or.inl (Or.inr h2)
      · exact Or.inr (Or.inr h2)
termination_by structural l => l

end

theorem trimGo_For_one (E : Ext) (x : String) (mn ex : Expr) (ft : ForType)
    (da : DeviceAPI) (body : Stmt) (n : Nat)
    (h1 : isOne (trimCondition E (trimGo E body n).1) = true) :
    trimGo E (.For x mn ex ft da body) n
      = (.Evaluate (.IntImm 0), (trimGo E body n).2) := by
  simp only [trimGo]
  rw [if_pos h1]

theorem trimGo_For_zero (E : Ext) (x : String) (mn ex : Expr) (ft : ForType)
    (da : DeviceAPI) (body : Stmt) (n : Nat)
    (h1 : ¬isOne (trimCondition E (trimGo E body n).1) = true)
    (h2 : isZero (trimCondition E (trimGo E body n).1) = true) :
    trimGo E (.For x mn ex ft da body) n
      = (.For x mn ex ft da (trimGo E body n).1, (trimGo E body n).2) := by
  simp only [trimGo]
  rw [if_neg h1, if_pos h2]

theorem trimGo_For_every (E : Ext) (x : String) (mn ex : Expr) (ft : ForType)
    (da : DeviceAPI) (body : Stmt) (n : Nat)
    (h1 : ¬isOne (trimCondition E (trimGo E body n).1) = true)
    (h2 : ¬isZero (trimCondition E (trimGo E body n).1) = true)
    (h3 : intervalIsEverything (E.solveForOuterInterval
      (.NotE (trimCondition E (trimGo E body n).1)) x) = true) :
    trimGo E (.For x mn ex ft da body) n
      = (.For x mn ex ft da (trimGo E body n).1, (trimGo E body n).2) := by
  simp only [trimGo]
  rw [if_neg h1, if_neg h2, if_pos h3]

theorem trimGo_For_narrow (E : Ext) (x : String) (mn ex : Expr) (ft : ForType)
    (da : DeviceAPI) (body : Stmt) (n : Nat)
    (h1 : ¬isOne (trimCondition E (trimGo E body n).1) = true)
    (h2 : ¬isZero (trimCondition E (trimGo E body n).1) = true)
    (h3 : ¬intervalIsEverything (E.solveForOuterInterval
      (.NotE (trimCondition E (trimGo E body n).1)) x) = true) :
    trimGo E (.For x mn ex ft da body) n
      = (E.simplifyS (.LetStmt (E.uniqueName (x ++ ".old_max") ((trimGo E body n).2 + 2))
          (.Add mn ex)
          (.LetStmt (E.uniqueName (x ++ ".new_min") (trimGo E body n).2)
            (narrowNewMin mn
              (.Var i32 (E.uniqueName (x ++ ".old_max") ((trimGo E body n).2 + 2)))
              (E.solveForOuterInterval
                (.NotE (trimCondition E (trimGo E body n).1)) x).min)
            (.LetStmt (E.uniqueName (x ++ ".new_max") ((trimGo E body n).2 + 1))
              (narrowNewMax (.Add mn ex)
                (.Var i32 (E.uniqueName (x ++ ".new_min") (trimGo E body n).2))
                (.Var i32 (E.uniqueName (x ++ ".old_max") ((trimGo E body n).2 + 2)))
                ((E.solveForOuterInterval
                  (.NotE (trimCondition E (trimGo E body n).1)) x).max.map
                    (fun mx => .Add mx (.IntImm 1))))
              (.For x (.Var i32 (E.uniqueName (x ++ ".new_min") (trimGo E body n).2))
                (.Sub (.Var i32 (E.uniqueName (x ++ ".new_max") ((trimGo E body n).2 + 1)))
                  (.Var i32 (E.uniqueName (x ++ ".new_min") (trimGo E body n).2)))
                ft da
                (E.simplifyS (subS E
                  [(x, E.solveForOuterInterval
                    (.NotE (trimCondition E (trimGo E body n).1)) x)]
                  (trimGo E body n).1)))))),
        (trimGo E body n).2 + 3) := by
  simp only [trimGo]
  rw [if_neg h1, if_neg h2, if_neg h3]

/-- What the driver guarantees about the narrowing outcome, given the facts
about the already-rewritten body: well-formedness, absence of expression
binders, load-free control expressions, distinct binders that are not free,
and the containment of free/bound/all names in the input's names plus the
freshly generated ones. -/
theorem narrowPres (E : Ext) (hE : ExtOk E) (hT : TrimOk E)
    (x : String) (mn ex : Expr) (ft : ForType) (da : DeviceAPI)
    (body : Stmt) (n : Nat)
    (hwfF : WFS (.For x mn ex ft da body) = true)
    (hnbF : NoEB (.For x mn ex ft da body) = true)
    (hmfF : MFS (.For x mn ex ft da body) = true)
    (hndF : (bnS (.For x mn ex ft da body)).Nodup)
    (hbfF : ∀ y ∈ bnS (.For x mn ex ft da body), y ∉ fvS (.For x mn ex ft da body))
    (hfr : FreshFor E (.For x mn ex ft da body) n)
    (hnn1 : n ≤ (trimGo E body n).2)
    (hwf1 : WFS (trimGo E body n).1 = true)
    (hnb1 : NoEB (trimGo E body n).1 = true)
    (hmf1 : MFS (trimGo E body n).1 = true)
    (hnd1 : (bnS (trimGo E body n).1).Nodup)
    (hfv1 : ∀ y, y ∈ fvS (trimGo E body n).1 → y ∈ fvS body)
    (hbn1 : ∀ y, y ∈ bnS (trimGo E body n).1 → y ∈ bnS body ∨
      ∃ b k, n ≤ k ∧ k < (trimGo E body n).2 ∧ y = E.uniqueName b k)
    (hvn1 : ∀ y, y ∈ vnS (trimGo E body n).1 → y ∈ vnS body ∨
      ∃ b k, n ≤ k ∧ k < (trimGo E body n).2 ∧ y = E.uniqueName b k)
    (h1 : ¬isOne (trimCondition E (trimGo E body n).1) = true)
    (h2 : ¬isZero (trimCondition E (trimGo E body n).1) = true)
    (h3 : ¬intervalIsEverything (E.solveForOuterInterval
      (.NotE (trimCondition E (trimGo E body n).1)) x) = true) :
    WFS (trimGo E (.For x mn ex ft da body) n).1 = true ∧
    NoEB (trimGo E (.For x mn ex ft da body) n).1 = true ∧
    MFS (trimGo E (.For x mn ex ft da body) n).1 = true ∧
    (∀ y, y ∈ fvS (trimGo E (.For x mn ex ft da body) n).1 →
      y ∈ fvS (.For x mn ex ft da body)) ∧
    (∀ y, y ∈ bnS (trimGo E (.For x mn ex ft da body) n).1 →
      y ∈ bnS (.For x mn ex ft da body) ∨
      ∃ b k, n ≤ k ∧ k < (trimGo E (.For x mn ex ft da body) n).2 ∧
        y = E.uniqueName b k) ∧
    (∀ y, y ∈ vnS (trimGo E (.For x mn ex ft da body) n).1 →
      y ∈ vnS (.For x mn ex ft da body) ∨
      ∃ b k, n ≤ k ∧ k < (trimGo E (.For x mn ex ft da body) n).2 ∧
        y = E.uniqueName b k) ∧
    (bnS (trimGo E (.For x mn ex ft da body) n).1).Nodup ∧
    (∀ y ∈ bnS (trimGo E (.For x mn ex ft da body) n).1,
      y ∉ fvS (trimGo E (.For x mn ex ft da body) n).1) := by
  simp only [WFS, Bool.and_eq_true] at hwfF
  simp only [NoEB, Bool.and_eq_true] at hnbF
  simp only [MFS, Bool.and_eq_true] at hmfF
  rw [trimGo_For_narrow E x mn ex ft da body n h1 h2 h3]
  dsimp only
  set body1 := (trimGo E body n).1 with hbody1
  set n1 := (trimGo E body n).2 with hn1
  set c := trimCondition E body1 with hc
  set i := E.solveForOuterInterval (.NotE c) x with hi
  set oN := E.uniqueName (x ++ ".old_max") (n1 + 2) with hoN
  set nmN := E.uniqueName (x ++ ".new_min") n1 with hnmN
  set nxN := E.uniqueName (x ++ ".new_max") (n1 + 1) with hnxN
  set body2 := E.simplifyS (subS E [(x, i)] body1) with hbody2
  set newMin := narrowNewMin mn (.Var i32 oN) i.min with hnewMin
  set newMax := narrowNewMax (.Add mn ex) (.Var i32 nmN) (.Var i32 oN)
    (i.max.map (fun mx => .Add mx (.IntImm 1))) with hnewMax
  set forI := Stmt.For x (.Var i32 nmN) (.Sub (.Var i32 nxN) (.Var i32 nmN)) ft da body2
    with hforI
  set s3 := Stmt.LetStmt oN (.Add mn ex) (.LetStmt nmN newMin (.LetStmt nxN newMax forI))
    with hs3
  -- basic facts about the condition and the solved interval
  have hcPure : pureE c = true :=
    hE.simpE_pure _ (hE.simpE_pure _ (hE.cse_pure _
      (noOpS_pure E hE body1 constTrue hwf1 rfl)))
  have hNotPure : pureE (Expr.NotE c) = true := by
    simp only [pureE]
    exact hcPure
  have hivP : ivPure i = true := hE.solveI_pure _ x hNotPure
  have hivL : loadFreeI i = true := hT.solveI_lf _ x
  have hcFv : ∀ y, y ∈ fvE c → y ∈ fvS body1 := by
    intro y hy
    by_contra hq
    have habs := hE.simpE_fv _ y (hE.simpE_fv _ y (hE.cse_fv _ y
      (noOpS_fv E hE body1 constTrue y (usesVar_constTrue y) hq)))
    exact (usesVar_false_iff.mp habs) hy
  have hcVn : ∀ y, y ∈ vnE c → y ∈ vnS body1 := by
    intro y hy
    have h4 := hE.cse_vn _ y (hE.simpE_vn _ y (hE.simpE_vn _ y hy))
    rcases noOpS_vn E hE body1 constTrue y h4 with h5 | h5
    · simp [constTrue, vnE] at h5
    · exact h5
  have hBoundFv : ∀ b, (i.min = some b ∨ i.max = some b) →
      ∀ y ∈ fvE b, y ≠ x ∧ y ∈ fvS body1 := by
    intro b hb y hy
    have hiu : ivUses i y = true := by
      rcases hb with hb | hb
      · exact ivUses_of_min hb hy
      · exact ivUses_of_max hb hy
    by_cases hyx : y = x
    · exfalso
      rw [hyx] at hiu
      rw [hE.solveI_fv _ x x (Or.inl rfl)] at hiu
      exact absurd hiu (by decide)
    · refine ⟨hyx, ?_⟩
      by_cases hyc : usesVar (Expr.NotE c) y = false
      · rw [hE.solveI_fv _ x y (Or.inr hyc)] at hiu
        exact absurd hiu (by decide)
      · have hyt : usesVar (Expr.NotE c) y = true := by
          cases hq : usesVar (Expr.NotE c) y
          · exact absurd hq hyc
          · rfl
        exact hcFv y (usesVar_iff.mp hyt)
  have hBoundBn : ∀ b, (i.min = some b ∨ i.max = some b) → bnE b = [] :=
    fun b hb => hT.solveI_bn _ x b hb
  have hBoundVn : ∀ b, (i.min = some b ∨ i.max = some b) →
      ∀ y ∈ vnE b, y ∈ vnS body1 := by
    intro b hb y hy
    rcases vnE_fv_bn b y hy with h4 | h4
    · exact fvS_vnS body1 y (hBoundFv b hb y h4).2
    · rw [hBoundBn b hb] at h4
      simp at h4
  -- freshness-derived distinctness
  have hxvn : x ∈ vnS (Stmt.For x mn ex ft da body) := by simp [vnS]
  have hxF : x ∈ bnS (Stmt.For x mn ex ft da body) := by simp [bnS]
  have hxO : x ≠ oN := by
    intro he
    have hmem : oN ∈ vnS (Stmt.For x mn ex ft da body) := by
      rw [← he]
      exact hxvn
    rw [hoN] at hmem
    exact hfr _ _ (by omega) hmem
  have hxNm : x ≠ nmN := by
    intro he
    have hmem : nmN ∈ vnS (Stmt.For x mn ex ft da body) := by
      rw [← he]
      exact hxvn
    rw [hnmN] at hmem
    exact hfr _ _ (by omega) hmem
  have hxNx : x ≠ nxN := by
    intro he
    have hmem : nxN ∈ vnS (Stmt.For x mn ex ft da body) := by
      rw [← he]
      exact hxvn
    rw [hnxN] at hmem
    exact hfr _ _ (by omega) hmem
  have hONm : oN ≠ nmN := hE.un_inj _ _ _ _ (by omega)
  have hONx : oN ≠ nxN := hE.un_inj _ _ _ _ (by omega)
  have hNmNx : nmN ≠ nxN := hE.un_inj _ _ _ _ (by omega)
  -- binder-freeness of the emitted expressions
  have hmnB : bnE mn = [] := List.isEmpty_iff.mp hnbF.1.1
  have hexB : bnE ex = [] := List.isEmpty_iff.mp hnbF.1.2
  have hnewMinB : bnE newMin = [] := by
    rcases him : i.min with _ | mB
    · rw [hnewMin, him]
      simp [narrowNewMin, hmnB]
    · rw [hnewMin, him]
      simp [narrowNewMin, clampE, bnE, hmnB, hBoundBn mB (Or.inl him)]
  have hnewMaxB : bnE newMax = [] := by
    rcases him : i.max with _ | mB
    · rw [hnewMax, him]
      simp [narrowNewMax, bnE, hmnB, hexB]
    · rw [hnewMax, him]
      simp [narrowNewMax, clampE, bnE, hBoundBn mB (Or.inr him)]
  -- rewritten body facts
  have hwf2 : WFS body2 = true := hE.simpS_wf _ (subS_wf E _ body1 hwf1)
  have hnb2 : NoEB body2 = true := hT.simpS_noeb _ (subS_noeb E _ body1 hnb1)
  have hmf2 : MFS body2 = true := hT.simpS_mfs _ (subS_mfs E _ body1 hmf1)
  have hbn2sub : (bnS body2).Sublist (bnS body1) :=
    (hE.simpS_bn _).trans (subS_bn E _ body1)
  have hnd2 : (bnS body2).Nodup := hnd1.sublist hbn2sub
  have hfv2 : ∀ y, y ∈ fvS body2 → y ∈ fvS body1 :=
    fun y hy => subS_fvm E _ body1 y (hE.simpS_fv _ y hy)
  have hvn2 : ∀ y, y ∈ vnS body2 → y ∈ vnS body1 :=
    fun y hy => subS_vnm E _ body1 y (hE.simpS_vn _ y hy)
  have hbn2 : ∀ y, y ∈ bnS body2 → y ∈ bnS body1 :=
    fun y hy => hbn2sub.subset hy
  -- purity and load-freeness of the emitted bound expressions
  have hpMin : pureE newMin = true := by
    rcases him : i.min with _ | mB
    · rw [hnewMin, him]
      simp [narrowNewMin, hwfF.1.1]
    · rw [hnewMin, him]
      simp [narrowNewMin, clampE, pureE, hwfF.1.1, ivPure_min hivP him]
  have hpMax : pureE newMax = true := by
    rcases him : i.max with _ | mB
    · rw [hnewMax, him]
      simp [narrowNewMax, pureE, hwfF.1.1, hwfF.1.2]
    · rw [hnewMax, him]
      simp [narrowNewMax, clampE, pureE, ivPure_max hivP him]
  have hlfMin : loadFreeE newMin = true := by
    rcases him : i.min with _ | mB
    · rw [hnewMin, him]
      simp [narrowNewMin, hmfF.1.1]
    · rw [hnewMin, him]
      simp [narrowNewMin, clampE, loadFreeE, hmfF.1.1, loadFreeI_min hivL him]
  have hlfMax : loadFreeE newMax = true := by
    rcases him : i.max with _ | mB
    · rw [hnewMax, him]
      simp [narrowNewMax, loadFreeE, hmfF.1.1, hmfF.1.2]
    · rw [hnewMax, him]
      simp [narrowNewMax, clampE, loadFreeE, loadFreeI_max hivL him]
  -- the shape of the binder list of the generated statement
  have hshape : bnS s3 = oN :: nmN :: nxN :: x :: bnS body2 := by
    rw [hs3, hforI]
    simp [bnS, bnE, hmnB, hexB, hnewMinB, hnewMaxB]
  -- membership lifts into the input loop
  have hfvF_mn : ∀ y, y ∈ fvE mn → y ∈ fvS (Stmt.For x mn ex ft da body) := by
    intro y hy
    simp only [fvS, List.mem_append]
    exact Or.inl (Or.inl hy)
  have hfvF_ex : ∀ y, y ∈ fvE ex → y ∈ fvS (Stmt.For x mn ex ft da body) := by
    intro y hy
    simp only [fvS, List.mem_append]
    exact Or.inl (Or.inr hy)
  have hfvF_b : ∀ y, y ≠ x → y ∈ fvS body1 → y ∈ fvS (Stmt.For x mn ex ft da body) := by
    intro y hyx hy
    simp only [fvS, List.mem_append, List.mem_filter]
    exact Or.inr ⟨hfv1 y hy, by simp [hyx]⟩
  have hvnF_mn : ∀ y, y ∈ vnE mn → y ∈ vnS (Stmt.For x mn ex ft da body) := by
    intro y hy
    simp only [vnS, List.mem_cons, List.mem_append]
    exact Or.inr (Or.inl (Or.inl hy))
  have hvnF_ex : ∀ y, y ∈ vnE ex → y ∈ vnS (Stmt.For x mn ex ft da body) := by
    intro y hy
    simp only [vnS, List.mem_cons, List.mem_append]
    exact Or.inr (Or.inl (Or.inr hy))
  have hvnF_body : ∀ y, y ∈ vnS body → y ∈ vnS (Stmt.For x mn ex ft da body) := by
    intro y hy
    simp only [vnS, List.mem_cons, List.mem_append]
    exact Or.inr (Or.inr hy)
  have hbnF_body : ∀ y, y ∈ bnS body → y ∈ bnS (Stmt.For x mn ex ft da body) := by
    intro y hy
    simp only [bnS, List.mem_cons, List.mem_append]
    exact Or.inr (Or.inr hy)
  have hnotGen : ∀ (y : String), y ∈ vnS (Stmt.For x mn ex ft da body) →
      ∀ b k, n ≤ k → y ≠ E.uniqueName b k := by
    intro y hy b k hk he
    exact hfr b k hk (he ▸ hy)
  have hndBody : x ∉ bnS body ∧ (bnS body).Nodup := by
    have hnd0 : (x :: (bnE mn ++ bnE ex ++ bnS body)).Nodup := hndF
    rw [hmnB, hexB] at hnd0
    simp only [List.nil_append] at hnd0
    exact List.nodup_cons.mp hnd0
  have hB2classify : ∀ y, y ∈ bnS body2 → y ∈ bnS body ∨
      ∃ b k, n ≤ k ∧ k < n1 ∧ y = E.uniqueName b k :=
    fun y hy => hbn1 y (hbn2 y hy)
  have hONotB2 : oN ∉ bnS body2 := by
    intro q
    rcases hB2classify oN q with q2 | ⟨b, k, hk1, hk2, he⟩
    · exact hnotGen oN (bnS_vnS _ oN (hbnF_body oN q2)) (x ++ ".old_max") (n1 + 2)
        (by omega) hoN
    · exact hE.un_inj b (x ++ ".old_max") k (n1 + 2) (by omega) (he.symm.trans hoN)
  have hNmNotB2 : nmN ∉ bnS body2 := by
    intro q
    rcases hB2classify nmN q with q2 | ⟨b, k, hk1, hk2, he⟩
    · exact hnotGen nmN (bnS_vnS _ nmN (hbnF_body nmN q2)) (x ++ ".new_min") n1
        (by omega) hnmN
    · exact hE.un_inj b (x ++ ".new_min") k n1 (by omega) (he.symm.trans hnmN)
  have hNxNotB2 : nxN ∉ bnS body2 := by
    intro q
    rcases hB2classify nxN q with q2 | ⟨b, k, hk1, hk2, he⟩
    · exact hnotGen nxN (bnS_vnS _ nxN (hbnF_body nxN q2)) (x ++ ".new_max") (n1 + 1)
        (by omega) hnxN
    · exact hE.un_inj b (x ++ ".new_max") k (n1 + 1) (by omega) (he.symm.trans hnxN)
  have hXNotB2 : x ∉ bnS body2 := by
    intro q
    rcases hB2classify x q with q2 | ⟨b, k, hk1, hk2, he⟩
    · exact hndBody.1 q2
    · exact hnotGen x hxvn b k hk1 he
  -- the free variables of the emitted bound expressions
  have hfvMin : ∀ y, y ∈ fvE newMin → y = oN ∨ y ∈ fvE mn ∨ (y ≠ x ∧ y ∈ fvS body1) := by
    intro y hy
    rcases him : i.min with _ | mB
    · rw [hnewMin, him] at hy
      simp only [narrowNewMin] at hy
      exact Or.inr (Or.inl hy)
    · rw [hnewMin, him] at hy
      simp only [narrowNewMin, clampE, fvE, List.mem_append, List.mem_singleton] at hy
      rcases hy with (hy | hy) | hy
      · exact Or.inr (Or.inr (hBoundFv mB (Or.inl him) y hy))
      · exact Or.inl hy
      · exact Or.inr (Or.inl hy)
  have hfvMax : ∀ y, y ∈ fvE newMax →
      y = oN ∨ y = nmN ∨ y ∈ fvE mn ∨ y ∈ fvE ex ∨ (y ≠ x ∧ y ∈ fvS body1) := by
    intro y hy
    rcases him : i.max with _ | mB
    · rw [hnewMax, him] at hy
      simp only [narrowNewMax, Option.map_none, fvE, List.mem_append] at hy
      rcases hy with hy | hy
      · exact Or.inr (Or.inr (Or.inl hy))
      · exact Or.inr (Or.inr (Or.inr (Or.inl hy)))
    · rw [hnewMax, him] at hy
      simp only [narrowNewMax, Option.map_some, clampE, fvE, List.mem_append,
        List.mem_singleton, List.append_nil] at hy
      rcases hy with (hy | hy) | hy
      · exact Or.inr (Or.inr (Or.inr (Or.inr (hBoundFv mB (Or.inr him) y hy))))
      · exact Or.inl hy
      · exact Or.inr (Or.inl hy)
  have hvnMin : ∀ y, y ∈ vnE newMin → y = oN ∨ y ∈ vnE mn ∨ y ∈ vnS body1 := by
    intro y hy
    rcases him : i.min with _ | mB
    · rw [hnewMin, him] at hy
      simp only [narrowNewMin] at hy
      exact Or.inr (Or.inl hy)
    · rw [hnewMin, him] at hy
      simp only [narrowNewMin, clampE, vnE, List.mem_append, List.mem_singleton] at hy
      rcases hy with (hy | hy) | hy
      · exact Or.inr (Or.inr (hBoundVn mB (Or.inl him) y hy))
      · exact Or.inl hy
      · exact Or.inr (Or.inl hy)
  have hvnMax : ∀ y, y ∈ vnE newMax →
      y = oN ∨ y = nmN ∨ y ∈ vnE mn ∨ y ∈ vnE ex ∨ y ∈ vnS body1 := by
    intro y hy
    rcases him : i.max with _ | mB
    · rw [hnewMax, him] at hy
      simp only [narrowNewMax, Option.map_none, vnE, List.mem_append] at hy
      rcases hy with hy | hy
      · exact Or.inr (Or.inr (Or.inl hy))
      · exact Or.inr (Or.inr (Or.inr (Or.inl hy)))
    · rw [hnewMax, him] at hy
      simp only [narrowNewMax, Option.map_some, clampE, vnE, List.mem_append,
        List.mem_singleton, List.append_nil] at hy
      rcases hy with (hy | hy) | hy
      · exact Or.inr (Or.inr (Or.inr (Or.inr (hBoundVn mB (Or.inr him) y hy))))
      · exact Or.inl hy
      · exact Or.inr (Or.inl hy)
  -- the main free-variable containment
  have hfvMain : ∀ y, y ∈ fvS (E.simplifyS s3) → y ∈ fvS (Stmt.For x mn ex ft da body) := by
    intro y hy
    have hy3 : y ∈ fvS s3 := hE.simpS_fv _ y hy
    rw [hs3, hforI] at hy3
    simp only [fvS, fvE, List.mem_append, List.mem_filter, List.mem_singleton,
      bne_iff_ne, ne_eq, decide_eq_true_eq] at hy3
    rcases hy3 with (hy3 | hy3) | ⟨hy3, hyO⟩
    · exact hfvF_mn y hy3
    · exact hfvF_ex y hy3
    rcases hy3 with hy3 | ⟨hy3, hyNm⟩
    · rcases hfvMin y hy3 with h4 | h4 | ⟨h4, h5⟩
      · exact absurd h4 hyO
      · exact hfvF_mn y h4
      · exact hfvF_b y h4 h5
    rcases hy3 with hy3 | ⟨hy3, hyNx⟩
    · rcases hfvMax y hy3 with h4 | h4 | h4 | h4 | ⟨h4, h5⟩
      · exact absurd h4 hyO
      · exact absurd h4 hyNm
      · exact hfvF_mn y h4
      · exact hfvF_ex y h4
      · exact hfvF_b y h4 h5
    rcases hy3 with (hy3 | hy3 | hy3) | ⟨hy3, hyX⟩
    · exact absurd hy3 hyNm
    · exact absurd hy3 hyNx
    · exact absurd hy3 hyNm
    · exact hfvF_b y hyX (hfv2 y hy3)
  refine ⟨?_, ?_, ?_, ?_, ?_, ?_, ?_, ?_⟩
  · -- WFS
    refine hE.simpS_wf _ ?_
    rw [hs3, hforI]
    simp only [WFS, Bool.and_eq_true]
    exact ⟨by simp [pureE, hwfF.1.1, hwfF.1.2], hpMin, hpMax,
      ⟨by simp [pureE], by simp [pureE]⟩, hwf2⟩
  · -- NoEB
    refine hT.simpS_noeb _ ?_
    rw [hs3, hforI]
    simp only [NoEB, Bool.and_eq_true]
    exact ⟨by simp [bnE, hmnB, hexB], by simp [hnewMinB], by simp [hnewMaxB],
      ⟨by simp [bnE], by simp [bnE]⟩, hnb2⟩
  · -- MFS
    refine hT.simpS_mfs _ ?_
    rw [hs3, hforI]
    simp only [MFS, Bool.and_eq_true]
    exact ⟨by simp [loadFreeE, hmfF.1.1, hmfF.1.2], hlfMin, hlfMax,
      ⟨by simp [loadFreeE], by simp [loadFreeE]⟩, hmf2⟩
  · -- free variables are contained in the input loop
    exact hfvMain
  · -- binders are input binders or freshly generated
    intro y hy
    have hyS3 := (hE.simpS_bn _).subset hy
    rw [hshape] at hyS3
    rcases List.mem_cons.mp hyS3 with he | hyS3
    · exact Or.inr ⟨x ++ ".old_max", n1 + 2, by omega, by omega, he.trans hoN⟩
    rcases List.mem_cons.mp hyS3 with he | hyS3
    · exact Or.inr ⟨x ++ ".new_min", n1, by omega, by omega, he.trans hnmN⟩
    rcases List.mem_cons.mp hyS3 with he | hyS3
    · exact Or.inr ⟨x ++ ".new_max", n1 + 1, by omega, by omega, he.trans hnxN⟩
    rcases List.mem_cons.mp hyS3 with he | hyS3
    · exact Or.inl (he ▸ hxF)
    rcases hB2classify y hyS3 with h4 | ⟨b, k, hk1, hk2, he⟩
    · exact Or.inl (hbnF_body y h4)
    · exact Or.inr ⟨b, k, hk1, by omega, he⟩
  · -- all names are input names or freshly generated
    intro y hy
    have hy3 : y ∈ vnS s3 := hE.simpS_vn _ y hy
    rw [hs3, hforI] at hy3
    simp only [vnS, vnE, List.mem_cons, List.mem_append, List.mem_singleton] at hy3
    have hgenO : y = oN → y ∈ vnS (Stmt.For x mn ex ft da body) ∨
        ∃ b k, n ≤ k ∧ k < n1 + 3 ∧ y = E.uniqueName b k :=
      fun he => Or.inr ⟨x ++ ".old_max", n1 + 2, by omega, by omega, he.trans hoN⟩
    have hgenNm : y = nmN → y ∈ vnS (Stmt.For x mn ex ft da body) ∨
        ∃ b k, n ≤ k ∧ k < n1 + 3 ∧ y = E.uniqueName b k :=
      fun he => Or.inr ⟨x ++ ".new_min", n1, by omega, by omega, he.trans hnmN⟩
    have hgenNx : y = nxN → y ∈ vnS (Stmt.For x mn ex ft da body) ∨
        ∃ b k, n ≤ k ∧ k < n1 + 3 ∧ y = E.uniqueName b k :=
      fun he => Or.inr ⟨x ++ ".new_max", n1 + 1, by omega, by omega, he.trans hnxN⟩
    have hvnB1 : y ∈ vnS body1 → y ∈ vnS (Stmt.For x mn ex ft da body) ∨
        ∃ b k, n ≤ k ∧ k < n1 + 3 ∧ y = E.uniqueName b k := by
      intro h4
      rcases hvn1 y h4 with h5 | ⟨b, k, hk1, hk2, he⟩
      · exact Or.inl (hvnF_body y h5)
      · exact Or.inr ⟨b, k, hk1, by omega, he⟩
    rcases hy3 with he | hy3
    · exact hgenO he
    rcases hy3 with hy3 | hy3
    · rcases hy3 with hy3 | hy3
      · exact Or.inl (hvnF_mn y hy3)
      · exact Or.inl (hvnF_ex y hy3)
    rcases hy3 with he | hy3
    · exact hgenNm he
    rcases hy3 with hy3 | hy3
    · rcases hvnMin y hy3 with h4 | h4 | h4
      · exact hgenO h4
      · exact Or.inl (hvnF_mn y h4)
      · exact hvnB1 h4
    rcases hy3 with he | hy3
    · exact hgenNx he
    rcases hy3 with hy3 | hy3
    · rcases hvnMax y hy3 with h4 | h4 | h4 | h4 | h4
      · exact hgenO h4
      · exact hgenNm h4
      · exact Or.inl (hvnF_mn y h4)
      · exact Or.inl (hvnF_ex y h4)
      · exact hvnB1 h4
    rcases hy3 with he | hy3
    · exact Or.inl (he ▸ hxvn)
    rcases hy3 with hy3 | hy3
    · rcases hy3 with hy3 | hy3
      · rcases hy3 with hy3 | hy3
        · exact hgenNm hy3
        · simp at hy3
      · rcases hy3 with hy3 | hy3
        · rcases hy3 with hy3 | hy3
          · exact hgenNx hy3
          · simp at hy3
        · rcases hy3 with hy3 | hy3
          · exact hgenNm hy3
          · simp at hy3
    · exact hvnB1 (hvn2 y hy3)
  · -- the binders of the output are distinct
    refine List.Nodup.sublist (hE.simpS_bn _) ?_
    rw [hshape]
    refine List.nodup_cons.mpr ⟨?_, List.nodup_cons.mpr ⟨?_, List.nodup_cons.mpr
      ⟨?_, List.nodup_cons.mpr ⟨hXNotB2, hnd2⟩⟩⟩⟩
    · simp only [List.mem_cons, not_or]
      exact ⟨hONm, hONx, fun he => hxO he.symm, hONotB2⟩
    · simp only [List.mem_cons, not_or]
      exact ⟨hNmNx, fun he => hxNm he.symm, hNmNotB2⟩
    · simp only [List.mem_cons, not_or]
      exact ⟨fun he => hxNx he.symm, hNxNotB2⟩
  · -- no output binder occurs free in the output
    intro y hy q
    have hfvF : y ∈ fvS (Stmt.For x mn ex ft da body) := hfvMain y q
    have hyS3 := (hE.simpS_bn _).subset hy
    rw [hshape] at hyS3
    rcases List.mem_cons.mp hyS3 with he | hyS3
    · exact hnotGen y (fvS_vnS _ y hfvF) (x ++ ".old_max") (n1 + 2) (by omega)
        (he.trans hoN)
    rcases List.mem_cons.mp hyS3 with he | hyS3
    · exact hnotGen y (fvS_vnS _ y hfvF) (x ++ ".new_min") n1 (by omega)
        (he.trans hnmN)
    rcases List.mem_cons.mp hyS3 with he | hyS3
    · exact hnotGen y (fvS_vnS _ y hfvF) (x ++ ".new_max") (n1 + 1) (by omega)
        (he.trans hnxN)
    rcases List.mem_cons.mp hyS3 with he | hyS3
    · exact hbfF y (he ▸ hxF) hfvF
    rcases hB2classify y hyS3 with h4 | ⟨b, k, hk1, hk2, he⟩
    · exact hbfF y (hbnF_body y h4) hfvF
    · exact hnotGen y (fvS_vnS _ y hfvF) b k hk1 he

theorem disjoint_classified (E : Ext)
    (hinj : ∀ b1 b2 n1 n2, n1 ≠ n2 → E.uniqueName b1 n1 ≠ E.uniqueName b2 n2)
    {A B A2 B2 vn : List String} {n nm nq : Nat} (hnm : n ≤ nm)
    (hA2 : ∀ y ∈ A2, y ∈ A ∨ ∃ b k, n ≤ k ∧ k < nm ∧ y = E.uniqueName b k)
    (hB2 : ∀ y ∈ B2, y ∈ B ∨ ∃ b k, nm ≤ k ∧ k < nq ∧ y = E.uniqueName b k)
    (hAB : ∀ y ∈ A, y ∉ B)
    (hAvn : ∀ y ∈ A, y ∈ vn) (hBvn : ∀ y ∈ B, y ∈ vn)
    (hfr : ∀ b k, n ≤ k → E.uniqueName b k ∉ vn) :
    ∀ y ∈ A2, y ∉ B2 := by
  intro y hyA hyB
  rcases hA2 y hyA with hA1 | ⟨b, k, hk1, hk2, he⟩
  · rcases hB2 y hyB with hB1 | ⟨b2, k2, hk21, hk22, he2⟩
    · exact hAB y hA1 hB1
    · exact hfr b2 k2 (by omega) (he2 ▸ hAvn y hA1)
  · rcases hB2 y hyB with hB1 | ⟨b2, k2, hk21, hk22, he2⟩
    · exact hfr b k hk1 (he ▸ hBvn y hB1)
    · exact hinj b b2 k k2 (by omega) (he.symm.trans he2)

theorem trimPres (E : Ext) (hE : ExtOk E) (hT : TrimOk E) :
    ∀ (s : Stmt) (n : Nat), WFS s = true → NoEB s = true → MFS s = true →
    (bnS s).Nodup → (∀ y ∈ bnS s, y ∉ fvS s) → FreshFor E s n →
    WFS (trimGo E s n).1 = true ∧ NoEB (trimGo E s n).1 = true ∧
    MFS (trimGo E s n).1 = true ∧
    (∀ y, y ∈ fvS (trimGo E s n).1 → y ∈ fvS s) ∧
    (∀ y, y ∈ bnS (trimGo E s n).1 → y ∈ bnS s ∨
      ∃ b k, n ≤ k ∧ k < (trimGo E s n).2 ∧ y = E.uniqueName b k) ∧
    (∀ y, y ∈ vnS (trimGo E s n).1 → y ∈ vnS s ∨
      ∃ b k, n ≤ k ∧ k < (trimGo E s n).2 ∧ y = E.uniqueName b k) ∧
    (bnS (trimGo E s n).1).Nodup ∧
    (∀ y ∈ bnS (trimGo E s n).1, y ∉ fvS (trimGo E s n).1) := by
  intro s
  induction s with
  | Store nm v i =>
    intro n hwf hnb hmf hnd hbf _
    exact ⟨hwf, hnb, hmf, fun y hy => hy, fun y hy => Or.inl hy,
      fun y hy => Or.inl hy, hnd, hbf⟩
  | Evaluate e =>
    intro n hwf hnb hmf hnd hbf _
    exact ⟨hwf, hnb, hmf, fun y hy => hy, fun y hy => Or.inl hy,
      fun y hy => Or.inl hy, hnd, hbf⟩
  | For x mn ex ft da body ih =>
    intro n hwf hnb hmf hnd hbf hfr
    have hwf' : ((pureE mn = true ∧ pureE ex = true) ∧ WFS body = true) := by
      simpa only [WFS, Bool.and_eq_true] using hwf
    have hnb' := by simpa only [NoEB, Bool.and_eq_true] using hnb
    have hmf' := by simpa only [MFS, Bool.and_eq_true] using hmf
    have hmnB : bnE mn = [] := List.isEmpty_iff.mp hnb'.1.1
    have hexB : bnE ex = [] := List.isEmpty_iff.mp hnb'.1.2
    have hndParts : x ∉ bnS body ∧ (bnS body).Nodup := by
      have hnd0 : (x :: (bnE mn ++ bnE ex ++ bnS body)).Nodup := hnd
      rw [hmnB, hexB] at hnd0
      simp only [List.nil_append] at hnd0
      exact List.nodup_cons.mp hnd0
    have hxF : x ∈ bnS (Stmt.For x mn ex ft da body) := by simp [bnS]
    have hxvn : x ∈ vnS (Stmt.For x mn ex ft da body) := by simp [vnS]
    have hmemB : ∀ y, y ∈ bnS body → y ∈ bnS (Stmt.For x mn ex ft da body) := by
      intro y hy
      simp only [bnS, List.mem_cons, List.mem_append]
      exact Or.inr (Or.inr hy)
    have hbfB : ∀ y ∈ bnS body, y ∉ fvS body := by
      intro y hy q
      have hyx : y ≠ x := fun he => hndParts.1 (he ▸ hy)
      exact hbf y (hmemB y hy) (by
        simp only [fvS, List.mem_append, List.mem_filter]
        exact Or.inr ⟨q, by simp [hyx]⟩)
    have hfrB : FreshFor E body n := by
      intro b k hk hm
      exact hfr b k hk (by
        simp only [vnS, List.mem_cons, List.mem_append]
        exact Or.inr (Or.inr hm))
    obtain ⟨ihwf, ihnb, ihmf, ihfv, ihbn, ihvn, ihnd, ihbf⟩ :=
      ih n hwf'.2 hnb'.2 hmf'.2 hndParts.2 hbfB hfrB
    have hnotGen : ∀ (y : String), y ∈ vnS (Stmt.For x mn ex ft da body) →
        ∀ b k, n ≤ k → y ≠ E.uniqueName b k := by
      intro y hy b k hk he
      exact hfr b k hk (he ▸ hy)
    by_cases h1 : isOne (trimCondition E (trimGo E body n).1) = true
    · rw [trimGo_For_one E x mn ex ft da body n h1]
      dsimp only
      exact ⟨rfl, rfl, rfl, fun y hy => by simp [fvS, fvE] at hy,
        fun y hy => by simp [bnS, bnE] at hy, fun y hy => by simp [vnS, vnE] at hy,
        by simp [bnS, bnE], fun y hy => by simp [bnS, bnE] at hy⟩
    · have keep :
          WFS (Stmt.For x mn ex ft da (trimGo E body n).1) = true ∧
          NoEB (Stmt.For x mn ex ft da (trimGo E body n).1) = true ∧
          MFS (Stmt.For x mn ex ft da (trimGo E body n).1) = true ∧
          (∀ y, y ∈ fvS (Stmt.For x mn ex ft da (trimGo E body n).1) →
            y ∈ fvS (Stmt.For x mn ex ft da body)) ∧
          (∀ y, y ∈ bnS (Stmt.For x mn ex ft da (trimGo E body n).1) →
            y ∈ bnS (Stmt.For x mn ex ft da body) ∨
            ∃ b k, n ≤ k ∧ k < (trimGo E body n).2 ∧ y = E.uniqueName b k) ∧
          (∀ y, y ∈ vnS (Stmt.For x mn ex ft da (trimGo E body n).1) →
            y ∈ vnS (Stmt.For x mn ex ft da body) ∨
            ∃ b k, n ≤ k ∧ k < (trimGo E body n).2 ∧ y = E.uniqueName b k) ∧
          (bnS (Stmt.For x mn ex ft da (trimGo E body n).1)).Nodup ∧
          (∀ y ∈ bnS (Stmt.For x mn ex ft da (trimGo E body n).1),
            y ∉ fvS (Stmt.For x mn ex ft da (trimGo E body n).1)) := by
        have keepFV : ∀ y, y ∈ fvS (Stmt.For x mn ex ft da (trimGo E body n).1) →
            y ∈ fvS (Stmt.For x mn ex ft da body) := by
          intro y hy
          simp only [fvS, List.mem_append, List.mem_filter] at hy ⊢
          rcases hy with (hy | hy) | ⟨hy, hyx⟩
          · exact Or.inl (Or.inl hy)
          · exact Or.inl (Or.inr hy)
          · exact Or.inr ⟨ihfv y hy, hyx⟩
        have keepBN : ∀ y, y ∈ bnS (Stmt.For x mn ex ft da (trimGo E body n).1) →
            y ∈ bnS (Stmt.For x mn ex ft da body) ∨
            ∃ b k, n ≤ k ∧ k < (trimGo E body n).2 ∧ y = E.uniqueName b k := by
          intro y hy
          simp only [bnS, List.mem_cons, List.mem_append] at hy
          rcases hy with hy | (hy | hy) | hy
          · exact Or.inl (by simp [bnS, hy])
          · exact Or.inl (by
              simp only [bnS, List.mem_cons, List.mem_append]
              exact Or.inr (Or.inl (Or.inl hy)))
          · exact Or.inl (by
              simp only [bnS, List.mem_cons, List.mem_append]
              exact Or.inr (Or.inl (Or.inr hy)))
          · rcases ihbn y hy with h4 | h4
            · exact Or.inl (hmemB y h4)
            · exact Or.inr h4
        refine ⟨?_, ?_, ?_, keepFV, keepBN, ?_, ?_, ?_⟩
        · simp only [WFS, Bool.and_eq_true]
          exact ⟨⟨hwf'.1.1, hwf'.1.2⟩, ihwf⟩
        · simp only [NoEB, Bool.and_eq_true]
          exact ⟨⟨hnb'.1.1, hnb'.1.2⟩, ihnb⟩
        · simp only [MFS, Bool.and_eq_true]
          exact ⟨⟨hmf'.1.1, hmf'.1.2⟩, ihmf⟩
        · intro y hy
          simp only [vnS, List.mem_cons, List.mem_append] at hy
          rcases hy with hy | (hy | hy) | hy
          · exact Or.inl (by simp [vnS, hy])
          · exact Or.inl (by
              simp only [vnS, List.mem_cons, List.mem_append]
              exact Or.inr (Or.inl (Or.inl hy)))
          · exact Or.inl (by
              simp only [vnS, List.mem_cons, List.mem_append]
              exact Or.inr (Or.inl (Or.inr hy)))
          · rcases ihvn y hy with h4 | h4
            · exact Or.inl (by
                simp only [vnS, List.mem_cons, List.mem_append]
                exact Or.inr (Or.inr h4))
            · exact Or.inr h4
        · show (x :: (bnE mn ++ bnE ex ++ bnS (trimGo E body n).1)).Nodup
          rw [hmnB, hexB]
          simp only [List.nil_append]
          refine List.nodup_cons.mpr ⟨?_, ihnd⟩
          intro q
          rcases ihbn x q with h4 | ⟨b, k, hk1, hk2, he⟩
          · exact hndParts.1 h4
          · exact hnotGen x hxvn b k hk1 he
        · intro y hy q
          have hyF := keepFV y q
          simp only [bnS, List.mem_cons, List.mem_append] at hy
          rcases hy with hy | (hy | hy) | hy
          · exact hbf x hxF (hy ▸ hyF)
          · rw [hmnB] at hy
            simp at hy
          · rw [hexB] at hy
            simp at hy
          · rcases ihbn y hy with h4 | ⟨b, k, hk1, hk2, he⟩
            · exact hbf y (hmemB y h4) hyF
            · exact hnotGen y (fvS_vnS _ y hyF) b k hk1 he
      by_cases h2 : isZero (trimCondition E (trimGo E body n).1) = true
      · rw [trimGo_For_zero E x mn ex ft da body n h1 h2]
        dsimp only
        exact keep
      · by_cases h3 : intervalIsEverything (E.solveForOuterInterval
            (.NotE (trimCondition E (trimGo E body n).1)) x) = true
        · rw [trimGo_For_every E x mn ex ft da body n h1 h2 h3]
          dsimp only
          exact keep
        · exact narrowPres E hE hT x mn ex ft da body n hwf hnb hmf hnd hbf hfr
            (trimGo_mono E body n) ihwf ihnb ihmf ihnd ihfv ihbn ihvn h1 h2 h3
  | IfThen c t ih =>
    intro n hwf hnb hmf hnd hbf hfr
    have hwf' := by simpa only [WFS, Bool.and_eq_true] using hwf
    have hnb' := by simpa only [NoEB, Bool.and_eq_true] using hnb
    have hcB : bnE c = [] := List.isEmpty_iff.mp hnb'.1
    have hndT : (bnS t).Nodup := by
      have hnd0 : (bnE c ++ bnS t).Nodup := hnd
      rw [hcB] at hnd0
      simpa only [List.nil_append] using hnd0
    have hmemT : ∀ y, y ∈ bnS t → y ∈ bnS (Stmt.IfThen c t) := by
      intro y hy
      simp only [bnS, List.mem_append]
      exact Or.inr hy
    have hbfT : ∀ y ∈ bnS t, y ∉ fvS t := by
      intro y hy q
      exact hbf y (hmemT y hy) (by
        simp only [fvS, List.mem_append]
        exact Or.inr q)
    have hfrT : FreshFor E t n := by
      intro b k hk hm
      exact hfr b k hk (by
        simp only [vnS, List.mem_append]
        exact Or.inr hm)
    obtain ⟨ihwf, ihnb, ihmf, ihfv, ihbn, ihvn, ihnd, ihbf⟩ :=
      ih n hwf'.2 hnb'.2 hmf hndT hbfT hfrT
    simp only [trimGo]
    refine ⟨?_, ?_, ihmf, ?_, ?_, ?_, ?_, ?_⟩
    · simp only [WFS, Bool.and_eq_true]
      exact ⟨hwf'.1, ihwf⟩
    · simp only [NoEB, Bool.and_eq_true]
      exact ⟨hnb'.1, ihnb⟩
    · intro y hy
      simp only [fvS, List.mem_append] at hy ⊢
      rcases hy with hy | hy
      · exact Or.inl hy
      · exact Or.inr (ihfv y hy)
    · intro y hy
      simp only [bnS, List.mem_append] at hy
      rcases hy with hy | hy
      · exact Or.inl (by
          simp only [bnS, List.mem_append]
          exact Or.inl hy)
      · rcases ihbn y hy with h4 | h4
        · exact Or.inl (hmemT y h4)
        · exact Or.inr h4
    · intro y hy
      simp only [vnS, List.mem_append] at hy
      rcases hy with hy | hy
      · exact Or.inl (by
          simp only [vnS, List.mem_append]
          exact Or.inl hy)
      · rcases ihvn y hy with h4 | h4
        · exact Or.inl (by
            simp only [vnS, List.mem_append]
            exact Or.inr h4)
        · exact Or.inr h4
    · show (bnE c ++ bnS (trimGo E t n).1).Nodup
      rw [hcB]
      simpa only [List.nil_append] using ihnd
    · intro y hy q
      simp only [bnS, List.mem_append] at hy
      have hyF : y ∈ fvS (Stmt.IfThen c t) := by
        simp only [fvS, List.mem_append] at q ⊢
        rcases q with q | q
        · exact Or.inl q
        · exact Or.inr (ihfv y q)
      rcases hy with hy | hy
      · rw [hcB] at hy
        simp at hy
      · rcases ihbn y hy with h4 | ⟨b, k, hk1, hk2, he⟩
        · exact hbf y (hmemT y h4) hyF
        · exact hfr b k hk1 (he ▸ fvS_vnS _ y hyF)
  | LetStmt x v b ih =>
    intro n hwf hnb hmf hnd hbf hfr
    have hwf' := by simpa only [WFS, Bool.and_eq_true] using hwf
    have hnb' := by simpa only [NoEB, Bool.and_eq_true] using hnb
    have hmf' := by simpa only [MFS, Bool.and_eq_true] using hmf
    have hvB : bnE v = [] := List.isEmpty_iff.mp hnb'.1
    have hndParts : x ∉ bnS b ∧ (bnS b).Nodup := by
      have hnd0 : (x :: (bnE v ++ bnS b)).Nodup := hnd
      rw [hvB] at hnd0
      simp only [List.nil_append] at hnd0
      exact List.nodup_cons.mp hnd0
    have hxF : x ∈ bnS (Stmt.LetStmt x v b) := by simp [bnS]
    have hxvn : x ∈ vnS (Stmt.LetStmt x v b) := by simp [vnS]
    have hmemB : ∀ y, y ∈ bnS b → y ∈ bnS (Stmt.LetStmt x v b) := by
      intro y hy
      simp only [bnS, List.mem_cons, List.mem_append]
      exact Or.inr (Or.inr hy)
    have hbfB : ∀ y ∈ bnS b, y ∉ fvS b := by
      intro y hy q
      have hyx : y ≠ x := fun he => hndParts.1 (he ▸ hy)
      exact hbf y (hmemB y hy) (by
        simp only [fvS, List.mem_append, List.mem_filter]
        exact Or.inr ⟨q, by simp [hyx]⟩)
    have hfrB : FreshFor E b n := by
      intro b2 k hk hm
      exact hfr b2 k hk (by
        simp only [vnS, List.mem_cons, List.mem_append]
        exact Or.inr (Or.inr hm))
    obtain ⟨ihwf, ihnb, ihmf, ihfv, ihbn, ihvn, ihnd, ihbf⟩ :=
      ih n hwf'.2 hnb'.2 hmf'.2 hndParts.2 hbfB hfrB
    simp only [trimGo]
    have keepFV : ∀ y, y ∈ fvS (Stmt.LetStmt x v (trimGo E b n).1) →
        y ∈ fvS (Stmt.LetStmt x v b) := by
      intro y hy
      simp only [fvS, List.mem_append, List.mem_filter] at hy ⊢
      rcases hy with hy | ⟨hy, hyx⟩
      · exact Or.inl hy
      · exact Or.inr ⟨ihfv y hy, hyx⟩
    refine ⟨?_, ?_, ?_, keepFV, ?_, ?_, ?_, ?_⟩
    · simp only [WFS, Bool.and_eq_true]
      exact ⟨hwf'.1, ihwf⟩
    · simp only [NoEB, Bool.and_eq_true]
      exact ⟨hnb'.1, ihnb⟩
    · simp only [MFS, Bool.and_eq_true]
      exact ⟨hmf'.1, ihmf⟩
    · intro y hy
      simp only [bnS, List.mem_cons, List.mem_append] at hy
      rcases hy with hy | hy | hy
      · exact Or.inl (by simp [bnS, hy])
      · rw [hvB] at hy
        simp at hy
      · rcases ihbn y hy with h4 | h4
        · exact Or.inl (hmemB y h4)
        · exact Or.inr h4
    · intro y hy
      simp only [vnS, List.mem_cons, List.mem_append] at hy
      rcases hy with hy | hy | hy
      · exact Or.inl (by simp [vnS, hy])
      · exact Or.inl (by
          simp only [vnS, List.mem_cons, List.mem_append]
          exact Or.inr (Or.inl hy))
      · rcases ihvn y hy with h4 | h4
        · exact Or.inl (by
            simp only [vnS, List.mem_cons, List.mem_append]
            exact Or.inr (Or.inr h4))
        · exact Or.inr h4
    · show (x :: (bnE v ++ bnS (trimGo E b n).1)).Nodup
      rw [hvB]
      simp only [List.nil_append]
      refine List.nodup_cons.mpr ⟨?_, ihnd⟩
      intro q
      rcases ihbn x q with h4 | ⟨b2, k, hk1, hk2, he⟩
      · exact hndParts.1 h4
      · exact hfr b2 k hk1 (he ▸ hxvn)
    · intro y hy q
      have hyF := keepFV y q
      simp only [bnS, List.mem_cons, List.mem_append] at hy
      rcases hy with hy | hy | hy
      · exact hbf x hxF (hy ▸ hyF)
      · rw [hvB] at hy
        simp at hy
      · rcases ihbn y hy with h4 | ⟨b2, k, hk1, hk2, he⟩
        · exact hbf y (hmemB y h4) hyF
        · exact hfr b2 k hk1 (he ▸ fvS_vnS _ y hyF)
  | IfThenElse c t e iht ihe =>
    intro n hwf hnb hmf hnd hbf hfr
    have hwf' := by simpa only [WFS, Bool.and_eq_true] using hwf
    have hnb' := by simpa only [NoEB, Bool.and_eq_true] using hnb
    have hmf' := by simpa only [MFS, Bool.and_eq_true] using hmf
    have hcB : bnE c = [] := List.isEmpty_iff.mp hnb'.1.1
    have hnd0 : ((bnE c ++ bnS t) ++ bnS e).Nodup := by
      have := hnd
      exact this
    rw [hcB] at hnd0
    simp only [List.nil_append] at hnd0
    have hndTE := List.nodup_append.mp hnd0
    have hmemT : ∀ y, y ∈ bnS t → y ∈ bnS (Stmt.IfThenElse c t e) := by
      intro y hy
      simp only [bnS, List.mem_append]
      exact Or.inl (Or.inr hy)
    have hmemE : ∀ y, y ∈ bnS e → y ∈ bnS (Stmt.IfThenElse c t e) := by
      intro y hy
      simp only [bnS, List.mem_append]
      exact Or.inr hy
    have hbfT : ∀ y ∈ bnS t, y ∉ fvS t := by
      intro y hy q
      exact hbf y (hmemT y hy) (by
        simp only [fvS, List.mem_append]
        exact Or.inl (Or.inr q))
    have hbfE : ∀ y ∈ bnS e, y ∉ fvS e := by
      intro y hy q
      exact hbf y (hmemE y hy) (by
        simp only [fvS, List.mem_append]
        exact Or.inr q)
    have hfrT : FreshFor E t n := by
      intro b k hk hm
      exact hfr b k hk (by
        simp only [vnS, List.mem_append]
        exact Or.inl (Or.inr hm))
    have hmono := trimGo_mono E t n
    have hfrE : FreshFor E e (trimGo E t n).2 := by
      intro b k hk hm
      exact hfr b k (by omega) (by
        simp only [vnS, List.mem_append]
        exact Or.inr hm)
    obtain ⟨iwfT, inbT, imfT, ifvT, ibnT, ivnT, indT, ibfT⟩ :=
      iht n hwf'.1.2 hnb'.1.2 hmf'.1 hndTE.1 hbfT hfrT
    obtain ⟨iwfE, inbE, imfE, ifvE, ibnE, ivnE, indE, ibfE⟩ :=
      ihe (trimGo E t n).2 hwf'.2 hnb'.2 hmf'.2 hndTE.2.1 hbfE hfrE
    have hmono2 := trimGo_mono E e (trimGo E t n).2
    simp only [trimGo]
    have hvnT : ∀ y, y ∈ vnS t → y ∈ vnS (Stmt.IfThenElse c t e) := by
      intro y hy
      simp only [vnS, List.mem_append]
      exact Or.inl (Or.inr hy)
    have hvnE : ∀ y, y ∈ vnS e → y ∈ vnS (Stmt.IfThenElse c t e) := by
      intro y hy
      simp only [vnS, List.mem_append]
      exact Or.inr hy
    have hbnBoth : ∀ y, y ∈ bnS (trimGo E t n).1 ∨ y ∈ bnS (trimGo E e (trimGo E t n).2).1 →
        y ∈ bnS (Stmt.IfThenElse c t e) ∨
        ∃ b k, n ≤ k ∧ k < (trimGo E e (trimGo E t n).2).2 ∧ y = E.uniqueName b k := by
      intro y hy
      rcases hy with hy | hy
      · rcases ibnT y hy with h4 | ⟨b, k, hk1, hk2, he⟩
        · exact Or.inl (hmemT y h4)
        · exact Or.inr ⟨b, k, hk1, by omega, he⟩
      · rcases ibnE y hy with h4 | ⟨b, k, hk1, hk2, he⟩
        · exact Or.inl (hmemE y h4)
        · exact Or.inr ⟨b, k, by omega, hk2, he⟩
    have keepFV : ∀ y, y ∈ fvS (Stmt.IfThenElse c (trimGo E t n).1
        (trimGo E e (trimGo E t n).2).1) → y ∈ fvS (Stmt.IfThenElse c t e) := by
      intro y hy
      simp only [fvS, List.mem_append] at hy ⊢
      rcases hy with (hy | hy) | hy
      · exact Or.inl (Or.inl hy)
      · exact Or.inl (Or.inr (ifvT y hy))
      · exact Or.inr (ifvE y hy)
    refine ⟨?_, ?_, ?_, keepFV, ?_, ?_, ?_, ?_⟩
    · simp only [WFS, Bool.and_eq_true]
      exact ⟨⟨hwf'.1.1, iwfT⟩, iwfE⟩
    · simp only [NoEB, Bool.and_eq_true]
      exact ⟨⟨hnb'.1.1, inbT⟩, inbE⟩
    · simp only [MFS, Bool.and_eq_true]
      exact ⟨imfT, imfE⟩
    · intro y hy
      simp only [bnS, List.mem_append] at hy
      rcases hy with (hy | hy) | hy
      · exact Or.inl (by
          simp only [bnS, List.mem_append]
          exact Or.inl (Or.inl hy))
      · exact hbnBoth y (Or.inl hy)
      · exact hbnBoth y (Or.inr hy)
    · intro y hy
      simp only [vnS, List.mem_append] at hy
      rcases hy with (hy | hy) | hy
      · exact Or.inl (by
          simp only [vnS, List.mem_append]
          exact Or.inl (Or.inl hy))
      · rcases ivnT y hy with h4 | ⟨b, k, hk1, hk2, he⟩
        · exact Or.inl (hvnT y h4)
        · exact Or.inr ⟨b, k, hk1, by omega, he⟩
      · rcases ivnE y hy with h4 | ⟨b, k, hk1, hk2, he⟩
        · exact Or.inl (hvnE y h4)
        · exact Or.inr ⟨b, k, by omega, hk2, he⟩
    · show ((bnE c ++ bnS (trimGo E t n).1) ++ bnS (trimGo E e (trimGo E t n).2).1).Nodup
      rw [hcB]
      simp only [List.nil_append]
      refine List.nodup_append.mpr ⟨indT, indE, ?_⟩
      intro y hyT
      exact disjoint_classified E hE.un_inj hmono ibnT ibnE hndTE.2.2
        (fun y2 hy2 => bnS_vnS _ y2 (hmemT y2 hy2))
        (fun y2 hy2 => bnS_vnS _ y2 (hmemE y2 hy2))
        (fun b k hk hm => hfr b k hk hm) y hyT
    · intro y hy q
      have hyF := keepFV y q
      simp only [bnS, List.mem_append] at hy
      rcases hy with (hy | hy) | hy
      · rw [hcB] at hy
        simp at hy
      · rcases ibnT y hy with h4 | ⟨b, k, hk1, hk2, he⟩
        · exact hbf y (hmemT y h4) hyF
        · exact hfr b k hk1 (he ▸ fvS_vnS _ y hyF)
      · rcases ibnE y hy with h4 | ⟨b, k, hk1, hk2, he⟩
        · exact hbf y (hmemE y h4) hyF
        · exact hfr b k (by omega) (he ▸ fvS_vnS _ y hyF)
  | Block a b iha ihb =>
    intro n hwf hnb hmf hnd hbf hfr
    have hwf' := by simpa only [WFS, Bool.and_eq_true] using hwf
    have hnb' := by simpa only [NoEB, Bool.and_eq_true] using hnb
    have hmf' := by simpa only [MFS, Bool.and_eq_true] using hmf
    have hnd0 : (bnS a ++ bnS b).Nodup := hnd
    have hndTE := List.nodup_append.mp hnd0
    have hmemA : ∀ y, y ∈ bnS a → y ∈ bnS (Stmt.Block a b) := by
      intro y hy
      simp only [bnS, List.mem_append]
      exact Or.inl hy
    have hmemB : ∀ y, y ∈ bnS b → y ∈ bnS (Stmt.Block a b) := by
      intro y hy
      simp only [bnS, List.mem_append]
      exact Or.inr hy
    have hbfA : ∀ y ∈ bnS a, y ∉ fvS a := by
      intro y hy q
      exact hbf y (hmemA y hy) (by
        simp only [fvS, List.mem_append]
        exact Or.inl q)
    have hbfB : ∀ y ∈ bnS b, y ∉ fvS b := by
      intro y hy q
      exact hbf y (hmemB y hy) (by
        simp only [fvS, List.mem_append]
        exact Or.inr q)
    have hfrA : FreshFor E a n := by
      intro b2 k hk hm
      exact hfr b2 k hk (by
        simp only [vnS, List.mem_append]
        exact Or.inl hm)
    have hmono := trimGo_mono E a n
    have hfrB : FreshFor E b (trimGo E a n).2 := by
      intro b2 k hk hm
      exact hfr b2 k (by omega) (by
        simp only [vnS, List.mem_append]
        exact Or.inr hm)
    obtain ⟨iwfA, inbA, imfA, ifvA, ibnA, ivnA, indA, ibfA⟩ :=
      iha n hwf'.1 hnb'.1 hmf'.1 hndTE.1 hbfA hfrA
    obtain ⟨iwfB, inbB, imfB, ifvB, ibnB, ivnB, indB, ibfB⟩ :=
      ihb (trimGo E a n).2 hwf'.2 hnb'.2 hmf'.2 hndTE.2.1 hbfB hfrB
    have hmono2 := trimGo_mono E b (trimGo E a n).2
    simp only [trimGo]
    have keepFV : ∀ y, y ∈ fvS (Stmt.Block (trimGo E a n).1
        (trimGo E b (trimGo E a n).2).1) → y ∈ fvS (Stmt.Block a b) := by
      intro y hy
      simp only [fvS, List.mem_append] at hy ⊢
      rcases hy with hy | hy
      · exact Or.inl (ifvA y hy)
      · exact Or.inr (ifvB y hy)
    refine ⟨?_, ?_, ?_, keepFV, ?_, ?_, ?_, ?_⟩
    · simp only [WFS, Bool.and_eq_true]
      exact ⟨iwfA, iwfB⟩
    · simp only [NoEB, Bool.and_eq_true]
      exact ⟨inbA, inbB⟩
    · simp only [MFS, Bool.and_eq_true]
      exact ⟨imfA, imfB⟩
    · intro y hy
      simp only [bnS, List.mem_append] at hy
      rcases hy with hy | hy
      · rcases ibnA y hy with h4 | ⟨b2, k, hk1, hk2, he⟩
        · exact Or.inl (hmemA y h4)
        · exact Or.inr ⟨b2, k, hk1, by omega, he⟩
      · rcases ibnB y hy with h4 | ⟨b2, k, hk1, hk2, he⟩
        · exact Or.inl (hmemB y h4)
        · exact Or.inr ⟨b2, k, by omega, hk2, he⟩
    · intro y hy
      simp only [vnS, List.mem_append] at hy
      rcases hy with hy | hy
      · rcases ivnA y hy with h4 | ⟨b2, k, hk1, hk2, he⟩
        · exact Or.inl (by
            simp only [vnS, List.mem_append]
            exact Or.inl h4)
        · exact Or.inr ⟨b2, k, hk1, by omega, he⟩
      · rcases ivnB y hy with h4 | ⟨b2, k, hk1, hk2, he⟩
        · exact Or.inl (by
            simp only [vnS, List.mem_append]
            exact Or.inr h4)
        · exact Or.inr ⟨b2, k, by omega, hk2, he⟩
    · show (bnS (trimGo E a n).1 ++ bnS (trimGo E b (trimGo E a n).2).1).Nodup
      refine List.nodup_append.mpr ⟨indA, indB, ?_⟩
      intro y hyA
      exact disjoint_classified E hE.un_inj hmono ibnA ibnB hndTE.2.2
        (fun y2 hy2 => bnS_vnS _ y2 (hmemA y2 hy2))
        (fun y2 hy2 => bnS_vnS _ y2 (hmemB y2 hy2))
        (fun b2 k hk hm => hfr b2 k hk hm) y hyA
    · intro y hy q
      have hyF := keepFV y q
      simp only [bnS, List.mem_append] at hy
      rcases hy with hy | hy
      · rcases ibnA y hy with h4 | ⟨b2, k, hk1, hk2, he⟩
        · exact hbf y (hmemA y h4) hyF
        · exact hfr b2 k hk1 (he ▸ fvS_vnS _ y hyF)
      · rcases ibnB y hy with h4 | ⟨b2, k, hk1, hk2, he⟩
        · exact hbf y (hmemB y h4) hyF
        · exact hfr b2 k (by omega) (he ▸ fvS_vnS _ y hyF)

/-- Semantic soundness of the narrowing outcome: under the stability
contracts, the narrowed loop executes exactly like the original loop.  The
skipped head iterations run at the entry memory and are no-ops there; the
skipped tail iterations are no-ops at every memory because the solver
bounds are load-free; the kept middle iterations execute the rewritten
body, which agrees with the original body by the bounds-substitution
soundness and the induction hypothesis. -/
theorem narrowSound (E : Ext) (hE : ExtOk E) (hT : TrimOk E)
    (x : String) (mn ex : Expr) (ft : ForType) (da : DeviceAPI)
    (body : Stmt) (n : Nat)
    (hwfF : WFS (.For x mn ex ft da body) = true)
    (hnbF : NoEB (.For x mn ex ft da body) = true)
    (hmfF : MFS (.For x mn ex ft da body) = true)
    (hndF : (bnS (.For x mn ex ft da body)).Nodup)
    (hbfF : ∀ y ∈ bnS (.For x mn ex ft da body), y ∉ fvS (.For x mn ex ft da body))
    (hfr : FreshFor E (.For x mn ex ft da body) n)
    (hnn1 : n ≤ (trimGo E body n).2)
    (hwf1 : WFS (trimGo E body n).1 = true)
    (hnb1 : NoEB (trimGo E body n).1 = true)
    (hmf1 : MFS (trimGo E body n).1 = true)
    (hnd1 : (bnS (trimGo E body n).1).Nodup)
    (hbf1 : ∀ y ∈ bnS (trimGo E body n).1, y ∉ fvS (trimGo E body n).1)
    (hfv1 : ∀ y, y ∈ fvS (trimGo E body n).1 → y ∈ fvS body)
    (hbn1 : ∀ y, y ∈ bnS (trimGo E body n).1 → y ∈ bnS body ∨
      ∃ b k, n ≤ k ∧ k < (trimGo E body n).2 ∧ y = E.uniqueName b k)
    (ihExec : ∀ (ci : CallInterp) (r : Env) (m : Mem),
      exec ci r m (trimGo E body n).1 = exec ci r m body)
    (h1 : ¬isOne (trimCondition E (trimGo E body n).1) = true)
    (h2 : ¬isZero (trimCondition E (trimGo E body n).1) = true)
    (h3 : ¬intervalIsEverything (E.solveForOuterInterval
      (.NotE (trimCondition E (trimGo E body n).1)) x) = true) :
    ∀ (ci : CallInterp) (r : Env) (m : Mem),
    exec ci r m (trimGo E (.For x mn ex ft da body) n).1
      = exec ci r m (.For x mn ex ft da body) := by
  simp only [WFS, Bool.and_eq_true] at hwfF
  simp only [NoEB, Bool.and_eq_true] at hnbF
  simp only [MFS, Bool.and_eq_true] at hmfF
  intro ci r m
  rw [trimGo_For_narrow E x mn ex ft da body n h1 h2 h3]
  dsimp only
  set body1 := (trimGo E body n).1 with hbody1
  set n1 := (trimGo E body n).2 with hn1
  set c := trimCondition E body1 with hc
  set i := E.solveForOuterInterval (.NotE c) x with hi
  set oN := E.uniqueName (x ++ ".old_max") (n1 + 2) with hoN
  set nmN := E.uniqueName (x ++ ".new_min") n1 with hnmN
  set nxN := E.uniqueName (x ++ ".new_max") (n1 + 1) with hnxN
  set body2 := E.simplifyS (subS E [(x, i)] body1) with hbody2
  set newMin := narrowNewMin mn (.Var i32 oN) i.min with hnewMin
  set newMax := narrowNewMax (.Add mn ex) (.Var i32 nmN) (.Var i32 oN)
    (i.max.map (fun mx => .Add mx (.IntImm 1))) with hnewMax
  set forI := Stmt.For x (.Var i32 nmN) (.Sub (.Var i32 nxN) (.Var i32 nmN)) ft da body2
    with hforI
  set s3 := Stmt.LetStmt oN (.Add mn ex) (.LetStmt nmN newMin (.LetStmt nxN newMax forI))
    with hs3
  -- static facts about the condition and the solved interval
  have hcPure : pureE c = true :=
    hE.simpE_pure _ (hE.simpE_pure _ (hE.cse_pure _
      (noOpS_pure E hE body1 constTrue hwf1 rfl)))
  have hNotPure : pureE (Expr.NotE c) = true := by
    simp only [pureE]
    exact hcPure
  have hivP : ivPure i = true := hE.solveI_pure _ x hNotPure
  have hivL : loadFreeI i = true := hT.solveI_lf _ x
  have hcFv : ∀ y, y ∈ fvE c → y ∈ fvS body1 := by
    intro y hy
    by_contra hq
    have habs := hE.simpE_fv _ y (hE.simpE_fv _ y (hE.cse_fv _ y
      (noOpS_fv E hE body1 constTrue y (usesVar_constTrue y) hq)))
    exact (usesVar_false_iff.mp habs) hy
  have hBoundFv : ∀ b, (i.min = some b ∨ i.max = some b) →
      ∀ y ∈ fvE b, y ≠ x ∧ y ∈ fvS body1 := by
    intro b hb y hy
    have hiu : ivUses i y = true := by
      rcases hb with hb | hb
      · exact ivUses_of_min hb hy
      · exact ivUses_of_max hb hy
    by_cases hyx : y = x
    · exfalso
      rw [hyx] at hiu
      rw [hE.solveI_fv _ x x (Or.inl rfl)] at hiu
      exact absurd hiu (by decide)
    · refine ⟨hyx, ?_⟩
      by_cases hyc : usesVar (Expr.NotE c) y = false
      · rw [hE.solveI_fv _ x y (Or.inr hyc)] at hiu
        exact absurd hiu (by decide)
      · have hyt : usesVar (Expr.NotE c) y = true := by
          cases hq : usesVar (Expr.NotE c) y
          · exact absurd hq hyc
          · rfl
        have hyfv : y ∈ fvE (Expr.NotE c) := usesVar_iff.mp hyt
        simp only [fvE] at hyfv
        exact hcFv y hyfv
  -- freshness of the generated names with respect to the loop's expressions
  have hvnF_mn : ∀ y, y ∈ vnE mn → y ∈ vnS (Stmt.For x mn ex ft da body) := by
    intro y hy
    simp only [vnS, List.mem_cons, List.mem_append]
    exact Or.inr (Or.inl (Or.inl hy))
  have hvnF_ex : ∀ y, y ∈ vnE ex → y ∈ vnS (Stmt.For x mn ex ft da body) := by
    intro y hy
    simp only [vnS, List.mem_cons, List.mem_append]
    exact Or.inr (Or.inl (Or.inr hy))
  have hvnF_body : ∀ y, y ∈ vnS body → y ∈ vnS (Stmt.For x mn ex ft da body) := by
    intro y hy
    simp only [vnS, List.mem_cons, List.mem_append]
    exact Or.inr (Or.inr hy)
  have hxvn : x ∈ vnS (Stmt.For x mn ex ft da body) := by simp [vnS]
  have hONotFv1 : oN ∉ fvS body1 := by
    intro q
    have hmem : oN ∈ vnS (Stmt.For x mn ex ft da body) :=
      hvnF_body oN (fvS_vnS body oN (hfv1 oN q))
    rw [hoN] at hmem
    exact hfr _ _ (by omega) hmem
  have hNmNotFv1 : nmN ∉ fvS body1 := by
    intro q
    have hmem : nmN ∈ vnS (Stmt.For x mn ex ft da body) :=
      hvnF_body nmN (fvS_vnS body nmN (hfv1 nmN q))
    rw [hnmN] at hmem
    exact hfr _ _ (by omega) hmem
  have hNxNotFv1 : nxN ∉ fvS body1 := by
    intro q
    have hmem : nxN ∈ vnS (Stmt.For x mn ex ft da body) :=
      hvnF_body nxN (fvS_vnS body nxN (hfv1 nxN q))
    rw [hnxN] at hmem
    exact hfr _ _ (by omega) hmem
  have hOmn : oN ∉ fvE mn := by
    intro q
    have hmem : oN ∈ vnS (Stmt.For x mn ex ft da body) := hvnF_mn oN (fv_vn mn oN q)
    rw [hoN] at hmem
    exact hfr _ _ (by omega) hmem
  have hOex : oN ∉ fvE ex := by
    intro q
    have hmem : oN ∈ vnS (Stmt.For x mn ex ft da body) := hvnF_ex oN (fv_vn ex oN q)
    rw [hoN] at hmem
    exact hfr _ _ (by omega) hmem
  have hNmMn : nmN ∉ fvE mn := by
    intro q
    have hmem : nmN ∈ vnS (Stmt.For x mn ex ft da body) := hvnF_mn nmN (fv_vn mn nmN q)
    rw [hnmN] at hmem
    exact hfr _ _ (by omega) hmem
  have hNmEx : nmN ∉ fvE ex := by
    intro q
    have hmem : nmN ∈ vnS (Stmt.For x mn ex ft da body) := hvnF_ex nmN (fv_vn ex nmN q)
    rw [hnmN] at hmem
    exact hfr _ _ (by omega) hmem
  have hONm : oN ≠ nmN := hE.un_inj _ _ _ _ (by omega)
  have hNmNx : nmN ≠ nxN := hE.un_inj _ _ _ _ (by omega)
  have hndBody : x ∉ bnS body ∧ (bnS body).Nodup := by
    have hmnB : bnE mn = [] := List.isEmpty_iff.mp hnbF.1.1
    have hexB : bnE ex = [] := List.isEmpty_iff.mp hnbF.1.2
    have hnd0 : (x :: (bnE mn ++ bnE ex ++ bnS body)).Nodup := hndF
    rw [hmnB, hexB] at hnd0
    simp only [List.nil_append] at hnd0
    exact List.nodup_cons.mp hnd0
  -- purity of the emitted bound expressions
  have hpMin : pureE newMin = true := by
    rcases him : i.min with _ | mB
    · rw [hnewMin, him]
      simp [narrowNewMin, hwfF.1.1]
    · rw [hnewMin, him]
      simp [narrowNewMin, clampE, pureE, hwfF.1.1, ivPure_min hivP him]
  have hpMax : pureE newMax = true := by
    rcases him : i.max with _ | mB
    · rw [hnewMax, him]
      simp [narrowNewMax, pureE, hwfF.1.1, hwfF.1.2]
    · rw [hnewMax, him]
      simp [narrowNewMax, clampE, pureE, ivPure_max hivP him]
  have hwf2 : WFS body2 = true := hE.simpS_wf _ (subS_wf E _ body1 hwf1)
  have hwfS3 : WFS s3 = true := by
    rw [hs3, hforI]
    simp only [WFS, Bool.and_eq_true]
    exact ⟨by simp [pureE, hwfF.1.1, hwfF.1.2], hpMin, hpMax,
      ⟨by simp [pureE], by simp [pureE]⟩, hwf2⟩
  -- the condition computes the no-op predicate of the rewritten body
  have hceq : ∀ (m3 : Mem) (r3 : Env),
      eval ci m3 r3 c = eval ci m3 r3 (noOpS E body1 constTrue) := by
    intro m3 r3
    rw [hc]
    simp only [trimCondition]
    rw [hE.simpE_eval, hE.simpE_eval, hE.cse_eval]
    rfl
  -- unfold the driver's output down to its narrowed iteration
  rw [hE.simpS_exec ci r m s3 hwfS3]
  rw [hs3, hforI]
  simp only [exec, eval, events]
  set mnv := eval ci m r mn with hmnv
  set exv := eval ci m r ex with hexv
  set r0 := updEnv r oN (mnv + exv) with hr0
  set vMin := eval ci m r0 newMin with hvMinDef
  set r1 := updEnv r0 nmN vMin with hr1
  set vMax := eval ci m r1 newMax with hvMaxDef
  set r2 := updEnv r1 nxN vMax with hr2
  rw [events_pure mn ci m r hwfF.1.1, events_pure ex ci m r hwfF.1.2,
    events_pure newMin ci m r0 hpMin, events_pure newMax ci m r1 hpMax]
  have hr2nm : r2 nmN = vMin := by
    rw [hr2, hr1]
    simp [updEnv, hNmNx]
  have hr2nx : r2 nxN = vMax := by
    rw [hr2]
    simp [updEnv]
  rw [hr2nm, hr2nx]
  -- the values of the emitted bounds
  have hvMinChar : (i.min = none ∧ vMin = mnv) ∨
      ∃ mB, i.min = some mB ∧
        vMin = max (min (eval ci m r mB) (mnv + exv)) mnv := by
    rcases him : i.min with _ | mB
    · left
      refine ⟨rfl, ?_⟩
      rw [hvMinDef, hnewMin, him]
      simp only [narrowNewMin]
      rw [hmnv]
      exact evalCongr mn ci m r0 r (fun y hy => by
        rw [hr0]
        simp only [updEnv]
        rw [if_neg (fun he : y = oN => hOmn (he ▸ hy))])
    · right
      refine ⟨mB, rfl, ?_⟩
      rw [hvMinDef, hnewMin, him]
      simp only [narrowNewMin, clampE, eval]
      have e1 : eval ci m r0 mB = eval ci m r mB :=
        evalCongr mB ci m r0 r (fun y hy => by
          rw [hr0]
          simp only [updEnv]
          rw [if_neg (fun he : y = oN => hONotFv1 (he ▸ (hBoundFv mB (Or.inl him) y hy).2))])
      have e2 : r0 oN = mnv + exv := by
        rw [hr0]
        simp [updEnv]
      have e3 : eval ci m r0 mn = mnv := by
        rw [hmnv]
        exact evalCongr mn ci m r0 r (fun y hy => by
          rw [hr0]
          simp only [updEnv]
          rw [if_neg (fun he : y = oN => hOmn (he ▸ hy))])
      rw [e1, e2, e3]
  have hr1mn : eval ci m r1 mn = mnv := by
    rw [hmnv]
    exact evalCongr mn ci m r1 r (fun y hy => by
      rw [hr1, hr0]
      simp only [updEnv]
      rw [if_neg (fun he : y = nmN => hNmMn (he ▸ hy)), if_neg (fun he : y = oN => hOmn (he ▸ hy))])
  have hr1ex : eval ci m r1 ex = exv := by
    rw [hexv]
    exact evalCongr ex ci m r1 r (fun y hy => by
      rw [hr1, hr0]
      simp only [updEnv]
      rw [if_neg (fun he : y = nmN => hNmEx (he ▸ hy)), if_neg (fun he : y = oN => hOex (he ▸ hy))])
  have hvMaxChar : (i.max = none ∧ vMax = mnv + exv) ∨
      ∃ mB, i.max = some mB ∧
        vMax = max (min (eval ci m r mB + 1) (mnv + exv)) vMin := by
    rcases him : i.max with _ | mB
    · left
      refine ⟨rfl, ?_⟩
      rw [hvMaxDef, hnewMax, him]
      simp only [Option.map_none, narrowNewMax, eval]
      rw [hr1mn, hr1ex]
    · right
      refine ⟨mB, rfl, ?_⟩
      rw [hvMaxDef, hnewMax, him]
      simp only [Option.map_some, narrowNewMax, clampE, eval]
      have e1 : eval ci m r1 mB = eval ci m r mB :=
        evalCongr mB ci m r1 r (fun y hy => by
          rw [hr1, hr0]
          simp only [updEnv]
          rw [if_neg (fun he : y = nmN => hNmNotFv1 (he ▸ (hBoundFv mB (Or.inr him) y hy).2)),
            if_neg (fun he : y = oN => hONotFv1 (he ▸ (hBoundFv mB (Or.inr him) y hy).2))])
      have e2 : r1 oN = mnv + exv := by
        rw [hr1, hr0]
        simp only [updEnv]
        rw [if_neg hONm]
        simp
      have e3 : r1 nmN = vMin := by
        rw [hr1]
        simp [updEnv]
      rw [e1, e2, e3]
  -- executed iterations of the narrowed loop lie inside the solver bracket
  have hBrk : ∀ v : Int, vMin ≤ v → v < vMax →
      (∀ mB ∈ i.min, eval ci m r mB ≤ v) ∧ (∀ mB ∈ i.max, v ≤ eval ci m r mB) := by
    intro v hv1 hv2
    constructor
    · intro mB hb
      rw [Option.mem_def] at hb
      rcases hvMinChar with ⟨he, hvm⟩ | ⟨mB2, he, hvm⟩
      · rw [he] at hb
        exact absurd hb (by simp)
      · rw [he] at hb
        injection hb with hb2
        subst hb2
        rcases hvMaxChar with ⟨_, hvx⟩ | ⟨mB3, _, hvx⟩ <;> omega
    · intro mB hb
      rw [Option.mem_def] at hb
      rcases hvMaxChar with ⟨he, hvx⟩ | ⟨mB2, he, hvx⟩
      · rw [he] at hb
        exact absurd hb (by simp)
      · rw [he] at hb
        injection hb with hb2
        subst hb2
        omega
  -- the bounds evaluate identically at the iteration environments
  have hBenv : ∀ b, (i.min = some b ∨ i.max = some b) → ∀ (v : Int),
      ∀ y ∈ fvE b, updEnv r2 x v y = r y := by
    intro b hb v y hy
    have hyb := hBoundFv b hb y hy
    have hyO : y ≠ oN := fun he => hONotFv1 (he ▸ hyb.2)
    have hyNm : y ≠ nmN := fun he => hNmNotFv1 (he ▸ hyb.2)
    have hyNx : y ≠ nxN := fun he => hNxNotFv1 (he ▸ hyb.2)
    rw [hr2, hr1, hr0]
    simp only [updEnv]
    rw [if_neg hyb.1, if_neg hyNx, if_neg hyNm, if_neg hyO]
  -- the stack entry is valid at every kept iteration
  have hStack : ∀ (v : Int) (m2 : Mem), vMin ≤ v → v < vMax →
      StackOk ci m2 (updEnv r2 x v) [(x, i)] := by
    intro v m2 hv1 hv2 p hp
    simp only [List.mem_singleton] at hp
    subst hp
    have hxv : updEnv r2 x v x = v := by simp [updEnv]
    constructor
    · intro b hb
      have hbm : i.min = some b := Option.mem_def.mp hb
      have hev : eval ci m2 (updEnv r2 x v) b = eval ci m r b := by
        rw [eval_loadfree b ci m2 m (updEnv r2 x v) (loadFreeI_min hivL hbm)]
        exact evalCongr b ci m (updEnv r2 x v) r (hBenv b (Or.inl hbm) v)
      rw [hev, hxv]
      exact (hBrk v hv1 hv2).1 b hb
    · intro b hb
      have hbm : i.max = some b := Option.mem_def.mp hb
      have hev : eval ci m2 (updEnv r2 x v) b = eval ci m r b := by
        rw [eval_loadfree b ci m2 m (updEnv r2 x v) (loadFreeI_max hivL hbm)]
        exact evalCongr b ci m (updEnv r2 x v) r (hBenv b (Or.inr hbm) v)
      rw [hev, hxv]
      exact (hBrk v hv1 hv2).2 b hb
  have hlfStack : ∀ p ∈ [(x, i)], loadFreeI p.2 = true := by
    intro p hp
    simp only [List.mem_singleton] at hp
    subst hp
    exact hivL
  have hshStack : ∀ y ∈ bnS body1, ∀ p ∈ [(x, i)], y ≠ p.1 ∧ ivUses p.2 y = false := by
    intro y hy p hp
    simp only [List.mem_singleton] at hp
    subst hp
    constructor
    · intro he
      subst he
      rcases hbn1 y hy with h4 | ⟨b, k, hk1, hk2, he2⟩
      · exact hndBody.1 h4
      · exact hfr b k hk1 (he2 ▸ hxvn)
    · have hyn : usesVar (Expr.NotE c) y = false := by
        cases hq : usesVar (Expr.NotE c) y
        · rfl
        · have hyfv : y ∈ fvE (Expr.NotE c) := usesVar_iff.mp hq
          simp only [fvE] at hyfv
          exact absurd (hcFv y hyfv) (hbf1 y hy)
      rw [hi]
      exact hE.solveI_fv _ x y (Or.inr hyn)
  -- kept middle iterations run the original body
  have hMid : ∀ (j : Nat), j < (vMax - vMin).toNat → ∀ m2,
      exec ci (updEnv r2 x (vMin + (j : Int))) m2 body2
        = exec ci (updEnv r x (vMin + (j : Int))) m2 body := by
    intro j hj m2
    have hv1 : vMin ≤ vMin + (j : Int) := by omega
    have hv2 : vMin + (j : Int) < vMax := by omega
    rw [hbody2]
    rw [hE.simpS_exec ci (updEnv r2 x (vMin + (j : Int))) m2 (subS E [(x, i)] body1)
      (subS_wf E _ body1 hwf1)]
    rw [subS_exec E hE [(x, i)] body1 ci (updEnv r2 x (vMin + (j : Int))) m2
      hwf1 hnb1 hmf1 hnd1 hbf1 hlfStack hshStack (hStack _ m2 hv1 hv2)]
    have hag : ∀ y ∈ fvS body1,
        updEnv r2 x (vMin + (j : Int)) y = updEnv r x (vMin + (j : Int)) y := by
      intro y hy
      by_cases hyx : y = x
      · simp [updEnv, hyx]
      · have hyO : y ≠ oN := fun he => hONotFv1 (he ▸ hy)
        have hyNm : y ≠ nmN := fun he => hNmNotFv1 (he ▸ hy)
        have hyNx : y ≠ nxN := fun he => hNxNotFv1 (he ▸ hy)
        rw [hr2, hr1, hr0]
        simp only [updEnv]
        rw [if_neg hyx, if_neg hyNx, if_neg hyNm, if_neg hyO, if_neg hyx]
    rw [execCongr body1 ci m2 (updEnv r2 x (vMin + (j : Int)))
      (updEnv r x (vMin + (j : Int))) hag]
    exact ihExec ci (updEnv r x (vMin + (j : Int))) m2
  -- skipped head iterations are no-ops at the entry memory
  have hHead : ∀ (j : Nat), j < (vMin - mnv).toNat →
      exec ci (updEnv r x (mnv + (j : Int))) m body = (m, []) := by
    intro j hj
    have hv1 : mnv ≤ mnv + (j : Int) := by omega
    have hv2 : mnv + (j : Int) < vMin := by omega
    by_cases hc0 : eval ci m (updEnv r x (mnv + (j : Int))) c = 0
    · exfalso
      have hne : eval ci m (updEnv r x (mnv + (j : Int))) (Expr.NotE c) ≠ 0 := by
        simp [eval, hc0]
      have hbrk := hE.solveI_sound (.NotE c) x ci m r (mnv + (j : Int)) hne
      rw [← hi] at hbrk
      rcases hvMinChar with ⟨he, hvm⟩ | ⟨mB, he, hvm⟩
      · omega
      · have hble := hbrk.1 mB (Option.mem_def.mpr he)
        omega
    · have hcn : eval ci m (updEnv r x (mnv + (j : Int))) (noOpS E body1 constTrue) ≠ 0 := by
        rw [← hceq]
        exact hc0
      have hno := noOpSSound E hE body1 constTrue ci m (updEnv r x (mnv + (j : Int)))
        hwf1 hnd1 (fun y hy => ⟨usesVar_constTrue y, hbf1 y hy⟩) hcn
      rw [← ihExec ci (updEnv r x (mnv + (j : Int))) m]
      exact hno.2
  -- skipped tail iterations are no-ops at every memory
  have hTail : ∀ (m2 : Mem) (j : Nat), j < ((mnv + exv) - vMax).toNat →
      exec ci (updEnv r x (vMax + (j : Int))) m2 body = (m2, []) := by
    intro m2 j hj
    have hv1 : vMax ≤ vMax + (j : Int) := by omega
    have hv2 : vMax + (j : Int) < mnv + exv := by omega
    by_cases hc0 : eval ci m2 (updEnv r x (vMax + (j : Int))) c = 0
    · exfalso
      have hne : eval ci m2 (updEnv r x (vMax + (j : Int))) (Expr.NotE c) ≠ 0 := by
        simp [eval, hc0]
      have hbrk := hE.solveI_sound (.NotE c) x ci m2 r (vMax + (j : Int)) hne
      rw [← hi] at hbrk
      rcases hvMaxChar with ⟨he, hvx⟩ | ⟨mB, he, hvx⟩
      · omega
      · have hble := hbrk.2 mB (Option.mem_def.mpr he)
        rw [eval_loadfree mB ci m2 m r (loadFreeI_max hivL he)] at hble
        omega
    · have hcn : eval ci m2 (updEnv r x (vMax + (j : Int))) (noOpS E body1 constTrue) ≠ 0 := by
        rw [← hceq]
        exact hc0
      have hno := noOpSSound E hE body1 constTrue ci m2 (updEnv r x (vMax + (j : Int)))
        hwf1 hnd1 (fun y hy => ⟨usesVar_constTrue y, hbf1 y hy⟩) hcn
      rw [← ihExec ci (updEnv r x (vMax + (j : Int))) m2]
      exact hno.2
  -- the narrowed iteration equals the original iteration
  have hMain : iterFor (fun v m2 => exec ci (updEnv r2 x v) m2 body2)
        vMin (vMax - vMin).toNat m
      = iterFor (fun v m2 => exec ci (updEnv r x v) m2 body) mnv exv.toNat m := by
    have hMidEq : iterFor (fun v m2 => exec ci (updEnv r2 x v) m2 body2)
          vMin (vMax - vMin).toNat m
        = iterFor (fun v m2 => exec ci (updEnv r x v) m2 body)
            vMin (vMax - vMin).toNat m :=
      iterFor_congr_range _ _ _ hMid
    rw [hMidEq]
    by_cases hneg : exv < 0
    · have h0 : exv.toNat = 0 := by omega
      have h0' : (vMax - vMin).toNat = 0 := by
        rcases hvMinChar with ⟨_, hvm⟩ | ⟨mB, _, hvm⟩ <;>
          rcases hvMaxChar with ⟨_, hvx⟩ | ⟨mB2, _, hvx⟩ <;> omega
      rw [h0, h0']
      rfl
    · have hle1 : mnv ≤ vMin := by
        rcases hvMinChar with ⟨_, hvm⟩ | ⟨mB, _, hvm⟩ <;> omega
      have hle2 : vMin ≤ vMax := by
        rcases hvMinChar with ⟨_, hvm⟩ | ⟨mB, _, hvm⟩ <;>
          rcases hvMaxChar with ⟨_, hvx⟩ | ⟨mB2, _, hvx⟩ <;> omega
      have hle3 : vMax ≤ mnv + exv := by
        rcases hvMinChar with ⟨_, hvm⟩ | ⟨mB, _, hvm⟩ <;>
          rcases hvMaxChar with ⟨_, hvx⟩ | ⟨mB2, _, hvx⟩ <;> omega
      have hsplit : exv.toNat
          = (vMin - mnv).toNat + ((vMax - vMin).toNat + ((mnv + exv) - vMax).toNat) := by
        omega
      rw [hsplit, iterFor_split]
      have hHeadEq : iterFor (fun v m2 => exec ci (updEnv r x v) m2 body)
          mnv (vMin - mnv).toNat m = (m, []) :=
        iterFor_noop _ _ _ hHead
      rw [hHeadEq]
      have hmk1 : mnv + ((vMin - mnv).toNat : Int) = vMin := by omega
      rw [hmk1, iterFor_split]
      have hmk2 : vMin + ((vMax - vMin).toNat : Int) = vMax := by omega
      rw [hmk2]
      have hTailEq : ∀ m2, iterFor (fun v m2 => exec ci (updEnv r x v) m2 body)
          vMax ((mnv + exv) - vMax).toNat m2 = (m2, []) :=
        fun m2 => iterFor_noop _ _ _ (hTail m2)
      rw [hTailEq]
      simp
  rw [hMain]
  simp

end TNO
